import Mathlib

/-!
# Rate-limiting algorithms: a shallow embedding

The five limiters of the repository (`FixedWindowCounter`, `SlidingWindow`,
`SlidingWindowLog`, `LeakyBucket`, `TokenBucket`) and the `Deque` behind the
log are translated function by function.

Conventions of the embedding:

* every method that reads the clock takes the value returned by `time.Now()`
  as an explicit argument `now`;
* a `time.Time` is an integer number of nanoseconds since Go's zero time
  (January 1, year 1, 00:00:00 UTC), the origin `Time.Truncate` works from;
* Go's `int` and `int64` are integers with explicit wrap-around (`wrap64`);
* `float64` is modelled by `F64`: exact rationals rounded to nearest-even
  after every operation (no fused multiply-add, as the Go compiler emits on
  amd64), with the infinities and NaN;
* loggers are not modelled; calls are sequential, except in the two sections
  on concurrent callers of `Allow`, where the mutex and the position of every
  goroutine are part of the state;
* a Go run-time panic (index out of range, division by zero) is `none`;
* `make` delivers a slice of any length, except in the section on the request
  log with bounded memory, where the largest slice is a parameter.
-/

namespace RateLimit

/-! ## Machine integers -/

/-- Smallest value of Go's `int64` (and of `int` on 64-bit platforms). -/
def minInt64 : Int := -9223372036854775808

/-- Largest value of Go's `int64`. -/
def maxInt64 : Int := 9223372036854775807

/-- Two's-complement reduction of an integer into the `int64` range. -/
def wrap64 (x : Int) : Int := (x + 9223372036854775808) % 18446744073709551616 - 9223372036854775808

/-- Go's `a + b` on `int64`. -/
def add64 (a b : Int) : Int := wrap64 (a + b)

/-- Go's unary `-a` on `int64`. -/
def neg64 (a : Int) : Int := wrap64 (-a)

/-- Membership in the `int64` range. -/
def isInt64 (x : Int) : Prop := minInt64 ≤ x ∧ x ≤ maxInt64

instance (x : Int) : Decidable (isInt64 x) := by unfold isInt64; infer_instance

/-! ## Time -/

/-! A `time.Time` is an `Int`: nanoseconds since January 1, year 1, 00:00:00
UTC. A `time.Duration` is an `Int`: an `int64` count of nanoseconds. The
functions on them keep their Go names in the namespaces `Time` and
`Duration`. -/

/-- The constant `time.Second`. -/
def Second : Int := 1000000000

/-- Seconds from the zero time to the Unix epoch (`unixToInternal`). -/
def unixToInternal : Int := 62135596800

/-- The Unix epoch as a `Time`. -/
def unixEpoch : Int := unixToInternal * 1000000000

/-- `t.Truncate(d)`: `t` rounded down to a multiple of `d` since the zero
time; `t` itself when `d <= 0`. -/
def Time.Truncate (t : Int) (d : Int) : Int :=
  if d ≤ 0 then t else t - t % d

/-- `t.Unix()`: whole seconds since the Unix epoch. -/
def Time.Unix (t : Int) : Int := t / 1000000000 - unixToInternal

/-- `t.UnixNano()`: nanoseconds since the Unix epoch, computed in `int64`. -/
def Time.UnixNano (t : Int) : Int := wrap64 (t - unixEpoch)

/-- `time.Unix(0, nsec)`. -/
def timeUnixNano (nsec : Int) : Int := unixEpoch + nsec

/-- `time.Unix(sec, 0)`. -/
def timeUnixSec (sec : Int) : Int := (unixToInternal + sec) * 1000000000

/-- `t.Sub(u)`: the difference as a `Duration`, saturating at the `int64`
bounds. -/
def Time.Sub (t u : Int) : Int :=
  if t - u < minInt64 then minInt64 else if maxInt64 < t - u then maxInt64 else t - u

/-- `t.Add(d)`. -/
def Time.Add (t : Int) (d : Int) : Int := t + d

/-- `t.After(u)`. -/
def Time.After (t u : Int) : Bool := decide (u < t)

/-! ## Floating point -/

/-- Values of `float64`. The two zeros are identified (`fin 0`). -/
inductive F64 where
  | fin (q : ℚ)
  | pinf
  | ninf
  | nan
deriving DecidableEq

/-- Power of two with an integer exponent. -/
def pow2 (e : Int) : ℚ :=
  if 0 ≤ e then ((2 ^ e.toNat : Nat) : ℚ) else 1 / ((2 ^ (-e).toNat : Nat) : ℚ)

/-- Binary logarithm of a natural number by repeated halving, at most `fuel`
times. -/
def log2Fuel : Nat → Nat → Nat
  | 0, _ => 0
  | fuel + 1, n => if n < 2 then 0 else log2Fuel fuel (n / 2) + 1

/-- Binary logarithm of a natural number, rounded down (`0` at `0`). -/
def natLog2 (n : Nat) : Nat := log2Fuel n n

/-- Binary exponent of a non-zero rational: the `e` with
`2^e ≤ |q| < 2^(e+1)`. -/
def ilog2 (q : ℚ) : Int :=
  let e0 : Int := (natLog2 q.num.natAbs : Int) - (natLog2 q.den : Int)
  if pow2 e0 ≤ |q| then e0 else e0 - 1

/-- Rounding of a rational to the nearest integer, ties to even. -/
def roundEven (x : ℚ) : Int :=
  let f := Rat.floor x
  let r := x - (f : ℚ)
  if r < 1 / 2 then f
  else if 1 / 2 < r then f + 1
  else if f % 2 = 0 then f else f + 1

/-- Rounding of an exact result to `float64`: 53 significant bits, ties to
even, gradual underflow below `2^-1022`, overflow to an infinity. -/
def F64.round (q : ℚ) : F64 :=
  if q = 0 then F64.fin 0
  else
    let e := max (ilog2 q) (-1022)
    let u := pow2 (e - 52)
    let r := (roundEven (q / u) : ℚ) * u
    if pow2 1024 ≤ r then F64.pinf
    else if r ≤ -pow2 1024 then F64.ninf
    else F64.fin r

/-- The value `F64.round` arrives at before its overflow check: the argument
rounded to a multiple of the unit in the last place of its binade. -/
def F64.rawRound (q : ℚ) : ℚ :=
  let e := max (ilog2 q) (-1022)
  let u := pow2 (e - 52)
  (roundEven (q / u) : ℚ) * u

/-- The rationals that are finite `float64` values: `m * 2^c` with a
significand below `2^53` and an exponent not below `-1074`. -/
def F64.Representable (q : ℚ) : Prop :=
  ∃ m c : Int, |m| < 2 ^ 53 ∧ -1074 ≤ c ∧ q = (m : ℚ) * pow2 c ∧ |q| < pow2 1024

/-- Conversion `float64(k)` of an integer. -/
def F64.ofInt (k : Int) : F64 := F64.round (k : ℚ)

/-- Negation. -/
def F64.neg : F64 → F64
  | F64.fin a => F64.fin (-a)
  | F64.pinf => F64.ninf
  | F64.ninf => F64.pinf
  | F64.nan => F64.nan

/-- Addition `a + b`. -/
def F64.add : F64 → F64 → F64
  | F64.fin a, F64.fin b => F64.round (a + b)
  | F64.nan, _ => F64.nan
  | _, F64.nan => F64.nan
  | F64.pinf, F64.ninf => F64.nan
  | F64.ninf, F64.pinf => F64.nan
  | F64.pinf, _ => F64.pinf
  | _, F64.pinf => F64.pinf
  | F64.ninf, _ => F64.ninf
  | _, F64.ninf => F64.ninf

/-- Subtraction `a - b`. -/
def F64.sub (a b : F64) : F64 := F64.add a (F64.neg b)

/-- Multiplication `a * b`. -/
def F64.mul : F64 → F64 → F64
  | F64.fin a, F64.fin b => F64.round (a * b)
  | F64.nan, _ => F64.nan
  | _, F64.nan => F64.nan
  | F64.fin a, F64.pinf => if a = 0 then F64.nan else if 0 < a then F64.pinf else F64.ninf
  | F64.fin a, F64.ninf => if a = 0 then F64.nan else if 0 < a then F64.ninf else F64.pinf
  | F64.pinf, F64.fin b => if b = 0 then F64.nan else if 0 < b then F64.pinf else F64.ninf
  | F64.ninf, F64.fin b => if b = 0 then F64.nan else if 0 < b then F64.ninf else F64.pinf
  | F64.pinf, F64.pinf => F64.pinf
  | F64.ninf, F64.ninf => F64.pinf
  | F64.pinf, F64.ninf => F64.ninf
  | F64.ninf, F64.pinf => F64.ninf

/-- Division `a / b`; a zero divisor counts as `+0`. -/
def F64.div : F64 → F64 → F64
  | F64.fin a, F64.fin b =>
      if b = 0 then (if a = 0 then F64.nan else if 0 < a then F64.pinf else F64.ninf)
      else F64.round (a / b)
  | F64.nan, _ => F64.nan
  | _, F64.nan => F64.nan
  | F64.fin _, F64.pinf => F64.fin 0
  | F64.fin _, F64.ninf => F64.fin 0
  | F64.pinf, F64.fin b => if 0 ≤ b then F64.pinf else F64.ninf
  | F64.ninf, F64.fin b => if 0 ≤ b then F64.ninf else F64.pinf
  | _, _ => F64.nan

/-- Comparison `a <= b`; false when an operand is NaN. -/
def F64.le : F64 → F64 → Bool
  | F64.fin a, F64.fin b => decide (a ≤ b)
  | F64.nan, _ => false
  | _, F64.nan => false
  | F64.ninf, _ => true
  | _, F64.pinf => true
  | _, _ => false

/-- Comparison `a < b`; false when an operand is NaN. -/
def F64.lt : F64 → F64 → Bool
  | F64.fin a, F64.fin b => decide (a < b)
  | F64.nan, _ => false
  | _, F64.nan => false
  | F64.pinf, _ => false
  | _, F64.ninf => false
  | _, _ => true

/-- Comparison `a > b`. -/
def F64.gt (a b : F64) : Bool := F64.lt b a

/-- Comparison `a >= b`. -/
def F64.ge (a b : F64) : Bool := F64.le b a

/-- Conversion `int64(x)`: truncation toward zero; a value that does not fit
(and an infinity or NaN) gives the smallest `int64`, as on amd64. -/
def F64.toInt64 : F64 → Int
  | F64.fin q =>
      let t : Int := if 0 ≤ q then Rat.floor q else -Rat.floor (-q)
      if minInt64 ≤ t ∧ t ≤ maxInt64 then t else minInt64
  | _ => minInt64

/-- `d.Seconds()`: the duration as a floating-point number of seconds. -/
def Duration.Seconds (d : Int) : F64 :=
  F64.add (F64.ofInt (Int.tdiv d Second)) (F64.div (F64.ofInt (Int.tmod d Second)) (F64.fin 1000000000))

/-! ## FixedWindowCounter -/

/-- The fixed-window limiter (`logger` and `mu` are not part of the model). -/
structure FixedWindowCounter where
  WindowSize : Int
  MaxRequests : Int
  CurrentWindow : Int
  RequestCount : Int
  RequestsAllowed : Int
  RequestsDenied : Int
deriving DecidableEq

/-- `NewFixedWindowCounter(windowSize, maxRequests)` called at time `now`. -/
def NewFixedWindowCounter (now : Int) (windowSize : Int) (maxRequests : Int) :
    Except String FixedWindowCounter :=
  if windowSize ≤ 0 then Except.error "window size must be positive"
  else if maxRequests ≤ 0 then Except.error "max requests must be positive"
  else
    let windowStart := Time.Unix (Time.Truncate now windowSize)
    Except.ok
      { WindowSize := windowSize
        MaxRequests := maxRequests
        CurrentWindow := windowStart
        RequestCount := 0
        RequestsAllowed := 0
        RequestsDenied := 0 }

/-- The window-boundary check of `Allow` (source lines 50-59). -/
def FixedWindowCounter.rollover (fwc : FixedWindowCounter) (now : Int) : FixedWindowCounter :=
  let windowStart := Time.Unix (Time.Truncate now fwc.WindowSize)
  if windowStart ≠ fwc.CurrentWindow then
    { fwc with CurrentWindow := windowStart, RequestCount := 0 }
  else fwc

/-- `fwc.Allow(n)` called at time `now`: the new state and the result. -/
def FixedWindowCounter.Allow (fwc : FixedWindowCounter) (now : Int) (n : Int) :
    FixedWindowCounter × Bool :=
  if n ≤ 0 then (fwc, false)
  else
    let fwc1 := fwc.rollover now
    if add64 fwc1.RequestCount n ≤ fwc1.MaxRequests then
      ({ fwc1 with
          RequestCount := add64 fwc1.RequestCount n
          RequestsAllowed := add64 fwc1.RequestsAllowed n }, true)
    else
      ({ fwc1 with RequestsDenied := add64 fwc1.RequestsDenied n }, false)

/-- `fwc.Stats()`: current count, limit and start of the current window. -/
def FixedWindowCounter.Stats (fwc : FixedWindowCounter) : Int × Int × Int :=
  (fwc.RequestCount, fwc.MaxRequests, timeUnixSec fwc.CurrentWindow)

/-! ## SlidingWindow (sliding window counter) -/

/-- The sliding-window-counter limiter (`Log`, `logger` and `mu` are not part
of the model; `RequestCount` and `PrevCount` are never written). -/
structure SlidingWindow where
  windowSize : Int
  maxRequests : Int
  currentWindow : Int
  lastWindowRequests : Int
  currentWindowRequests : Int
  RequestCount : Int
  PrevCount : Int
  requestsAllowed : Int
  requestsDenied : Int
deriving DecidableEq

/-- `NewSlidingWindow(windowSize, maxRequests)` called at time `now`. -/
def NewSlidingWindow (now : Int) (windowSize : Int) (maxRequests : Int) :
    Except String SlidingWindow :=
  if windowSize ≤ 0 then Except.error "window size can't be negative"
  else if maxRequests ≤ 0 then Except.error "max requests can't be negative"
  else
    let truncated := Time.Truncate now windowSize
    let currentWindowNano := Time.UnixNano truncated
    Except.ok
      { windowSize := windowSize
        maxRequests := maxRequests
        currentWindow := currentWindowNano
        lastWindowRequests := 0
        currentWindowRequests := 0
        RequestCount := 0
        PrevCount := 0
        requestsAllowed := 0
        requestsDenied := 0 }

/-- The rollover step of `Allow` (source lines 57-69). -/
def SlidingWindow.rollover (sw : SlidingWindow) (now : Int) : SlidingWindow :=
  let currentWindowNano := Time.UnixNano (Time.Truncate now sw.windowSize)
  if currentWindowNano ≠ sw.currentWindow then
    { sw with
        lastWindowRequests := sw.currentWindowRequests
        currentWindowRequests := 0
        currentWindow := currentWindowNano }
  else sw

/-- The elapsed fraction `doneRatio` computed by `Allow` (source lines
70-78) from the start of the window that contains `now`. -/
def SlidingWindow.doneFraction (sw : SlidingWindow) (now : Int) : F64 :=
  let currentWindowNano := Time.UnixNano (Time.Truncate now sw.windowSize)
  let windowStart := timeUnixNano currentWindowNano
  let windowElapsed := Time.Sub now windowStart
  let windowElapsed := if windowElapsed < 0 then 0 else windowElapsed
  let done := F64.div (F64.ofInt windowElapsed) (F64.ofInt sw.windowSize)
  if F64.gt done (F64.fin 1) then F64.fin 1 else done

/-- The estimate `sliding` of `Allow` (source lines 80-81), on the state
after the rollover step. -/
def SlidingWindow.sliding (sw : SlidingWindow) (now : Int) : F64 :=
  let carryOver := F64.ofInt sw.lastWindowRequests
  F64.add (F64.ofInt sw.currentWindowRequests)
    (F64.mul (F64.sub (F64.fin 1) (sw.doneFraction now)) carryOver)

/-- `sw.Allow(n)` called at time `now`: the new state and the result. -/
def SlidingWindow.Allow (sw : SlidingWindow) (now : Int) (n : Int) : SlidingWindow × Bool :=
  if n ≤ 0 then (sw, false)
  else
    let sw1 := sw.rollover now
    let sliding := sw1.sliding now
    if F64.le (F64.add sliding (F64.ofInt n)) (F64.ofInt sw1.maxRequests) then
      ({ sw1 with
          currentWindowRequests := add64 sw1.currentWindowRequests n
          requestsAllowed := add64 sw1.requestsAllowed n }, true)
    else
      ({ sw1 with requestsDenied := add64 sw1.requestsDenied n }, false)

/-- `sw.DetailedStats()` called at time `now`: allowed, denied and the
current sliding count. -/
def SlidingWindow.DetailedStats (sw : SlidingWindow) (now : Int) : Int × Int × F64 :=
  let currentWindow := timeUnixNano sw.currentWindow
  let windowElapsed := Time.Sub now currentWindow
  let done := F64.div (F64.ofInt windowElapsed) (F64.ofInt sw.windowSize)
  let done := if F64.gt done (F64.fin 1) then F64.fin 1 else done
  let slidingCount := F64.add (F64.ofInt sw.currentWindowRequests)
    (F64.mul (F64.sub (F64.fin 1) done) (F64.ofInt sw.lastWindowRequests))
  (sw.requestsAllowed, sw.requestsDenied, slidingCount)

/-! ## Deque -/

/-- The circular buffer behind the request log. `front` and `size` are Go
`int`s that no operation makes negative. -/
structure Deque (α : Type) where
  items : List α
  front : Nat
  size : Nat
deriving DecidableEq

/-- `NewDeque[T]()`: a buffer of 16 zero values. -/
def NewDeque (α : Type) [Inhabited α] : Deque α :=
  { items := List.replicate 16 default, front := 0, size := 0 }

/-- The copying loop of `resize`: `k` iterations remain, `i` is the loop
index, `newItems` the new buffer. -/
def Deque.resizeLoop {α : Type} (d : Deque α) : Nat → Nat → List α → Option (List α)
  | 0, _, newItems => some newItems
  | k + 1, i, newItems =>
      if d.items.length = 0 then none
      else
        match d.items[(d.front + i) % d.items.length]? with
        | none => none
        | some x =>
            if i < newItems.length then d.resizeLoop k (i + 1) (newItems.set i x) else none

/-- `d.resize()`: the elements copied in order into a buffer twice as long. -/
def Deque.resize {α : Type} [Inhabited α] (d : Deque α) : Option (Deque α) :=
  let newCapacity := d.items.length * 2
  match d.resizeLoop d.size 0 (List.replicate newCapacity default) with
  | none => none
  | some newItems => some { d with items := newItems, front := 0 }

/-- `d.PushBack(item)`. -/
def Deque.PushBack {α : Type} [Inhabited α] (d : Deque α) (item : α) : Option (Deque α) :=
  match (if d.size = d.items.length then d.resize else some d) with
  | none => none
  | some d1 =>
      if d1.items.length = 0 then none
      else
        let back := (d1.front + d1.size) % d1.items.length
        if back < d1.items.length then
          some { d1 with items := d1.items.set back item, size := d1.size + 1 }
        else none

/-- `d.PopFront()`: the returned pair and the new deque. -/
def Deque.PopFront {α : Type} [Inhabited α] (d : Deque α) : Option ((α × Bool) × Deque α) :=
  if d.size = 0 then some ((default, false), d)
  else
    match d.items[d.front]? with
    | none => none
    | some item =>
        if d.items.length = 0 then none
        else
          some ((item, true),
            { items := d.items.set d.front default
              front := (d.front + 1) % d.items.length
              size := d.size - 1 })

/-- `d.PeekFront()`. -/
def Deque.PeekFront {α : Type} [Inhabited α] (d : Deque α) : Option (α × Bool) :=
  if d.size = 0 then some (default, false)
  else
    match d.items[d.front]? with
    | none => none
    | some item => some (item, true)

/-- `d.Size()`. -/
def Deque.Size {α : Type} (d : Deque α) : Nat := d.size

/-- `d.IsEmpty()`. -/
def Deque.IsEmpty {α : Type} (d : Deque α) : Bool := decide (d.size = 0)

/-- The sequence a deque stands for: the `size` elements read from `front`,
wrapping around the buffer. -/
def Deque.toList {α : Type} [Inhabited α] (d : Deque α) : List α :=
  (List.range d.size).map
    (fun i => (d.items[(d.front + i) % d.items.length]?).getD default)

/-- The representation invariant of a deque: a non-empty buffer, `front`
inside it and at most as many elements as it has cells. -/
def Deque.WF {α : Type} (d : Deque α) : Prop :=
  0 < d.items.length ∧ d.front < d.items.length ∧ d.size ≤ d.items.length

/-! ## SlidingWindowLog -/

/-- The sliding-window-log limiter (`logger` and `mu` are not part of the
model). -/
structure SlidingWindowLog where
  windowSize : Int
  maxRequests : Int
  requestLog : Deque Int
deriving DecidableEq

/-- `NewSlidingWindowLog(windowSize, maxRequests)`. -/
def NewSlidingWindowLog (windowSize : Int) (maxRequests : Int) :
    Except String SlidingWindowLog :=
  if windowSize ≤ 0 then Except.error "window size must be positive"
  else if maxRequests ≤ 0 then Except.error "max requests must be positive"
  else
    Except.ok
      { windowSize := windowSize
        maxRequests := maxRequests
        requestLog := NewDeque Int }

/-- The loop of `Allow` that removes expired requests from the front (source
lines 46-61); `none` when an operation panics or the fuel runs out. -/
def SlidingWindowLog.purge (windowStart : Int) : Nat → Deque Int → Option (Deque Int)
  | 0, _ => none
  | fuel + 1, d =>
      if d.IsEmpty then some d
      else
        match d.PeekFront with
        | none => none
        | some (frontTime, found) =>
            if !found then some d
            else if Time.After frontTime windowStart then some d
            else
              match d.PopFront with
              | none => none
              | some (_, d1) => SlidingWindowLog.purge windowStart fuel d1

/-- The loop `for range n { PushBack(now) }` of `Allow`. -/
def SlidingWindowLog.pushN (now : Int) : Nat → Deque Int → Option (Deque Int)
  | 0, d => some d
  | k + 1, d =>
      match d.PushBack now with
      | none => none
      | some d1 => SlidingWindowLog.pushN now k d1

/-- `sw.Allow(n)` called at time `now`: the new state and the result, or
`none` for a panic. The purge loop pops one entry per iteration, so
`size + 1` iterations are enough fuel. -/
def SlidingWindowLog.Allow (sw : SlidingWindowLog) (now : Int) (n : Int) :
    Option (SlidingWindowLog × Bool) :=
  if n ≤ 0 then some (sw, false)
  else
    let windowStart := Time.Add now (neg64 sw.windowSize)
    match SlidingWindowLog.purge windowStart (sw.requestLog.size + 1) sw.requestLog with
    | none => none
    | some d =>
        if add64 (d.Size : Int) n ≤ sw.maxRequests then
          match SlidingWindowLog.pushN now n.toNat d with
          | none => none
          | some d1 => some ({ sw with requestLog := d1 }, true)
        else some ({ sw with requestLog := d }, false)

/-! ## LeakyBucket -/

/-- The leaky-bucket limiter (`logger` and `mutex` are not part of the
model). -/
structure LeakyBucket where
  capacity : Int
  leakRate : F64
  queue : F64
  requestsDropped : Int
  requestsProcessed : Int
  lastLeakTime : Int
deriving DecidableEq

/-- `lb.leak()`. The method reads the clock twice: `now` is the reading
inside `time.Since`, `now2` the later reading stored in `lastLeakTime`. -/
def LeakyBucket.leak (lb : LeakyBucket) (now now2 : Int) : LeakyBucket :=
  let elapsed := Duration.Seconds (Time.Sub now lb.lastLeakTime)
  if F64.le elapsed (F64.fin 0) then lb
  else
    let leaked := F64.mul elapsed lb.leakRate
    let lb1 : LeakyBucket :=
      if F64.ge leaked lb.queue then
        { lb with
            requestsProcessed := add64 lb.requestsProcessed (F64.toInt64 lb.queue)
            queue := F64.fin 0 }
      else
        { lb with
            requestsProcessed := add64 lb.requestsProcessed (F64.toInt64 leaked)
            queue := F64.sub lb.queue leaked }
    { lb1 with lastLeakTime := now2 }

/-- `lb.Allow(n)` called with clock readings `now` and `now2`: the new state
and the result. -/
def LeakyBucket.Allow (lb : LeakyBucket) (now now2 : Int) (n : Int) : LeakyBucket × Bool :=
  if n ≤ 0 then (lb, false)
  else
    let lb1 := lb.leak now now2
    if F64.gt (F64.add lb1.queue (F64.ofInt n)) (F64.ofInt lb1.capacity) then
      ({ lb1 with requestsDropped := add64 lb1.requestsDropped n }, false)
    else
      ({ lb1 with queue := F64.add lb1.queue (F64.ofInt n) }, true)

/-- The `TimeUnit` constant `PerSecond`. A `TimeUnit` is a string. -/
def PerSecond : String := "second"

/-- The constant `PerMinute`. -/
def PerMinute : String := "minute"

/-- The constant `PerHour`. -/
def PerHour : String := "hour"

/-- `NewLeakyBucket(capacity, leakRate, unit)` called at time `now`. -/
def NewLeakyBucket (now : Int) (capacity : Int) (leakRate : F64) (unit : String) :
    Except String LeakyBucket :=
  if capacity ≤ 0 ∨ F64.le leakRate (F64.fin 0) = true then
    Except.error "capacity and leakRate must be positive"
  else
    let ratePerSecond : Option F64 :=
      if unit = PerSecond then some leakRate
      else if unit = PerMinute then some (F64.div leakRate (F64.fin 60))
      else if unit = PerHour then some (F64.div leakRate (F64.fin 3600))
      else none
    match ratePerSecond with
    | none => Except.error "invalid time unit"
    | some r =>
        Except.ok
          { capacity := capacity
            leakRate := r
            queue := F64.fin 0
            requestsDropped := 0
            requestsProcessed := 0
            lastLeakTime := now }

/-- `lb.getCurrentQueue()` called at time `now`: the queue level projected to
`now`, without a write. -/
def LeakyBucket.getCurrentQueue (lb : LeakyBucket) (now : Int) : F64 :=
  let elapsed := Duration.Seconds (Time.Sub now lb.lastLeakTime)
  let leaked := F64.mul elapsed lb.leakRate
  let currentQueue := F64.sub lb.queue leaked
  if F64.lt currentQueue (F64.fin 0) then F64.fin 0 else currentQueue

/-- `lb.QueueSize()` called at time `now`. -/
def LeakyBucket.QueueSize (lb : LeakyBucket) (now : Int) : F64 := lb.getCurrentQueue now

/-- `lb.Stats()` called at time `now`: processed, dropped and queue size. -/
def LeakyBucket.Stats (lb : LeakyBucket) (now : Int) : Int × Int × F64 :=
  (lb.requestsProcessed, lb.requestsDropped, lb.getCurrentQueue now)

/-- A sequence of `Allow` calls on a `LeakyBucket`, each given as
`(now, now2, n)` with the two clock readings of the call: the final state. -/
def LeakyBucket.run (lb : LeakyBucket) : List (Int × Int × Int) → LeakyBucket
  | [] => lb
  | c :: cs => LeakyBucket.run (lb.Allow c.1 c.2.1 c.2.2).1 cs

/-- The clock readings of a sequence of `Allow` calls never go back: each
call reads `now <= now2`, not before the reading `last` that precedes it. -/
def LeakyBucket.ordered (last : Int) : List (Int × Int × Int) → Bool
  | [] => true
  | c :: cs => decide (last ≤ c.1) && decide (c.1 ≤ c.2.1) && LeakyBucket.ordered c.2.1 cs

/-! ## TokenBucket -/

/-- The token-bucket limiter (`log` and `mu` are not part of the model). -/
structure TokenBucket where
  capacity : Int
  fillRate : F64
  tokens : F64
  lastTime : Int
  tokensProcessed : Int
  tokensRejected : Int
deriving DecidableEq

/-- The constant `maxRefillSeconds`. -/
def maxRefillSeconds : F64 := F64.fin 60

/-- `tb.refill()` called at time `now`. -/
def TokenBucket.refill (tb : TokenBucket) (now : Int) : TokenBucket :=
  let timeElapsed := Duration.Seconds (Time.Sub now tb.lastTime)
  let timeElapsed := if F64.gt timeElapsed maxRefillSeconds then maxRefillSeconds else timeElapsed
  let tokens := F64.add tb.tokens (F64.mul timeElapsed tb.fillRate)
  let tokens := if F64.gt tokens (F64.ofInt tb.capacity) then F64.ofInt tb.capacity else tokens
  { tb with tokens := tokens, lastTime := now }

/-- `tb.Allow(n)` called at time `now`: the new state and the result. -/
def TokenBucket.Allow (tb : TokenBucket) (now : Int) (n : Int) : TokenBucket × Bool :=
  if n ≤ 0 then (tb, false)
  else
    let tb1 := tb.refill now
    if F64.gt (F64.ofInt n) tb1.tokens then
      ({ tb1 with tokensRejected := add64 tb1.tokensRejected 1 }, false)
    else
      ({ tb1 with
          tokens := F64.sub tb1.tokens (F64.ofInt n)
          tokensProcessed := add64 tb1.tokensProcessed 1 }, true)

/-- `NewTokenBucket(capacity, tokens, fillRate)` called at time `now`. -/
def NewTokenBucket (now : Int) (capacity : Int) (tokens fillRate : F64) :
    Except String TokenBucket :=
  if F64.lt tokens (F64.fin 0) = true then Except.error "tokens cant be negative"
  else if F64.le fillRate (F64.fin 0) = true then Except.error "fillRate cant be negative"
  else
    let tokens := if F64.gt tokens (F64.ofInt capacity) then F64.ofInt capacity else tokens
    Except.ok
      { capacity := capacity
        fillRate := fillRate
        tokens := tokens
        lastTime := now
        tokensProcessed := 0
        tokensRejected := 0 }

/-- `tb.Update(newCapacity, newFillRate)`. -/
def TokenBucket.Update (tb : TokenBucket) (newCapacity : Int) (newFillRate : F64) : TokenBucket :=
  let tb1 : TokenBucket :=
    if 0 < newCapacity then
      { tb with
          capacity := newCapacity
          tokens :=
            if F64.gt tb.tokens (F64.ofInt newCapacity) then F64.ofInt newCapacity
            else tb.tokens }
    else tb
  if F64.gt newFillRate (F64.fin 0) then { tb1 with fillRate := newFillRate } else tb1

/-- One tick of `tb.WaitAllowContext(ctx, n)`, `n > 0`, at time `now` (the
body of the `ticker.C` case, source lines 156-165): the new state and whether
the wait ends with true. -/
def TokenBucket.waitTick (tb : TokenBucket) (now : Int) (n : Int) : TokenBucket × Bool :=
  let tb1 := tb.refill now
  if F64.le (F64.ofInt n) tb1.tokens then
    ({ tb1 with
        tokens := F64.sub tb1.tokens (F64.ofInt n)
        tokensProcessed := add64 tb1.tokensProcessed 1 }, true)
  else (tb1, false)

/-- `tb.Stats()`: processed and rejected. -/
def TokenBucket.Stats (tb : TokenBucket) : Int × Int := (tb.tokensProcessed, tb.tokensRejected)

/-- `tb.AvailableTokens()`. -/
def TokenBucket.AvailableTokens (tb : TokenBucket) : F64 := tb.tokens

/-- An operation on a token bucket: `Allow(n)` at a time, `Update`, or one
tick of `WaitAllowContext(ctx, n)` at a time. -/
inductive TokenBucket.Op where
  | allow (now n : Int)
  | update (newCapacity : Int) (newFillRate : F64)
  | tick (now n : Int)

/-- The state after one operation. -/
def TokenBucket.step (tb : TokenBucket) : TokenBucket.Op → TokenBucket
  | TokenBucket.Op.allow now n => (tb.Allow now n).1
  | TokenBucket.Op.update c r => tb.Update c r
  | TokenBucket.Op.tick now n => (tb.waitTick now n).1

/-- The state after a sequence of operations. -/
def TokenBucket.runOps (tb : TokenBucket) : List TokenBucket.Op → TokenBucket
  | [] => tb
  | o :: os => TokenBucket.runOps (tb.step o) os

/-- The clock readings of a sequence of token-bucket operations never go
back, starting from the reading `last`, and every tick belongs to a wait for
`n > 0` tokens (`WaitAllowContext` returns at once otherwise). -/
def TokenBucket.ordered (last : Int) : List TokenBucket.Op → Bool
  | [] => true
  | TokenBucket.Op.allow now _ :: os => decide (last ≤ now) && TokenBucket.ordered now os
  | TokenBucket.Op.update _ _ :: os => TokenBucket.ordered last os
  | TokenBucket.Op.tick now n :: os =>
      decide (last ≤ now) && decide (0 < n) && TokenBucket.ordered now os

/-- Every `Update` of the sequence has a capacity of at most `2^53` and a
fill rate other than `+Inf`. -/
def TokenBucket.plain : List TokenBucket.Op → Bool
  | [] => true
  | TokenBucket.Op.update c r :: os =>
      decide (c ≤ 2 ^ 53) && decide (r ≠ F64.pinf) && TokenBucket.plain os
  | _ :: os => TokenBucket.plain os

/-- The bounds of a token bucket: a positive capacity of at most `2^53`, a
finite positive fill rate and a finite level between 0 and the capacity. -/
def TokenBucket.Bounded (tb : TokenBucket) : Prop :=
  0 < tb.capacity ∧ tb.capacity ≤ 2 ^ 53 ∧ (∃ r : ℚ, tb.fillRate = F64.fin r ∧ 0 < r) ∧
    ∃ t : ℚ, tb.tokens = F64.fin t ∧ 0 ≤ t ∧ t ≤ (tb.capacity : ℚ)

/-- The bounds of a leaky bucket: a positive capacity of at most `2^53`, a
finite non-negative leak rate and a finite queue level between 0 and the
capacity. -/
def LeakyBucket.Bounded (lb : LeakyBucket) : Prop :=
  0 < lb.capacity ∧ lb.capacity ≤ 2 ^ 53 ∧ (∃ r : ℚ, lb.leakRate = F64.fin r ∧ 0 ≤ r) ∧
    ∃ q : ℚ, lb.queue = F64.fin q ∧ 0 ≤ q ∧ q ≤ (lb.capacity : ℚ)

/-! ## Reset, statistics and waiting hints -/

/-- `fwc.Reset()` called at time `now`. -/
def FixedWindowCounter.Reset (fwc : FixedWindowCounter) (now : Int) : FixedWindowCounter :=
  { fwc with
      CurrentWindow := Time.Unix (Time.Truncate now fwc.WindowSize)
      RequestCount := 0
      RequestsAllowed := 0
      RequestsDenied := 0 }

/-- `fwc.TimeUntilReset()` called at time `now`: `time.Until(windowEnd)`. -/
def FixedWindowCounter.TimeUntilReset (fwc : FixedWindowCounter) (now : Int) : Int :=
  let windowStart := timeUnixSec fwc.CurrentWindow
  let windowEnd := Time.Add windowStart fwc.WindowSize
  Time.Sub windowEnd now

/-- `sw.Reset()` called at time `now`. -/
def SlidingWindow.Reset (sw : SlidingWindow) (now : Int) : SlidingWindow :=
  { sw with
      currentWindow := Time.UnixNano (Time.Truncate now sw.windowSize)
      requestsDenied := 0
      requestsAllowed := 0
      currentWindowRequests := 0
      lastWindowRequests := 0 }

/-- `sw.Stats()` called at time `now`: the sliding estimate, the limit and
the start of the stored window. -/
def SlidingWindow.Stats (sw : SlidingWindow) (now : Int) : F64 × Int × Int :=
  let windowStart := timeUnixNano sw.currentWindow
  let windowElapsed := Time.Sub now windowStart
  let done := F64.div (F64.ofInt windowElapsed) (F64.ofInt sw.windowSize)
  let done := if F64.gt done (F64.fin 1) then F64.fin 1 else done
  let sliding := F64.add (F64.ofInt sw.currentWindowRequests)
    (F64.mul (F64.sub (F64.fin 1) done) (F64.ofInt sw.lastWindowRequests))
  (sliding, sw.maxRequests, windowStart)

/-- `sw.TimeUntilAllowed(n)` called at time `now`. -/
def SlidingWindow.TimeUntilAllowed (sw : SlidingWindow) (now : Int) (n : Int) : Int :=
  if n ≤ 0 then 0
  else
    let windowStart := timeUnixNano sw.currentWindow
    let elapsed := Time.Sub now windowStart
    if sw.windowSize ≤ elapsed then 0
    else
      let doneRatio := F64.div (F64.ofInt elapsed) (F64.ofInt sw.windowSize)
      let slidingCount := F64.add (F64.ofInt sw.currentWindowRequests)
        (F64.mul (F64.sub (F64.fin 1) doneRatio) (F64.ofInt sw.lastWindowRequests))
      if F64.le (F64.add slidingCount (F64.ofInt n)) (F64.ofInt sw.maxRequests) then 0
      else wrap64 (sw.windowSize - elapsed)

/-- `sw.Reset()` of the sliding-window log. -/
def SlidingWindowLog.Reset (sw : SlidingWindowLog) : SlidingWindowLog :=
  { sw with requestLog := NewDeque Int }

/-- `sw.Stats()` called at time `now`: the size of the log, the limit and
`now - windowSize`. -/
def SlidingWindowLog.Stats (sw : SlidingWindowLog) (now : Int) : Int × Int × Int :=
  let windowStart := Time.Add now (neg64 sw.windowSize)
  ((sw.requestLog.Size : Int), sw.maxRequests, windowStart)

/-- `sw.TimeUntilAllowed(n)` called at time `now`; `none` when `PeekFront`
panics. -/
def SlidingWindowLog.TimeUntilAllowed (sw : SlidingWindowLog) (now : Int) (n : Int) :
    Option Int :=
  if add64 (sw.requestLog.Size : Int) n ≤ sw.maxRequests then some 0
  else
    let requestsToRemove := wrap64 (add64 (sw.requestLog.Size : Int) n - sw.maxRequests)
    if (sw.requestLog.Size : Int) ≤ requestsToRemove then
      if sw.requestLog.IsEmpty then some 0
      else
        match sw.requestLog.PeekFront with
        | none => none
        | some r =>
            if r.2 = false then some 0
            else some (Time.Sub (Time.Add r.1 sw.windowSize) now)
    else some sw.windowSize

/-- `lb.ResetStats()`. -/
def LeakyBucket.ResetStats (lb : LeakyBucket) : LeakyBucket :=
  { lb with requestsProcessed := 0, requestsDropped := 0 }

/-- `lb.Capacity()`. -/
def LeakyBucket.Capacity (lb : LeakyBucket) : Int := lb.capacity

/-- `lb.LeakRate()`. -/
def LeakyBucket.LeakRate (lb : LeakyBucket) : F64 := lb.leakRate

/-- `lb.TimeUntilSpace(n)` called at time `now`. -/
def LeakyBucket.TimeUntilSpace (lb : LeakyBucket) (now : Int) (n : Int) : Int :=
  let currentQueue := lb.getCurrentQueue now
  if F64.le (F64.add currentQueue (F64.ofInt n)) (F64.ofInt lb.capacity) then 0
  else
    let spaceNeeded := F64.sub (F64.add currentQueue (F64.ofInt n)) (F64.ofInt lb.capacity)
    let secondsNeeded := F64.div spaceNeeded lb.leakRate
    F64.toInt64 (F64.mul secondsNeeded (F64.ofInt Second))

/-- `lb.TimeUntilAllowed(n)` called at time `now`. -/
def LeakyBucket.TimeUntilAllowed (lb : LeakyBucket) (now : Int) (n : Int) : Int :=
  if n ≤ 0 then 0 else lb.TimeUntilSpace now n

/-- The projected queue level in the words of the specification:
`max(0, queue - (now - lastLeakTime) * leakRate)`, in `float64`. -/
def LeakyBucket.specQueue (lb : LeakyBucket) (now : Int) : F64 :=
  let x := F64.sub lb.queue
    (F64.mul (Duration.Seconds (Time.Sub now lb.lastLeakTime)) lb.leakRate)
  if F64.lt x (F64.fin 0) then F64.fin 0 else x

/-- The waiting hint in the words of the specification: 0 for `n <= 0` and
when `q + n <= capacity`, otherwise `(q + n - capacity) / leakRate` seconds
truncated to whole nanoseconds, for a given queue level `q`. -/
def LeakyBucket.specTimeUntilAllowed (lb : LeakyBucket) (q : F64) (n : Int) : Int :=
  if n ≤ 0 then 0
  else if F64.le (F64.add q (F64.ofInt n)) (F64.ofInt lb.capacity) then 0
  else
    F64.toInt64 (F64.mul
      (F64.div (F64.sub (F64.add q (F64.ofInt n)) (F64.ofInt lb.capacity)) lb.leakRate)
      (F64.fin 1000000000))

/-! ## Call sequences and sample states -/

/-- A sequence of `Allow` calls on a `FixedWindowCounter`, each given as
`(now, n)`: the final state. -/
def FixedWindowCounter.run (fwc : FixedWindowCounter) : List (Int × Int) → FixedWindowCounter
  | [] => fwc
  | c :: cs => FixedWindowCounter.run (fwc.Allow c.1 c.2).1 cs

/-- The results of a sequence of `Allow` calls on a `FixedWindowCounter`. -/
def FixedWindowCounter.results (fwc : FixedWindowCounter) : List (Int × Int) → List Bool
  | [] => []
  | c :: cs => (fwc.Allow c.1 c.2).2 :: FixedWindowCounter.results (fwc.Allow c.1 c.2).1 cs

/-- The states met while the window of `t0` fills up: that window current
and `p` units counted. -/
def FixedWindowCounter.FilledTo (W M t0 p : Int) (s : FixedWindowCounter) : Prop :=
  s.WindowSize = W ∧ s.MaxRequests = M ∧
  s.CurrentWindow = Time.Unix (Time.Truncate t0 W) ∧ s.RequestCount = p

/-- A sequence of `Allow` calls on a `SlidingWindow`, each given as
`(now, n)`: the final state. -/
def SlidingWindow.run (sw : SlidingWindow) : List (Int × Int) → SlidingWindow
  | [] => sw
  | c :: cs => SlidingWindow.run (sw.Allow c.1 c.2).1 cs

/-- The results of a sequence of `Allow` calls on a `SlidingWindow`. -/
def SlidingWindow.results (sw : SlidingWindow) : List (Int × Int) → List Bool
  | [] => []
  | c :: cs => (sw.Allow c.1 c.2).2 :: SlidingWindow.results (sw.Allow c.1 c.2).1 cs

/-- Total of `n` over the calls of a sequence that return true. -/
def SlidingWindow.acceptedUnits (sw : SlidingWindow) : List (Int × Int) → Int
  | [] => 0
  | c :: cs =>
      (if (sw.Allow c.1 c.2).2 then c.2 else 0) +
        SlidingWindow.acceptedUnits (sw.Allow c.1 c.2).1 cs

/-- Total of `n` over the calls of a sequence that return false. -/
def SlidingWindow.rejectedUnits (sw : SlidingWindow) : List (Int × Int) → Int
  | [] => 0
  | c :: cs =>
      (if (sw.Allow c.1 c.2).2 then 0 else c.2) +
        SlidingWindow.rejectedUnits (sw.Allow c.1 c.2).1 cs

/-- The states met while the first window fills up at time `t0`: window of
`t0` current, nothing carried over, `p` units counted. -/
def SlidingWindow.FilledTo (W M t0 p : Int) (s : SlidingWindow) : Prop :=
  s.windowSize = W ∧ s.maxRequests = M ∧
  s.currentWindow = Time.UnixNano (Time.Truncate t0 W) ∧
  s.lastWindowRequests = 0 ∧ s.currentWindowRequests = p

/-- A sequence of `Allow` calls on a `SlidingWindowLog`, each given as
`(now, n)`: the final state, or `none` if a call panics. -/
def SlidingWindowLog.run (sw : SlidingWindowLog) : List (Int × Int) → Option SlidingWindowLog
  | [] => some sw
  | c :: cs =>
      match sw.Allow c.1 c.2 with
      | none => none
      | some r => SlidingWindowLog.run r.1 cs

/-- The results of a sequence of `Allow` calls on a `SlidingWindowLog`, or
`none` if a call panics. -/
def SlidingWindowLog.results (sw : SlidingWindowLog) : List (Int × Int) → Option (List Bool)
  | [] => some []
  | c :: cs =>
      match sw.Allow c.1 c.2 with
      | none => none
      | some r =>
          match SlidingWindowLog.results r.1 cs with
          | none => none
          | some bs => some (r.2 :: bs)

/-- Total of `n` over the calls of a sequence that return true and are made
at a time in the interval `(lo, hi]`; a panic ends the count. -/
def SlidingWindowLog.admittedIn (lo hi : Int) (sw : SlidingWindowLog) : List (Int × Int) → Int
  | [] => 0
  | c :: cs =>
      match sw.Allow c.1 c.2 with
      | none => 0
      | some r =>
          (if r.2 = true ∧ lo < c.1 ∧ c.1 ≤ hi then c.2 else 0) +
            SlidingWindowLog.admittedIn lo hi r.1 cs

/-- A sample clock reading: 2023-11-14 22:13:20.05 UTC. -/
def sampleNow : Int := (unixToInternal + 1700000000) * 1000000000 + 50000000

/-- The counter `NewFixedWindowCounter(5*time.Second, 3)` built at
`sampleNow`. -/
def sampleFixed : FixedWindowCounter :=
  { WindowSize := 5000000000, MaxRequests := 3, CurrentWindow := 1700000000,
    RequestCount := 0, RequestsAllowed := 0, RequestsDenied := 0 }

/-- The counter `NewFixedWindowCounter(100*time.Millisecond, 1)` built at
`sampleNow`. -/
def sampleFixedFast : FixedWindowCounter :=
  { WindowSize := 100000000, MaxRequests := 1, CurrentWindow := 1700000000,
    RequestCount := 0, RequestsAllowed := 0, RequestsDenied := 0 }

/-- The counter `NewFixedWindowCounter(2*time.Second, 1)` built at
`sampleNow`. -/
def sampleFixedTwo : FixedWindowCounter :=
  { WindowSize := 2000000000, MaxRequests := 1, CurrentWindow := 1700000000,
    RequestCount := 0, RequestsAllowed := 0, RequestsDenied := 0 }

/-- The limiter `NewSlidingWindow(100*time.Millisecond, 5)` built at
`sampleNow`. -/
def sampleSliding : SlidingWindow :=
  { windowSize := 100000000, maxRequests := 5, currentWindow := 1700000000000000000,
    lastWindowRequests := 0, currentWindowRequests := 0, RequestCount := 0, PrevCount := 0,
    requestsAllowed := 0, requestsDenied := 0 }

/-- The limiter `NewSlidingWindowLog(100*time.Millisecond, 3)`. -/
def sampleLog : SlidingWindowLog :=
  { windowSize := 100000000, maxRequests := 3, requestLog := NewDeque Int }

/-- A log of `NewSlidingWindowLog(100*time.Millisecond, 3)` that holds two
requests, made at `sampleNow` and 60 ms later. -/
def sampleLogTwo : SlidingWindowLog :=
  { windowSize := 100000000, maxRequests := 3,
    requestLog :=
      { items := [sampleNow, sampleNow + 60000000, 0, 0, 0, 0, 0, 0, 0, 0, 0, 0, 0, 0, 0, 0],
        front := 0, size := 2 } }

/-- A full deque whose contents wrap around the 16-cell buffer: it holds
3, 4, ..., 18 with the front at index 2. -/
def sampleDeque : Deque Int :=
  { items := [17, 18, 3, 4, 5, 6, 7, 8, 9, 10, 11, 12, 13, 14, 15, 16], front := 2, size := 16 }

/-- A leaky bucket of capacity 5 leaking one unit per second. -/
def sampleLeaky : LeakyBucket :=
  { capacity := 5, leakRate := F64.fin 1, queue := F64.fin 0, requestsDropped := 0,
    requestsProcessed := 0, lastLeakTime := sampleNow }

/-- The bucket `NewLeakyBucket(10, 0.9999999999999999, PerSecond)` built at
`sampleNow`; the rate is the `float64` just below one, `1 - 2^-53`. -/
def sampleLeakyBelowOne : LeakyBucket :=
  { capacity := 10, leakRate := F64.fin (9007199254740991 / 9007199254740992),
    queue := F64.fin 0, requestsDropped := 0, requestsProcessed := 0, lastLeakTime := sampleNow }

/-- The bucket `NewTokenBucket(100, 0, 1)` built at `sampleNow`: empty,
capacity 100, one token per second. -/
def sampleTokenEmpty : TokenBucket :=
  { capacity := 100, fillRate := F64.fin 1, tokens := F64.fin 0, lastTime := sampleNow,
    tokensProcessed := 0, tokensRejected := 0 }

/-- The bucket `NewTokenBucket(9007199254740995, 1e16, 1)` built at
`sampleNow`: the initial tokens are clamped to `float64(capacity)`, which is
`9007199254740996`. -/
def sampleTokenBig : TokenBucket :=
  { capacity := 9007199254740995, fillRate := F64.fin 1, tokens := F64.fin 9007199254740996,
    lastTime := sampleNow, tokensProcessed := 0, tokensRejected := 0 }

/-- The bucket `NewLeakyBucket(9007199254740995, 1, PerSecond)` built at
`sampleNow`. -/
def sampleLeakyBig : LeakyBucket :=
  { capacity := 9007199254740995, leakRate := F64.fin 1, queue := F64.fin 0,
    requestsDropped := 0, requestsProcessed := 0, lastLeakTime := sampleNow }

/-- The bucket `NewLeakyBucket(5, 2.9999999999999996, PerSecond)` built at
`sampleNow`; the rate is the `float64` just below three, `3 - 2^-51`. -/
def sampleLeakyBelowThree : LeakyBucket :=
  { capacity := 5, leakRate := F64.fin (6755399441055743 / 2251799813685248),
    queue := F64.fin 0, requestsDropped := 0, requestsProcessed := 0, lastLeakTime := sampleNow }

/-- A full leaky bucket of capacity 5 leaking one unit per second. -/
def sampleLeakyFull : LeakyBucket :=
  { capacity := 5, leakRate := F64.fin 1, queue := F64.fin 5, requestsDropped := 0,
    requestsProcessed := 0, lastLeakTime := sampleNow }

/-- What `NewTokenBucket(-5, 10, 1)` returns at `sampleNow`: a bucket with
a negative capacity and a negative token level. -/
def sampleTokenNegative : TokenBucket :=
  { capacity := -5, fillRate := F64.fin 1, tokens := F64.fin (-5), lastTime := sampleNow,
    tokensProcessed := 0, tokensRejected := 0 }

/-- A token bucket of capacity 10 filled with two tokens per second. -/
def sampleToken : TokenBucket :=
  { capacity := 10, fillRate := F64.fin 2, tokens := F64.fin 0, lastTime := sampleNow,
    tokensProcessed := 0, tokensRejected := 0 }


/-! ## Waiting for tokens -/

/-- `tb.TimeUntilSpace(n)` called at time `now`. -/
def TokenBucket.TimeUntilSpace (tb : TokenBucket) (now : Int) (n : Int) : Int :=
  let timeElapsed := Duration.Seconds (Time.Sub now tb.lastTime)
  let timeElapsed := if F64.gt timeElapsed maxRefillSeconds then maxRefillSeconds else timeElapsed
  let currentTokens := F64.add tb.tokens (F64.mul timeElapsed tb.fillRate)
  let currentTokens :=
    if F64.gt currentTokens (F64.ofInt tb.capacity) then F64.ofInt tb.capacity else currentTokens
  let missing := F64.sub (F64.ofInt n) currentTokens
  if F64.le missing (F64.fin 0) then 0
  else
    let seconds := F64.div missing tb.fillRate
    F64.toInt64 (F64.mul seconds (F64.ofInt Second))

/-- `tb.TimeUntilAllowed(n)` called at time `now`. -/
def TokenBucket.TimeUntilAllowed (tb : TokenBucket) (now : Int) (n : Int) : Int :=
  if n ≤ 0 then 0 else tb.TimeUntilSpace now n

/-- The minimum of two `float64` values as `math.Min` computes it: NaN when
an operand is NaN. -/
def F64.min (a b : F64) : F64 :=
  if a = F64.nan ∨ b = F64.nan then F64.nan else if F64.le a b then a else b

/-- The projected token level in the words of the specification:
`min(capacity, tokens + min(now - lastTime, 60 s) * fillRate)`, in
`float64`. -/
def TokenBucket.specLevel (tb : TokenBucket) (now : Int) : F64 :=
  F64.min (F64.ofInt tb.capacity)
    (F64.add tb.tokens
      (F64.mul (F64.min (Duration.Seconds (Time.Sub now tb.lastTime)) (F64.fin 60)) tb.fillRate))

/-- The waiting hint of the token bucket in the words of the specification:
0 for `n <= 0` and when `n <= p`, otherwise `(n - p) / fillRate` seconds
truncated to whole nanoseconds, for a given token level `p`. -/
def TokenBucket.specTimeUntilAllowed (tb : TokenBucket) (p : F64) (n : Int) : Int :=
  if n ≤ 0 then 0
  else if F64.le (F64.ofInt n) p then 0
  else
    F64.toInt64 (F64.mul (F64.div (F64.sub (F64.ofInt n) p) tb.fillRate)
      (F64.fin 1000000000))

/-- The loop of `tb.WaitAllowContext(ctx, n)` for `n > 0`. The list holds the
clock readings of the ticks that the `select` takes, in order, before it
takes `ctx.Done()`: the loop returns true at the first tick that finds the
tokens and false when the list is used up (the context is done). -/
def TokenBucket.waitLoop (n : Int) : TokenBucket → List Int → TokenBucket × Bool
  | tb, [] => (tb, false)
  | tb, t :: ts =>
      if (tb.waitTick t n).2 then tb.waitTick t n
      else TokenBucket.waitLoop n (tb.waitTick t n).1 ts

/-- `tb.WaitAllowContext(ctx, n)` with the ticks taken before `ctx.Done()`:
the new state and the result. -/
def TokenBucket.WaitAllowContext (tb : TokenBucket) (n : Int) (ticks : List Int) :
    TokenBucket × Bool :=
  if n ≤ 0 then (tb, false) else TokenBucket.waitLoop n tb ticks

/-- `tb.WaitAllow(n, timeout)` called at time `start` with the ticker firing
at the times `ticks`: the context is done at `start + timeout`, so the ticks
before that instant are taken. -/
def TokenBucket.WaitAllow (tb : TokenBucket) (n : Int) (timeout : Int) (start : Int)
    (ticks : List Int) : TokenBucket × Bool :=
  tb.WaitAllowContext n (ticks.takeWhile (fun t => decide (t < Time.Add start timeout)))

/-- The bucket `NewTokenBucket(9007199254740992, 9007199254740992, 1)` built
at `sampleNow`: capacity `2^53`, full. -/
def sampleTokenFull53 : TokenBucket :=
  { capacity := 9007199254740992, fillRate := F64.fin 1, tokens := F64.fin 9007199254740992,
    lastTime := sampleNow, tokensProcessed := 0, tokensRejected := 0 }

/-- The period of the ticker in `WaitAllowContext`: `maxSleep`, 100 ms. -/
def maxSleep : Int := 100000000

/-- The times of `c` consecutive ticks of a ticker started at `t0`, from tick
number `j + 1` on: `t0 + (j + 1) * 100 ms`, `t0 + (j + 2) * 100 ms`, ... -/
def TokenBucket.tickTimes (t0 : Int) : Nat → Nat → List Int
  | _, 0 => []
  | j, c + 1 => (t0 + ((j : Int) + 1) * maxSleep) :: TokenBucket.tickTimes t0 (j + 1) c

/-- The token level after `k` ticks 100 ms apart, none of which took tokens:
each tick adds `0.1 s * fillRate` in `float64` and clamps to the capacity, as
`refill` does. -/
def TokenBucket.tickLevel (tb : TokenBucket) : Nat → F64
  | 0 => tb.tokens
  | k + 1 =>
      let tokens := F64.add (TokenBucket.tickLevel tb k)
        (F64.mul (Duration.Seconds maxSleep) tb.fillRate)
      if F64.gt tokens (F64.ofInt tb.capacity) then F64.ofInt tb.capacity else tokens

/-- The bucket after `k` ticks 100 ms apart from `t0`, none of which took
tokens. -/
def TokenBucket.afterTicks (tb : TokenBucket) (t0 : Int) (k : Nat) : TokenBucket :=
  { tb with tokens := tb.tickLevel k, lastTime := t0 + (k : Int) * maxSleep }

/-- The bucket after the tick number `k` took `n` tokens. -/
def TokenBucket.afterHit (tb : TokenBucket) (t0 : Int) (k : Nat) (n : Int) : TokenBucket :=
  { tb with
      tokens := F64.sub (tb.tickLevel k) (F64.ofInt n)
      lastTime := t0 + (k : Int) * maxSleep
      tokensProcessed := add64 tb.tokensProcessed 1 }

/-! ## Concurrent callers of FixedWindowCounter.Allow -/

/-- Where a goroutine stands in `fwc.Allow(n)`: outside a call, before
`fwc.mu.Lock()`, before the window-boundary check (source lines 48-59),
before the admission check (line 62), before `fwc.RequestCount += n`, before
`fwc.RequestsAllowed += n`, before `fwc.RequestsDenied += n`, and before the
deferred `fwc.mu.Unlock()` with the value to return. -/
inductive FixedWindowCounter.Pc where
  | idle
  | lock
  | window
  | check
  | count
  | allowed
  | denied
  | unlock (result : Bool)
deriving DecidableEq

/-- One `FixedWindowCounter` shared by goroutines that call `Allow`: the
fields of the counter, the holder of `fwc.mu` if it is locked, the position of
every goroutine, and the number of calls every goroutine has still to start
(each worker of `TestConcurrency` makes its calls one after the other). -/
structure FixedWindowCounter.Shared where
  fwc : FixedWindowCounter
  mu : Option Nat
  pcs : Nat → FixedWindowCounter.Pc
  todo : Nat → Nat

/-- The shared counter before any call: unlocked, every goroutine outside a
call; goroutine `i < N` is going to make `calls i` calls, the others none. -/
def FixedWindowCounter.Shared.init (fwc : FixedWindowCounter) (N : Nat) (calls : Nat → Nat) :
    FixedWindowCounter.Shared :=
  { fwc := fwc, mu := none, pcs := fun _ => FixedWindowCounter.Pc.idle,
    todo := fun i => if i < N then calls i else 0 }

/-- Goroutine `i` is scheduled and runs its next statement of `Allow(n)`;
`now` is the clock reading if the statement reads the clock. A goroutine
outside a call starts its next call if it has one to make (a call with
`n <= 0` returns at the guard); a goroutine at `fwc.mu.Lock()` proceeds only
if the mutex is free and stays where it is otherwise. -/
def FixedWindowCounter.Shared.step (n : Int) (s : FixedWindowCounter.Shared) (i : Nat)
    (now : Int) : FixedWindowCounter.Shared :=
  match s.pcs i with
  | FixedWindowCounter.Pc.idle =>
      if s.todo i = 0 then s
      else if n ≤ 0 then { s with todo := Function.update s.todo i (s.todo i - 1) }
      else
        { s with
            todo := Function.update s.todo i (s.todo i - 1)
            pcs := Function.update s.pcs i FixedWindowCounter.Pc.lock }
  | FixedWindowCounter.Pc.lock =>
      match s.mu with
      | none => { s with mu := some i, pcs := Function.update s.pcs i FixedWindowCounter.Pc.window }
      | some _ => s
  | FixedWindowCounter.Pc.window =>
      { s with
          fwc := s.fwc.rollover now
          pcs := Function.update s.pcs i FixedWindowCounter.Pc.check }
  | FixedWindowCounter.Pc.check =>
      if add64 s.fwc.RequestCount n ≤ s.fwc.MaxRequests then
        { s with pcs := Function.update s.pcs i FixedWindowCounter.Pc.count }
      else { s with pcs := Function.update s.pcs i FixedWindowCounter.Pc.denied }
  | FixedWindowCounter.Pc.count =>
      { s with
          fwc := { s.fwc with RequestCount := add64 s.fwc.RequestCount n }
          pcs := Function.update s.pcs i FixedWindowCounter.Pc.allowed }
  | FixedWindowCounter.Pc.allowed =>
      { s with
          fwc := { s.fwc with RequestsAllowed := add64 s.fwc.RequestsAllowed n }
          pcs := Function.update s.pcs i (FixedWindowCounter.Pc.unlock true) }
  | FixedWindowCounter.Pc.denied =>
      { s with
          fwc := { s.fwc with RequestsDenied := add64 s.fwc.RequestsDenied n }
          pcs := Function.update s.pcs i (FixedWindowCounter.Pc.unlock false) }
  | FixedWindowCounter.Pc.unlock _ =>
      { s with
          mu := none
          pcs := Function.update s.pcs i FixedWindowCounter.Pc.idle }

/-- A schedule: which goroutine runs next and what the clock then reads. The
state after the schedule. -/
def FixedWindowCounter.Shared.run (n : Int) (s : FixedWindowCounter.Shared) :
    List (Nat × Int) → FixedWindowCounter.Shared
  | [] => s
  | e :: es => FixedWindowCounter.Shared.run n (s.step n e.1 e.2) es

/-- The sum `f 0 + ... + f (N - 1)`. -/
def sumTo (f : Nat → Nat) : Nat → Nat
  | 0 => 0
  | k + 1 => sumTo f k + f k

/-- The calls of the goroutines `0, ..., N - 1` that have not taken the mutex
yet: those still to start and those waiting at `fwc.mu.Lock()`. -/
def FixedWindowCounter.Shared.load (pcs : Nat → FixedWindowCounter.Pc) (todo : Nat → Nat)
    (N : Nat) : Nat :=
  sumTo (fun j => todo j + if pcs j = FixedWindowCounter.Pc.lock then 1 else 0) N

/-- Every goroutine `i < N` has made all its calls and is outside a call. -/
def FixedWindowCounter.Shared.finished (s : FixedWindowCounter.Shared) (N : Nat) : Prop :=
  ∀ i, i < N → s.pcs i = FixedWindowCounter.Pc.idle ∧ s.todo i = 0

/-- What holds of the shared counter between any two statements of `N`
goroutines that make `total` calls `Allow(1)` in all: the count is within the
limit; a goroutine is inside the critical section only if it holds the mutex;
the holder, once past the admission check, has room for its unit; and
allowed plus denied, plus the calls that have not taken the mutex yet, plus
the call of the holder while it has not been counted, is `total`. -/
def FixedWindowCounter.Shared.Inv (s : FixedWindowCounter.Shared) (N total : Nat) : Prop :=
  s.fwc.RequestCount ≤ s.fwc.MaxRequests ∧ 0 ≤ s.fwc.MaxRequests ∧
  0 ≤ s.fwc.RequestsAllowed ∧ 0 ≤ s.fwc.RequestsDenied ∧
  (∀ j, s.mu ≠ some j →
    s.pcs j = FixedWindowCounter.Pc.idle ∨ s.pcs j = FixedWindowCounter.Pc.lock) ∧
  (∀ j, N ≤ j → s.todo j = 0 ∧ s.pcs j = FixedWindowCounter.Pc.idle) ∧
  (s.mu = none →
    s.fwc.RequestsAllowed + s.fwc.RequestsDenied
      + (FixedWindowCounter.Shared.load s.pcs s.todo N : Int) = (total : Int)) ∧
  (∀ i, s.mu = some i →
    s.pcs i ≠ FixedWindowCounter.Pc.idle ∧ s.pcs i ≠ FixedWindowCounter.Pc.lock ∧
    (s.pcs i = FixedWindowCounter.Pc.count →
      add64 s.fwc.RequestCount 1 ≤ s.fwc.MaxRequests) ∧
    ((∀ r, s.pcs i ≠ FixedWindowCounter.Pc.unlock r) →
      s.fwc.RequestsAllowed + s.fwc.RequestsDenied
        + (FixedWindowCounter.Shared.load s.pcs s.todo N : Int) + 1 = (total : Int)) ∧
    (∀ r, s.pcs i = FixedWindowCounter.Pc.unlock r →
      s.fwc.RequestsAllowed + s.fwc.RequestsDenied
        + (FixedWindowCounter.Shared.load s.pcs s.todo N : Int) = (total : Int)))

/-- A schedule of two goroutines that each call `Allow(1)` once at
`sampleNow`: goroutine 1 reaches `fwc.mu.Lock()` while goroutine 0 holds the
mutex, waits there, and runs after goroutine 0 has returned. -/
def sampleSchedule : List (Nat × Int) :=
  [(0, sampleNow), (1, sampleNow), (0, sampleNow), (1, sampleNow), (0, sampleNow),
   (0, sampleNow), (1, sampleNow), (0, sampleNow), (0, sampleNow), (0, sampleNow),
   (1, sampleNow), (1, sampleNow), (1, sampleNow), (1, sampleNow), (1, sampleNow),
   (1, sampleNow)]

/-! ## Concurrent callers of the other four limiters -/

/-- The part of `Allow(1)` between `mu.Lock()` and the deferred `mu.Unlock()`
in `SlidingWindow`, `SlidingWindowLog`, `LeakyBucket` and `TokenBucket`, in
two steps: `update` brings the state up to date from the clock (the rollover,
the purge loop, `lb.leak()`, `tb.refill()`; `now` and `now2` are the clock
readings the step makes), `test` is the admission test with the branch taken
and the value to return (`now` is the reading kept in the local variable).
`none`: the step panics. -/
structure Guarded (σ : Type) where
  update : σ → Int → Int → Option σ
  test : σ → Int → Option (σ × Bool)

/-- The body of `sw.Allow(1)` of `SlidingWindow` (source lines 57-69 and
70-97). -/
def SlidingWindow.guarded : Guarded SlidingWindow :=
  { update := fun sw now _ => some (sw.rollover now)
    test := fun sw now =>
      if F64.le (F64.add (sw.sliding now) (F64.ofInt 1)) (F64.ofInt sw.maxRequests) then
        some ({ sw with
                currentWindowRequests := add64 sw.currentWindowRequests 1
                requestsAllowed := add64 sw.requestsAllowed 1 }, true)
      else some ({ sw with requestsDenied := add64 sw.requestsDenied 1 }, false) }

/-- The body of `sw.Allow(1)` of `SlidingWindowLog` (source lines 42-61 and
63-79). -/
def SlidingWindowLog.guarded : Guarded SlidingWindowLog :=
  { update := fun sw now _ =>
      match SlidingWindowLog.purge (Time.Add now (neg64 sw.windowSize))
          (sw.requestLog.size + 1) sw.requestLog with
      | none => none
      | some d => some { sw with requestLog := d }
    test := fun sw now =>
      if add64 (sw.requestLog.Size : Int) 1 ≤ sw.maxRequests then
        match SlidingWindowLog.pushN now 1 sw.requestLog with
        | none => none
        | some d1 => some ({ sw with requestLog := d1 }, true)
      else some (sw, false) }

/-- The body of `lb.Allow(1)` of `LeakyBucket` (source lines 96 and 98-110). -/
def LeakyBucket.guarded : Guarded LeakyBucket :=
  { update := fun lb now now2 => some (lb.leak now now2)
    test := fun lb _ =>
      if F64.gt (F64.add lb.queue (F64.ofInt 1)) (F64.ofInt lb.capacity) then
        some ({ lb with requestsDropped := add64 lb.requestsDropped 1 }, false)
      else some ({ lb with queue := F64.add lb.queue (F64.ofInt 1) }, true) }

/-- The body of `tb.Allow(1)` of `TokenBucket` (source lines 76 and 78-86). -/
def TokenBucket.guarded : Guarded TokenBucket :=
  { update := fun tb now _ => some (tb.refill now)
    test := fun tb _ =>
      if F64.gt (F64.ofInt 1) tb.tokens then
        some ({ tb with tokensRejected := add64 tb.tokensRejected 1 }, false)
      else
        some ({ tb with
                tokens := F64.sub tb.tokens (F64.ofInt 1)
                tokensProcessed := add64 tb.tokensProcessed 1 }, true) }

/-- Where a goroutine stands in `Allow(1)`: outside a call, before
`mu.Lock()`, before the update step, before the admission test (with the
clock reading of the update step), and before the deferred `mu.Unlock()` with
the value to return. -/
inductive Guarded.Pc where
  | idle
  | lock
  | update
  | test (now : Int)
  | unlock (result : Bool)
deriving DecidableEq

/-- One limiter shared by goroutines that call `Allow(1)`: its fields, the
holder of the mutex if it is locked, the position of every goroutine, and the
number of calls every goroutine has still to start. -/
structure Guarded.Shared (σ : Type) where
  state : σ
  mu : Option Nat
  pcs : Nat → Guarded.Pc
  todo : Nat → Nat

/-- The shared limiter before any call: unlocked, every goroutine outside a
call; goroutine `i < N` is going to make `calls i` calls, the others none. -/
def Guarded.Shared.init {σ : Type} (x : σ) (N : Nat) (calls : Nat → Nat) : Guarded.Shared σ :=
  { state := x, mu := none, pcs := fun _ => Guarded.Pc.idle,
    todo := fun i => if i < N then calls i else 0 }

/-- Goroutine `i` is scheduled and runs its next step of `Allow(1)`; `now`
and `now2` are the clock readings if the step reads the clock. A goroutine
at `mu.Lock()` proceeds only if the mutex is free and stays where it is
otherwise; a step that panics leaves the goroutine where it is. -/
def Guarded.step {σ : Type} (m : Guarded σ) (s : Guarded.Shared σ) (i : Nat) (now now2 : Int) :
    Guarded.Shared σ :=
  match s.pcs i with
  | Guarded.Pc.idle =>
      if s.todo i = 0 then s
      else
        { s with
            todo := Function.update s.todo i (s.todo i - 1)
            pcs := Function.update s.pcs i Guarded.Pc.lock }
  | Guarded.Pc.lock =>
      match s.mu with
      | none => { s with mu := some i, pcs := Function.update s.pcs i Guarded.Pc.update }
      | some _ => s
  | Guarded.Pc.update =>
      match m.update s.state now now2 with
      | none => s
      | some x => { s with state := x, pcs := Function.update s.pcs i (Guarded.Pc.test now) }
  | Guarded.Pc.test t =>
      match m.test s.state t with
      | none => s
      | some r => { s with state := r.1, pcs := Function.update s.pcs i (Guarded.Pc.unlock r.2) }
  | Guarded.Pc.unlock _ =>
      { s with mu := none, pcs := Function.update s.pcs i Guarded.Pc.idle }

/-- A schedule: which goroutine runs next and what the clock then reads. The
state after the schedule. -/
def Guarded.run {σ : Type} (m : Guarded σ) (s : Guarded.Shared σ) :
    List (Nat × Int × Int) → Guarded.Shared σ
  | [] => s
  | e :: es => Guarded.run m (Guarded.step m s e.1 e.2.1 e.2.2) es

/-- One whole call on its own: the update step and then the admission
test, with the clock readings `c`. -/
def Guarded.call {σ : Type} (m : Guarded σ) (x : σ) (c : Int × Int) : Option (σ × Bool) :=
  match m.update x c.1 c.2 with
  | none => none
  | some y => m.test y c.1

/-- Whole calls one after the other, with the clock readings `cs`: the final
state. -/
def Guarded.seq {σ : Type} (m : Guarded σ) (x : σ) : List (Int × Int) → Option σ
  | [] => some x
  | c :: cs =>
      match Guarded.call m x c with
      | none => none
      | some r => Guarded.seq m r.1 cs

/-- The calls of the goroutines `0, ..., N - 1` that have not taken the mutex
yet: those still to start and those waiting at `mu.Lock()`. -/
def Guarded.load (pcs : Nat → Guarded.Pc) (todo : Nat → Nat) (N : Nat) : Nat :=
  sumTo (fun j => todo j + if pcs j = Guarded.Pc.lock then 1 else 0) N

/-- Every goroutine `i < N` has made all its calls and is outside a call. -/
def Guarded.Shared.finished {σ : Type} (s : Guarded.Shared σ) (N : Nat) : Prop :=
  ∀ i, i < N → s.pcs i = Guarded.Pc.idle ∧ s.todo i = 0

/-- What holds of the shared limiter between any two steps of `N` goroutines
that make `total` calls in all, after a schedule with the clock readings
`seen`: a goroutine is inside the critical section only if it holds the
mutex, and the state is that of whole calls made one after the other (plus
the update step of the holder, if that has run), with clock readings taken
from `seen` in their order; these calls, the calls that have not taken the
mutex yet and the call of the holder are `total`. -/
def Guarded.Inv {σ : Type} (m : Guarded σ) (x0 : σ) (s : Guarded.Shared σ) (N total : Nat)
    (seen : List (Int × Int)) : Prop :=
  (∀ j, s.mu ≠ some j → s.pcs j = Guarded.Pc.idle ∨ s.pcs j = Guarded.Pc.lock) ∧
  (∀ j, N ≤ j → s.todo j = 0 ∧ s.pcs j = Guarded.Pc.idle) ∧
  (s.mu = none →
    ∃ cs : List (Int × Int), List.Sublist cs seen ∧ Guarded.seq m x0 cs = some s.state ∧
      cs.length + Guarded.load s.pcs s.todo N = total) ∧
  (∀ i, s.mu = some i →
    s.pcs i ≠ Guarded.Pc.idle ∧ s.pcs i ≠ Guarded.Pc.lock ∧
    (s.pcs i = Guarded.Pc.update →
      ∃ cs : List (Int × Int), List.Sublist cs seen ∧ Guarded.seq m x0 cs = some s.state ∧
        cs.length + Guarded.load s.pcs s.todo N + 1 = total) ∧
    (∀ t, s.pcs i = Guarded.Pc.test t →
      ∃ (cs : List (Int × Int)) (t2 : Int) (y : σ),
        List.Sublist (cs ++ [(t, t2)]) seen ∧ Guarded.seq m x0 cs = some y ∧
        m.update y t t2 = some s.state ∧
        cs.length + Guarded.load s.pcs s.todo N + 1 = total) ∧
    (∀ r, s.pcs i = Guarded.Pc.unlock r →
      ∃ cs : List (Int × Int), List.Sublist cs seen ∧ Guarded.seq m x0 cs = some s.state ∧
        cs.length + Guarded.load s.pcs s.todo N = total))

/-- A schedule of two goroutines that each call `Allow(1)` once at
`sampleNow`: goroutine 1 reaches `mu.Lock()` while goroutine 0 holds the
mutex, waits there, and runs after goroutine 0 has returned. -/
def sampleGuardedSchedule : List (Nat × Int × Int) :=
  [(0, sampleNow, sampleNow), (1, sampleNow, sampleNow), (0, sampleNow, sampleNow),
   (1, sampleNow, sampleNow), (0, sampleNow, sampleNow), (1, sampleNow, sampleNow),
   (0, sampleNow, sampleNow), (0, sampleNow, sampleNow), (1, sampleNow, sampleNow),
   (1, sampleNow, sampleNow), (1, sampleNow, sampleNow), (1, sampleNow, sampleNow)]

/-! ## Bursts at a window boundary -/

/-- Total of `n` over the calls of a sequence of `Allow` calls on a
`FixedWindowCounter` that return true and are made at a time that satisfies
`p`. -/
def FixedWindowCounter.admittedWhere (p : Int → Bool) (fwc : FixedWindowCounter) :
    List (Int × Int) → Int
  | [] => 0
  | c :: cs =>
      (if (fwc.Allow c.1 c.2).2 = true ∧ p c.1 = true then c.2 else 0) +
        FixedWindowCounter.admittedWhere p (fwc.Allow c.1 c.2).1 cs

/-- Total of `n` over the calls that return true and are made at a time in
the interval `[lo, hi]`. -/
def FixedWindowCounter.admittedIn (lo hi : Int) (fwc : FixedWindowCounter)
    (calls : List (Int × Int)) : Int :=
  fwc.admittedWhere (fun t => decide (lo ≤ t ∧ t ≤ hi)) calls

/-- The units a counter can still admit in the aligned window that starts at
`a`: what is left of the limit if the counter is in a window with the key of
`a`, the whole limit otherwise. -/
def FixedWindowCounter.roomIn (a : Int) (fwc : FixedWindowCounter) : Int :=
  if fwc.CurrentWindow = Time.Unix a then fwc.MaxRequests - fwc.RequestCount
  else fwc.MaxRequests

/-- The state of a counter with window `W` and limit `M` whose count is
within `0..M`. -/
def FixedWindowCounter.Within (W M : Int) (fwc : FixedWindowCounter) : Prop :=
  fwc.WindowSize = W ∧ fwc.MaxRequests = M ∧ 0 ≤ fwc.RequestCount ∧ fwc.RequestCount ≤ M

/-! ## Reachable deques -/

/-- An operation on a deque: `PushBack(item)`, `PopFront()` or
`PeekFront()`. -/
inductive Deque.Op (α : Type) where
  | pushBack (item : α)
  | popFront
  | peekFront

/-- The deque after one operation; `none` when the operation panics. -/
def Deque.applyOp {α : Type} [Inhabited α] (d : Deque α) : Deque.Op α → Option (Deque α)
  | Deque.Op.pushBack item => d.PushBack item
  | Deque.Op.popFront =>
      match d.PopFront with
      | none => none
      | some r => some r.2
  | Deque.Op.peekFront =>
      match d.PeekFront with
      | none => none
      | some _ => some d

/-- The deque after a sequence of operations; `none` when one of them
panics. -/
def Deque.runOps {α : Type} [Inhabited α] (d : Deque α) : List (Deque.Op α) → Option (Deque α)
  | [] => some d
  | o :: os =>
      match d.applyOp o with
      | none => none
      | some d1 => Deque.runOps d1 os

/-- The shape of a deque built from `NewDeque`: the representation invariant
and a buffer of `16 * 2^k` cells. -/
def Deque.Shaped {α : Type} (d : Deque α) : Prop :=
  d.WF ∧ ∃ k : Nat, d.items.length = 16 * 2 ^ k

/-! ## Waiting hints of the leaky bucket -/

/-- The bucket `NewLeakyBucket(5, 3, PerSecond)` built at `sampleNow`. -/
def sampleLeakyThree : LeakyBucket :=
  { capacity := 5, leakRate := F64.fin 3, queue := F64.fin 0, requestsDropped := 0,
    requestsProcessed := 0, lastLeakTime := sampleNow }

/-- The bucket `NewLeakyBucket(5, 3e9, PerSecond)` built at `sampleNow`:
three units per nanosecond. -/
def sampleLeakyFast : LeakyBucket :=
  { capacity := 5, leakRate := F64.fin 3000000000, queue := F64.fin 0, requestsDropped := 0,
    requestsProcessed := 0, lastLeakTime := sampleNow }

/-- The bucket `NewLeakyBucket(1000, 0.011574074074074073, PerSecond)` built
at `sampleNow`: the rate is the `float64` nearest to `1000 / 86400`, a
thousand units per day. -/
def sampleLeakyDay : LeakyBucket :=
  { capacity := 1000, leakRate := F64.fin (3335999723978145 / 288230376151711744),
    queue := F64.fin 0, requestsDropped := 0, requestsProcessed := 0,
    lastLeakTime := sampleNow }

/-- The bucket `NewLeakyBucket(1000000000, 7, PerSecond)` built at
`sampleNow`. -/
def sampleLeakyGiga : LeakyBucket :=
  { capacity := 1000000000, leakRate := F64.fin 7, queue := F64.fin 0, requestsDropped := 0,
    requestsProcessed := 0, lastLeakTime := sampleNow }

/-! ## Bounds of the sliding-window counter -/

/-- The weighted share of the previous window in the sliding estimate, as
`Stats`, `DetailedStats` and `Allow` compute it from the time `el` elapsed in
the window of size `W` and the carried-over count `L`:
`(1 - min(el / W, 1)) * L` in `float64`. -/
def SlidingWindow.carryAt (W L el : Int) : F64 :=
  let done := F64.div (F64.ofInt el) (F64.ofInt W)
  let done := if F64.gt done (F64.fin 1) then F64.fin 1 else done
  F64.mul (F64.sub (F64.fin 1) done) (F64.ofInt L)

/-- What holds of a sliding-window counter with window `W` and limit `M`
after a call at time `T`: both counts are within `0..M`, the stored window
starts at a time `ws <= T`, and from `T` on the exact sum of the current
count and the weighted share of the previous window is at most `M + 1/2`. -/
def SlidingWindow.Within (W M T : Int) (s : SlidingWindow) : Prop :=
  s.windowSize = W ∧ s.maxRequests = M ∧
  0 ≤ s.currentWindowRequests ∧ s.currentWindowRequests ≤ M ∧
  0 ≤ s.lastWindowRequests ∧ s.lastWindowRequests ≤ M ∧
  ∃ ws : Int, s.currentWindow = ws - unixEpoch ∧ ws ≤ T ∧
    ∀ t : Int, T ≤ t → ∃ x : ℚ,
      SlidingWindow.carryAt W s.lastWindowRequests (Time.Sub t ws) = F64.fin x ∧ 0 ≤ x ∧
      (s.currentWindowRequests : ℚ) + x ≤ (M : ℚ) + 1 / 2

/-- The limiter `NewSlidingWindow(7*24*time.Hour, 32)` built at `sampleNow`;
its window started on 2023-11-13 00:00:00 UTC. -/
def sampleSlidingWeek : SlidingWindow :=
  { windowSize := 604800000000000, maxRequests := 32, currentWindow := 1699833600000000000,
    lastWindowRequests := 0, currentWindowRequests := 0, RequestCount := 0, PrevCount := 0,
    requestsAllowed := 0, requestsDenied := 0 }

/-- The limiter `NewSlidingWindow(100*time.Millisecond, 9007199254740995)`
built at `sampleNow`. -/
def sampleSlidingBig : SlidingWindow :=
  { windowSize := 100000000, maxRequests := 9007199254740995,
    currentWindow := 1700000000000000000,
    lastWindowRequests := 0, currentWindowRequests := 0, RequestCount := 0, PrevCount := 0,
    requestsAllowed := 0, requestsDenied := 0 }

/-! ## Admission tests in exact arithmetic -/

/-- The elapsed fraction of the specification,
`clamp((now - windowStart) / windowSize, 0, 1)`, as an exact rational number;
`windowStart` is the stored start of the current window. -/
def SlidingWindow.exactFraction (sw : SlidingWindow) (now : Int) : ℚ :=
  let r : ℚ := ((now - timeUnixNano sw.currentWindow : Int) : ℚ) / (sw.windowSize : ℚ)
  if r < 0 then 0 else if 1 < r then 1 else r

/-- The estimate of the specification,
`currentCount + (1 - elapsedFraction) * previousCount`, as an exact rational
number. -/
def SlidingWindow.exactEstimate (sw : SlidingWindow) (now : Int) : ℚ :=
  (sw.currentWindowRequests : ℚ) + (1 - sw.exactFraction now) * (sw.lastWindowRequests : ℚ)

/-- The bucket `NewTokenBucket(10, 5, 0.9999999999999999)` built at
`sampleNow`: five tokens, and the fill rate is the `float64` just below one,
`1 - 2^-53`. -/
def sampleTokenBelowOne : TokenBucket :=
  { capacity := 10, fillRate := F64.fin (9007199254740991 / 9007199254740992),
    tokens := F64.fin 5, lastTime := sampleNow, tokensProcessed := 0, tokensRejected := 0 }

/-- The refilled level of the specification,
`min(capacity, tokens + min(elapsed, 60 s) * fillRate)`, as an exact rational
number, for a bucket whose level and fill rate are finite. -/
def TokenBucket.exactLevel (tb : TokenBucket) (now : Int) : Option ℚ :=
  match tb.tokens, tb.fillRate with
  | F64.fin x, F64.fin r =>
      let elapsed : ℚ := ((now - tb.lastTime : Int) : ℚ) / 1000000000
      let elapsed : ℚ := if 60 < elapsed then 60 else elapsed
      let level : ℚ := x + elapsed * r
      some (if (tb.capacity : ℚ) < level then (tb.capacity : ℚ) else level)
  | _, _ => none

/-! ## Slow rates -/

/-- The bucket `NewLeakyBucket(5, 2^-40, PerSecond)` built at `sampleNow`:
one unit leaks in `2^40` seconds. -/
def sampleLeakyTrickle : LeakyBucket :=
  { capacity := 5, leakRate := F64.fin (1 / 1099511627776), queue := F64.fin 0,
    requestsDropped := 0, requestsProcessed := 0, lastLeakTime := sampleNow }

/-- What `NewLeakyBucket(5, math.Inf(1), PerSecond)` returns at `sampleNow`. -/
def sampleLeakyInf : LeakyBucket :=
  { capacity := 5, leakRate := F64.pinf, queue := F64.fin 0,
    requestsDropped := 0, requestsProcessed := 0, lastLeakTime := sampleNow }

/-- The bucket `NewTokenBucket(10, 0, 2^-40)` built at `sampleNow`: empty,
one token is added in `2^40` seconds. -/
def sampleTokenTrickle : TokenBucket :=
  { capacity := 10, fillRate := F64.fin (1 / 1099511627776), tokens := F64.fin 0,
    lastTime := sampleNow, tokensProcessed := 0, tokensRejected := 0 }

/-! ## The request log on a machine with bounded memory

`make([]T, n)` returns a slice only if the machine can hold `n` elements; the
length of a slice is an `int`, so on every machine `n` is less than `2^63`,
and `len(d.items) * 2` itself wraps to a negative number at `2^62` cells, for
which `make` panics. In this section `cells` is the largest number of
elements that `make` delivers; a request beyond it ends the call (a panic, or
the end of the process when the memory is exhausted), which is `none`. -/

/-- `d.PushBack(item)` when `make` delivers at most `cells` elements: a full
buffer is resized to twice its length, which fails beyond `cells`. -/
def Deque.PushBackWithin {α : Type} [Inhabited α] (cells : Nat) (d : Deque α) (item : α) :
    Option (Deque α) :=
  if d.size = d.items.length ∧ cells < d.items.length * 2 then none else d.PushBack item

/-- The loop `for range n { PushBack(now) }` of `Allow` when `make` delivers
at most `cells` elements. -/
def SlidingWindowLog.pushNWithin (cells : Nat) (now : Int) : Nat → Deque Int → Option (Deque Int)
  | 0, d => some d
  | k + 1, d =>
      match d.PushBackWithin cells now with
      | none => none
      | some d1 => SlidingWindowLog.pushNWithin cells now k d1

/-- `sw.Allow(n)` called at time `now` when `make` delivers at most `cells`
elements: the new state and the result, or `none` when the call does not
return. -/
def SlidingWindowLog.AllowWithin (cells : Nat) (sw : SlidingWindowLog) (now : Int) (n : Int) :
    Option (SlidingWindowLog × Bool) :=
  if n ≤ 0 then some (sw, false)
  else
    let windowStart := Time.Add now (neg64 sw.windowSize)
    match SlidingWindowLog.purge windowStart (sw.requestLog.size + 1) sw.requestLog with
    | none => none
    | some d =>
        if add64 (d.Size : Int) n ≤ sw.maxRequests then
          match SlidingWindowLog.pushNWithin cells now n.toNat d with
          | none => none
          | some d1 => some ({ sw with requestLog := d1 }, true)
        else some ({ sw with requestLog := d }, false)

/-- The results of a sequence of `Allow` calls, each given as `(now, n)`,
when `make` delivers at most `cells` elements; `none` if a call does not
return. -/
def SlidingWindowLog.resultsWithin (cells : Nat) (sw : SlidingWindowLog) :
    List (Int × Int) → Option (List Bool)
  | [] => some []
  | c :: cs =>
      match sw.AllowWithin cells c.1 c.2 with
      | none => none
      | some r =>
          match SlidingWindowLog.resultsWithin cells r.1 cs with
          | none => none
          | some bs => some (r.2 :: bs)

/-- Total of `n` over the calls `(now, n)` of a sequence that returned true
(`bs` lists the results) and were made at a time in the interval `(lo, hi]`. -/
def admittedBetween (lo hi : Int) : List (Int × Int) → List Bool → Int
  | c :: cs, b :: bs =>
      (if b = true ∧ lo < c.1 ∧ c.1 ≤ hi then c.2 else 0) + admittedBetween lo hi cs bs
  | _, _ => 0

/-- The log of `NewSlidingWindowLog(100*time.Millisecond, 3)` after one
request admitted at `sampleNow`. -/
def sampleLogOne : SlidingWindowLog :=
  { windowSize := 100000000, maxRequests := 3,
    requestLog :=
      { items := [sampleNow, 0, 0, 0, 0, 0, 0, 0, 0, 0, 0, 0, 0, 0, 0, 0],
        front := 0, size := 1 } }
/-! ## Machine integers: lemmas -/

theorem wrap64_of_isInt64 {x : Int} (h : isInt64 x) : wrap64 x = x := by
  unfold isInt64 minInt64 maxInt64 at h
  unfold wrap64
  omega

theorem add64_eq_add {a b : Int} (h : isInt64 (a + b)) : add64 a b = a + b :=
  wrap64_of_isInt64 h

theorem wrap64_isInt64 (x : Int) : isInt64 (wrap64 x) := by
  unfold isInt64 minInt64 maxInt64 wrap64
  omega

theorem add64_wrap64 (a b : Int) : add64 (wrap64 a) b = wrap64 (a + b) := by
  unfold add64 wrap64
  omega

/-! ## Floating point: lemmas -/

theorem pow2_eq_zpow (e : Int) : pow2 e = (2 : ℚ) ^ e := by
  unfold pow2
  split
  · next h =>
    obtain ⟨k, rfl⟩ := Int.eq_ofNat_of_zero_le h
    simp
  · next h =>
    have h' : 0 ≤ -e := by omega
    obtain ⟨k, hk⟩ := Int.eq_ofNat_of_zero_le h'
    have he : e = -(k : Int) := by omega
    subst he
    simp

theorem pow2_pos (e : Int) : 0 < pow2 e := by
  rw [pow2_eq_zpow]; positivity

theorem pow2_le_pow2 {a b : Int} : pow2 a ≤ pow2 b ↔ a ≤ b := by
  rw [pow2_eq_zpow, pow2_eq_zpow]
  exact zpow_le_zpow_iff_right₀ (by norm_num)

theorem pow2_lt_pow2 {a b : Int} : pow2 a < pow2 b ↔ a < b := by
  rw [pow2_eq_zpow, pow2_eq_zpow]
  exact zpow_lt_zpow_iff_right₀ (by norm_num)

theorem pow2_add (a b : Int) : pow2 (a + b) = pow2 a * pow2 b := by
  rw [pow2_eq_zpow, pow2_eq_zpow, pow2_eq_zpow]
  exact zpow_add₀ (by norm_num) a b

theorem pow2_sub (a b : Int) : pow2 (a - b) = pow2 a / pow2 b := by
  rw [pow2_eq_zpow, pow2_eq_zpow, pow2_eq_zpow]
  exact zpow_sub₀ (by norm_num) a b

theorem pow2_natCast (k : Nat) : pow2 (k : Int) = (2 : ℚ) ^ k := by
  rw [pow2_eq_zpow]; simp

theorem log2Fuel_spec (fuel : Nat) : ∀ n : Nat, n ≤ fuel → n ≠ 0 →
    2 ^ log2Fuel fuel n ≤ n ∧ n < 2 ^ (log2Fuel fuel n + 1) := by
  induction fuel with
  | zero => intro n h h0; omega
  | succ f ih =>
    intro n h h0
    unfold log2Fuel
    by_cases h2 : n < 2
    · simp only [h2, if_true]
      omega
    · simp only [h2, if_false]
      have hdiv : n / 2 ≤ f := by omega
      have hne : n / 2 ≠ 0 := by omega
      obtain ⟨h1, h3⟩ := ih (n / 2) hdiv hne
      constructor
      · rw [pow_succ]; omega
      · rw [pow_succ]; omega

theorem natLog2_spec {n : Nat} (h : n ≠ 0) :
    2 ^ natLog2 n ≤ n ∧ n < 2 ^ (natLog2 n + 1) :=
  log2Fuel_spec n n (le_refl n) h

theorem abs_eq_natAbs_div_den (q : ℚ) : |q| = (q.num.natAbs : ℚ) / (q.den : ℚ) := by
  have hd : (0 : ℚ) < q.den := by exact_mod_cast q.den_pos
  conv_lhs => rw [← Rat.num_div_den q]
  rw [abs_div, abs_of_pos hd]
  congr 1
  rw [Nat.cast_natAbs, Int.cast_abs]

theorem ilog2_spec {q : ℚ} (hq : q ≠ 0) :
    pow2 (ilog2 q) ≤ |q| ∧ |q| < pow2 (ilog2 q + 1) := by
  have hn0 : q.num.natAbs ≠ 0 := by
    simpa using (Rat.num_ne_zero.mpr hq)
  have hd0 : q.den ≠ 0 := q.den_nz
  obtain ⟨hn1, hn2⟩ := natLog2_spec hn0
  obtain ⟨hd1, hd2⟩ := natLog2_spec hd0
  have hn1' : (2 : ℚ) ^ natLog2 q.num.natAbs ≤ (q.num.natAbs : ℚ) := by exact_mod_cast hn1
  have hn2' : (q.num.natAbs : ℚ) < (2 : ℚ) ^ (natLog2 q.num.natAbs + 1) := by exact_mod_cast hn2
  have hd1' : (2 : ℚ) ^ natLog2 q.den ≤ (q.den : ℚ) := by exact_mod_cast hd1
  have hd2' : (q.den : ℚ) < (2 : ℚ) ^ (natLog2 q.den + 1) := by exact_mod_cast hd2
  have hdpos : (0 : ℚ) < q.den := by exact_mod_cast q.den_pos
  have habs := abs_eq_natAbs_div_den q
  have hpa : (0 : ℚ) < 2 ^ natLog2 q.num.natAbs := by positivity
  have hpb : (0 : ℚ) < 2 ^ natLog2 q.den := by positivity
  have hupper : |q| < pow2 ((natLog2 q.num.natAbs : Int) - (natLog2 q.den : Int) + 1) := by
    have e1 : ((natLog2 q.num.natAbs : Int) - (natLog2 q.den : Int) + 1)
        = ((natLog2 q.num.natAbs + 1 : Nat) : Int) - (natLog2 q.den : Int) := by push_cast; ring
    rw [e1, pow2_sub, pow2_natCast, pow2_natCast, habs]
    rw [div_lt_div_iff₀ hdpos hpb]
    calc (q.num.natAbs : ℚ) * 2 ^ natLog2 q.den
        < 2 ^ (natLog2 q.num.natAbs + 1) * 2 ^ natLog2 q.den := by
          apply mul_lt_mul_of_pos_right hn2' hpb
      _ ≤ 2 ^ (natLog2 q.num.natAbs + 1) * (q.den : ℚ) := by
          apply mul_le_mul_of_nonneg_left hd1' (by positivity)
  have hlower : pow2 ((natLog2 q.num.natAbs : Int) - (natLog2 q.den : Int) - 1) ≤ |q| := by
    have e1 : ((natLog2 q.num.natAbs : Int) - (natLog2 q.den : Int) - 1)
        = (natLog2 q.num.natAbs : Int) - ((natLog2 q.den + 1 : Nat) : Int) := by push_cast; ring
    rw [e1, pow2_sub, pow2_natCast, pow2_natCast, habs]
    rw [div_le_div_iff₀ (by positivity) hdpos]
    calc (2 : ℚ) ^ natLog2 q.num.natAbs * (q.den : ℚ)
        ≤ (q.num.natAbs : ℚ) * (q.den : ℚ) := by
          apply mul_le_mul_of_nonneg_right hn1' (le_of_lt hdpos)
      _ ≤ (q.num.natAbs : ℚ) * 2 ^ (natLog2 q.den + 1) := by
          apply mul_le_mul_of_nonneg_left (le_of_lt hd2') (by positivity)
  unfold ilog2
  simp only
  split
  · next h => exact ⟨h, hupper⟩
  · next h =>
    refine ⟨hlower, ?_⟩
    have : (natLog2 q.num.natAbs : Int) - (natLog2 q.den : Int) - 1 + 1
        = (natLog2 q.num.natAbs : Int) - (natLog2 q.den : Int) := by ring
    rw [this]
    exact not_le.mp h

/-- The exponent is determined by the binade. -/
theorem ilog2_eq_of_bounds {q : ℚ} {e : Int} (h1 : pow2 e ≤ |q|) (h2 : |q| < pow2 (e + 1)) :
    ilog2 q = e := by
  have hq : q ≠ 0 := by
    intro h0; subst h0
    have := pow2_pos e
    simp at h1
    linarith
  obtain ⟨s1, s2⟩ := ilog2_spec hq
  have a1 : e < ilog2 q + 1 := pow2_lt_pow2.mp (lt_of_le_of_lt h1 s2)
  have a2 : ilog2 q < e + 1 := pow2_lt_pow2.mp (lt_of_le_of_lt s1 h2)
  omega

theorem ratFloor_eq (x : ℚ) : Rat.floor x = ⌊x⌋ := rfl

theorem roundEven_intCast (k : Int) : roundEven (k : ℚ) = k := by
  unfold roundEven
  simp only [ratFloor_eq, Int.floor_intCast, sub_self]
  norm_num

theorem roundEven_cases (x : ℚ) :
    (roundEven x = ⌊x⌋ ∧ x - ⌊x⌋ ≤ 1 / 2) ∨ (roundEven x = ⌊x⌋ + 1 ∧ 1 / 2 ≤ x - ⌊x⌋) := by
  unfold roundEven
  simp only [ratFloor_eq]
  split_ifs with h1 h2 h3
  · left; exact ⟨rfl, le_of_lt h1⟩
  · right; exact ⟨rfl, le_of_lt h2⟩
  · left; exact ⟨rfl, not_lt.mp h2⟩
  · right; exact ⟨rfl, not_lt.mp h1⟩

theorem roundEven_sub_le (x : ℚ) : |(roundEven x : ℚ) - x| ≤ 1 / 2 := by
  have hf1 : ((⌊x⌋ : Int) : ℚ) ≤ x := Int.floor_le x
  have hf2 : x < ((⌊x⌋ : Int) : ℚ) + 1 := Int.lt_floor_add_one x
  rw [abs_le]
  rcases roundEven_cases x with ⟨h, h'⟩ | ⟨h, h'⟩
  · rw [h]; constructor <;> linarith
  · rw [h]; push_cast; constructor <;> linarith

theorem roundEven_mono {x y : ℚ} (h : x ≤ y) : roundEven x ≤ roundEven y := by
  have hfl : ⌊x⌋ ≤ ⌊y⌋ := Int.floor_mono h
  rcases lt_or_eq_of_le hfl with hlt | heq
  · have hx : roundEven x ≤ ⌊x⌋ + 1 := by
      rcases roundEven_cases x with ⟨h1, _⟩ | ⟨h1, _⟩ <;> omega
    have hy : ⌊y⌋ ≤ roundEven y := by
      rcases roundEven_cases y with ⟨h1, _⟩ | ⟨h1, _⟩ <;> omega
    omega
  · unfold roundEven
    simp only [ratFloor_eq]
    rw [← heq]
    have hsub : x - (⌊x⌋ : ℚ) ≤ y - (⌊x⌋ : ℚ) := by linarith
    split_ifs <;> first | omega | (exfalso; linarith)

theorem roundEven_nonneg {x : ℚ} (h : 0 ≤ x) : 0 ≤ roundEven x := by
  have := roundEven_mono h
  rw [show ((0 : ℚ)) = ((0 : Int) : ℚ) by simp, roundEven_intCast] at this
  exact this

theorem F64.round_zero : F64.round 0 = F64.fin 0 := by
  simp [F64.round]

theorem F64.round_of_ne_zero {q : ℚ} (hq : q ≠ 0) :
    F64.round q =
      if pow2 1024 ≤ (roundEven (q / pow2 (max (ilog2 q) (-1022) - 52)) : ℚ)
          * pow2 (max (ilog2 q) (-1022) - 52) then F64.pinf
      else if (roundEven (q / pow2 (max (ilog2 q) (-1022) - 52)) : ℚ)
          * pow2 (max (ilog2 q) (-1022) - 52) ≤ -pow2 1024 then F64.ninf
      else F64.fin ((roundEven (q / pow2 (max (ilog2 q) (-1022) - 52)) : ℚ)
          * pow2 (max (ilog2 q) (-1022) - 52)) := by
  unfold F64.round
  simp only [hq, if_false]

theorem pow2_toNat {j : Int} (hj : 0 ≤ j) : pow2 j = (((2 : Int) ^ j.toNat : Int) : ℚ) := by
  obtain ⟨k, rfl⟩ := Int.eq_ofNat_of_zero_le hj
  rw [pow2_natCast]
  simp

/-- Rounding leaves a representable value as it is. -/
theorem F64.round_exact {q : ℚ} (h : F64.Representable q) : F64.round q = F64.fin q := by
  obtain ⟨m, c, hm, hc, hqm, hlt⟩ := h
  by_cases hq : q = 0
  · subst hq; exact F64.round_zero
  · obtain ⟨s1, _⟩ := ilog2_spec hq
    have hmq : (|m| : ℚ) < 2 ^ 53 := by exact_mod_cast hm
    have habs : |q| < pow2 (53 + c) := by
      rw [hqm, abs_mul, abs_of_pos (pow2_pos c), pow2_add]
      have h53 : pow2 53 = 2 ^ 53 := by rw [pow2_eq_zpow]; norm_num
      rw [h53]
      have : |(m : ℚ)| < 2 ^ 53 := by rw [← Int.cast_abs]; exact_mod_cast hm
      exact mul_lt_mul_of_pos_right this (pow2_pos c)
    have hlog : ilog2 q < 53 + c := pow2_lt_pow2.mp (lt_of_le_of_lt s1 habs)
    have he : max (ilog2 q) (-1022) ≤ c + 52 := by omega
    set e := max (ilog2 q) (-1022) with hedef
    have hj : 0 ≤ c - (e - 52) := by omega
    have hsplit : pow2 c = pow2 (e - 52) * pow2 (c - (e - 52)) := by
      rw [← pow2_add]; congr 1; ring
    have hu : pow2 (e - 52) ≠ 0 := ne_of_gt (pow2_pos _)
    have hdiv : q / pow2 (e - 52) = ((m * (2 : Int) ^ (c - (e - 52)).toNat : Int) : ℚ) := by
      rw [hqm, hsplit, pow2_toNat hj]
      field_simp
      ring
    have hr : (roundEven (q / pow2 (e - 52)) : ℚ) * pow2 (e - 52) = q := by
      rw [hdiv, roundEven_intCast, ← hdiv]
      field_simp
    rw [F64.round_of_ne_zero hq, hr]
    have hb := abs_lt.mp hlt
    have h1 : ¬ pow2 1024 ≤ q := not_le.mpr hb.2
    have h2 : ¬ q ≤ -pow2 1024 := not_le.mpr hb.1
    simp only [h1, h2, if_false]

theorem pow2_lit_53 : pow2 53 = 9007199254740992 := by
  rw [pow2_eq_zpow]; norm_num

theorem F64.representable_intCast {k : Int} (h : |k| ≤ 2 ^ 53) : F64.Representable (k : ℚ) := by
  have hbig : |(k : ℚ)| < pow2 1024 := by
    have h1 : |(k : ℚ)| ≤ 2 ^ 53 := by rw [← Int.cast_abs]; exact_mod_cast h
    have h2 : (2 : ℚ) ^ 53 < pow2 1024 := by
      have h3 : pow2 53 < pow2 1024 := pow2_lt_pow2.mpr (by norm_num)
      rw [pow2_lit_53] at h3
      norm_num
      exact h3
    linarith
  by_cases hlt : |k| < 2 ^ 53
  · exact ⟨k, 0, hlt, by norm_num, by simp [pow2], hbig⟩
  · have heq : |k| = 2 ^ 53 := le_antisymm h (not_lt.mp hlt)
    have hdvd : k = 2 * (k / 2) := by
      rcases abs_cases k with ⟨h1, _⟩ | ⟨h1, _⟩ <;> omega
    refine ⟨k / 2, 1, ?_, by norm_num, ?_, hbig⟩
    · rcases abs_cases k with ⟨h1, _⟩ | ⟨h1, _⟩ <;> rcases abs_cases (k / 2) with ⟨h2, _⟩ | ⟨h2, _⟩ <;> omega
    · have : pow2 1 = 2 := by rw [pow2_eq_zpow]; norm_num
      rw [this]
      conv_lhs => rw [hdvd]
      push_cast
      ring

/-- Conversion of an integer of magnitude at most `2^53` is exact. -/
theorem F64.ofInt_exact {k : Int} (h : |k| ≤ 2 ^ 53) : F64.ofInt k = F64.fin (k : ℚ) :=
  F64.round_exact (F64.representable_intCast h)

theorem pow2_lit_52 : pow2 52 = 4503599627370496 := by
  rw [pow2_eq_zpow]; norm_num

/-- Rounding of a positive value below `2^1023`: the result is finite,
representable, within half a unit in the last place, and stays in the closed
binade of the argument. -/
theorem F64.round_pos_spec {q : ℚ} (hq : 0 < q) (hlt : q < pow2 1023) :
    ∃ r : ℚ, F64.round q = F64.fin r ∧ 0 ≤ r ∧ F64.Representable r ∧
      |r - q| ≤ pow2 (max (ilog2 q) (-1022) - 53) ∧
      r ≤ pow2 (max (ilog2 q) (-1022) + 1) ∧
      (-1022 ≤ ilog2 q → pow2 (ilog2 q) ≤ r) := by
  have hq0 : q ≠ 0 := ne_of_gt hq
  obtain ⟨s1, s2⟩ := ilog2_spec hq0
  rw [abs_of_pos hq] at s1 s2
  have hl : ilog2 q < 1023 := pow2_lt_pow2.mp (lt_of_le_of_lt s1 hlt)
  set e := max (ilog2 q) (-1022) with he
  have hupos : 0 < pow2 (e - 52) := pow2_pos _
  have hune : pow2 (e - 52) ≠ 0 := ne_of_gt hupos
  set x := q / pow2 (e - 52) with hx
  have hxnn : 0 ≤ x := div_nonneg (le_of_lt hq) (le_of_lt hupos)
  have hxlt : x ≤ ((9007199254740992 : Int) : ℚ) := by
    rw [hx, div_le_iff₀ hupos]
    have h1 : pow2 (ilog2 q + 1) ≤ pow2 (e + 1) := pow2_le_pow2.mpr (by omega)
    have h2 : pow2 (e + 1) = 9007199254740992 * pow2 (e - 52) := by
      rw [← pow2_lit_53, ← pow2_add]; congr 1; ring
    push_cast
    linarith
  have hk0 : 0 ≤ roundEven x := roundEven_nonneg hxnn
  have hk1 : roundEven x ≤ 9007199254740992 := by
    have := roundEven_mono hxlt
    rwa [roundEven_intCast] at this
  have hk0' : (0 : ℚ) ≤ (roundEven x : ℚ) := by exact_mod_cast hk0
  have hk1' : (roundEven x : ℚ) ≤ 9007199254740992 := by exact_mod_cast hk1
  have hrnn : 0 ≤ (roundEven x : ℚ) * pow2 (e - 52) := mul_nonneg hk0' (le_of_lt hupos)
  have hrle : (roundEven x : ℚ) * pow2 (e - 52) ≤ pow2 (e + 1) := by
    have h2 : pow2 (e + 1) = 9007199254740992 * pow2 (e - 52) := by
      rw [← pow2_lit_53, ← pow2_add]; congr 1; ring
    rw [h2]
    exact mul_le_mul_of_nonneg_right hk1' (le_of_lt hupos)
  have hrlt : (roundEven x : ℚ) * pow2 (e - 52) < pow2 1024 :=
    lt_of_le_of_lt hrle (pow2_lt_pow2.mpr (by omega))
  refine ⟨(roundEven x : ℚ) * pow2 (e - 52), ?_, hrnn, ?_, ?_, hrle, ?_⟩
  · rw [F64.round_of_ne_zero hq0]
    have h1 : ¬ pow2 1024 ≤ (roundEven x : ℚ) * pow2 (e - 52) := not_le.mpr hrlt
    have h2 : ¬ (roundEven x : ℚ) * pow2 (e - 52) ≤ -pow2 1024 := by
      have := pow2_pos 1024
      intro h; linarith
    simp only [← he, ← hx, h1, h2, if_false]
  · have habs : |(roundEven x : ℚ) * pow2 (e - 52)| < pow2 1024 := by
      rw [abs_of_nonneg hrnn]; exact hrlt
    by_cases hkk : roundEven x < 9007199254740992
    · refine ⟨roundEven x, e - 52, ?_, by omega, rfl, habs⟩
      rw [abs_of_nonneg hk0]; norm_num; exact hkk
    · have hkeq : roundEven x = 9007199254740992 := le_antisymm hk1 (not_lt.mp hkk)
      refine ⟨4503599627370496, e - 51, by norm_num, by omega, ?_, habs⟩
      have h3 : pow2 (e - 51) = 2 * pow2 (e - 52) := by
        have : pow2 1 = 2 := by rw [pow2_eq_zpow]; norm_num
        rw [← this, ← pow2_add]; congr 1; ring
      rw [hkeq, h3]; push_cast; ring
  · have hrd := roundEven_sub_le x
    have h4 : pow2 (e - 53) = pow2 (e - 52) / 2 := by
      have : pow2 1 = 2 := by rw [pow2_eq_zpow]; norm_num
      rw [← this, ← pow2_sub]; congr 1; ring
    have h5 : (roundEven x : ℚ) * pow2 (e - 52) - q
        = ((roundEven x : ℚ) - x) * pow2 (e - 52) := by
      rw [hx]; field_simp
    rw [h5, abs_mul, abs_of_pos hupos, h4]
    have := mul_le_mul_of_nonneg_right hrd (le_of_lt hupos)
    linarith
  · intro hnorm
    have hee : e = ilog2 q := by omega
    have hxge : ((4503599627370496 : Int) : ℚ) ≤ x := by
      rw [hx, le_div_iff₀ hupos]
      have h2 : pow2 (ilog2 q) = 4503599627370496 * pow2 (e - 52) := by
        rw [← pow2_lit_52, ← pow2_add]; congr 1; omega
      push_cast
      linarith
    have hk2 := roundEven_mono hxge
    rw [roundEven_intCast] at hk2
    have hk2' : (4503599627370496 : ℚ) ≤ (roundEven x : ℚ) := by exact_mod_cast hk2
    have h2 : pow2 (ilog2 q) = 4503599627370496 * pow2 (e - 52) := by
      rw [← pow2_lit_52, ← pow2_add]; congr 1; omega
    rw [h2]
    exact mul_le_mul_of_nonneg_right hk2' (le_of_lt hupos)

theorem ilog2_lt_of_lt {q : ℚ} {k : Int} (hq : 0 < q) (h : q < pow2 k) : ilog2 q < k := by
  obtain ⟨s1, _⟩ := ilog2_spec (ne_of_gt hq)
  rw [abs_of_pos hq] at s1
  exact pow2_lt_pow2.mp (lt_of_le_of_lt s1 h)

theorem ilog2_nonneg_of_one_le {q : ℚ} (h : 1 ≤ q) : 0 ≤ ilog2 q := by
  have hq : 0 < q := by linarith
  obtain ⟨_, s2⟩ := ilog2_spec (ne_of_gt hq)
  rw [abs_of_pos hq] at s2
  have h0 : pow2 0 = 1 := by simp [pow2]
  have : pow2 0 < pow2 (ilog2 q + 1) := by rw [h0]; linarith
  have := pow2_lt_pow2.mp this
  omega

theorem pow2_lit_63 : pow2 63 = 9223372036854775808 := by
  rw [pow2_eq_zpow]; norm_num

theorem pow2_zero : pow2 0 = 1 := by simp [pow2]

/-- Rounding of a non-negative value up to `2^63`: finite, non-negative, at
most `2^63`, and at least 1 when the argument is. -/
theorem F64.round_nonneg_small {q : ℚ} (h0 : 0 ≤ q) (h1 : q ≤ 9223372036854775808) :
    ∃ r : ℚ, F64.round q = F64.fin r ∧ 0 ≤ r ∧ r ≤ 9223372036854775808 ∧ (1 ≤ q → 1 ≤ r) := by
  rcases eq_or_lt_of_le h0 with hz | hpos
  · subst hz
    exact ⟨0, F64.round_zero, le_refl _, by norm_num, fun h => by norm_num at h⟩
  · have hlt : q < pow2 1023 := by
      have : pow2 63 < pow2 1023 := pow2_lt_pow2.mpr (by norm_num)
      rw [pow2_lit_63] at this
      linarith
    obtain ⟨r, hr, hr0, _, _, hrle, hrge⟩ := F64.round_pos_spec hpos hlt
    refine ⟨r, hr, hr0, ?_, ?_⟩
    · by_cases hq : q = 9223372036854775808
      · have hrep : F64.Representable q := by
          refine ⟨4503599627370496, 11, by norm_num, by norm_num, ?_, ?_⟩
          · rw [hq, pow2_eq_zpow]; norm_num
          · rw [abs_of_pos hpos]; exact lt_trans hlt (pow2_lt_pow2.mpr (by norm_num))
        rw [F64.round_exact hrep] at hr
        injection hr with hr
        rw [← hr, hq]
      · have hq' : q < pow2 63 := by
          rw [pow2_lit_63]; exact lt_of_le_of_ne h1 hq
        have hl := ilog2_lt_of_lt hpos hq'
        have : pow2 (max (ilog2 q) (-1022) + 1) ≤ pow2 63 := pow2_le_pow2.mpr (by omega)
        rw [pow2_lit_63] at this
        linarith
    · intro hone
      have hl := ilog2_nonneg_of_one_le hone
      have h2 := hrge (by omega)
      have : pow2 0 ≤ pow2 (ilog2 q) := pow2_le_pow2.mpr hl
      rw [pow2_zero] at this
      linarith

theorem F64.ofInt_nonneg_small {k : Int} (h0 : 0 ≤ k) (h1 : k ≤ maxInt64) :
    ∃ r : ℚ, F64.ofInt k = F64.fin r ∧ 0 ≤ r ∧ r ≤ 9223372036854775808 ∧ (1 ≤ k → 1 ≤ r) := by
  have a0 : (0 : ℚ) ≤ (k : ℚ) := by exact_mod_cast h0
  have a1 : (k : ℚ) ≤ 9223372036854775808 := by
    unfold maxInt64 at h1
    have : k ≤ 9223372036854775808 := by omega
    exact_mod_cast this
  obtain ⟨r, hr, hr0, hr1, hr2⟩ := F64.round_nonneg_small a0 a1
  exact ⟨r, hr, hr0, hr1, fun h => hr2 (by exact_mod_cast h)⟩

theorem Time.Sub_le (t u : Int) : Time.Sub t u ≤ 9223372036854775807 := by
  unfold Time.Sub minInt64 maxInt64
  split_ifs <;> omega

theorem Time.Sub_ge (t u : Int) : -9223372036854775808 ≤ Time.Sub t u := by
  unfold Time.Sub minInt64 maxInt64
  split_ifs <;> omega

/-- The elapsed fraction computed by `Allow` is a finite number in `[0, 1]`
for every positive window size. -/
theorem SlidingWindow.doneFraction_spec (sw : SlidingWindow) (now : Int)
    (hW : 0 < sw.windowSize) (hW2 : sw.windowSize ≤ maxInt64) :
    ∃ f : ℚ, sw.doneFraction now = F64.fin f ∧ 0 ≤ f ∧ f ≤ 1 := by
  unfold SlidingWindow.doneFraction
  simp only
  set el := Time.Sub now (timeUnixNano (Time.UnixNano (Time.Truncate now sw.windowSize))) with hel
  have hel2 : el ≤ 9223372036854775807 := by
    rw [hel]; exact Time.Sub_le _ _
  set el0 : Int := if el < 0 then 0 else el with hel0
  have h0 : 0 ≤ el0 := by
    by_cases hc : el < 0
    · simp only [hel0, hc, if_true]; exact le_refl _
    · simp only [hel0, hc, if_false]; omega
  have h1 : el0 ≤ maxInt64 := by
    unfold maxInt64
    by_cases hc : el < 0
    · simp only [hel0, hc, if_true]; norm_num
    · simp only [hel0, hc, if_false]; exact hel2
  obtain ⟨a, ha, ha0, ha1, _⟩ := F64.ofInt_nonneg_small h0 h1
  obtain ⟨b, hb, hb0, hb1, hb2⟩ := F64.ofInt_nonneg_small (le_of_lt hW) hW2
  have hb3 : 1 ≤ b := hb2 hW
  have hbne : b ≠ 0 := by linarith
  rw [ha, hb]
  have hq0 : 0 ≤ a / b := div_nonneg ha0 hb0
  have hq1 : a / b ≤ 9223372036854775808 := by
    rw [div_le_iff₀ (by linarith)]
    nlinarith
  obtain ⟨d, hd, hd0, _, _⟩ := F64.round_nonneg_small hq0 hq1
  have hdiv : F64.div (F64.fin a) (F64.fin b) = F64.fin d := by
    simp only [F64.div, hbne, if_false]; exact hd
  rw [hdiv]
  by_cases hgt : F64.gt (F64.fin d) (F64.fin 1) = true
  · simp only [hgt, if_true]
    exact ⟨1, rfl, by norm_num, le_refl _⟩
  · simp only [hgt]
    refine ⟨d, rfl, hd0, ?_⟩
    simp only [F64.gt, F64.lt, decide_eq_true_eq] at hgt
    exact not_lt.mp hgt

/-! ## The guard `n <= 0` -/

/-- C1: for each of the five limiters, in every state, `Allow(n)` with
`n <= 0` returns false and leaves the whole state as it was. -/
theorem allow_nonpositive_is_noop (n : Int) (hn : n ≤ 0)
    (fwc : FixedWindowCounter) (sw : SlidingWindow) (swl : SlidingWindowLog)
    (lb : LeakyBucket) (tb : TokenBucket) (now now2 : Int) :
    fwc.Allow now n = (fwc, false) ∧
    sw.Allow now n = (sw, false) ∧
    swl.Allow now n = some (swl, false) ∧
    lb.Allow now now2 n = (lb, false) ∧
    tb.Allow now n = (tb, false) := by
  simp [FixedWindowCounter.Allow, SlidingWindow.Allow, SlidingWindowLog.Allow,
    LeakyBucket.Allow, TokenBucket.Allow, hn]

theorem allow_nonpositive_is_noop_witness :
    ((-1 : Int) ≤ 0) ∧
    (sampleFixed.Allow sampleNow (-1) = (sampleFixed, false) ∧
      sampleSliding.Allow sampleNow (-1) = (sampleSliding, false) ∧
      sampleLog.Allow sampleNow (-1) = some (sampleLog, false) ∧
      sampleLeaky.Allow sampleNow sampleNow (-1) = (sampleLeaky, false) ∧
      sampleToken.Allow sampleNow (-1) = (sampleToken, false)) :=
  ⟨by decide, allow_nonpositive_is_noop (-1) (by decide) sampleFixed sampleSliding sampleLog
    sampleLeaky sampleToken sampleNow sampleNow⟩

/-! ## FixedWindowCounter -/

/-- C2 (failing input): on the counter built by
`NewFixedWindowCounter(5*time.Second, 3)`, after `Allow(2)` the boundary check
of a second call in the same window leaves `RequestCount = 2`, and
`Allow(9223372036854775807)` returns true although
`RequestCount + n <= MaxRequests` is false; `RequestCount` and
`RequestsAllowed` do not grow by `n`, both end at `-9223372036854775807`.
Likewise two denied calls `Allow(9223372036854775807)` on the new counter
leave `RequestsDenied = -2`, not `2 * n`. -/
theorem FixedWindowCounter.admitted_above_limit_by_wrap :
    NewFixedWindowCounter sampleNow 5000000000 3 = Except.ok sampleFixed ∧
    (sampleFixed.Allow sampleNow 2).2 = true ∧
    ((sampleFixed.Allow sampleNow 2).1.rollover sampleNow).RequestCount = 2 ∧
    ((sampleFixed.Allow sampleNow 2).1.rollover sampleNow).MaxRequests = 3 ∧
    ¬ (((sampleFixed.Allow sampleNow 2).1.rollover sampleNow).RequestCount + 9223372036854775807
        ≤ ((sampleFixed.Allow sampleNow 2).1.rollover sampleNow).MaxRequests) ∧
    ((sampleFixed.Allow sampleNow 2).1.Allow sampleNow 9223372036854775807).2 = true ∧
    ((sampleFixed.Allow sampleNow 2).1.Allow sampleNow 9223372036854775807).1.RequestCount
      = -9223372036854775807 ∧
    ((sampleFixed.Allow sampleNow 2).1.Allow sampleNow 9223372036854775807).1.RequestsAllowed
      = -9223372036854775807 ∧
    ((sampleFixed.Allow sampleNow 2).1.Allow sampleNow 9223372036854775807).1.RequestCount
      ≠ ((sampleFixed.Allow sampleNow 2).1.rollover sampleNow).RequestCount
          + 9223372036854775807 ∧
    (sampleFixed.Allow sampleNow 9223372036854775807).2 = false ∧
    ((sampleFixed.Allow sampleNow 9223372036854775807).1.Allow sampleNow
        9223372036854775807).2 = false ∧
    ((sampleFixed.Allow sampleNow 9223372036854775807).1.Allow sampleNow
        9223372036854775807).1.RequestsDenied = -2 := by
  refine ⟨rfl, ?_, ?_, ?_, ?_, ?_, ?_, ?_, ?_, ?_, ?_, ?_⟩ <;> decide

/-- Scope of the failure of C2: `Allow(n)` with `n > 0`, after the
window-boundary check, returns true exactly when the `int64` sum
`RequestCount + n` is at most `MaxRequests`; an admitted call adds `n` to
`RequestCount` and to `RequestsAllowed` and leaves `RequestsDenied`; a denied
call adds `n` to `RequestsDenied` and leaves the other two. The sums are Go's
`int64` sums (`add64`), which are the mathematical sums whenever these fit in
`int64` (last three parts); the configuration and the window start chosen by
the boundary check are kept. -/
theorem FixedWindowCounter.allow_admission (fwc : FixedWindowCounter) (now : Int) (n : Int)
    (hn : 0 < n) :
    ((fwc.Allow now n).2 = true ↔
      add64 (fwc.rollover now).RequestCount n ≤ (fwc.rollover now).MaxRequests) ∧
    ((fwc.Allow now n).2 = true →
      (fwc.Allow now n).1 =
        { fwc.rollover now with
            RequestCount := add64 (fwc.rollover now).RequestCount n
            RequestsAllowed := add64 (fwc.rollover now).RequestsAllowed n }) ∧
    ((fwc.Allow now n).2 = false →
      (fwc.Allow now n).1 =
        { fwc.rollover now with
            RequestsDenied := add64 (fwc.rollover now).RequestsDenied n }) ∧
    (isInt64 ((fwc.rollover now).RequestCount + n) →
      add64 (fwc.rollover now).RequestCount n = (fwc.rollover now).RequestCount + n) ∧
    (isInt64 ((fwc.rollover now).RequestsAllowed + n) →
      add64 (fwc.rollover now).RequestsAllowed n = (fwc.rollover now).RequestsAllowed + n) ∧
    (isInt64 ((fwc.rollover now).RequestsDenied + n) →
      add64 (fwc.rollover now).RequestsDenied n = (fwc.rollover now).RequestsDenied + n) := by
  have hn' : ¬ n ≤ 0 := not_le.mpr hn
  refine ⟨?_, ?_, ?_, add64_eq_add, add64_eq_add, add64_eq_add⟩
  all_goals
    unfold FixedWindowCounter.Allow
    simp only [hn', if_false]
    by_cases h : add64 (fwc.rollover now).RequestCount n ≤ (fwc.rollover now).MaxRequests
    · simp [h]
    · simp [h]

theorem FixedWindowCounter.allow_admission_witness :
    ((0 : Int) < 2) ∧
    (((sampleFixed.Allow sampleNow 2).2 = true ↔
        add64 (sampleFixed.rollover sampleNow).RequestCount 2 ≤
          (sampleFixed.rollover sampleNow).MaxRequests) ∧
      ((sampleFixed.Allow sampleNow 2).2 = true →
        (sampleFixed.Allow sampleNow 2).1 =
          { sampleFixed.rollover sampleNow with
              RequestCount := add64 (sampleFixed.rollover sampleNow).RequestCount 2
              RequestsAllowed := add64 (sampleFixed.rollover sampleNow).RequestsAllowed 2 }) ∧
      ((sampleFixed.Allow sampleNow 2).2 = false →
        (sampleFixed.Allow sampleNow 2).1 =
          { sampleFixed.rollover sampleNow with
              RequestsDenied := add64 (sampleFixed.rollover sampleNow).RequestsDenied 2 }) ∧
      (isInt64 ((sampleFixed.rollover sampleNow).RequestCount + 2) →
        add64 (sampleFixed.rollover sampleNow).RequestCount 2
          = (sampleFixed.rollover sampleNow).RequestCount + 2) ∧
      (isInt64 ((sampleFixed.rollover sampleNow).RequestsAllowed + 2) →
        add64 (sampleFixed.rollover sampleNow).RequestsAllowed 2
          = (sampleFixed.rollover sampleNow).RequestsAllowed + 2) ∧
      (isInt64 ((sampleFixed.rollover sampleNow).RequestsDenied + 2) →
        add64 (sampleFixed.rollover sampleNow).RequestsDenied 2
          = (sampleFixed.rollover sampleNow).RequestsDenied + 2)) :=
  ⟨by decide, FixedWindowCounter.allow_admission sampleFixed sampleNow 2 (by decide)⟩

/-- C3 (failing input): on the counter built by
`NewFixedWindowCounter(5*time.Second, 3)`, `Allow(2)` followed by
`Allow(9223372036854775807)` in the same window admits both calls, because
`RequestCount + int64(n)` wraps around, and `Stats` then reports the negative
count `-9223372036854775807`. -/
theorem FixedWindowCounter.count_negative_after_overflow :
    NewFixedWindowCounter sampleNow 5000000000 3 = Except.ok sampleFixed ∧
    (sampleFixed.Allow sampleNow 2).2 = true ∧
    ((sampleFixed.Allow sampleNow 2).1.Allow sampleNow 9223372036854775807).2 = true ∧
    ((sampleFixed.Allow sampleNow 2).1.Allow sampleNow 9223372036854775807).1.Stats.1
      = -9223372036854775807 ∧
    ¬ (0 ≤ ((sampleFixed.Allow sampleNow 2).1.Allow sampleNow 9223372036854775807).1.Stats.1) := by
  refine ⟨rfl, ?_, ?_, ?_, ?_⟩ <;> decide

/-- C4 (failing input): with `windowSize = 100ms` and `maxRequests = 1`, one
unit is admitted at `t0 = sampleNow`, a second `Allow(1)` at `t0` is denied,
and an `Allow(1)` at `t0 + windowSize` is denied as well: both times fall in
the same whole second, so `Truncate(...).Unix()` gives the same value and the
count is not reset. -/
theorem FixedWindowCounter.subsecond_window_never_rolls :
    NewFixedWindowCounter sampleNow 100000000 1 = Except.ok sampleFixedFast ∧
    (sampleFixedFast.Allow sampleNow 1).2 = true ∧
    ((sampleFixedFast.Allow sampleNow 1).1.Allow sampleNow 1).2 = false ∧
    sampleNow + 100000000 ≤ sampleNow + 100000000 ∧
    ((sampleFixedFast.Allow sampleNow 1).1.Allow (sampleNow + 100000000) 1).2 = false := by
  refine ⟨rfl, ?_, ?_, ?_, ?_⟩ <;> decide

/-- C5 (failing input): with `windowSize = 100ms`, two consecutive calls at
`t1 = sampleNow` and `t2 = t1 + 100ms` lie in different aligned windows
(`floor(t1/W)*W` and `floor(t2/W)*W` differ), yet the second call's boundary
check does not reset `RequestCount`: it is still 1. -/
theorem FixedWindowCounter.no_reset_across_subsecond_windows :
    sampleNow / 100000000 * 100000000 ≠ (sampleNow + 100000000) / 100000000 * 100000000 ∧
    Time.Truncate sampleNow 100000000 ≠ Time.Truncate (sampleNow + 100000000) 100000000 ∧
    (sampleFixedFast.Allow sampleNow 1).1.RequestCount = 1 ∧
    ((sampleFixedFast.Allow sampleNow 1).1.rollover (sampleNow + 100000000)).RequestCount = 1 := by
  refine ⟨?_, ?_, ?_, ?_⟩ <;> decide


/-! ### Where the fixed window does behave as specified -/

theorem FixedWindowCounter.rollover_config (fwc : FixedWindowCounter) (now : Int) :
    (fwc.rollover now).WindowSize = fwc.WindowSize ∧
    (fwc.rollover now).MaxRequests = fwc.MaxRequests ∧
    (fwc.rollover now).CurrentWindow = Time.Unix (Time.Truncate now fwc.WindowSize) ∧
    ((fwc.rollover now).RequestCount = 0 ∨ (fwc.rollover now).RequestCount = fwc.RequestCount) := by
  unfold FixedWindowCounter.rollover
  simp only
  split_ifs with h
  · exact ⟨rfl, rfl, rfl, Or.inl rfl⟩
  · exact ⟨rfl, rfl, (not_not.mp h).symm, Or.inr rfl⟩

theorem FixedWindowCounter.Allow_pos_fixed (fwc : FixedWindowCounter) (now n : Int) (hn : 0 < n) :
    fwc.Allow now n =
      if add64 (fwc.rollover now).RequestCount n ≤ (fwc.rollover now).MaxRequests then
        ({ fwc.rollover now with
            RequestCount := add64 (fwc.rollover now).RequestCount n
            RequestsAllowed := add64 (fwc.rollover now).RequestsAllowed n }, true)
      else
        ({ fwc.rollover now with
            RequestsDenied := add64 (fwc.rollover now).RequestsDenied n }, false) := by
  have hn' : ¬ n ≤ 0 := not_le.mpr hn
  unfold FixedWindowCounter.Allow
  simp only [hn', if_false]

theorem NewFixedWindowCounter_ok {tc W M : Int} {fwc0 : FixedWindowCounter}
    (h : NewFixedWindowCounter tc W M = Except.ok fwc0) :
    0 < W ∧ 0 < M ∧
    fwc0 = { WindowSize := W, MaxRequests := M,
             CurrentWindow := Time.Unix (Time.Truncate tc W),
             RequestCount := 0, RequestsAllowed := 0, RequestsDenied := 0 } := by
  unfold NewFixedWindowCounter at h
  split_ifs at h with h1 h2
  simp only [Except.ok.injEq] at h
  exact ⟨not_le.mp h1, not_le.mp h2, h.symm⟩

/-- One call keeps `0 <= RequestCount <= MaxRequests` when `n` is small enough
for `RequestCount + n` not to wrap around. -/
theorem FixedWindowCounter.allow_keeps_bounds (fwc : FixedWindowCounter) (now n : Int)
    (hM : 0 < fwc.MaxRequests) (h0 : 0 ≤ fwc.RequestCount)
    (h1 : fwc.RequestCount ≤ fwc.MaxRequests) (hn : n ≤ maxInt64 - fwc.MaxRequests) :
    (fwc.Allow now n).1.MaxRequests = fwc.MaxRequests ∧
    0 ≤ (fwc.Allow now n).1.RequestCount ∧
    (fwc.Allow now n).1.RequestCount ≤ fwc.MaxRequests := by
  by_cases hpos : 0 < n
  · obtain ⟨_, c2, _, c4⟩ := FixedWindowCounter.rollover_config fwc now
    have hb0 : 0 ≤ (fwc.rollover now).RequestCount := by rcases c4 with h | h <;> omega
    have hb1 : (fwc.rollover now).RequestCount ≤ fwc.MaxRequests := by
      rcases c4 with h | h <;> omega
    have hadd : add64 (fwc.rollover now).RequestCount n = (fwc.rollover now).RequestCount + n := by
      apply add64_eq_add
      unfold maxInt64 at hn
      unfold isInt64 minInt64 maxInt64
      constructor <;> omega
    rw [FixedWindowCounter.Allow_pos_fixed fwc now n hpos]
    split_ifs with hc
    · rw [hadd, c2] at hc
      refine ⟨c2, ?_, ?_⟩
      · show 0 ≤ add64 (fwc.rollover now).RequestCount n
        rw [hadd]; omega
      · show add64 (fwc.rollover now).RequestCount n ≤ fwc.MaxRequests
        rw [hadd]; exact hc
    · exact ⟨c2, hb0, hb1⟩
  · have hle : n ≤ 0 := not_lt.mp hpos
    have e : fwc.Allow now n = (fwc, false) := by
      unfold FixedWindowCounter.Allow
      simp only [hle, if_true]
    rw [e]
    exact ⟨rfl, h0, h1⟩

/-- Scope of the failure of C3: on a counter built by `NewFixedWindowCounter`,
every sequence of calls whose sizes are at most `MaxInt64 - MaxRequests` keeps
`0 <= RequestCount <= MaxRequests`. -/
theorem FixedWindowCounter.count_bounds_without_overflow (tc W M : Int)
    (fwc0 : FixedWindowCounter) (hnew : NewFixedWindowCounter tc W M = Except.ok fwc0)
    (calls : List (Int × Int)) (hsmall : ∀ c ∈ calls, c.2 ≤ maxInt64 - M) :
    0 ≤ (fwc0.run calls).Stats.1 ∧ (fwc0.run calls).Stats.1 ≤ (fwc0.run calls).Stats.2.1 := by
  obtain ⟨_, hM, h0⟩ := NewFixedWindowCounter_ok hnew
  have key : ∀ (calls : List (Int × Int)) (s : FixedWindowCounter), s.MaxRequests = M →
      0 ≤ s.RequestCount → s.RequestCount ≤ M → (∀ c ∈ calls, c.2 ≤ maxInt64 - M) →
      (s.run calls).MaxRequests = M ∧ 0 ≤ (s.run calls).RequestCount ∧
        (s.run calls).RequestCount ≤ M := by
    intro calls
    induction calls with
    | nil => intro s h1 h2 h3 _; exact ⟨h1, h2, h3⟩
    | cons c cs ih =>
      intro s h1 h2 h3 hs
      obtain ⟨a1, a2, a3⟩ := FixedWindowCounter.allow_keeps_bounds s c.1 c.2
        (by rw [h1]; exact hM) h2 (by rw [h1]; exact h3)
        (by rw [h1]; exact hs c (List.mem_cons_self _ _))
      exact ih (s.Allow c.1 c.2).1 (by rw [a1, h1]) a2 (by rw [← h1]; exact a3)
        (fun x hx => hs x (List.mem_cons_of_mem _ hx))
  have z1 : fwc0.MaxRequests = M := by rw [h0]
  have z2 : fwc0.RequestCount = 0 := by rw [h0]
  obtain ⟨k1, k2, k3⟩ := key calls fwc0 z1 (by rw [z2]) (by rw [z2]; omega) hsmall
  simp only [FixedWindowCounter.Stats]
  exact ⟨k2, by rw [k1]; exact k3⟩

/-- For a window of one second or more, two window starts have the same
`Unix()` value only if they are the same window start. -/
theorem unix_truncate_inj (W t1 t2 : Int) (hW : 1000000000 ≤ W)
    (h : Time.Unix (Time.Truncate t1 W) = Time.Unix (Time.Truncate t2 W)) :
    Time.Truncate t1 W = Time.Truncate t2 W := by
  have hWpos : ¬ W ≤ 0 := by omega
  unfold Time.Unix at h
  unfold Time.Truncate at h ⊢
  simp only [hWpos, if_false] at h ⊢
  have e1 : t1 - t1 % W = W * (t1 / W) := by have := Int.ediv_add_emod t1 W; omega
  have e2 : t2 - t2 % W = W * (t2 / W) := by have := Int.ediv_add_emod t2 W; omega
  rw [e1, e2] at h ⊢
  by_contra hne
  have hq : t1 / W ≠ t2 / W := fun hq => hne (by rw [hq])
  rcases lt_or_gt_of_ne hq with hlt | hgt
  · have : W * (t1 / W) + W ≤ W * (t2 / W) := by nlinarith
    omega
  · have : W * (t2 / W) + W ≤ W * (t1 / W) := by nlinarith
    omega

theorem truncate_lt_of_add_le (W t0 t : Int) (hW : 0 < W) (ht : t0 + W ≤ t) :
    Time.Truncate t0 W ≠ Time.Truncate t W := by
  have hWpos : ¬ W ≤ 0 := by omega
  unfold Time.Truncate
  simp only [hWpos, if_false]
  have a1 := Int.emod_nonneg t0 (ne_of_gt hW)
  have a2 := Int.emod_lt_of_pos t0 hW
  have a3 := Int.emod_nonneg t (ne_of_gt hW)
  have a4 := Int.emod_lt_of_pos t hW
  omega

/-- Scope of the failure of C5: for a window of one second or more, the
boundary check of a call at `t2` that follows a call at `t1` resets
`RequestCount` exactly when `t1` and `t2` lie in different aligned windows,
and otherwise leaves the state as it is. -/
theorem FixedWindowCounter.reset_iff_new_window_of_whole_seconds (fwc : FixedWindowCounter)
    (t1 t2 n1 : Int) (hn1 : 0 < n1) (hW : 1000000000 ≤ fwc.WindowSize) :
    ((fwc.Allow t1 n1).1.rollover t2) =
      if Time.Truncate t1 fwc.WindowSize ≠ Time.Truncate t2 fwc.WindowSize then
        { (fwc.Allow t1 n1).1 with
            CurrentWindow := Time.Unix (Time.Truncate t2 fwc.WindowSize)
            RequestCount := 0 }
      else (fwc.Allow t1 n1).1 := by
  obtain ⟨c1, _, c3, _⟩ := FixedWindowCounter.rollover_config fwc t1
  have hs : (fwc.Allow t1 n1).1.WindowSize = fwc.WindowSize ∧
      (fwc.Allow t1 n1).1.CurrentWindow = Time.Unix (Time.Truncate t1 fwc.WindowSize) := by
    rw [FixedWindowCounter.Allow_pos_fixed fwc t1 n1 hn1]
    split_ifs <;> exact ⟨c1, c3⟩
  obtain ⟨s1, s2⟩ := hs
  unfold FixedWindowCounter.rollover
  simp only [s1, s2]
  by_cases heq : Time.Truncate t1 fwc.WindowSize = Time.Truncate t2 fwc.WindowSize
  · simp only [heq, ne_eq, not_true_eq_false, if_false]
  · have hne : Time.Unix (Time.Truncate t2 fwc.WindowSize)
        ≠ Time.Unix (Time.Truncate t1 fwc.WindowSize) :=
      fun h => heq (unix_truncate_inj _ _ _ hW h.symm)
    simp only [hne, heq, ne_eq, not_false_eq_true, if_true]

theorem FixedWindowCounter.FilledTo.rollover_eq_fixed {W M t0 p : Int} {s : FixedWindowCounter}
    (h : FixedWindowCounter.FilledTo W M t0 p s) : s.rollover t0 = s := by
  obtain ⟨h1, _, h3, _⟩ := h
  unfold FixedWindowCounter.rollover
  simp only [h1, h3, ne_eq, not_true_eq_false, if_false]

theorem FixedWindowCounter.FilledTo.allow_admit_fixed {W M t0 p n : Int} {s : FixedWindowCounter}
    (h : FixedWindowCounter.FilledTo W M t0 p s) (hM : M ≤ maxInt64) (hp : 0 ≤ p)
    (hn : 0 < n) (hsum : p + n ≤ M) :
    (s.Allow t0 n).2 = true ∧ FixedWindowCounter.FilledTo W M t0 (p + n) (s.Allow t0 n).1 := by
  have hroll := h.rollover_eq_fixed
  obtain ⟨h1, h2, h3, h4⟩ := h
  have hadd : add64 s.RequestCount n = p + n := by
    rw [h4]
    apply add64_eq_add
    unfold maxInt64 at hM
    unfold isInt64 minInt64 maxInt64
    constructor <;> omega
  have hc : add64 (s.rollover t0).RequestCount n ≤ (s.rollover t0).MaxRequests := by
    rw [hroll, hadd, h2]; exact hsum
  rw [FixedWindowCounter.Allow_pos_fixed s t0 n hn, if_pos hc, hroll]
  exact ⟨rfl, h1, h2, h3, hadd⟩

theorem FixedWindowCounter.FilledTo.run_admits_fixed {W M t0 : Int} (hM : M ≤ maxInt64)
    (ks : List Int) :
    ∀ (s : FixedWindowCounter) (p : Int), FixedWindowCounter.FilledTo W M t0 p s → 0 ≤ p →
      (∀ x ∈ ks, 0 < x) → p + ks.sum ≤ M →
      (∀ b ∈ s.results (ks.map (fun x => (t0, x))), b = true) ∧
      FixedWindowCounter.FilledTo W M t0 (p + ks.sum) (s.run (ks.map (fun x => (t0, x)))) := by
  induction ks with
  | nil =>
    intro s p h _ _ _
    simp only [List.map_nil, FixedWindowCounter.results, FixedWindowCounter.run, List.sum_nil,
      add_zero]
    exact ⟨fun b hb => by simp at hb, h⟩
  | cons x xs ih =>
    intro s p h hp hpos hsum
    have hx : 0 < x := hpos x (List.mem_cons_self _ _)
    have hxs : ∀ y ∈ xs, 0 < y := fun y hy => hpos y (List.mem_cons_of_mem _ hy)
    have hxsum : 0 ≤ xs.sum := List.sum_nonneg (fun y hy => le_of_lt (hxs y hy))
    rw [List.sum_cons] at hsum
    obtain ⟨a1, a2⟩ := h.allow_admit_fixed hM hp hx (by omega)
    obtain ⟨b1, b2⟩ := ih (s.Allow t0 x).1 (p + x) a2 (by omega) hxs (by omega)
    simp only [List.map_cons, FixedWindowCounter.results, FixedWindowCounter.run, List.sum_cons]
    constructor
    · intro b hb
      rcases List.mem_cons.mp hb with hb | hb
      · rw [hb]; exact a1
      · exact b1 b hb
    · have : p + (x + xs.sum) = p + x + xs.sum := by ring
      rw [this]; exact b2

theorem FixedWindowCounter.rollover_idem_fixed (fwc : FixedWindowCounter) (now : Int) :
    (fwc.rollover now).rollover now = fwc.rollover now := by
  unfold FixedWindowCounter.rollover
  simp only
  split_ifs <;> simp_all

theorem FixedWindowCounter.Allow_rollover_fixed (fwc : FixedWindowCounter) (now n : Int)
    (hn : 0 < n) : (fwc.rollover now).Allow now n = fwc.Allow now n := by
  rw [FixedWindowCounter.Allow_pos_fixed _ now n hn, FixedWindowCounter.Allow_pos_fixed _ now n hn,
    FixedWindowCounter.rollover_idem_fixed]

/-- Scope of the failure of C4: for a window of one second or more and a
limit below `MaxInt64`, on a new counter, calls at `t0` with positive sizes
adding up to `M` are all admitted, a further `Allow(1)` at `t0` is denied, and
every `Allow(k)` with `1 <= k <= M` at a time `t >= t0 + W` returns true. -/
theorem FixedWindowCounter.window_reset_of_whole_seconds
    (tc t0 t W M k : Int) (ks : List Int) (fwc0 : FixedWindowCounter)
    (hnew : NewFixedWindowCounter tc W M = Except.ok fwc0)
    (hW : 1000000000 ≤ W) (hM : M < maxInt64)
    (hks : ∀ x ∈ ks, 0 < x) (hsum : ks.sum = M)
    (ht : t0 + W ≤ t) (hk1 : 1 ≤ k) (hk2 : k ≤ M) :
    (∀ b ∈ fwc0.results (ks.map (fun x => (t0, x))), b = true) ∧
    ((fwc0.run (ks.map (fun x => (t0, x)))).Allow t0 1).2 = false ∧
    ((fwc0.run (ks.map (fun x => (t0, x)))).Allow t k).2 = true := by
  obtain ⟨hW0, hM0, h0⟩ := NewFixedWindowCounter_ok hnew
  have hMle : M ≤ maxInt64 := le_of_lt hM
  have hfill : FixedWindowCounter.FilledTo W M t0 0 (fwc0.rollover t0) := by
    obtain ⟨c1, c2, c3, c4⟩ := FixedWindowCounter.rollover_config fwc0 t0
    have z1 : fwc0.WindowSize = W := by rw [h0]
    have z2 : fwc0.MaxRequests = M := by rw [h0]
    have z3 : fwc0.RequestCount = 0 := by rw [h0]
    refine ⟨by rw [c1, z1], by rw [c2, z2], by rw [c3, z1], ?_⟩
    rcases c4 with h | h
    · exact h
    · rw [h, z3]
  have hrun : fwc0.run (ks.map (fun x => (t0, x)))
        = (fwc0.rollover t0).run (ks.map (fun x => (t0, x))) ∧
      fwc0.results (ks.map (fun x => (t0, x)))
        = (fwc0.rollover t0).results (ks.map (fun x => (t0, x))) := by
    cases ks with
    | nil => simp at hsum; omega
    | cons x xs =>
      have hx : 0 < x := hks x (List.mem_cons_self _ _)
      simp [FixedWindowCounter.run, FixedWindowCounter.results,
        FixedWindowCounter.Allow_rollover_fixed fwc0 t0 x hx]
  obtain ⟨e1, e2⟩ := hrun
  obtain ⟨r1, r2⟩ := FixedWindowCounter.FilledTo.run_admits_fixed hMle ks (fwc0.rollover t0) 0 hfill
    (le_refl _) hks (by omega)
  rw [zero_add, hsum] at r2
  rw [e1, e2]
  set s := (fwc0.rollover t0).run (ks.map (fun x => (t0, x))) with hs
  have hroll0 := r2.rollover_eq_fixed
  obtain ⟨s1, s2, s3, s4⟩ := r2
  refine ⟨r1, ?_, ?_⟩
  · rw [FixedWindowCounter.Allow_pos_fixed s t0 1 (by norm_num), hroll0]
    have hadd : add64 s.RequestCount 1 = M + 1 := by
      rw [s4]
      apply add64_eq_add
      unfold maxInt64 at hM
      unfold isInt64 minInt64 maxInt64
      constructor <;> omega
    have hc : ¬ add64 s.RequestCount 1 ≤ s.MaxRequests := by rw [hadd, s2]; omega
    rw [if_neg hc]
  · have hne : Time.Unix (Time.Truncate t s.WindowSize) ≠ s.CurrentWindow := by
      rw [s1, s3]
      intro h
      exact truncate_lt_of_add_le W t0 t hW0 ht (unix_truncate_inj W t t0 hW h).symm
    have hroll : (s.rollover t).RequestCount = 0 ∧ (s.rollover t).MaxRequests = M := by
      have e : s.rollover t =
          { s with
              CurrentWindow := Time.Unix (Time.Truncate t s.WindowSize)
              RequestCount := 0 } := by
        unfold FixedWindowCounter.rollover
        simp only [hne, ne_eq, not_false_eq_true, if_true]
      rw [e]
      exact ⟨rfl, s2⟩
    have hadd : add64 (s.rollover t).RequestCount k = k := by
      rw [hroll.1]
      unfold add64
      rw [zero_add]
      apply wrap64_of_isInt64
      unfold maxInt64 at hM
      unfold isInt64 minInt64 maxInt64
      constructor <;> omega
    have hc : add64 (s.rollover t).RequestCount k ≤ (s.rollover t).MaxRequests := by
      rw [hadd, hroll.2]; exact hk2
    rw [FixedWindowCounter.Allow_pos_fixed s t k (by omega), if_pos hc]
/-! ## SlidingWindow -/

theorem SlidingWindow.rollover_windowSize (sw : SlidingWindow) (now : Int) :
    (sw.rollover now).windowSize = sw.windowSize := by
  unfold SlidingWindow.rollover
  simp only
  split_ifs <;> rfl

theorem SlidingWindow.rollover_maxRequests (sw : SlidingWindow) (now : Int) :
    (sw.rollover now).maxRequests = sw.maxRequests := by
  unfold SlidingWindow.rollover
  simp only
  split_ifs <;> rfl

theorem SlidingWindow.rollover_stats (sw : SlidingWindow) (now : Int) :
    (sw.rollover now).requestsAllowed = sw.requestsAllowed ∧
    (sw.rollover now).requestsDenied = sw.requestsDenied := by
  unfold SlidingWindow.rollover
  simp only
  split_ifs <;> exact ⟨rfl, rfl⟩

theorem SlidingWindow.rollover_doneFraction (sw : SlidingWindow) (now t : Int) :
    (sw.rollover now).doneFraction t = sw.doneFraction t := by
  unfold SlidingWindow.doneFraction
  rw [SlidingWindow.rollover_windowSize]

theorem SlidingWindow.Allow_pos (sw : SlidingWindow) (now n : Int) (hn : 0 < n) :
    sw.Allow now n =
      if F64.le (F64.add ((sw.rollover now).sliding now) (F64.ofInt n))
          (F64.ofInt (sw.rollover now).maxRequests) = true then
        ({ sw.rollover now with
            currentWindowRequests := add64 (sw.rollover now).currentWindowRequests n
            requestsAllowed := add64 (sw.rollover now).requestsAllowed n }, true)
      else
        ({ sw.rollover now with
            requestsDenied := add64 (sw.rollover now).requestsDenied n }, false) := by
  have hn' : ¬ n ≤ 0 := not_le.mpr hn
  unfold SlidingWindow.Allow
  simp only [hn', if_false]

/-- The result of `Allow(n)`, `n > 0`, as the comparison the source makes on
the state left by the rollover step. -/
theorem SlidingWindow.allow_result (sw : SlidingWindow) (now n : Int) (hn : 0 < n) :
    (sw.Allow now n).2 =
      F64.le
        (F64.add
          (F64.add (F64.ofInt (sw.rollover now).currentWindowRequests)
            (F64.mul (F64.sub (F64.fin 1) (sw.doneFraction now))
              (F64.ofInt (sw.rollover now).lastWindowRequests)))
          (F64.ofInt n))
        (F64.ofInt sw.maxRequests) := by
  rw [SlidingWindow.Allow_pos sw now n hn]
  simp only [SlidingWindow.sliding, SlidingWindow.rollover_doneFraction,
    SlidingWindow.rollover_maxRequests]
  split_ifs with h
  · simp [h]
  · simp [h]

theorem SlidingWindow.allow_state_true (sw : SlidingWindow) (now n : Int) (hn : 0 < n)
    (h : (sw.Allow now n).2 = true) :
    (sw.Allow now n).1 =
      { sw.rollover now with
          currentWindowRequests := add64 (sw.rollover now).currentWindowRequests n
          requestsAllowed := add64 (sw.rollover now).requestsAllowed n } := by
  rw [SlidingWindow.Allow_pos sw now n hn] at h ⊢
  by_cases h1 : F64.le (F64.add ((sw.rollover now).sliding now) (F64.ofInt n))
      (F64.ofInt (sw.rollover now).maxRequests) = true
  · rw [if_pos h1]
  · rw [if_neg h1] at h
    exact absurd h (by simp)

theorem SlidingWindow.allow_state_false (sw : SlidingWindow) (now n : Int) (hn : 0 < n)
    (h : (sw.Allow now n).2 = false) :
    (sw.Allow now n).1 =
      { sw.rollover now with requestsDenied := add64 (sw.rollover now).requestsDenied n } := by
  rw [SlidingWindow.Allow_pos sw now n hn] at h ⊢
  by_cases h1 : F64.le (F64.add ((sw.rollover now).sliding now) (F64.ofInt n))
      (F64.ofInt (sw.rollover now).maxRequests) = true
  · rw [if_pos h1] at h
    exact absurd h (by simp)
  · rw [if_neg h1]

/-- In the range where `UnixNano` is exact, the elapsed time that `Allow`
divides by the window size is `now` minus the start of its window. -/
theorem SlidingWindow.doneFraction_eq (sw : SlidingWindow) (now : Int)
    (hW : 0 < sw.windowSize) (hW2 : sw.windowSize ≤ maxInt64)
    (hr : isInt64 (Time.Truncate now sw.windowSize - unixEpoch)) :
    sw.doneFraction now =
      if F64.gt (F64.div (F64.ofInt (now - Time.Truncate now sw.windowSize))
          (F64.ofInt sw.windowSize)) (F64.fin 1)
      then F64.fin 1
      else F64.div (F64.ofInt (now - Time.Truncate now sw.windowSize)) (F64.ofInt sw.windowSize) := by
  unfold SlidingWindow.doneFraction
  simp only
  have h1 : timeUnixNano (Time.UnixNano (Time.Truncate now sw.windowSize))
      = Time.Truncate now sw.windowSize := by
    unfold timeUnixNano Time.UnixNano
    rw [wrap64_of_isInt64 hr]; ring
  rw [h1]
  have hmod : 0 ≤ now % sw.windowSize ∧ now % sw.windowSize < sw.windowSize :=
    ⟨Int.emod_nonneg _ (ne_of_gt hW), Int.emod_lt_of_pos _ hW⟩
  have h2 : now - Time.Truncate now sw.windowSize = now % sw.windowSize := by
    unfold Time.Truncate
    have : ¬ sw.windowSize ≤ 0 := not_le.mpr hW
    simp only [this, if_false]; ring
  have h3 : Time.Sub now (Time.Truncate now sw.windowSize)
      = now - Time.Truncate now sw.windowSize := by
    unfold Time.Sub
    rw [h2]
    unfold minInt64 maxInt64 at *
    have a1 : ¬ now % sw.windowSize < -9223372036854775808 := by omega
    have a2 : ¬ 9223372036854775807 < now % sw.windowSize := by omega
    simp only [a1, a2, if_false]
  rw [h3, h2]
  have a3 : ¬ now % sw.windowSize < 0 := by omega
  simp only [a3, if_false]

theorem SlidingWindow.units_cons_true (sw : SlidingWindow) (c : Int × Int)
    (cs : List (Int × Int)) (h : (sw.Allow c.1 c.2).2 = true) :
    sw.acceptedUnits (c :: cs) = c.2 + (sw.Allow c.1 c.2).1.acceptedUnits cs ∧
    sw.rejectedUnits (c :: cs) = (sw.Allow c.1 c.2).1.rejectedUnits cs := by
  simp [SlidingWindow.acceptedUnits, SlidingWindow.rejectedUnits, h]

theorem SlidingWindow.units_cons_false (sw : SlidingWindow) (c : Int × Int)
    (cs : List (Int × Int)) (h : (sw.Allow c.1 c.2).2 = false) :
    sw.acceptedUnits (c :: cs) = (sw.Allow c.1 c.2).1.acceptedUnits cs ∧
    sw.rejectedUnits (c :: cs) = c.2 + (sw.Allow c.1 c.2).1.rejectedUnits cs := by
  simp [SlidingWindow.acceptedUnits, SlidingWindow.rejectedUnits, h]

theorem SlidingWindow.run_counters (calls : List (Int × Int)) :
    ∀ sw : SlidingWindow, (∀ c ∈ calls, 0 < c.2) →
      isInt64 sw.requestsAllowed → isInt64 sw.requestsDenied →
      (sw.run calls).requestsAllowed = wrap64 (sw.requestsAllowed + sw.acceptedUnits calls) ∧
      (sw.run calls).requestsDenied = wrap64 (sw.requestsDenied + sw.rejectedUnits calls) := by
  induction calls with
  | nil =>
    intro sw _ ha hd
    simp only [SlidingWindow.run, SlidingWindow.acceptedUnits, SlidingWindow.rejectedUnits,
      add_zero]
    exact ⟨(wrap64_of_isInt64 ha).symm, (wrap64_of_isInt64 hd).symm⟩
  | cons c cs ih =>
    intro sw hpos ha hd
    have hc : 0 < c.2 := hpos c (List.mem_cons_self _ _)
    have hrest : ∀ x ∈ cs, 0 < x.2 := fun x hx => hpos x (List.mem_cons_of_mem _ hx)
    obtain ⟨r1, r2⟩ := SlidingWindow.rollover_stats sw c.1
    have hrun : sw.run (c :: cs) = (sw.Allow c.1 c.2).1.run cs := rfl
    rw [hrun]
    rcases Bool.eq_false_or_eq_true (sw.Allow c.1 c.2).2 with hres | hres
    · have hst := SlidingWindow.allow_state_true sw c.1 c.2 hc hres
      have e1 : (sw.Allow c.1 c.2).1.requestsAllowed = add64 sw.requestsAllowed c.2 := by
        rw [hst, ← r1]
      have e2 : (sw.Allow c.1 c.2).1.requestsDenied = sw.requestsDenied := by
        rw [hst, ← r2]
      obtain ⟨i1, i2⟩ := ih (sw.Allow c.1 c.2).1 hrest
        (by rw [e1]; exact wrap64_isInt64 _) (by rw [e2]; exact hd)
      obtain ⟨u1, u2⟩ := SlidingWindow.units_cons_true sw c cs hres
      rw [i1, i2, e1, e2, u1, u2]
      refine ⟨?_, rfl⟩
      unfold add64 wrap64; omega
    · have hst := SlidingWindow.allow_state_false sw c.1 c.2 hc hres
      have e1 : (sw.Allow c.1 c.2).1.requestsAllowed = sw.requestsAllowed := by
        rw [hst, ← r1]
      have e2 : (sw.Allow c.1 c.2).1.requestsDenied = add64 sw.requestsDenied c.2 := by
        rw [hst, ← r2]
      obtain ⟨i1, i2⟩ := ih (sw.Allow c.1 c.2).1 hrest
        (by rw [e1]; exact ha) (by rw [e2]; exact wrap64_isInt64 _)
      obtain ⟨u1, u2⟩ := SlidingWindow.units_cons_false sw c cs hres
      rw [i1, i2, e1, e2, u1, u2]
      refine ⟨rfl, ?_⟩
      unfold add64 wrap64; omega

theorem NewSlidingWindow_ok {tc W M : Int} {sw0 : SlidingWindow}
    (h : NewSlidingWindow tc W M = Except.ok sw0) :
    0 < W ∧ 0 < M ∧
    sw0 = { windowSize := W, maxRequests := M,
            currentWindow := Time.UnixNano (Time.Truncate tc W),
            lastWindowRequests := 0, currentWindowRequests := 0, RequestCount := 0,
            PrevCount := 0, requestsAllowed := 0, requestsDenied := 0 } := by
  unfold NewSlidingWindow at h
  split_ifs at h with h1 h2
  simp only [Except.ok.injEq] at h
  exact ⟨not_le.mp h1, not_le.mp h2, h.symm⟩

/-- C6 (counterexample): on `NewSlidingWindow(7*24*time.Hour, 32)`, three
units are admitted in the first week and `Allow(16)` in the last nanosecond
of the second week. For a further `Allow(16)` at that instant the rollover
step leaves `currentWindowRequests = 16` and `lastWindowRequests = 3`, the
elapsed fraction is `f = 604799999999999 / 604800000000000`, and
`currentWindowRequests + (1 - f) * lastWindowRequests + n` exceeds
`maxRequests = 32`; yet the call returns true. -/
theorem SlidingWindow.admitted_above_exact_estimate :
    NewSlidingWindow sampleNow 604800000000000 32 = Except.ok sampleSlidingWeek ∧
    sampleSlidingWeek.results [(sampleNow, 3), (sampleNow + 1043199949999999, 16)]
      = [true, true] ∧
    ((sampleSlidingWeek.run [(sampleNow, 3), (sampleNow + 1043199949999999, 16)]).rollover
      (sampleNow + 1043199949999999)).currentWindowRequests = 16 ∧
    ((sampleSlidingWeek.run [(sampleNow, 3), (sampleNow + 1043199949999999, 16)]).rollover
      (sampleNow + 1043199949999999)).lastWindowRequests = 3 ∧
    ((sampleSlidingWeek.run [(sampleNow, 3), (sampleNow + 1043199949999999, 16)]).rollover
      (sampleNow + 1043199949999999)).exactFraction (sampleNow + 1043199949999999)
        = 604799999999999 / 604800000000000 ∧
    (32 : ℚ) <
      ((sampleSlidingWeek.run [(sampleNow, 3), (sampleNow + 1043199949999999, 16)]).rollover
        (sampleNow + 1043199949999999)).exactEstimate (sampleNow + 1043199949999999) + 16 ∧
    ((sampleSlidingWeek.run [(sampleNow, 3), (sampleNow + 1043199949999999, 16)]).Allow
      (sampleNow + 1043199949999999) 16).2 = true := by
  refine ⟨by rfl, by decide!, by decide!, by decide!, by decide!, by decide!, by decide!⟩

/-- C6 (amended): `Allow(n)` with `n > 0`, after its rollover step, returns true exactly
when `currentWindowRequests + (1 - f) * lastWindowRequests + n <= maxRequests`
in `float64` arithmetic, where `f` is the elapsed time since the start of the
window of `now` divided by `windowSize`, capped at 1 (a finite number in
`[0, 1]` for a positive window size); an admitted call adds `n` to
`currentWindowRequests` and to `requestsAllowed`, a denied call adds `n` to
`requestsDenied` and leaves both window counts (sums as `int64` sums). After
any sequence of calls with `n > 0` on a new limiter, `DetailedStats` reports
the total units of the accepted calls and of the rejected calls, as `int64`
values: the totals themselves whenever they fit in `int64`. -/
theorem SlidingWindow.allow_admission_and_stats
    (sw : SlidingWindow) (now n : Int) (hn : 0 < n)
    (tc W M : Int) (sw0 : SlidingWindow) (calls : List (Int × Int)) (t : Int)
    (hnew : NewSlidingWindow tc W M = Except.ok sw0) (hcalls : ∀ c ∈ calls, 0 < c.2) :
    ((sw.Allow now n).2 =
      F64.le
        (F64.add
          (F64.add (F64.ofInt (sw.rollover now).currentWindowRequests)
            (F64.mul (F64.sub (F64.fin 1) (sw.doneFraction now))
              (F64.ofInt (sw.rollover now).lastWindowRequests)))
          (F64.ofInt n))
        (F64.ofInt sw.maxRequests)) ∧
    (0 < sw.windowSize → sw.windowSize ≤ maxInt64 →
      isInt64 (Time.Truncate now sw.windowSize - unixEpoch) →
      (∃ f : ℚ, sw.doneFraction now = F64.fin f ∧ 0 ≤ f ∧ f ≤ 1) ∧
      sw.doneFraction now =
        if F64.gt (F64.div (F64.ofInt (now - Time.Truncate now sw.windowSize))
            (F64.ofInt sw.windowSize)) (F64.fin 1)
        then F64.fin 1
        else F64.div (F64.ofInt (now - Time.Truncate now sw.windowSize))
          (F64.ofInt sw.windowSize)) ∧
    ((sw.Allow now n).2 = true →
      (sw.Allow now n).1 =
        { sw.rollover now with
            currentWindowRequests := add64 (sw.rollover now).currentWindowRequests n
            requestsAllowed := add64 (sw.rollover now).requestsAllowed n }) ∧
    ((sw.Allow now n).2 = false →
      (sw.Allow now n).1 =
        { sw.rollover now with
            requestsDenied := add64 (sw.rollover now).requestsDenied n }) ∧
    ((sw0.run calls).DetailedStats t).1 = wrap64 (sw0.acceptedUnits calls) ∧
    ((sw0.run calls).DetailedStats t).2.1 = wrap64 (sw0.rejectedUnits calls) ∧
    (isInt64 (sw0.acceptedUnits calls) →
      ((sw0.run calls).DetailedStats t).1 = sw0.acceptedUnits calls) ∧
    (isInt64 (sw0.rejectedUnits calls) →
      ((sw0.run calls).DetailedStats t).2.1 = sw0.rejectedUnits calls) := by
  obtain ⟨_, _, h0⟩ := NewSlidingWindow_ok hnew
  have ha : isInt64 sw0.requestsAllowed := by rw [h0]; unfold isInt64 minInt64 maxInt64; simp
  have hd : isInt64 sw0.requestsDenied := by rw [h0]; unfold isInt64 minInt64 maxInt64; simp
  obtain ⟨c1, c2⟩ := SlidingWindow.run_counters calls sw0 hcalls ha hd
  have z1 : sw0.requestsAllowed = 0 := by rw [h0]
  have z2 : sw0.requestsDenied = 0 := by rw [h0]
  rw [z1, zero_add] at c1
  rw [z2, zero_add] at c2
  refine ⟨SlidingWindow.allow_result sw now n hn, ?_,
    SlidingWindow.allow_state_true sw now n hn, SlidingWindow.allow_state_false sw now n hn,
    c1, c2, fun h => by rw [← wrap64_of_isInt64 h]; exact c1,
    fun h => by rw [← wrap64_of_isInt64 h]; exact c2⟩
  intro hW hW2 hr
  exact ⟨SlidingWindow.doneFraction_spec sw now hW hW2, SlidingWindow.doneFraction_eq sw now hW hW2 hr⟩

theorem SlidingWindow.allow_admission_and_stats_witness :
    ((0 : Int) < 5) ∧
    (NewSlidingWindow sampleNow 100000000 5 = Except.ok sampleSliding) ∧
    (∀ c ∈ [(sampleNow, (5 : Int)), (sampleNow, 1)], 0 < c.2) ∧
    (((sampleSliding.Allow sampleNow 5).2 =
      F64.le
        (F64.add
          (F64.add (F64.ofInt (sampleSliding.rollover sampleNow).currentWindowRequests)
            (F64.mul (F64.sub (F64.fin 1) (sampleSliding.doneFraction sampleNow))
              (F64.ofInt (sampleSliding.rollover sampleNow).lastWindowRequests)))
          (F64.ofInt 5))
        (F64.ofInt sampleSliding.maxRequests)) ∧
    (0 < sampleSliding.windowSize → sampleSliding.windowSize ≤ maxInt64 →
      isInt64 (Time.Truncate sampleNow sampleSliding.windowSize - unixEpoch) →
      (∃ f : ℚ, sampleSliding.doneFraction sampleNow = F64.fin f ∧ 0 ≤ f ∧ f ≤ 1) ∧
      sampleSliding.doneFraction sampleNow =
        if F64.gt (F64.div (F64.ofInt (sampleNow - Time.Truncate sampleNow sampleSliding.windowSize))
            (F64.ofInt sampleSliding.windowSize)) (F64.fin 1)
        then F64.fin 1
        else F64.div (F64.ofInt (sampleNow - Time.Truncate sampleNow sampleSliding.windowSize))
          (F64.ofInt sampleSliding.windowSize)) ∧
    ((sampleSliding.Allow sampleNow 5).2 = true →
      (sampleSliding.Allow sampleNow 5).1 =
        { sampleSliding.rollover sampleNow with
            currentWindowRequests := add64 (sampleSliding.rollover sampleNow).currentWindowRequests 5
            requestsAllowed := add64 (sampleSliding.rollover sampleNow).requestsAllowed 5 }) ∧
    ((sampleSliding.Allow sampleNow 5).2 = false →
      (sampleSliding.Allow sampleNow 5).1 =
        { sampleSliding.rollover sampleNow with
            requestsDenied := add64 (sampleSliding.rollover sampleNow).requestsDenied 5 }) ∧
    ((sampleSliding.run [(sampleNow, 5), (sampleNow, 1)]).DetailedStats sampleNow).1
      = wrap64 (sampleSliding.acceptedUnits [(sampleNow, 5), (sampleNow, 1)]) ∧
    ((sampleSliding.run [(sampleNow, 5), (sampleNow, 1)]).DetailedStats sampleNow).2.1
      = wrap64 (sampleSliding.rejectedUnits [(sampleNow, 5), (sampleNow, 1)]) ∧
    (isInt64 (sampleSliding.acceptedUnits [(sampleNow, 5), (sampleNow, 1)]) →
      ((sampleSliding.run [(sampleNow, 5), (sampleNow, 1)]).DetailedStats sampleNow).1
        = sampleSliding.acceptedUnits [(sampleNow, 5), (sampleNow, 1)]) ∧
    (isInt64 (sampleSliding.rejectedUnits [(sampleNow, 5), (sampleNow, 1)]) →
      ((sampleSliding.run [(sampleNow, 5), (sampleNow, 1)]).DetailedStats sampleNow).2.1
        = sampleSliding.rejectedUnits [(sampleNow, 5), (sampleNow, 1)])) :=
  ⟨by decide, rfl, by decide,
    SlidingWindow.allow_admission_and_stats sampleSliding sampleNow 5 (by decide)
      sampleNow 100000000 5 sampleSliding [(sampleNow, 5), (sampleNow, 1)] sampleNow rfl
      (by decide)⟩

/-- C7 (failing input): `NewSlidingWindow(100*time.Millisecond, 5)` is built at
`sampleNow` (50 ms into its window) and `Allow(5)` is admitted there. The next
call, `Allow(4)` 150 ms later, falls two windows further on, so no unit was
admitted in the window immediately before its own; yet the rollover step
copies the stale count, `lastWindowRequests` is 5 after the call, and the call
is denied. -/
theorem SlidingWindow.stale_carry_over_after_idle_window :
    NewSlidingWindow sampleNow 100000000 5 = Except.ok sampleSliding ∧
    (sampleSliding.Allow sampleNow 5).2 = true ∧
    Time.Truncate (sampleNow + 150000000) 100000000
      = Time.Truncate sampleNow 100000000 + 2 * 100000000 ∧
    ((sampleSliding.Allow sampleNow 5).1.Allow (sampleNow + 150000000) 4).1.lastWindowRequests
      = 5 ∧
    ((sampleSliding.Allow sampleNow 5).1.Allow (sampleNow + 150000000) 4).2 = false := by
  refine ⟨rfl, ?_, ?_, ?_, ?_⟩ <;> decide!

/-- C8 (failing input): with `windowSize = 100ms` and `maxRequests = 5`, five
units are admitted at `t0 = sampleNow` and a further `Allow(1)` at `t0` is
denied; at `t = t0 + windowSize`, in the next window, `Allow(5)` is denied
although `1 <= 5 <= maxRequests`: half of the previous window still counts.
The same happens in the run of `TestAllow` and `TestWindow` when the limiter
is built at the start of a window (`sampleNow - 50ms`): `Allow(3)`,
`Allow(2)` are admitted, `Allow(1)` is denied, and `Allow(4)` 150 ms later,
half-way through the next window, is denied. -/
theorem SlidingWindow.next_window_full_batch_denied :
    NewSlidingWindow sampleNow 100000000 5 = Except.ok sampleSliding ∧
    (sampleSliding.Allow sampleNow 5).2 = true ∧
    ((sampleSliding.Allow sampleNow 5).1.Allow sampleNow 1).2 = false ∧
    sampleNow + 100000000 ≤ sampleNow + 100000000 ∧
    ((sampleSliding.Allow sampleNow 5).1.Allow (sampleNow + 100000000) 5).2 = false ∧
    NewSlidingWindow (sampleNow - 50000000) 100000000 5 = Except.ok sampleSliding ∧
    Time.Truncate (sampleNow - 50000000) 100000000 = sampleNow - 50000000 ∧
    sampleSliding.results
      [(sampleNow - 50000000, 3), (sampleNow - 50000000, 2), (sampleNow - 50000000, 1),
        (sampleNow - 50000000 + 150000000, 4)] = [true, true, false, false] ∧
    Time.Truncate (sampleNow - 50000000 + 150000000) 100000000
      = Time.Truncate (sampleNow - 50000000) 100000000 + 100000000 ∧
    sampleNow - 50000000 + 100000000 ≤ sampleNow - 50000000 + 150000000 := by
  refine ⟨rfl, ?_, ?_, ?_, ?_, rfl, ?_, ?_, ?_, ?_⟩ <;> decide!

theorem F64.ofInt_zero : F64.ofInt 0 = F64.fin 0 := by
  simp [F64.ofInt, F64.round]

theorem SlidingWindow.doneFraction_congr (s s2 : SlidingWindow) (now : Int)
    (h : s.windowSize = s2.windowSize) : s.doneFraction now = s2.doneFraction now := by
  unfold SlidingWindow.doneFraction
  rw [h]

/-- With nothing carried over, the estimate is the current count itself (for
counts up to `2^53`). -/
theorem SlidingWindow.sliding_of_no_carry (s : SlidingWindow) (now p : Int)
    (hW : 0 < s.windowSize) (hW2 : s.windowSize ≤ maxInt64)
    (hl : s.lastWindowRequests = 0) (hc : s.currentWindowRequests = p)
    (hp : |p| ≤ 2 ^ 53) :
    s.sliding now = F64.fin (p : ℚ) := by
  obtain ⟨f, hf, hf0, hf1⟩ := SlidingWindow.doneFraction_spec s now hW hW2
  unfold SlidingWindow.sliding
  simp only
  rw [hl, hc, hf, F64.ofInt_zero, F64.ofInt_exact hp]
  have h1 : (0 : ℚ) ≤ 1 + -f := by linarith
  have h2 : (1 : ℚ) + -f ≤ 9223372036854775808 := by linarith
  obtain ⟨r, hr, _, _, _⟩ := F64.round_nonneg_small h1 h2
  have hsub : F64.sub (F64.fin 1) (F64.fin f) = F64.fin r := by
    simp only [F64.sub, F64.neg, F64.add]; exact hr
  rw [hsub]
  have hmul : F64.mul (F64.fin r) (F64.fin 0) = F64.fin 0 := by
    simp only [F64.mul, mul_zero]; exact F64.round_zero
  rw [hmul]
  simp only [F64.add, add_zero]
  exact F64.round_exact (F64.representable_intCast hp)

theorem SlidingWindow.rollover_idem (sw : SlidingWindow) (now : Int) :
    (sw.rollover now).rollover now = sw.rollover now := by
  unfold SlidingWindow.rollover
  simp only
  split_ifs <;> simp_all

theorem SlidingWindow.Allow_rollover (sw : SlidingWindow) (now n : Int) (hn : 0 < n) :
    (sw.rollover now).Allow now n = sw.Allow now n := by
  rw [SlidingWindow.Allow_pos _ now n hn, SlidingWindow.Allow_pos _ now n hn,
    SlidingWindow.rollover_idem]

theorem SlidingWindow.FilledTo.rollover_eq {W M t0 p : Int} {s : SlidingWindow}
    (h : SlidingWindow.FilledTo W M t0 p s) : s.rollover t0 = s := by
  obtain ⟨h1, _, h3, _, _⟩ := h
  unfold SlidingWindow.rollover
  simp only [h1, h3, ne_eq, not_true_eq_false, if_false]

theorem SlidingWindow.FilledTo.allow_admit {W M t0 p n : Int} {s : SlidingWindow}
    (h : SlidingWindow.FilledTo W M t0 p s) (hW : 0 < W) (hW2 : W ≤ maxInt64)
    (hM : M < 2 ^ 53) (hp : 0 ≤ p) (hn : 0 < n) (hsum : p + n ≤ M) :
    (s.Allow t0 n).2 = true ∧ SlidingWindow.FilledTo W M t0 (p + n) (s.Allow t0 n).1 := by
  have hroll := h.rollover_eq
  obtain ⟨h1, h2, h3, h4, h5⟩ := h
  have hpb : |p| ≤ 2 ^ 53 := by rw [abs_of_nonneg hp]; omega
  have hnb : |n| ≤ 2 ^ 53 := by rw [abs_of_pos hn]; omega
  have hpn : |p + n| ≤ 2 ^ 53 := by rw [abs_of_nonneg (by omega)]; omega
  have hMb : |M| ≤ 2 ^ 53 := by rw [abs_of_nonneg (by omega)]; omega
  have hsl := SlidingWindow.sliding_of_no_carry s t0 p (by rw [h1]; exact hW)
    (by rw [h1]; exact hW2) h4 h5 hpb
  have hcond : F64.le (F64.add ((s.rollover t0).sliding t0) (F64.ofInt n))
      (F64.ofInt (s.rollover t0).maxRequests) = true := by
    rw [hroll, hsl, h2, F64.ofInt_exact hnb, F64.ofInt_exact hMb]
    simp only [F64.add]
    have : ((p : ℚ) + (n : ℚ)) = ((p + n : Int) : ℚ) := by push_cast; ring
    rw [this, F64.round_exact (F64.representable_intCast hpn)]
    simp only [F64.le, decide_eq_true_eq]
    exact_mod_cast hsum
  rw [SlidingWindow.Allow_pos s t0 n hn, if_pos hcond, hroll]
  refine ⟨rfl, h1, h2, h3, h4, ?_⟩
  show add64 s.currentWindowRequests n = p + n
  rw [h5]
  apply add64_eq_add
  unfold isInt64 minInt64 maxInt64
  constructor <;> omega

theorem SlidingWindow.FilledTo.allow_one_denied {W M t0 : Int} {s : SlidingWindow}
    (h : SlidingWindow.FilledTo W M t0 M s) (hW : 0 < W) (hW2 : W ≤ maxInt64)
    (hM0 : 0 < M) (hM : M < 2 ^ 53) :
    (s.Allow t0 1).2 = false := by
  have hroll := h.rollover_eq
  obtain ⟨h1, h2, h3, h4, h5⟩ := h
  have hMb : |M| ≤ 2 ^ 53 := by rw [abs_of_pos hM0]; omega
  have hM1 : |M + 1| ≤ 2 ^ 53 := by rw [abs_of_pos (by omega)]; omega
  have hsl := SlidingWindow.sliding_of_no_carry s t0 M (by rw [h1]; exact hW)
    (by rw [h1]; exact hW2) h4 h5 hMb
  rw [SlidingWindow.allow_result s t0 1 (by norm_num)]
  have hsl' : F64.add (F64.ofInt (s.rollover t0).currentWindowRequests)
      (F64.mul (F64.sub (F64.fin 1) (s.doneFraction t0))
        (F64.ofInt (s.rollover t0).lastWindowRequests)) = F64.fin (M : ℚ) := by
    rw [hroll]; exact hsl
  rw [hsl', h2, F64.ofInt_exact hMb, F64.ofInt_exact (by norm_num : |(1 : Int)| ≤ 2 ^ 53)]
  simp only [F64.add]
  have : ((M : ℚ) + ((1 : Int) : ℚ)) = ((M + 1 : Int) : ℚ) := by push_cast; ring
  rw [this, F64.round_exact (F64.representable_intCast hM1)]
  simp only [F64.le, decide_eq_false_iff_not, not_le]
  exact_mod_cast (by omega : M < M + 1)

theorem SlidingWindow.FilledTo.run_admits {W M t0 : Int} (hW : 0 < W) (hW2 : W ≤ maxInt64)
    (hM : M < 2 ^ 53) (ks : List Int) :
    ∀ (s : SlidingWindow) (p : Int), SlidingWindow.FilledTo W M t0 p s → 0 ≤ p →
      (∀ x ∈ ks, 0 < x) → p + ks.sum ≤ M →
      (∀ b ∈ s.results (ks.map (fun x => (t0, x))), b = true) ∧
      SlidingWindow.FilledTo W M t0 (p + ks.sum) (s.run (ks.map (fun x => (t0, x)))) := by
  induction ks with
  | nil =>
    intro s p h _ _ _
    simp only [List.map_nil, SlidingWindow.results, SlidingWindow.run, List.sum_nil, add_zero]
    exact ⟨fun b hb => by simp at hb, h⟩
  | cons x xs ih =>
    intro s p h hp hpos hsum
    have hx : 0 < x := hpos x (List.mem_cons_self _ _)
    have hxs : ∀ y ∈ xs, 0 < y := fun y hy => hpos y (List.mem_cons_of_mem _ hy)
    have hxsum : 0 ≤ xs.sum := List.sum_nonneg (fun y hy => le_of_lt (hxs y hy))
    rw [List.sum_cons] at hsum
    obtain ⟨a1, a2⟩ := h.allow_admit hW hW2 hM hp hx (by omega)
    obtain ⟨b1, b2⟩ := ih (s.Allow t0 x).1 (p + x) a2 (by omega) hxs (by omega)
    simp only [List.map_cons, SlidingWindow.results, SlidingWindow.run, List.sum_cons]
    constructor
    · intro b hb
      rcases List.mem_cons.mp hb with hb | hb
      · rw [hb]; exact a1
      · exact b1 b hb
    · have : p + (x + xs.sum) = p + x + xs.sum := by ring
      rw [this]; exact b2
theorem SlidingWindow.new_rollover_filled {tc W M : Int} {sw0 : SlidingWindow}
    (hnew : NewSlidingWindow tc W M = Except.ok sw0) (t0 : Int) :
    SlidingWindow.FilledTo W M t0 0 (sw0.rollover t0) := by
  obtain ⟨_, _, h0⟩ := NewSlidingWindow_ok hnew
  subst h0
  unfold SlidingWindow.rollover SlidingWindow.FilledTo
  simp only
  split_ifs with h
  · exact ⟨rfl, rfl, rfl, rfl, rfl⟩
  · exact ⟨rfl, rfl, (not_not.mp h).symm, rfl, rfl⟩

theorem SlidingWindow.run_results_rollover (sw : SlidingWindow) (t0 : Int) (ks : List Int)
    (hks : ∀ x ∈ ks, 0 < x) (hne : ks ≠ []) :
    sw.run (ks.map (fun x => (t0, x))) = (sw.rollover t0).run (ks.map (fun x => (t0, x))) ∧
    sw.results (ks.map (fun x => (t0, x)))
      = (sw.rollover t0).results (ks.map (fun x => (t0, x))) := by
  cases ks with
  | nil => exact absurd rfl hne
  | cons x xs =>
    have hx : 0 < x := hks x (List.mem_cons_self _ _)
    simp [SlidingWindow.run, SlidingWindow.results, SlidingWindow.Allow_rollover sw t0 x hx]

/-- Scope of the failure of C8: for a window size `W > 0` and a limit
`0 < M < 2^53`, on a new limiter, calls at time `t0` with positive sizes
that add up to `M` are all admitted and a further `Allow(1)` at `t0` is denied; an `Allow(k)`, `k >= 1`,
at a time `t` in the window that follows the window of `t0` carries the count
`M` over and returns true exactly when `(1 - f) * M + k <= M` in `float64`,
`f` being the elapsed fraction of the new window at `t`. -/
theorem SlidingWindow.full_window_then_next_window
    (tc t0 t W M k : Int) (ks : List Int) (sw0 : SlidingWindow)
    (hnew : NewSlidingWindow tc W M = Except.ok sw0)
    (hW2 : W ≤ maxInt64) (hM : M < 2 ^ 53)
    (hks : ∀ x ∈ ks, 0 < x) (hsum : ks.sum = M)
    (ht : Time.Truncate t W = Time.Truncate t0 W + W) (hk : 1 ≤ k) :
    (∀ b ∈ sw0.results (ks.map (fun x => (t0, x))), b = true) ∧
    ((sw0.run (ks.map (fun x => (t0, x)))).Allow t0 1).2 = false ∧
    ((sw0.run (ks.map (fun x => (t0, x)))).Allow t k).2 =
      F64.le
        (F64.add
          (F64.add (F64.ofInt 0)
            (F64.mul (F64.sub (F64.fin 1) (sw0.doneFraction t)) (F64.ofInt M)))
          (F64.ofInt k))
        (F64.ofInt M) := by
  obtain ⟨hW, hM0, h0⟩ := NewSlidingWindow_ok hnew
  have hne : ks ≠ [] := by
    intro h; rw [h] at hsum; simp at hsum; omega
  obtain ⟨e1, e2⟩ := SlidingWindow.run_results_rollover sw0 t0 ks hks hne
  have hfill := SlidingWindow.new_rollover_filled hnew t0
  obtain ⟨r1, r2⟩ := SlidingWindow.FilledTo.run_admits hW hW2 hM ks (sw0.rollover t0) 0 hfill
    (le_refl _) hks (by omega)
  rw [zero_add, hsum] at r2
  rw [e1, e2]
  refine ⟨r1, r2.allow_one_denied hW hW2 hM0 hM, ?_⟩
  set s := (sw0.rollover t0).run (ks.map (fun x => (t0, x))) with hs
  obtain ⟨s1, s2, s3, s4, s5⟩ := r2
  have hroll : s.rollover t =
      { s with
          lastWindowRequests := s.currentWindowRequests
          currentWindowRequests := 0
          currentWindow := Time.UnixNano (Time.Truncate t s.windowSize) } := by
    unfold SlidingWindow.rollover
    have hneq : Time.UnixNano (Time.Truncate t s.windowSize) ≠ s.currentWindow := by
      rw [s1, s3, ht]
      unfold Time.UnixNano wrap64
      unfold maxInt64 at hW2
      omega
    simp only [hneq, ne_eq, not_false_eq_true, if_true]
  have hw0 : sw0.windowSize = W := by rw [h0]
  rw [SlidingWindow.allow_result s t k (by omega), hroll, s2]
  simp only
  rw [s5, SlidingWindow.doneFraction_congr s sw0 t (by rw [s1, hw0])]

theorem SlidingWindow.full_window_then_next_window_witness :
    (NewSlidingWindow sampleNow 100000000 5 = Except.ok sampleSliding) ∧
    ((100000000 : Int) ≤ maxInt64) ∧ ((5 : Int) < 2 ^ 53) ∧
    (∀ x ∈ [(3 : Int), 2], 0 < x) ∧ ([(3 : Int), 2].sum = 5) ∧
    (Time.Truncate (sampleNow + 100000000) 100000000
      = Time.Truncate sampleNow 100000000 + 100000000) ∧ ((1 : Int) ≤ 2) ∧
    ((∀ b ∈ sampleSliding.results ([(3 : Int), 2].map (fun x => (sampleNow, x))), b = true) ∧
    ((sampleSliding.run ([(3 : Int), 2].map (fun x => (sampleNow, x)))).Allow sampleNow 1).2
      = false ∧
    ((sampleSliding.run ([(3 : Int), 2].map (fun x => (sampleNow, x)))).Allow
        (sampleNow + 100000000) 2).2 =
      F64.le
        (F64.add
          (F64.add (F64.ofInt 0)
            (F64.mul (F64.sub (F64.fin 1) (sampleSliding.doneFraction (sampleNow + 100000000)))
              (F64.ofInt 5)))
          (F64.ofInt 2))
        (F64.ofInt 5)) :=
  ⟨rfl, by decide, by decide, by decide, by decide, by decide, by decide,
    SlidingWindow.full_window_then_next_window sampleNow sampleNow (sampleNow + 100000000)
      100000000 5 2 [3, 2] sampleSliding rfl (by decide) (by decide) (by decide) (by decide)
      (by decide) (by decide)⟩

/-! ## Deque -/

theorem mod_add_inj {a i j n : Nat} (hi : i < n) (hj : j < n)
    (h : (a + i) % n = (a + j) % n) : i = j := by
  have h1 : i ≡ j [MOD n] := Nat.ModEq.add_left_cancel' a h
  unfold Nat.ModEq at h1
  rwa [Nat.mod_eq_of_lt hi, Nat.mod_eq_of_lt hj] at h1

theorem Deque.toList_length {α : Type} [Inhabited α] (d : Deque α) :
    d.toList.length = d.size := by
  simp [Deque.toList]

theorem Deque.NewDeque_spec (α : Type) [Inhabited α] :
    (NewDeque α).WF ∧ (NewDeque α).toList = [] := by
  constructor
  · simp [NewDeque, Deque.WF]
  · simp [NewDeque, Deque.toList]

/-- `PushBack` on a deque with a free cell writes behind the last element. -/
theorem Deque.pushBack_of_lt {α : Type} [Inhabited α] (d : Deque α) (x : α)
    (hwf : d.WF) (hlt : d.size < d.items.length) :
    ∃ d1, d.PushBack x = some d1 ∧ d1.WF ∧ d1.toList = d.toList ++ [x] ∧
      d1.size = d.size + 1 := by
  obtain ⟨h0, hf, _⟩ := hwf
  have hne : ¬ d.size = d.items.length := Nat.ne_of_lt hlt
  have hlen0 : ¬ d.items.length = 0 := Nat.ne_of_gt h0
  have hback : (d.front + d.size) % d.items.length < d.items.length := Nat.mod_lt _ h0
  refine ⟨{ items := d.items.set ((d.front + d.size) % d.items.length) x, front := d.front,
            size := d.size + 1 }, ?_, ?_, ?_, rfl⟩
  · unfold Deque.PushBack
    simp only [hne, if_false, hlen0, hback, if_true]
  · refine ⟨?_, ?_, ?_⟩
    · simp only [List.length_set]; exact h0
    · simp only [List.length_set]; exact hf
    · simp only [List.length_set]; omega
  · unfold Deque.toList
    simp only [List.length_set]
    rw [List.range_succ, List.map_append]
    congr 1
    · apply List.map_congr_left
      intro i hi
      have hi' : i < d.size := List.mem_range.mp hi
      have hneq : (d.front + d.size) % d.items.length ≠ (d.front + i) % d.items.length := by
        intro h
        have := mod_add_inj hlt (lt_trans hi' hlt) h
        omega
      rw [List.getElem?_set_ne hneq]
    · simp only [List.map_cons, List.map_nil]
      rw [List.getElem?_set_self hback]
      rfl

/-- The copying loop of `resize` fills the cells `i .. i+k-1` of the new
buffer with the elements at offsets `i .. i+k-1` from `front`. -/
theorem Deque.resizeLoop_spec {α : Type} (d : Deque α) (hwf : d.WF) :
    ∀ (k i : Nat) (newItems : List α), i + k ≤ newItems.length →
      ∃ r, d.resizeLoop k i newItems = some r ∧ r.length = newItems.length ∧
        (∀ j, j < i → r[j]? = newItems[j]?) ∧
        (∀ j, i ≤ j → j < i + k → r[j]? = d.items[(d.front + j) % d.items.length]?) := by
  obtain ⟨h0, _, _⟩ := hwf
  have hlen0 : ¬ d.items.length = 0 := Nat.ne_of_gt h0
  intro k
  induction k with
  | zero =>
    intro i newItems _
    exact ⟨newItems, rfl, rfl, fun _ _ => rfl, fun j h1 h2 => by omega⟩
  | succ k ih =>
    intro i newItems hle
    have hidx : (d.front + i) % d.items.length < d.items.length := Nat.mod_lt _ h0
    have hi : i < newItems.length := by omega
    obtain ⟨r, hr, hrl, hr1, hr2⟩ := ih (i + 1)
      (newItems.set i (d.items[(d.front + i) % d.items.length]))
      (by simp only [List.length_set]; omega)
    refine ⟨r, ?_, ?_, ?_, ?_⟩
    · unfold Deque.resizeLoop
      simp only [hlen0, if_false, List.getElem?_eq_getElem hidx, hi, if_true]
      exact hr
    · rw [hrl, List.length_set]
    · intro j hj
      rw [hr1 j (by omega), List.getElem?_set_ne (by omega)]
    · intro j h1 h2
      rcases Nat.eq_or_lt_of_le h1 with heq | hlt
      · subst heq
        rw [hr1 i (by omega), List.getElem?_set_self hi, List.getElem?_eq_getElem hidx]
      · exact hr2 j (by omega) (by omega)

theorem Deque.resize_spec {α : Type} [Inhabited α] (d : Deque α) (hwf : d.WF) :
    ∃ d1, d.resize = some d1 ∧ d1.WF ∧ d1.toList = d.toList ∧ d1.size = d.size ∧
      d1.items.length = d.items.length * 2 ∧ d1.front = 0 := by
  obtain ⟨r, hr, hrl, _, hr2⟩ := Deque.resizeLoop_spec d hwf d.size 0
    (List.replicate (d.items.length * 2) default)
    (by simp only [List.length_replicate]; have := hwf.2.2; omega)
  obtain ⟨h0, hf, hs⟩ := hwf
  simp only [List.length_replicate] at hrl
  refine ⟨{ d with items := r, front := 0 }, ?_, ?_, ?_, rfl, hrl, rfl⟩
  · unfold Deque.resize
    simp only [hr]
  · exact ⟨by simp only [hrl]; omega, by simp only [hrl]; omega, by simp only [hrl]; omega⟩
  · unfold Deque.toList
    simp only [hrl, Nat.zero_add]
    apply List.map_congr_left
    intro i hi
    have hi' : i < d.size := List.mem_range.mp hi
    rw [Nat.mod_eq_of_lt (by omega : i < d.items.length * 2), hr2 i (Nat.zero_le _) (by omega)]

/-- `PushBack(x)` on a well-formed deque never panics and appends `x`, also
when the buffer is full and has to grow. -/
theorem Deque.pushBack_spec {α : Type} [Inhabited α] (d : Deque α) (x : α) (hwf : d.WF) :
    ∃ d1, d.PushBack x = some d1 ∧ d1.WF ∧ d1.toList = d.toList ++ [x] ∧
      d1.size = d.size + 1 := by
  by_cases hfull : d.size = d.items.length
  · obtain ⟨d1, h1, hwf1, hl1, hs1, hlen1, _⟩ := Deque.resize_spec d hwf
    have hlt : d1.size < d1.items.length := by
      rw [hs1, hlen1, hfull]; have := hwf.1; omega
    obtain ⟨d2, h2, hwf2, hl2, hs2⟩ := Deque.pushBack_of_lt d1 x hwf1 hlt
    refine ⟨d2, ?_, hwf2, by rw [hl2, hl1], by rw [hs2, hs1]⟩
    have hne : ¬ d1.size = d1.items.length := Nat.ne_of_lt hlt
    unfold Deque.PushBack at h2 ⊢
    simp only [hfull, if_true, h1]
    simp only [hne, if_false] at h2
    exact h2
  · have hlt : d.size < d.items.length := lt_of_le_of_ne hwf.2.2 hfull
    exact Deque.pushBack_of_lt d x hwf hlt

/-- On a non-empty well-formed deque `PeekFront` returns the first element
and `PopFront` returns it and removes it. -/
theorem Deque.popFront_spec {α : Type} [Inhabited α] (d : Deque α) (hwf : d.WF)
    (hne : d.size ≠ 0) :
    ∃ x d1, d.PopFront = some ((x, true), d1) ∧ d.PeekFront = some (x, true) ∧ d1.WF ∧
      d.toList = x :: d1.toList ∧ d1.size = d.size - 1 := by
  obtain ⟨h0, hf, hs⟩ := hwf
  have hlen0 : ¬ d.items.length = 0 := Nat.ne_of_gt h0
  refine ⟨d.items[d.front],
    { items := d.items.set d.front default, front := (d.front + 1) % d.items.length,
      size := d.size - 1 }, ?_, ?_, ?_, ?_, rfl⟩
  · unfold Deque.PopFront
    simp only [hne, if_false, List.getElem?_eq_getElem hf, hlen0]
  · unfold Deque.PeekFront
    simp only [hne, if_false, List.getElem?_eq_getElem hf]
  · refine ⟨?_, ?_, ?_⟩
    · simp only [List.length_set]; exact h0
    · simp only [List.length_set]; exact Nat.mod_lt _ h0
    · simp only [List.length_set]; omega
  · unfold Deque.toList
    simp only [List.length_set]
    have hsz : d.size = (d.size - 1) + 1 := by omega
    conv_lhs => rw [hsz, List.range_succ_eq_map]
    simp only [List.map_cons, List.map_map, Nat.add_zero]
    congr 1
    · rw [Nat.mod_eq_of_lt hf, List.getElem?_eq_getElem hf]; rfl
    · apply List.map_congr_left
      intro i hi
      have hi' : i < d.size - 1 := List.mem_range.mp hi
      have hidx : ((d.front + 1) % d.items.length + i) % d.items.length
          = (d.front + (i + 1)) % d.items.length := by
        rw [Nat.mod_add_mod]; congr 1; omega
      have hneq : d.front ≠ (d.front + (i + 1)) % d.items.length := by
        intro h
        have h2 : (d.front + (i + 1)) % d.items.length = (d.front + 0) % d.items.length := by
          rw [← h, Nat.add_zero, Nat.mod_eq_of_lt hf]
        have := mod_add_inj (by omega) h0 h2
        omega
      simp only [Function.comp, Nat.succ_eq_add_one]
      rw [hidx, List.getElem?_set_ne hneq]

/-! ## SlidingWindowLog -/

theorem Deque.toList_eq_nil {α : Type} [Inhabited α] (d : Deque α) (h : d.size = 0) :
    d.toList = [] := by
  simp [Deque.toList, h]

/-- On a non-decreasing list, dropping the leading entries `<= w` is the same
as keeping the entries `> w`. -/
theorem dropWhile_le_eq_filter (w : Int) (l : List Int) (hs : l.Pairwise (· ≤ ·)) :
    l.dropWhile (fun t => decide (t ≤ w)) = l.filter (fun t => decide (w < t)) := by
  induction l with
  | nil => rfl
  | cons a l ih =>
    obtain ⟨ha, hl⟩ := List.pairwise_cons.mp hs
    by_cases h : a ≤ w
    · have h' : ¬ w < a := not_lt.mpr h
      simp only [List.dropWhile_cons, h, decide_True, if_true, List.filter_cons, h',
        decide_False, Bool.false_eq_true, if_false]
      exact ih hl
    · have h' : w < a := not_le.mp h
      simp only [List.dropWhile_cons, h, decide_False, Bool.false_eq_true, if_false,
        List.filter_cons, h', decide_True, if_true]
      congr 1
      symm
      apply List.filter_eq_self.mpr
      intro b hb
      have := ha b hb
      simp only [decide_eq_true_eq]
      omega

/-- The purge loop, given at least `size + 1` iterations of fuel, ends
without a panic and drops the leading entries that are not after
`windowStart`. -/
theorem SlidingWindowLog.purge_spec (ws : Int) :
    ∀ (fuel : Nat) (d : Deque Int), d.WF → d.size + 1 ≤ fuel →
      ∃ d1, SlidingWindowLog.purge ws fuel d = some d1 ∧ d1.WF ∧
        d1.toList = d.toList.dropWhile (fun t => decide (t ≤ ws)) := by
  intro fuel
  induction fuel with
  | zero => intro d _ h; omega
  | succ fuel ih =>
    intro d hwf hfuel
    by_cases hsz : d.size = 0
    · refine ⟨d, ?_, hwf, ?_⟩
      · unfold SlidingWindowLog.purge
        simp only [Deque.IsEmpty, hsz, decide_True, if_true]
      · rw [Deque.toList_eq_nil d hsz]; rfl
    · obtain ⟨x, d1, hpop, hpeek, hwf1, hl, hs1⟩ := Deque.popFront_spec d hwf hsz
      by_cases hafter : ws < x
      · refine ⟨d, ?_, hwf, ?_⟩
        · unfold SlidingWindowLog.purge
          simp only [Deque.IsEmpty, hsz, decide_False, Bool.false_eq_true, if_false, hpeek,
            Bool.not_true, Time.After, hafter, decide_True, if_true]
        · have : ¬ x ≤ ws := not_le.mpr hafter
          rw [hl]
          simp only [List.dropWhile_cons, this, decide_False, Bool.false_eq_true, if_false]
      · obtain ⟨d2, h2, hwf2, hl2⟩ := ih d1 hwf1 (by omega)
        refine ⟨d2, ?_, hwf2, ?_⟩
        · unfold SlidingWindowLog.purge
          simp only [Deque.IsEmpty, hsz, decide_False, Bool.false_eq_true, if_false, hpeek,
            Bool.not_true, Time.After, hafter, hpop]
          exact h2
        · have : x ≤ ws := not_lt.mp hafter
          rw [hl2, hl]
          simp only [List.dropWhile_cons, this, decide_True, if_true]

theorem SlidingWindowLog.pushN_spec (now : Int) :
    ∀ (k : Nat) (d : Deque Int), d.WF →
      ∃ d1, SlidingWindowLog.pushN now k d = some d1 ∧ d1.WF ∧
        d1.toList = d.toList ++ List.replicate k now := by
  intro k
  induction k with
  | zero =>
    intro d hwf
    exact ⟨d, rfl, hwf, by simp⟩
  | succ k ih =>
    intro d hwf
    obtain ⟨d1, h1, hwf1, hl1, _⟩ := Deque.pushBack_spec d now hwf
    obtain ⟨d2, h2, hwf2, hl2⟩ := ih d1 hwf1
    refine ⟨d2, ?_, hwf2, ?_⟩
    · unfold SlidingWindowLog.pushN
      simp only [h1]
      exact h2
    · rw [hl2, hl1, List.append_assoc]
      rfl

theorem neg64_eq_neg {w : Int} (h1 : minInt64 < w) (h2 : w ≤ maxInt64) : neg64 w = -w := by
  unfold neg64 wrap64
  unfold minInt64 at h1
  unfold maxInt64 at h2
  omega

/-- The full description of `Allow(n)`, `n > 0`, on a well-formed log with
non-decreasing timestamps. -/
theorem SlidingWindowLog.allow_spec (sw : SlidingWindowLog) (now n : Int) (hn : 0 < n)
    (hwf : sw.requestLog.WF) (hsorted : sw.requestLog.toList.Pairwise (· ≤ ·))
    (hW1 : minInt64 < sw.windowSize) (hW2 : sw.windowSize ≤ maxInt64) :
    ∃ d1 : Deque Int, d1.WF ∧
      (add64 ((sw.requestLog.toList.filter
          (fun t => decide (now - sw.windowSize < t))).length : Int) n ≤ sw.maxRequests →
        sw.Allow now n = some ({ sw with requestLog := d1 }, true) ∧
        d1.toList = sw.requestLog.toList.filter (fun t => decide (now - sw.windowSize < t))
          ++ List.replicate n.toNat now) ∧
      (¬ add64 ((sw.requestLog.toList.filter
          (fun t => decide (now - sw.windowSize < t))).length : Int) n ≤ sw.maxRequests →
        sw.Allow now n = some ({ sw with requestLog := d1 }, false) ∧
        d1.toList = sw.requestLog.toList.filter (fun t => decide (now - sw.windowSize < t))) := by
  have hn' : ¬ n ≤ 0 := not_le.mpr hn
  obtain ⟨d, hd, hwfd, hld⟩ := SlidingWindowLog.purge_spec (now - sw.windowSize)
    (sw.requestLog.size + 1) sw.requestLog hwf (le_refl _)
  rw [dropWhile_le_eq_filter _ _ hsorted] at hld
  have hws : Time.Add now (neg64 sw.windowSize) = now - sw.windowSize := by
    rw [neg64_eq_neg hW1 hW2]; unfold Time.Add; ring
  have hsize : (d.Size : Int) = ((sw.requestLog.toList.filter
      (fun t => decide (now - sw.windowSize < t))).length : Int) := by
    rw [← hld, Deque.toList_length]; rfl
  by_cases hc : add64 ((sw.requestLog.toList.filter
      (fun t => decide (now - sw.windowSize < t))).length : Int) n ≤ sw.maxRequests
  · obtain ⟨d1, h1, hwf1, hl1⟩ := SlidingWindowLog.pushN_spec now n.toNat d hwfd
    refine ⟨d1, hwf1, ?_, fun h => absurd hc h⟩
    intro _
    refine ⟨?_, by rw [hl1, hld]⟩
    unfold SlidingWindowLog.Allow
    simp only [hn', if_false, hws, hd, hsize, hc, if_true, h1]
  · refine ⟨d, hwfd, fun h => absurd h hc, ?_⟩
    intro _
    refine ⟨?_, hld⟩
    unfold SlidingWindowLog.Allow
    simp only [hn', if_false, hws, hd, hsize, hc]

/-- One `Allow` call at a time `now` not before the entries of the log keeps
the log well formed and non-decreasing, with every entry at most `now`; a
call with `n > 0` leaves only entries after `now - windowSize`; and the log
stays within `maxRequests` when `size + n` cannot overflow. -/
theorem SlidingWindowLog.allow_step (s : SlidingWindowLog) (now n T : Int)
    (hW : 0 < s.windowSize) (hW2 : s.windowSize ≤ maxInt64)
    (hwf : s.requestLog.WF) (hsorted : s.requestLog.toList.Pairwise (· ≤ ·))
    (hT : ∀ t ∈ s.requestLog.toList, t ≤ T) (hle : T ≤ now) :
    ∃ r : SlidingWindowLog × Bool, s.Allow now n = some r ∧
      r.1.windowSize = s.windowSize ∧ r.1.maxRequests = s.maxRequests ∧
      r.1.requestLog.WF ∧ r.1.requestLog.toList.Pairwise (· ≤ ·) ∧
      (∀ t ∈ r.1.requestLog.toList, t ≤ now) ∧
      (0 < n → ∀ t ∈ r.1.requestLog.toList, now - s.windowSize < t) ∧
      (n ≤ maxInt64 - s.maxRequests → (s.requestLog.toList.length : Int) ≤ s.maxRequests →
        (r.1.requestLog.toList.length : Int) ≤ s.maxRequests) := by
  by_cases hn : n ≤ 0
  · refine ⟨(s, false), ?_, rfl, rfl, hwf, hsorted, fun t ht => le_trans (hT t ht) hle,
      fun h => absurd h (not_lt.mpr hn), fun _ h => h⟩
    unfold SlidingWindowLog.Allow
    simp only [hn, if_true]
  · have hn0 : 0 < n := not_le.mp hn
    have hW1 : minInt64 < s.windowSize := by unfold minInt64; omega
    obtain ⟨d1, hwf1, hyes, hno⟩ :=
      SlidingWindowLog.allow_spec s now n hn0 hwf hsorted hW1 hW2
    have hkeptS : (s.requestLog.toList.filter
        (fun t => decide (now - s.windowSize < t))).Pairwise (· ≤ ·) :=
      List.Pairwise.filter _ hsorted
    have hkeptT : ∀ t ∈ s.requestLog.toList.filter (fun t => decide (now - s.windowSize < t)),
        t ≤ now ∧ now - s.windowSize < t := by
      intro t ht
      obtain ⟨h1, h2⟩ := List.mem_filter.mp ht
      exact ⟨le_trans (hT t h1) hle, by simpa using h2⟩
    have hkeptL : (s.requestLog.toList.filter
        (fun t => decide (now - s.windowSize < t))).length ≤ s.requestLog.toList.length :=
      List.length_filter_le _ _
    by_cases hc : add64 ((s.requestLog.toList.filter
        (fun t => decide (now - s.windowSize < t))).length : Int) n ≤ s.maxRequests
    · obtain ⟨hA, hL⟩ := hyes hc
      refine ⟨({ s with requestLog := d1 }, true), hA, rfl, rfl, hwf1, ?_, ?_, ?_, ?_⟩
      · show d1.toList.Pairwise (· ≤ ·)
        rw [hL, List.pairwise_append]
        refine ⟨hkeptS, List.pairwise_replicate.mpr (Or.inr (le_refl _)), ?_⟩
        intro a ha b hb
        rw [List.eq_of_mem_replicate hb]
        exact (hkeptT a ha).1
      · intro t ht
        change t ∈ d1.toList at ht
        rw [hL] at ht
        rcases List.mem_append.mp ht with h | h
        · exact (hkeptT t h).1
        · rw [List.eq_of_mem_replicate h]
      · intro _ t ht
        change t ∈ d1.toList at ht
        rw [hL] at ht
        rcases List.mem_append.mp ht with h | h
        · exact (hkeptT t h).2
        · rw [List.eq_of_mem_replicate h]; omega
      · intro hsmall hlen
        show (d1.toList.length : Int) ≤ s.maxRequests
        rw [hL, List.length_append, List.length_replicate]
        have hk : ((s.requestLog.toList.filter
            (fun t => decide (now - s.windowSize < t))).length : Int) ≤ s.maxRequests := by
          have : ((s.requestLog.toList.filter
            (fun t => decide (now - s.windowSize < t))).length : Int)
              ≤ (s.requestLog.toList.length : Int) := by exact_mod_cast hkeptL
          omega
        have hrange : isInt64 (((s.requestLog.toList.filter
            (fun t => decide (now - s.windowSize < t))).length : Int) + n) := by
          have hsmall2 := hsmall
          unfold maxInt64 at hsmall2
          unfold isInt64 minInt64 maxInt64
          constructor <;> omega
        rw [add64_eq_add hrange] at hc
        push_cast
        rw [Int.toNat_of_nonneg (le_of_lt hn0)]
        exact hc
    · obtain ⟨hA, hL⟩ := hno hc
      refine ⟨({ s with requestLog := d1 }, false), hA, rfl, rfl, hwf1, ?_, ?_, ?_, ?_⟩
      · show d1.toList.Pairwise (· ≤ ·)
        rw [hL]; exact hkeptS
      · intro t ht
        change t ∈ d1.toList at ht
        rw [hL] at ht
        exact (hkeptT t ht).1
      · intro _ t ht
        change t ∈ d1.toList at ht
        rw [hL] at ht
        exact (hkeptT t ht).2
      · intro _ hlen
        show (d1.toList.length : Int) ≤ s.maxRequests
        rw [hL]
        have : ((s.requestLog.toList.filter
            (fun t => decide (now - s.windowSize < t))).length : Int)
              ≤ (s.requestLog.toList.length : Int) := by exact_mod_cast hkeptL
        omega

theorem SlidingWindowLog.run_invariant (W M : Int) (hW : 0 < W) (hW2 : W ≤ maxInt64)
    (now n : Int) (calls : List (Int × Int)) :
    ∀ (s : SlidingWindowLog) (T : Int), s.windowSize = W → s.maxRequests = M →
      s.requestLog.WF → s.requestLog.toList.Pairwise (· ≤ ·) →
      (∀ t ∈ s.requestLog.toList, t ≤ T) →
      (T :: (calls ++ [(now, n)]).map Prod.fst).Pairwise (· ≤ ·) →
      ∃ s1, s.run (calls ++ [(now, n)]) = some s1 ∧
        s1.requestLog.toList.Pairwise (· ≤ ·) ∧
        (∀ t ∈ s1.requestLog.toList, t ≤ now) ∧
        (0 < n → ∀ t ∈ s1.requestLog.toList, now - W < t) ∧
        ((∀ c ∈ calls ++ [(now, n)], c.2 ≤ maxInt64 - M) →
          (s.requestLog.toList.length : Int) ≤ M →
          (s1.requestLog.toList.length : Int) ≤ M) := by
  induction calls with
  | nil =>
    intro s T hsW hsM hwf hsorted hT htimes
    have hle : T ≤ now := by
      simp only [List.nil_append, List.map_cons, List.map_nil, List.pairwise_cons] at htimes
      exact htimes.1 now (List.mem_singleton.mpr rfl)
    obtain ⟨r, hr, _, _, _, r4, r5, r6, r7⟩ := SlidingWindowLog.allow_step s now n T
      (by rw [hsW]; exact hW) (by rw [hsW]; exact hW2) hwf hsorted hT hle
    refine ⟨r.1, ?_, r4, r5, ?_, ?_⟩
    · simp only [List.nil_append, SlidingWindowLog.run, hr]
    · rw [← hsW]; exact r6
    · intro hsmall hlen
      rw [← hsM]
      exact r7 (by rw [hsM]; exact hsmall (now, n) (by simp)) (by rw [hsM]; exact hlen)
  | cons c cs ih =>
    intro s T hsW hsM hwf hsorted hT htimes
    simp only [List.cons_append, List.map_cons, List.pairwise_cons] at htimes
    obtain ⟨hTall, hc1, hrest⟩ := htimes
    have hle : T ≤ c.1 := hTall c.1 (List.mem_cons_self _ _)
    obtain ⟨r, hr, r1, r2, r3, r4, r5, _, r7⟩ := SlidingWindowLog.allow_step s c.1 c.2 T
      (by rw [hsW]; exact hW) (by rw [hsW]; exact hW2) hwf hsorted hT hle
    obtain ⟨s1, h1, a1, a2, a3, a4⟩ := ih r.1 c.1 (by rw [r1, hsW]) (by rw [r2, hsM]) r3 r4 r5
      (by
        simp only [List.pairwise_cons]
        exact ⟨hc1, hrest⟩)
    refine ⟨s1, ?_, a1, a2, a3, ?_⟩
    · simp only [List.cons_append, SlidingWindowLog.run, hr]
      exact h1
    · intro hsmall hlen
      apply a4 (fun x hx => hsmall x (List.mem_cons_of_mem _ hx))
      rw [← hsM]
      exact r7 (by rw [hsM]; exact hsmall c (by simp)) (by rw [hsM]; exact hlen)

/-- Scope of the failure of C9: with unbounded memory, `Allow(n)` with
`n > 0` at time `now`, on a well-formed log with non-decreasing timestamps,
does not panic; it first removes exactly the entries `t <= now - windowSize`,
keeping the others in order (`filter`); then, with `k` the number of kept
entries, if the `int64` sum `k + n` is at most `maxRequests` it appends `n`
copies of `now` and returns true, and otherwise it returns false and leaves
exactly the kept entries. The other fields are unchanged. -/
theorem SlidingWindowLog.allow_purges_then_admits
    (sw : SlidingWindowLog) (now n : Int) (hn : 0 < n)
    (hwf : sw.requestLog.WF) (hsorted : sw.requestLog.toList.Pairwise (· ≤ ·))
    (hW1 : minInt64 < sw.windowSize) (hW2 : sw.windowSize ≤ maxInt64) :
    ∃ d1 : Deque Int, d1.WF ∧
      (add64 ((sw.requestLog.toList.filter
          (fun t => decide (now - sw.windowSize < t))).length : Int) n ≤ sw.maxRequests →
        sw.Allow now n = some ({ sw with requestLog := d1 }, true) ∧
        d1.toList = sw.requestLog.toList.filter (fun t => decide (now - sw.windowSize < t))
          ++ List.replicate n.toNat now) ∧
      (¬ add64 ((sw.requestLog.toList.filter
          (fun t => decide (now - sw.windowSize < t))).length : Int) n ≤ sw.maxRequests →
        sw.Allow now n = some ({ sw with requestLog := d1 }, false) ∧
        d1.toList = sw.requestLog.toList.filter (fun t => decide (now - sw.windowSize < t))) :=
  SlidingWindowLog.allow_spec sw now n hn hwf hsorted hW1 hW2

theorem SlidingWindowLog.allow_purges_then_admits_witness :
    ((0 : Int) < 2) ∧ sampleLogTwo.requestLog.WF ∧
    sampleLogTwo.requestLog.toList.Pairwise (· ≤ ·) ∧
    (minInt64 < sampleLogTwo.windowSize) ∧ (sampleLogTwo.windowSize ≤ maxInt64) ∧
    (∃ d1 : Deque Int, d1.WF ∧
      (add64 ((sampleLogTwo.requestLog.toList.filter
          (fun t => decide (sampleNow + 120000000 - sampleLogTwo.windowSize < t))).length : Int)
          2 ≤ sampleLogTwo.maxRequests →
        sampleLogTwo.Allow (sampleNow + 120000000) 2
          = some ({ sampleLogTwo with requestLog := d1 }, true) ∧
        d1.toList = sampleLogTwo.requestLog.toList.filter
            (fun t => decide (sampleNow + 120000000 - sampleLogTwo.windowSize < t))
          ++ List.replicate (2 : Int).toNat (sampleNow + 120000000)) ∧
      (¬ add64 ((sampleLogTwo.requestLog.toList.filter
          (fun t => decide (sampleNow + 120000000 - sampleLogTwo.windowSize < t))).length : Int)
          2 ≤ sampleLogTwo.maxRequests →
        sampleLogTwo.Allow (sampleNow + 120000000) 2
          = some ({ sampleLogTwo with requestLog := d1 }, false) ∧
        d1.toList = sampleLogTwo.requestLog.toList.filter
            (fun t => decide (sampleNow + 120000000 - sampleLogTwo.windowSize < t)))) :=
  ⟨by decide, by unfold Deque.WF; decide, by decide, by decide, by decide,
    SlidingWindowLog.allow_purges_then_admits sampleLogTwo (sampleNow + 120000000) 2 (by decide)
      (by unfold Deque.WF; decide) (by decide) (by decide) (by decide)⟩

/-- C10 (counterexample): on `NewSlidingWindowLog(100*time.Millisecond, 3)`,
`Allow(1)` at `sampleNow` followed by `Allow(0)` 200 ms later (non-decreasing
times): the second call returns before the purge, so after it the log still
holds the timestamp `sampleNow`, which is not after `now - windowSize`. -/
theorem SlidingWindowLog.stale_entry_after_allow_zero :
    NewSlidingWindowLog 100000000 3 = Except.ok sampleLog ∧
    sampleNow ≤ sampleNow + 200000000 ∧
    (sampleLog.run [(sampleNow, 1), (sampleNow + 200000000, 0)]).map
      (fun s => s.requestLog.toList) = some [sampleNow] ∧
    ¬ (sampleNow + 200000000 - 100000000 < sampleNow) := by
  refine ⟨rfl, ?_, ?_, ?_⟩ <;> decide

/-- C10 (amended): on a limiter built by `NewSlidingWindowLog`, for every
sequence of `Allow` calls at non-decreasing times, no call panics and after
each call, made at time `now` with argument `n`: the log's timestamps are
non-decreasing and none is later than `now`; when `n > 0` every logged
timestamp is after `now - windowSize`; and the log holds at most
`maxRequests` entries provided every call so far had
`n <= MaxInt64 - maxRequests`. -/
theorem SlidingWindowLog.log_invariants (W M : Int) (sw0 : SlidingWindowLog)
    (calls : List (Int × Int)) (now n : Int)
    (hnew : NewSlidingWindowLog W M = Except.ok sw0) (hW2 : W ≤ maxInt64)
    (htimes : ((calls ++ [(now, n)]).map Prod.fst).Pairwise (· ≤ ·)) :
    ∃ s1, sw0.run (calls ++ [(now, n)]) = some s1 ∧
      s1.requestLog.toList.Pairwise (· ≤ ·) ∧
      (∀ t ∈ s1.requestLog.toList, t ≤ now) ∧
      (0 < n → ∀ t ∈ s1.requestLog.toList, now - W < t) ∧
      ((∀ c ∈ calls ++ [(now, n)], c.2 ≤ maxInt64 - M) →
        (s1.requestLog.toList.length : Int) ≤ M) := by
  unfold NewSlidingWindowLog at hnew
  split_ifs at hnew with h1 h2
  simp only [Except.ok.injEq] at hnew
  have hW : 0 < W := not_le.mp h1
  have hM : 0 < M := not_le.mp h2
  obtain ⟨hwf0, hl0⟩ := Deque.NewDeque_spec Int
  have hsW : sw0.windowSize = W := by rw [← hnew]
  have hsM : sw0.maxRequests = M := by rw [← hnew]
  have hlog : sw0.requestLog = NewDeque Int := by rw [← hnew]
  have hT : ∃ T, (T :: (calls ++ [(now, n)]).map Prod.fst).Pairwise (· ≤ ·) := by
    cases calls with
    | nil =>
      refine ⟨now, ?_⟩
      simp
    | cons c cs =>
      refine ⟨c.1, ?_⟩
      simp only [List.cons_append, List.map_cons, List.pairwise_cons] at htimes ⊢
      refine ⟨?_, htimes⟩
      intro a ha
      rcases List.mem_cons.mp ha with h | h
      · rw [h]
      · exact htimes.1 a h
  obtain ⟨T, hTp⟩ := hT
  obtain ⟨s1, r1, r2, r3, r4, r5⟩ := SlidingWindowLog.run_invariant W M hW hW2 now n calls
    sw0 T hsW hsM (by rw [hlog]; exact hwf0) (by rw [hlog, hl0]; exact List.Pairwise.nil)
    (by rw [hlog, hl0]; intro t ht; simp at ht) hTp
  refine ⟨s1, r1, r2, r3, r4, ?_⟩
  intro hsmall
  apply r5 hsmall
  rw [hlog, hl0]
  simp only [List.length_nil, Nat.cast_zero]
  omega

theorem SlidingWindowLog.log_invariants_witness :
    (NewSlidingWindowLog 100000000 3 = Except.ok sampleLog) ∧
    ((100000000 : Int) ≤ maxInt64) ∧
    ((([(sampleNow, (2 : Int))] ++ [(sampleNow + 120000000, (2 : Int))]).map
      Prod.fst).Pairwise (· ≤ ·)) ∧
    (∃ s1, sampleLog.run ([(sampleNow, 2)] ++ [(sampleNow + 120000000, 2)]) = some s1 ∧
      s1.requestLog.toList.Pairwise (· ≤ ·) ∧
      (∀ t ∈ s1.requestLog.toList, t ≤ sampleNow + 120000000) ∧
      ((0 : Int) < 2 → ∀ t ∈ s1.requestLog.toList, sampleNow + 120000000 - 100000000 < t) ∧
      ((∀ c ∈ [(sampleNow, (2 : Int))] ++ [(sampleNow + 120000000, (2 : Int))],
          c.2 ≤ maxInt64 - 3) →
        (s1.requestLog.toList.length : Int) ≤ 3)) :=
  ⟨rfl, by decide, by decide,
    SlidingWindowLog.log_invariants 100000000 3 sampleLog [(sampleNow, 2)]
      (sampleNow + 120000000) 2 rfl (by decide) (by decide)⟩

/-! ## Deque as a FIFO list -/

/-- C13: under the abstraction `toList` (the `size` elements read from
`front`, wrapping around the buffer), `NewDeque` is the empty list; on every
well-formed deque `PushBack(x)` does not panic and appends `x` at the end,
also when the buffer is full and grows; on a non-empty deque `PopFront`
returns `(first element, true)` and removes it, and `PeekFront` returns
`(first element, true)`; on an empty deque `PopFront` returns
`(zero value, false)` and leaves the deque as it is, and `PeekFront` returns
`(zero value, false)`; `Size` is the list length and `IsEmpty` holds exactly
when the list is empty. `PeekFront` has no write, so it yields no new deque. -/
theorem Deque.refines_fifo_list {α : Type} [Inhabited α] (d : Deque α) (x : α) (hwf : d.WF) :
    ((NewDeque α).WF ∧ (NewDeque α).toList = []) ∧
    (∃ d1, d.PushBack x = some d1 ∧ d1.WF ∧ d1.toList = d.toList ++ [x]) ∧
    (d.toList ≠ [] →
      ∃ y d1, d.PopFront = some ((y, true), d1) ∧ d.PeekFront = some (y, true) ∧ d1.WF ∧
        d.toList = y :: d1.toList) ∧
    (d.toList = [] →
      d.PopFront = some ((default, false), d) ∧ d.PeekFront = some (default, false)) ∧
    d.Size = d.toList.length ∧
    (d.IsEmpty = true ↔ d.toList = []) := by
  have hlen := Deque.toList_length d
  have hempty : d.toList = [] ↔ d.size = 0 := by
    rw [← hlen]; exact List.length_eq_zero.symm
  refine ⟨Deque.NewDeque_spec α, ?_, ?_, ?_, ?_, ?_⟩
  · obtain ⟨d1, h1, h2, h3, _⟩ := Deque.pushBack_spec d x hwf
    exact ⟨d1, h1, h2, h3⟩
  · intro hne
    have hsz : d.size ≠ 0 := fun h => hne (hempty.mpr h)
    obtain ⟨y, d1, h1, h2, h3, h4, _⟩ := Deque.popFront_spec d hwf hsz
    exact ⟨y, d1, h1, h2, h3, h4⟩
  · intro he
    have hsz : d.size = 0 := hempty.mp he
    constructor
    · unfold Deque.PopFront; simp only [hsz, if_true]
    · unfold Deque.PeekFront; simp only [hsz, if_true]
  · unfold Deque.Size; exact hlen.symm
  · unfold Deque.IsEmpty
    rw [hempty]
    simp

theorem Deque.refines_fifo_list_witness :
    sampleDeque.WF ∧
    (((NewDeque Int).WF ∧ (NewDeque Int).toList = []) ∧
    (∃ d1, sampleDeque.PushBack 19 = some d1 ∧ d1.WF ∧
      d1.toList = sampleDeque.toList ++ [19]) ∧
    (sampleDeque.toList ≠ [] →
      ∃ y d1, sampleDeque.PopFront = some ((y, true), d1) ∧
        sampleDeque.PeekFront = some (y, true) ∧ d1.WF ∧
        sampleDeque.toList = y :: d1.toList) ∧
    (sampleDeque.toList = [] →
      sampleDeque.PopFront = some ((default, false), sampleDeque) ∧
        sampleDeque.PeekFront = some (default, false)) ∧
    sampleDeque.Size = sampleDeque.toList.length ∧
    (sampleDeque.IsEmpty = true ↔ sampleDeque.toList = [])) :=
  ⟨by unfold Deque.WF; decide, Deque.refines_fifo_list sampleDeque 19 (by unfold Deque.WF; decide)⟩

/-! ## SlidingWindowLog: filling the log and the oldest entry -/

/-- Single units requested at non-decreasing times, all within one window
of `t1`, on a log whose entries are not before `t1` and that has room for
them: every call returns true and appends its timestamp. -/
theorem SlidingWindowLog.run_fill (W M t1 : Int) (hW : 0 < W) (hW2 : W ≤ maxInt64)
    (hM2 : M ≤ maxInt64) :
    ∀ (us : List Int) (s : SlidingWindowLog), s.windowSize = W → s.maxRequests = M →
      s.requestLog.WF → (s.requestLog.toList ++ us).Pairwise (· ≤ ·) →
      (∀ x ∈ s.requestLog.toList, t1 ≤ x) → (∀ u ∈ us, t1 ≤ u ∧ u < t1 + W) →
      ((s.requestLog.toList.length : Int) + (us.length : Int) ≤ M) →
      ∃ s1, s.run (us.map (fun u => (u, 1))) = some s1 ∧
        s.results (us.map (fun u => (u, 1))) = some (List.replicate us.length true) ∧
        s1.windowSize = W ∧ s1.maxRequests = M ∧ s1.requestLog.WF ∧
        s1.requestLog.toList = s.requestLog.toList ++ us := by
  intro us
  induction us with
  | nil =>
    intro s hsW hsM hwf _ _ _ _
    exact ⟨s, rfl, rfl, hsW, hsM, hwf, by simp⟩
  | cons u us ih =>
    intro s hsW hsM hwf hsorted hlo hus hroom
    have hsortedL : s.requestLog.toList.Pairwise (· ≤ ·) := (List.pairwise_append.mp hsorted).1
    have hW1 : minInt64 < s.windowSize := by rw [hsW]; unfold minInt64; omega
    obtain ⟨d1, hwf1, hyes, _⟩ :=
      SlidingWindowLog.allow_spec s u 1 (by decide) hwf hsortedL hW1 (by rw [hsW]; exact hW2)
    have hu := hus u (List.mem_cons_self _ _)
    have hkeep : s.requestLog.toList.filter (fun t => decide (u - s.windowSize < t))
        = s.requestLog.toList := by
      rw [List.filter_eq_self]
      intro x hx
      have := hlo x hx
      rw [hsW]
      simp only [decide_eq_true_eq]
      omega
    rw [hkeep] at hyes
    simp only [List.length_cons, Nat.cast_add, Nat.cast_one] at hroom
    have hadd : add64 (s.requestLog.toList.length : Int) 1 = s.requestLog.toList.length + 1 := by
      apply add64_eq_add
      unfold isInt64 minInt64 maxInt64
      unfold maxInt64 at hM2
      omega
    obtain ⟨hallow, hl1⟩ := hyes (by rw [hadd, hsM]; linarith)
    clear hadd
    have hl1' : d1.toList = s.requestLog.toList ++ [u] := by rw [hl1]; rfl
    obtain ⟨s1, r1, r2, r3, r4, r5, r6⟩ := ih { s with requestLog := d1 } hsW hsM hwf1
      (by
        show (d1.toList ++ us).Pairwise (· ≤ ·)
        rw [hl1', List.append_assoc]; exact hsorted)
      (by
        show ∀ x ∈ d1.toList, t1 ≤ x
        rw [hl1']
        intro x hx
        rcases List.mem_append.mp hx with h | h
        · exact hlo x h
        · rw [List.mem_singleton.mp h]; exact hu.1)
      (fun v hv => hus v (List.mem_cons_of_mem _ hv))
      (by
        show ((d1.toList.length : Int) + (us.length : Int) ≤ M)
        rw [hl1']
        simp only [List.length_append, List.length_singleton, Nat.cast_add, Nat.cast_one]
        omega)
    refine ⟨s1, ?_, ?_, r3, r4, r5, ?_⟩
    · simp only [List.map_cons, SlidingWindowLog.run, hallow]
      exact r1
    · simp only [List.map_cons, SlidingWindowLog.results, hallow, r2, List.length_cons,
        List.replicate_succ]
    · rw [r6]
      show d1.toList ++ us = s.requestLog.toList ++ u :: us
      rw [hl1', List.append_assoc]
      rfl

/-- C12: for `NewSlidingWindowLog(W, M)` (so `W > 0`, `M > 0`; `M` below
`MaxInt64`), `M` single units requested at times `t1 <= ... <= tM`, all
before `t1 + W`, are all admitted and fill the log with exactly these
timestamps; then `Allow(1)` at a time `t >= tM` does not panic and returns
true if and only if `t >= t1 + W`. -/
theorem SlidingWindowLog.full_log_admits_when_oldest_expires (W M : Int)
    (sw0 : SlidingWindowLog) (t1 : Int) (ts : List Int) (t : Int)
    (hnew : NewSlidingWindowLog W M = Except.ok sw0)
    (hW2 : W ≤ maxInt64) (hM2 : M < maxInt64)
    (hlen : ((t1 :: ts).length : Int) = M)
    (hsorted : (t1 :: ts ++ [t]).Pairwise (· ≤ ·))
    (hin : ∀ u ∈ ts, u < t1 + W) :
    ∃ s, sw0.run ((t1 :: ts).map (fun u => (u, 1))) = some s ∧
      sw0.results ((t1 :: ts).map (fun u => (u, 1)))
        = some (List.replicate (t1 :: ts).length true) ∧
      s.requestLog.toList = t1 :: ts ∧
      ∃ s2 b, s.Allow t 1 = some (s2, b) ∧ (b = true ↔ t1 + W ≤ t) := by
  unfold NewSlidingWindowLog at hnew
  split_ifs at hnew with h1 h2
  simp only [Except.ok.injEq] at hnew
  have hW : 0 < W := not_le.mp h1
  obtain ⟨hwf0, hl0⟩ := Deque.NewDeque_spec Int
  have hsW : sw0.windowSize = W := by rw [← hnew]
  have hsM : sw0.maxRequests = M := by rw [← hnew]
  have hlog : sw0.requestLog = NewDeque Int := by rw [← hnew]
  have hsorted1 : (t1 :: ts).Pairwise (· ≤ ·) := (List.pairwise_append.mp hsorted).1
  have hge : ∀ u ∈ t1 :: ts, t1 ≤ u := by
    intro u hu
    rcases List.mem_cons.mp hu with h | h
    · rw [h]
    · exact (List.pairwise_cons.mp hsorted1).1 u h
  obtain ⟨s, r1, r2, r3, r4, r5, r6⟩ := SlidingWindowLog.run_fill W M t1 hW hW2 (le_of_lt hM2)
    (t1 :: ts) sw0 hsW hsM (by rw [hlog]; exact hwf0)
    (by rw [hlog, hl0]; exact hsorted1)
    (by rw [hlog, hl0]; intro x hx; simp at hx)
    (by
      intro u hu
      refine ⟨hge u hu, ?_⟩
      rcases List.mem_cons.mp hu with h | h
      · rw [h]; omega
      · exact hin u h)
    (by rw [hlog, hl0, hlen]; simp)
  rw [hlog, hl0, List.nil_append] at r6
  refine ⟨s, r1, r2, r6, ?_⟩
  have hW1 : minInt64 < s.windowSize := by rw [r3]; unfold minInt64; omega
  obtain ⟨d1, _, hyes, hno⟩ := SlidingWindowLog.allow_spec s t 1 (by decide) r5
    (by rw [r6]; exact hsorted1) hW1 (by rw [r3]; exact hW2)
  rw [r3, r4, r6] at hyes hno
  have hlenM : (((t1 :: ts).filter (fun x => decide (t - W < x))).length : Int) ≤ M := by
    rw [← hlen]
    exact_mod_cast List.length_filter_le _ _
  have hadd : add64 (((t1 :: ts).filter (fun x => decide (t - W < x))).length : Int) 1
      = ((t1 :: ts).filter (fun x => decide (t - W < x))).length + 1 := by
    apply add64_eq_add
    unfold isInt64 minInt64 maxInt64
    unfold maxInt64 at hM2
    omega
  rw [hadd] at hyes hno
  clear hadd
  by_cases hexp : t1 + W ≤ t
  · have hdrop : ¬ (t - W < t1) := by omega
    have hlt : (((t1 :: ts).filter (fun x => decide (t - W < x))).length : Int) + 1 ≤ M := by
      rw [List.filter_cons_of_neg (by simpa using hdrop), ← hlen]
      have : (ts.filter (fun x => decide (t - W < x))).length ≤ ts.length :=
        List.length_filter_le _ _
      simp only [List.length_cons, Nat.cast_add, Nat.cast_one]
      omega
    exact ⟨_, true, (hyes hlt).1, by simp [hexp]⟩
  · have hall : (t1 :: ts).filter (fun x => decide (t - W < x)) = t1 :: ts := by
      rw [List.filter_eq_self]
      intro x hx
      have := hge x hx
      simp only [decide_eq_true_eq]
      omega
    have hgt : ¬ ((((t1 :: ts).filter (fun x => decide (t - W < x))).length : Int) + 1 ≤ M) := by
      rw [hall, hlen]; omega
    exact ⟨_, false, (hno hgt).1, by simp [hexp]⟩

theorem SlidingWindowLog.full_log_admits_when_oldest_expires_witness :
    (NewSlidingWindowLog 100000000 3 = Except.ok sampleLog) ∧
    ((100000000 : Int) ≤ maxInt64) ∧ ((3 : Int) < maxInt64) ∧
    ((((sampleNow :: [sampleNow + 10000000, sampleNow + 20000000]).length : Nat) : Int) = 3) ∧
    ((sampleNow :: [sampleNow + 10000000, sampleNow + 20000000]
      ++ [sampleNow + 100000000]).Pairwise (· ≤ ·)) ∧
    (∀ u ∈ [sampleNow + 10000000, sampleNow + 20000000], u < sampleNow + 100000000) ∧
    (∃ s, sampleLog.run ((sampleNow :: [sampleNow + 10000000, sampleNow + 20000000]).map
        (fun u => (u, 1))) = some s ∧
      sampleLog.results ((sampleNow :: [sampleNow + 10000000, sampleNow + 20000000]).map
        (fun u => (u, 1)))
        = some (List.replicate
            (sampleNow :: [sampleNow + 10000000, sampleNow + 20000000]).length true) ∧
      s.requestLog.toList = sampleNow :: [sampleNow + 10000000, sampleNow + 20000000] ∧
      ∃ s2 b, s.Allow (sampleNow + 100000000) 1 = some (s2, b) ∧
        (b = true ↔ sampleNow + 100000000 ≤ sampleNow + 100000000)) :=
  ⟨rfl, by decide, by decide, by decide, by decide, by decide,
    SlidingWindowLog.full_log_admits_when_oldest_expires 100000000 3 sampleLog sampleNow
      [sampleNow + 10000000, sampleNow + 20000000] (sampleNow + 100000000) rfl
      (by decide) (by decide) (by decide) (by decide) (by decide)⟩

/-! ## SlidingWindowLog: the trailing-window bound -/

theorem SlidingWindowLog.results_cons (sw : SlidingWindowLog) (now n : Int)
    (cs : List (Int × Int)) (s1 : SlidingWindowLog) (b : Bool)
    (h : sw.Allow now n = some (s1, b)) :
    sw.results ((now, n) :: cs) = (s1.results cs).map (fun bs => b :: bs) := by
  simp only [SlidingWindowLog.results, h]
  cases s1.results cs <;> rfl

theorem SlidingWindowLog.admittedIn_cons (lo hi : Int) (sw : SlidingWindowLog) (now n : Int)
    (cs : List (Int × Int)) (s1 : SlidingWindowLog) (b : Bool)
    (h : sw.Allow now n = some (s1, b)) :
    sw.admittedIn lo hi ((now, n) :: cs)
      = (if b = true ∧ lo < now ∧ now ≤ hi then n else 0) + s1.admittedIn lo hi cs := by
  simp only [SlidingWindowLog.admittedIn, h]

/-- Calls made after the end of the interval admit nothing in it. -/
theorem SlidingWindowLog.admittedIn_of_late (lo hi : Int) :
    ∀ (cs : List (Int × Int)) (s : SlidingWindowLog), (∀ c ∈ cs, hi < c.1) →
      s.admittedIn lo hi cs = 0 := by
  intro cs
  induction cs with
  | nil => intro s _; rfl
  | cons c cs ih =>
    intro s h
    have hc := h c (List.mem_cons_self _ _)
    unfold SlidingWindowLog.admittedIn
    cases hA : s.Allow c.1 c.2 with
    | none => rfl
    | some r =>
      have hno : ¬ (r.2 = true ∧ lo < c.1 ∧ c.1 ≤ hi) := fun hh => absurd hh.2.2 (not_le.mpr hc)
      simp only [hno, if_false, zero_add]
      exact ih r.1 (fun c1 h1 => h c1 (List.mem_cons_of_mem _ h1))

/-- The trailing-window bound as an invariant of a run: the logged entries
inside `(t - W, t]` plus the units admitted later at times inside it stay
within `maxRequests`, as long as `size + n` does not overflow. -/
theorem SlidingWindowLog.admittedIn_bound (W M t : Int) (hW : 0 < W) (hW2 : W ≤ maxInt64) :
    ∀ (cs : List (Int × Int)) (s : SlidingWindowLog) (T : Int),
      s.windowSize = W → s.maxRequests = M → s.requestLog.WF →
      s.requestLog.toList.Pairwise (· ≤ ·) → (∀ x ∈ s.requestLog.toList, x ≤ T) →
      (s.requestLog.toList.length : Int) ≤ M →
      (T :: cs.map Prod.fst).Pairwise (· ≤ ·) → (∀ c ∈ cs, c.2 ≤ maxInt64 - M) →
      ((s.requestLog.toList.filter (fun x => decide (t - W < x ∧ x ≤ t))).length : Int)
        + s.admittedIn (t - W) t cs ≤ M := by
  intro cs
  induction cs with
  | nil =>
    intro s T _ _ _ _ _ hlen _ _
    have : (s.requestLog.toList.filter (fun x => decide (t - W < x ∧ x ≤ t))).length
        ≤ s.requestLog.toList.length := List.length_filter_le _ _
    simp only [SlidingWindowLog.admittedIn, add_zero]
    omega
  | cons c cs ih =>
    intro s T hsW hsM hwf hsorted hT hlen htimes hsmall
    obtain ⟨now, n⟩ := c
    simp only [List.map_cons, List.pairwise_cons] at htimes
    obtain ⟨hTall, hnowall, hrest⟩ := htimes
    have hTnow : T ≤ now := hTall now (List.mem_cons_self _ _)
    have hcount : ((s.requestLog.toList.filter
        (fun x => decide (t - W < x ∧ x ≤ t))).length : Int) ≤ M := by
      have : (s.requestLog.toList.filter (fun x => decide (t - W < x ∧ x ≤ t))).length
          ≤ s.requestLog.toList.length := List.length_filter_le _ _
      omega
    by_cases hlate : t < now
    · rw [SlidingWindowLog.admittedIn_of_late (t - W) t ((now, n) :: cs) s]
      · simpa using hcount
      · intro c hc
        rcases List.mem_cons.mp hc with h | h
        · rw [h]; exact hlate
        · exact lt_of_lt_of_le hlate (hnowall c.1 (List.mem_map_of_mem _ h))
    · have hnt : now ≤ t := not_lt.mp hlate
      have hn_small : n ≤ maxInt64 - s.maxRequests := by
        rw [hsM]; exact hsmall (now, n) (List.mem_cons_self _ _)
      obtain ⟨r, hr, rW, rM, rwf, rsorted, rle, _, rlen⟩ := SlidingWindowLog.allow_step s now n T
        (by rw [hsW]; exact hW) (by rw [hsW]; exact hW2) hwf hsorted hT hTnow
      have hih := ih r.1 now (by rw [rW, hsW]) (by rw [rM, hsM]) rwf rsorted rle
        (by rw [← hsM]; exact rlen hn_small (by rw [hsM]; exact hlen))
        (List.pairwise_cons.mpr ⟨hnowall, hrest⟩)
        (fun c1 h1 => hsmall c1 (List.mem_cons_of_mem _ h1))
      rw [SlidingWindowLog.admittedIn_cons (t - W) t s now n cs r.1 r.2 hr]
      suffices hstep : ((s.requestLog.toList.filter
            (fun x => decide (t - W < x ∧ x ≤ t))).length : Int)
          + (if r.2 = true ∧ t - W < now ∧ now ≤ t then n else 0)
          ≤ ((r.1.requestLog.toList.filter
            (fun x => decide (t - W < x ∧ x ≤ t))).length : Int) by
        linarith
      by_cases hn : n ≤ 0
      · have hA : s.Allow now n = some (s, false) := by
          unfold SlidingWindowLog.Allow
          simp only [hn, if_true]
        rw [hA] at hr
        have hr' : r = (s, false) := (Option.some.inj hr).symm
        rw [hr']
        simp
      · have hn0 : 0 < n := not_le.mp hn
        have hW1 : minInt64 < s.windowSize := by rw [hsW]; unfold minInt64; omega
        obtain ⟨d1, _, hyes, hno⟩ := SlidingWindowLog.allow_spec s now n hn0 hwf hsorted hW1
          (by rw [hsW]; exact hW2)
        have hkeep : (s.requestLog.toList.filter (fun x => decide (now - s.windowSize < x))).filter
            (fun x => decide (t - W < x ∧ x ≤ t))
            = s.requestLog.toList.filter (fun x => decide (t - W < x ∧ x ≤ t)) := by
          rw [List.filter_filter]
          apply List.filter_congr
          intro x _
          rw [hsW]
          by_cases h1 : t - W < x ∧ x ≤ t
          · have h2 : now - W < x := by omega
            simp [h1, h2]
          · simp [h1]
        by_cases hc : add64 ((s.requestLog.toList.filter
            (fun t => decide (now - s.windowSize < t))).length : Int) n ≤ s.maxRequests
        · obtain ⟨hA, hL⟩ := hyes hc
          rw [hA] at hr
          have hr' : r = ({ s with requestLog := d1 }, true) := (Option.some.inj hr).symm
          rw [hr']
          show _ ≤ ((d1.toList.filter (fun x => decide (t - W < x ∧ x ≤ t))).length : Int)
          rw [hL, List.filter_append, hkeep, List.length_append, List.filter_replicate]
          by_cases hin : t - W < now
          · simp [hin, hnt, Int.toNat_of_nonneg (le_of_lt hn0)]
          · simp [hin]
        · obtain ⟨hA, hL⟩ := hno hc
          rw [hA] at hr
          have hr' : r = ({ s with requestLog := d1 }, false) := (Option.some.inj hr).symm
          rw [hr']
          show _ ≤ ((d1.toList.filter (fun x => decide (t - W < x ∧ x ≤ t))).length : Int)
          rw [hL, hkeep]
          simp

/-- Outside the overflow of `size + n` the trailing-window bound holds: on a
limiter built by `NewSlidingWindowLog(W, M)`, for calls at non-decreasing
times whose sizes are at most `MaxInt64 - M`, and for every instant `t`, the
units admitted by calls made in `(t - W, t]` add up to at most `M`. -/
theorem SlidingWindowLog.window_bound_without_overflow (W M : Int) (sw0 : SlidingWindowLog)
    (calls : List (Int × Int)) (t : Int)
    (hnew : NewSlidingWindowLog W M = Except.ok sw0) (hW2 : W ≤ maxInt64)
    (htimes : (calls.map Prod.fst).Pairwise (· ≤ ·))
    (hsmall : ∀ c ∈ calls, c.2 ≤ maxInt64 - M) :
    sw0.admittedIn (t - W) t calls ≤ M := by
  unfold NewSlidingWindowLog at hnew
  split_ifs at hnew with h1 h2
  simp only [Except.ok.injEq] at hnew
  have hW : 0 < W := not_le.mp h1
  have hM : 0 < M := not_le.mp h2
  obtain ⟨hwf0, hl0⟩ := Deque.NewDeque_spec Int
  have hsW : sw0.windowSize = W := by rw [← hnew]
  have hsM : sw0.maxRequests = M := by rw [← hnew]
  have hlog : sw0.requestLog = NewDeque Int := by rw [← hnew]
  have hT : ∃ T, (T :: calls.map Prod.fst).Pairwise (· ≤ ·) := by
    cases calls with
    | nil => exact ⟨0, by simp⟩
    | cons c cs =>
      refine ⟨c.1, ?_⟩
      simp only [List.map_cons, List.pairwise_cons] at htimes ⊢
      refine ⟨?_, htimes⟩
      intro a ha
      rcases List.mem_cons.mp ha with h | h
      · rw [h]
      · exact htimes.1 a h
  obtain ⟨T, hTp⟩ := hT
  have h := SlidingWindowLog.admittedIn_bound W M t hW hW2 calls sw0 T hsW hsM
    (by rw [hlog]; exact hwf0) (by rw [hlog, hl0]; exact List.Pairwise.nil)
    (by rw [hlog, hl0]; intro x hx; simp at hx)
    (by rw [hlog, hl0]; simp only [List.length_nil, Nat.cast_zero]; omega) hTp hsmall
  rw [hlog, hl0] at h
  simpa using h

/-! ## Order properties of rounding -/

theorem F64.round_eq_raw {q : ℚ} (hq : q ≠ 0) :
    F64.round q =
      if pow2 1024 ≤ F64.rawRound q then F64.pinf
      else if F64.rawRound q ≤ -pow2 1024 then F64.ninf
      else F64.fin (F64.rawRound q) :=
  F64.round_of_ne_zero hq

theorem F64.rawRound_eq (q : ℚ) :
    F64.rawRound q = (roundEven (q / pow2 (max (ilog2 q) (-1022) - 52)) : ℚ)
      * pow2 (max (ilog2 q) (-1022) - 52) := rfl

theorem pow2_succ_52 (e : Int) : pow2 (e + 1) = 9007199254740992 * pow2 (e - 52) := by
  rw [← pow2_lit_53, ← pow2_add]; congr 1; ring

/-- The scaled argument of `roundEven` inside `F64.round` has magnitude at
most `2^53`. -/
theorem F64.scaled_abs_le {q : ℚ} (hq : q ≠ 0) :
    |q / pow2 (max (ilog2 q) (-1022) - 52)| ≤ 9007199254740992 := by
  obtain ⟨_, s2⟩ := ilog2_spec hq
  have hupos : 0 < pow2 (max (ilog2 q) (-1022) - 52) := pow2_pos _
  rw [abs_div, abs_of_pos hupos, div_le_iff₀ hupos, ← pow2_succ_52]
  have h1 : pow2 (ilog2 q + 1) ≤ pow2 (max (ilog2 q) (-1022) + 1) := pow2_le_pow2.mpr (by omega)
  linarith

theorem F64.roundEven_scaled_le {q : ℚ} (hq : q ≠ 0) :
    |roundEven (q / pow2 (max (ilog2 q) (-1022) - 52))| ≤ 9007199254740992 := by
  have h := abs_le.mp (F64.scaled_abs_le hq)
  have h1 : ((-9007199254740992 : Int) : ℚ) ≤ q / pow2 (max (ilog2 q) (-1022) - 52) := by
    push_cast; exact h.1
  have h2 : q / pow2 (max (ilog2 q) (-1022) - 52) ≤ ((9007199254740992 : Int) : ℚ) := by
    push_cast; exact h.2
  have m1 := roundEven_mono h1
  have m2 := roundEven_mono h2
  rw [roundEven_intCast] at m1 m2
  exact abs_le.mpr ⟨m1, m2⟩

theorem F64.rawRound_nonneg {q : ℚ} (hq : 0 ≤ q) : 0 ≤ F64.rawRound q := by
  rw [F64.rawRound_eq]
  have hupos : 0 < pow2 (max (ilog2 q) (-1022) - 52) := pow2_pos _
  have hx : 0 ≤ q / pow2 (max (ilog2 q) (-1022) - 52) := div_nonneg hq (le_of_lt hupos)
  have hk : (0 : ℚ) ≤ (roundEven (q / pow2 (max (ilog2 q) (-1022) - 52)) : ℚ) := by
    exact_mod_cast roundEven_nonneg hx
  exact mul_nonneg hk (le_of_lt hupos)

theorem F64.rawRound_nonpos {q : ℚ} (hq : q ≤ 0) : F64.rawRound q ≤ 0 := by
  rw [F64.rawRound_eq]
  have hupos : 0 < pow2 (max (ilog2 q) (-1022) - 52) := pow2_pos _
  have hx : q / pow2 (max (ilog2 q) (-1022) - 52) ≤ ((0 : Int) : ℚ) := by
    push_cast; exact div_nonpos_of_nonpos_of_nonneg hq (le_of_lt hupos)
  have hk0 := roundEven_mono hx
  rw [roundEven_intCast] at hk0
  have hk : (roundEven (q / pow2 (max (ilog2 q) (-1022) - 52)) : ℚ) ≤ 0 := by
    exact_mod_cast hk0
  exact mul_nonpos_of_nonpos_of_nonneg hk (le_of_lt hupos)

theorem F64.rawRound_le_top {q : ℚ} (hq : q ≠ 0) :
    F64.rawRound q ≤ pow2 (max (ilog2 q) (-1022) + 1) := by
  rw [F64.rawRound_eq, pow2_succ_52]
  have hupos : 0 < pow2 (max (ilog2 q) (-1022) - 52) := pow2_pos _
  have hk := (abs_le.mp (F64.roundEven_scaled_le hq)).2
  have hk' : (roundEven (q / pow2 (max (ilog2 q) (-1022) - 52)) : ℚ) ≤ 9007199254740992 := by
    exact_mod_cast hk
  exact mul_le_mul_of_nonneg_right hk' (le_of_lt hupos)

theorem F64.rawRound_ge_bot {q : ℚ} (hq : 0 < q) (hnorm : -1022 ≤ ilog2 q) :
    pow2 (ilog2 q) ≤ F64.rawRound q := by
  obtain ⟨s1, _⟩ := ilog2_spec (ne_of_gt hq)
  rw [abs_of_pos hq] at s1
  have hee : max (ilog2 q) (-1022) = ilog2 q := max_eq_left hnorm
  rw [F64.rawRound_eq, hee]
  have hupos : 0 < pow2 (ilog2 q - 52) := pow2_pos _
  have h2 : pow2 (ilog2 q) = 4503599627370496 * pow2 (ilog2 q - 52) := by
    rw [← pow2_lit_52, ← pow2_add]; congr 1; omega
  have hxge : ((4503599627370496 : Int) : ℚ) ≤ q / pow2 (ilog2 q - 52) := by
    rw [le_div_iff₀ hupos]
    push_cast
    linarith
  have hk2 := roundEven_mono hxge
  rw [roundEven_intCast] at hk2
  have hk2' : (4503599627370496 : ℚ) ≤ (roundEven (q / pow2 (ilog2 q - 52)) : ℚ) := by
    exact_mod_cast hk2
  rw [h2]
  exact mul_le_mul_of_nonneg_right hk2' (le_of_lt hupos)

theorem ilog2_mono {x y : ℚ} (hx : 0 < x) (h : x ≤ y) : ilog2 x ≤ ilog2 y := by
  have hy : 0 < y := lt_of_lt_of_le hx h
  obtain ⟨a1, _⟩ := ilog2_spec (ne_of_gt hx)
  obtain ⟨_, b2⟩ := ilog2_spec (ne_of_gt hy)
  rw [abs_of_pos hx] at a1
  rw [abs_of_pos hy] at b2
  have : pow2 (ilog2 x) < pow2 (ilog2 y + 1) := by linarith
  have := pow2_lt_pow2.mp this
  omega

/-- Rounding is monotone on the positive rationals. -/
theorem F64.rawRound_mono {x y : ℚ} (hx : 0 < x) (h : x ≤ y) :
    F64.rawRound x ≤ F64.rawRound y := by
  have hy : 0 < y := lt_of_lt_of_le hx h
  have hl := ilog2_mono hx h
  by_cases he : max (ilog2 x) (-1022) = max (ilog2 y) (-1022)
  · rw [F64.rawRound_eq, F64.rawRound_eq, he]
    have hupos : 0 < pow2 (max (ilog2 y) (-1022) - 52) := pow2_pos _
    have hdiv : x / pow2 (max (ilog2 y) (-1022) - 52) ≤ y / pow2 (max (ilog2 y) (-1022) - 52) :=
      div_le_div_of_nonneg_right h (le_of_lt hupos)
    have hk := roundEven_mono hdiv
    have hk' : (roundEven (x / pow2 (max (ilog2 y) (-1022) - 52)) : ℚ)
        ≤ (roundEven (y / pow2 (max (ilog2 y) (-1022) - 52)) : ℚ) := by exact_mod_cast hk
    exact mul_le_mul_of_nonneg_right hk' (le_of_lt hupos)
  · have hlt : max (ilog2 x) (-1022) < ilog2 y := by omega
    have hnorm : -1022 ≤ ilog2 y := by omega
    have h1 := F64.rawRound_le_top (ne_of_gt hx)
    have h2 := F64.rawRound_ge_bot hy hnorm
    have h3 : pow2 (max (ilog2 x) (-1022) + 1) ≤ pow2 (ilog2 y) := pow2_le_pow2.mpr (by omega)
    linarith

/-- A rounded value of magnitude below `2^1024` is a `float64` value. -/
theorem F64.rawRound_representable {q : ℚ} (hq : q ≠ 0)
    (hlt : |F64.rawRound q| < pow2 1024) : F64.Representable (F64.rawRound q) := by
  have hk := F64.roundEven_scaled_le hq
  have he : -1022 ≤ max (ilog2 q) (-1022) := le_max_right _ _
  set e := max (ilog2 q) (-1022) with hedef
  by_cases hkk : |roundEven (q / pow2 (e - 52))| < 9007199254740992
  · refine ⟨roundEven (q / pow2 (e - 52)), e - 52, ?_, by omega, rfl, hlt⟩
    norm_num; exact hkk
  · have hkeq : |roundEven (q / pow2 (e - 52))| = 9007199254740992 :=
      le_antisymm hk (not_lt.mp hkk)
    have h3 : pow2 (e - 51) = 2 * pow2 (e - 52) := by
      have : pow2 1 = 2 := by rw [pow2_eq_zpow]; norm_num
      rw [← this, ← pow2_add]; congr 1; ring
    rcases abs_eq (by norm_num : (0 : Int) ≤ 9007199254740992) |>.mp hkeq with h | h
    · refine ⟨4503599627370496, e - 51, by norm_num, by omega, ?_, hlt⟩
      rw [F64.rawRound_eq, ← hedef, h, h3]; push_cast; ring
    · refine ⟨-4503599627370496, e - 51, by norm_num, by omega, ?_, hlt⟩
      rw [F64.rawRound_eq, ← hedef, h, h3]; push_cast; ring

/-- Every finite result of rounding is a `float64` value. -/
theorem F64.round_fin_representable {q r : ℚ} (h : F64.round q = F64.fin r) :
    F64.Representable r := by
  by_cases hq : q = 0
  · rw [hq, F64.round_zero] at h
    have hr : r = 0 := by injection h with h; exact h.symm
    rw [hr]
    exact F64.representable_intCast (k := 0) (by norm_num)
  · rw [F64.round_eq_raw hq] at h
    split_ifs at h with h1 h2
    have hr : F64.rawRound q = r := by injection h
    rw [← hr]
    apply F64.rawRound_representable hq
    rw [abs_lt]
    exact ⟨lt_of_not_le h2, lt_of_not_le h1⟩

/-- Rounding is idempotent. -/
theorem F64.round_round {q r : ℚ} (h : F64.round q = F64.fin r) : F64.round r = F64.fin r :=
  F64.round_exact (F64.round_fin_representable h)

/-- Rounding a non-negative value gives a non-negative value or `+Inf`. -/
theorem F64.round_nonneg {q : ℚ} (hq : 0 ≤ q) :
    F64.round q = F64.pinf ∨ ∃ r : ℚ, F64.round q = F64.fin r ∧ 0 ≤ r := by
  by_cases h0 : q = 0
  · right; exact ⟨0, by rw [h0, F64.round_zero], le_refl _⟩
  · rw [F64.round_eq_raw h0]
    have hr := F64.rawRound_nonneg hq
    by_cases h1 : pow2 1024 ≤ F64.rawRound q
    · left; simp only [h1, if_true]
    · right
      have h2 : ¬ F64.rawRound q ≤ -pow2 1024 := by
        have := pow2_pos 1024
        intro h; linarith
      exact ⟨F64.rawRound q, by simp only [h1, h2, if_false], hr⟩

/-- Rounding a non-positive value gives a non-positive value or `-Inf`. -/
theorem F64.round_nonpos {q : ℚ} (hq : q ≤ 0) :
    F64.round q = F64.ninf ∨ ∃ r : ℚ, F64.round q = F64.fin r ∧ r ≤ 0 := by
  by_cases h0 : q = 0
  · right; exact ⟨0, by rw [h0, F64.round_zero], le_refl _⟩
  · rw [F64.round_eq_raw h0]
    have hr := F64.rawRound_nonpos hq
    have h1 : ¬ pow2 1024 ≤ F64.rawRound q := by
      have := pow2_pos 1024
      intro h; linarith
    by_cases h2 : F64.rawRound q ≤ -pow2 1024
    · left; simp only [h1, h2, if_false, if_true]
    · right
      exact ⟨F64.rawRound q, by simp only [h1, h2, if_false], hr⟩

theorem F64.rawRound_of_fixed {c : ℚ} (hc : c ≠ 0) (h : F64.round c = F64.fin c) :
    F64.rawRound c = c ∧ |c| < pow2 1024 := by
  rw [F64.round_eq_raw hc] at h
  split_ifs at h with h1 h2
  have hr : F64.rawRound c = c := by injection h
  rw [hr] at h1 h2
  exact ⟨hr, abs_lt.mpr ⟨lt_of_not_le h2, lt_of_not_le h1⟩⟩

/-- Rounding does not cross a `float64` value from below: a non-negative
value that is at most the `float64` value `c` rounds to at most `c`. -/
theorem F64.round_le_of_le {x c : ℚ} (hx : 0 ≤ x) (h : x ≤ c) (hc : F64.round c = F64.fin c) :
    ∃ r : ℚ, F64.round x = F64.fin r ∧ 0 ≤ r ∧ r ≤ c := by
  by_cases h0 : x = 0
  · exact ⟨0, by rw [h0, F64.round_zero], le_refl _, by rw [h0] at h; exact h⟩
  · have hxpos : 0 < x := lt_of_le_of_ne hx (Ne.symm h0)
    have hcne : c ≠ 0 := ne_of_gt (lt_of_lt_of_le hxpos h)
    obtain ⟨hraw, habs⟩ := F64.rawRound_of_fixed hcne hc
    have hm := F64.rawRound_mono hxpos h
    rw [hraw] at hm
    have hnn := F64.rawRound_nonneg hx
    have hlt := (abs_lt.mp habs).2
    rw [F64.round_eq_raw h0]
    have h1 : ¬ pow2 1024 ≤ F64.rawRound x := by intro hh; linarith
    have h2 : ¬ F64.rawRound x ≤ -pow2 1024 := by
      have := pow2_pos 1024
      intro hh; linarith
    exact ⟨F64.rawRound x, by simp only [h1, h2, if_false], hnn, hm⟩

/-- Rounding does not cross a `float64` value from above: a value that is
at least the non-negative `float64` value `c` rounds to at least `c`. -/
theorem F64.le_round_of_le {x c : ℚ} (hc0 : 0 ≤ c) (h : c ≤ x) (hc : F64.round c = F64.fin c) :
    F64.round x = F64.pinf ∨ ∃ r : ℚ, F64.round x = F64.fin r ∧ c ≤ r := by
  by_cases h0 : c = 0
  · rcases F64.round_nonneg (le_trans hc0 h) with hp | ⟨r, hr, hr0⟩
    · left; exact hp
    · right; exact ⟨r, hr, by rw [h0]; exact hr0⟩
  · have hcpos : 0 < c := lt_of_le_of_ne hc0 (Ne.symm h0)
    have hxne : x ≠ 0 := ne_of_gt (lt_of_lt_of_le hcpos h)
    obtain ⟨hraw, _⟩ := F64.rawRound_of_fixed h0 hc
    have hm := F64.rawRound_mono hcpos h
    rw [hraw] at hm
    rw [F64.round_eq_raw hxne]
    by_cases h1 : pow2 1024 ≤ F64.rawRound x
    · left; simp only [h1, if_true]
    · right
      have h2 : ¬ F64.rawRound x ≤ -pow2 1024 := by
        have := pow2_pos 1024
        intro hh; linarith
      exact ⟨F64.rawRound x, by simp only [h1, h2, if_false], hm⟩

theorem Duration.Seconds_nonneg {d : Int} (h0 : 0 ≤ d) (h1 : d ≤ maxInt64) :
    ∃ e : ℚ, Duration.Seconds d = F64.fin e ∧ 0 ≤ e ∧ e ≤ 9223372036854775808 := by
  unfold maxInt64 at h1
  have hs0 : 0 ≤ Int.tdiv d Second := Int.tdiv_nonneg h0 (by decide)
  have hs1 : Int.tdiv d Second ≤ 9223372036 := by
    rw [Int.tdiv_eq_ediv h0 (by decide)]
    unfold Second
    omega
  have hn0 : 0 ≤ Int.tmod d Second := Int.tmod_nonneg _ h0
  have hn1 : Int.tmod d Second < 1000000000 := by
    rw [Int.tmod_eq_emod h0 (by decide)]
    unfold Second
    omega
  have e1 : F64.ofInt (Int.tdiv d Second) = F64.fin ((Int.tdiv d Second : Int) : ℚ) :=
    F64.ofInt_exact (by rw [abs_of_nonneg hs0]; omega)
  have e2 : F64.ofInt (Int.tmod d Second) = F64.fin ((Int.tmod d Second : Int) : ℚ) :=
    F64.ofInt_exact (by rw [abs_of_nonneg hn0]; omega)
  have hf0 : (0 : ℚ) ≤ ((Int.tmod d Second : Int) : ℚ) / 1000000000 :=
    div_nonneg (by exact_mod_cast hn0) (by norm_num)
  have hf1 : ((Int.tmod d Second : Int) : ℚ) / 1000000000 ≤ 1 := by
    rw [div_le_iff₀ (by norm_num)]
    have : ((Int.tmod d Second : Int) : ℚ) < 1000000000 := by exact_mod_cast hn1
    linarith
  obtain ⟨f, hf, hfn, hfu, _⟩ := F64.round_nonneg_small hf0 (by linarith)
  have hfle : f ≤ 1 := by
    obtain ⟨r, hr, _, hr1⟩ := F64.round_le_of_le hf0 hf1
      (F64.round_exact (F64.representable_intCast (k := 1) (by norm_num)))
    rw [hf] at hr
    injection hr with hr
    rw [hr]; exact_mod_cast hr1
  have hsq0 : (0 : ℚ) ≤ ((Int.tdiv d Second : Int) : ℚ) := by exact_mod_cast hs0
  have hsq1 : ((Int.tdiv d Second : Int) : ℚ) ≤ 9223372036 := by exact_mod_cast hs1
  obtain ⟨e, he, hen, heu, _⟩ := F64.round_nonneg_small
    (q := ((Int.tdiv d Second : Int) : ℚ) + f) (by linarith) (by linarith)
  refine ⟨e, ?_, hen, heu⟩
  unfold Duration.Seconds
  rw [e1, e2]
  have hdiv : F64.div (F64.fin ((Int.tmod d Second : Int) : ℚ)) (F64.fin 1000000000)
      = F64.fin f := by
    unfold F64.div
    simp only [show ¬ ((1000000000 : ℚ) = 0) by norm_num, if_false]
    exact hf
  rw [hdiv]
  exact he

/-! ## Comparisons -/

theorem F64.round_ne_nan (q : ℚ) : F64.round q ≠ F64.nan := by
  by_cases hq : q = 0
  · rw [hq, F64.round_zero]; simp
  · rw [F64.round_eq_raw hq]
    split_ifs <;> simp

theorem F64.ofInt_ne_nan (k : Int) : F64.ofInt k ≠ F64.nan := F64.round_ne_nan _

/-- Without a NaN operand, `a > b` is the negation of `a <= b`. -/
theorem F64.gt_eq_not_le {a b : F64} (ha : a ≠ F64.nan) (hb : b ≠ F64.nan) :
    F64.gt a b = !(F64.le a b) := by
  cases a with
  | fin x =>
    cases b with
    | fin y =>
      show decide (y < x) = !decide (x ≤ y)
      rw [← decide_not]
      exact decide_eq_decide.mpr (not_le.symm)
    | pinf => rfl
    | ninf => rfl
    | nan => exact absurd rfl hb
  | pinf => cases b <;> first | rfl | exact absurd rfl hb
  | ninf => cases b <;> first | rfl | exact absurd rfl hb
  | nan => exact absurd rfl ha

theorem F64.gt_false_of_le {a b : F64} (h : F64.le a b = true) : F64.gt a b = false := by
  cases a <;> cases b <;> simp_all [F64.gt, F64.lt, F64.le]

/-! ## TokenBucket -/

/-- C20: `Update(newCapacity, newFillRate)` treats its arguments
independently. The capacity becomes `newCapacity` if `newCapacity > 0` and is
unchanged otherwise; the fill rate becomes `newFillRate` if `newFillRate > 0`
(a `float64` comparison) and is unchanged otherwise; the tokens become
`float64(newCapacity)` if `newCapacity > 0` and they exceed it, and are
unchanged otherwise, which for a finite level `t` and
`newCapacity <= 2^53` is `min(t, newCapacity)`; `lastTime` and the statistics
are never changed; and `Update` with `newCapacity <= 0` and
`newFillRate <= 0` returns the bucket as it is. -/
theorem TokenBucket.update_frame (tb : TokenBucket) (newCapacity : Int) (newFillRate : F64) :
    (tb.Update newCapacity newFillRate).capacity
      = (if 0 < newCapacity then newCapacity else tb.capacity) ∧
    (tb.Update newCapacity newFillRate).fillRate
      = (if F64.gt newFillRate (F64.fin 0) = true then newFillRate else tb.fillRate) ∧
    (tb.Update newCapacity newFillRate).tokens
      = (if 0 < newCapacity then
          (if F64.gt tb.tokens (F64.ofInt newCapacity) = true then F64.ofInt newCapacity
           else tb.tokens)
         else tb.tokens) ∧
    (∀ t : ℚ, tb.tokens = F64.fin t → 0 < newCapacity → newCapacity ≤ 2 ^ 53 →
      (tb.Update newCapacity newFillRate).tokens = F64.fin (min t (newCapacity : ℚ))) ∧
    (tb.Update newCapacity newFillRate).lastTime = tb.lastTime ∧
    (tb.Update newCapacity newFillRate).Stats = tb.Stats ∧
    (newCapacity ≤ 0 → F64.le newFillRate (F64.fin 0) = true →
      tb.Update newCapacity newFillRate = tb) := by
  have hcap : (tb.Update newCapacity newFillRate).capacity
      = (if 0 < newCapacity then newCapacity else tb.capacity) := by
    unfold TokenBucket.Update
    by_cases h1 : 0 < newCapacity <;> by_cases h2 : F64.gt newFillRate (F64.fin 0) = true <;>
      simp [h1, h2]
  have htok : (tb.Update newCapacity newFillRate).tokens
      = (if 0 < newCapacity then
          (if F64.gt tb.tokens (F64.ofInt newCapacity) = true then F64.ofInt newCapacity
           else tb.tokens)
         else tb.tokens) := by
    unfold TokenBucket.Update
    by_cases h1 : 0 < newCapacity <;> by_cases h2 : F64.gt newFillRate (F64.fin 0) = true <;>
      simp [h1, h2]
  refine ⟨hcap, ?_, htok, ?_, ?_, ?_, ?_⟩
  · unfold TokenBucket.Update
    by_cases h1 : 0 < newCapacity <;> by_cases h2 : F64.gt newFillRate (F64.fin 0) = true <;>
      simp [h1, h2]
  · intro t ht hpos hle
    rw [htok, ht, F64.ofInt_exact (by rw [abs_of_pos hpos]; exact hle)]
    simp only [hpos, if_true, F64.gt, F64.lt, decide_eq_true_eq]
    by_cases hlt : (newCapacity : ℚ) < t
    · simp only [hlt, if_true, min_eq_right (le_of_lt hlt)]
    · simp only [hlt, if_false, min_eq_left (not_lt.mp hlt)]
  · unfold TokenBucket.Update
    by_cases h1 : 0 < newCapacity <;> by_cases h2 : F64.gt newFillRate (F64.fin 0) = true <;>
      simp [h1, h2]
  · unfold TokenBucket.Update TokenBucket.Stats
    by_cases h1 : 0 < newCapacity <;> by_cases h2 : F64.gt newFillRate (F64.fin 0) = true <;>
      simp [h1, h2]
  · intro hc hr
    have h1 : ¬ 0 < newCapacity := not_lt.mpr hc
    have h2 : F64.gt newFillRate (F64.fin 0) = false := F64.gt_false_of_le hr
    unfold TokenBucket.Update
    simp [h1, h2]

theorem TokenBucket.update_frame_witness :
    (∀ t : ℚ, sampleToken.tokens = F64.fin t → (0 : Int) < 4 → (4 : Int) ≤ 2 ^ 53 →
      (sampleToken.Update 4 (F64.fin 3)).tokens = F64.fin (min t ((4 : Int) : ℚ))) ∧
    ((-1 : Int) ≤ 0 → F64.le (F64.fin 0) (F64.fin 0) = true →
      sampleToken.Update (-1) (F64.fin 0) = sampleToken) :=
  ⟨(TokenBucket.update_frame sampleToken 4 (F64.fin 3)).2.2.2.1,
    (TokenBucket.update_frame sampleToken (-1) (F64.fin 0)).2.2.2.2.2.2⟩

/-- C18 (counterexample): `NewTokenBucket(10, 5, 0.9999999999999999)` holds
five tokens and is filled at the rate `1 - 2^-53` per second. One second
later the refilled level of the claim is `5 + 1 * (1 - 2^-53) = 6 - 2^-53`,
less than 6, so `n <= tokens'` fails for `n = 6`; the `float64` sum rounds to
exactly 6, `Allow(6)` returns true and leaves no token. -/
theorem TokenBucket.admitted_with_level_below_request :
    NewTokenBucket sampleNow 10 (F64.fin 5) (F64.fin (9007199254740991 / 9007199254740992))
      = Except.ok sampleTokenBelowOne ∧
    sampleTokenBelowOne.exactLevel (sampleNow + 1000000000)
      = some (54043195528445951 / 9007199254740992) ∧
    (54043195528445951 / 9007199254740992 : ℚ) < 6 ∧
    (sampleTokenBelowOne.refill (sampleNow + 1000000000)).tokens = F64.fin 6 ∧
    (sampleTokenBelowOne.Allow (sampleNow + 1000000000) 6).2 = true ∧
    (sampleTokenBelowOne.Allow (sampleNow + 1000000000) 6).1.tokens = F64.fin 0 := by
  refine ⟨?_, by decide!, by norm_num, by decide!, by decide!, by decide!⟩
  unfold NewTokenBucket
  rw [if_neg (by decide!), if_neg (by decide!)]
  simp only
  rw [if_neg (by decide!)]
  rfl

/-- C18 (amended): `Allow(n)` with `n > 0` first refills: the tokens become
`min(float64(capacity), tokens + min(elapsed, 60) * fillRate)` in `float64`
arithmetic and `lastTime` becomes `now`; then it returns true unless
`float64(n) > tokens'`, which for a refilled level that is not NaN means
exactly when `n <= tokens'`. When it returns true the tokens decrease by
`float64(n)` and `tokensProcessed` grows by 1; when it returns false the
tokens stay at `tokens'` and `tokensRejected` grows by 1 (`int` increments,
exact below `MaxInt64`). In both cases everything else is as the refill left
it, so `Stats` counts calls whatever `n` is. -/
theorem TokenBucket.allow_refills_then_takes (tb : TokenBucket) (now n : Int) (hn : 0 < n) :
    (tb.refill now).tokens
      = (if F64.gt (F64.add tb.tokens (F64.mul
            (if F64.gt (Duration.Seconds (Time.Sub now tb.lastTime)) (F64.fin 60) = true
              then F64.fin 60 else Duration.Seconds (Time.Sub now tb.lastTime)) tb.fillRate))
            (F64.ofInt tb.capacity) = true
          then F64.ofInt tb.capacity
          else F64.add tb.tokens (F64.mul
            (if F64.gt (Duration.Seconds (Time.Sub now tb.lastTime)) (F64.fin 60) = true
              then F64.fin 60 else Duration.Seconds (Time.Sub now tb.lastTime)) tb.fillRate)) ∧
    (tb.refill now).lastTime = now ∧
    (tb.refill now).capacity = tb.capacity ∧ (tb.refill now).fillRate = tb.fillRate ∧
    (tb.refill now).Stats = tb.Stats ∧
    (tb.Allow now n).2 = (!(F64.gt (F64.ofInt n) (tb.refill now).tokens)) ∧
    ((tb.refill now).tokens ≠ F64.nan →
      ((tb.Allow now n).2 = true ↔ F64.le (F64.ofInt n) (tb.refill now).tokens = true)) ∧
    ((tb.Allow now n).2 = true →
      (tb.Allow now n).1 =
        { tb.refill now with
            tokens := F64.sub (tb.refill now).tokens (F64.ofInt n)
            tokensProcessed := add64 tb.tokensProcessed 1 } ∧
      (tb.Allow now n).1.Stats = (add64 tb.tokensProcessed 1, tb.tokensRejected) ∧
      (tb.tokensProcessed < maxInt64 → isInt64 tb.tokensProcessed →
        add64 tb.tokensProcessed 1 = tb.tokensProcessed + 1)) ∧
    ((tb.Allow now n).2 = false →
      (tb.Allow now n).1 =
        { tb.refill now with tokensRejected := add64 tb.tokensRejected 1 } ∧
      (tb.Allow now n).1.Stats = (tb.tokensProcessed, add64 tb.tokensRejected 1) ∧
      (tb.tokensRejected < maxInt64 → isInt64 tb.tokensRejected →
        add64 tb.tokensRejected 1 = tb.tokensRejected + 1)) := by
  have hn' : ¬ n ≤ 0 := not_le.mpr hn
  have hres : (tb.Allow now n).2 = (!(F64.gt (F64.ofInt n) (tb.refill now).tokens)) := by
    unfold TokenBucket.Allow
    by_cases hg : F64.gt (F64.ofInt n) (tb.refill now).tokens = true
    · simp [hn', hg]
    · simp [hn', hg]
  have hinc : ∀ k : Int, k < maxInt64 → isInt64 k → add64 k 1 = k + 1 := by
    intro k h1 h2
    apply add64_eq_add
    unfold isInt64 minInt64 maxInt64 at *
    omega
  refine ⟨rfl, rfl, rfl, rfl, rfl, hres, ?_, ?_, ?_⟩
  · intro hnan
    rw [hres, F64.gt_eq_not_le (F64.ofInt_ne_nan n) hnan]
    simp
  · intro ht
    rw [hres] at ht
    have hg : F64.gt (F64.ofInt n) (tb.refill now).tokens = false := by simpa using ht
    have hst : (tb.Allow now n).1 =
        { tb.refill now with
            tokens := F64.sub (tb.refill now).tokens (F64.ofInt n)
            tokensProcessed := add64 tb.tokensProcessed 1 } := by
      unfold TokenBucket.Allow
      simp only [hn', if_false, hg, Bool.false_eq_true]
      rfl
    exact ⟨hst, by rw [hst]; rfl, hinc _⟩
  · intro hf
    rw [hres] at hf
    have hg : F64.gt (F64.ofInt n) (tb.refill now).tokens = true := by simpa using hf
    have hst : (tb.Allow now n).1 =
        { tb.refill now with tokensRejected := add64 tb.tokensRejected 1 } := by
      unfold TokenBucket.Allow
      simp only [hn', if_false, hg, if_true]
      rfl
    exact ⟨hst, by rw [hst]; rfl, hinc _⟩

theorem TokenBucket.allow_refills_then_takes_witness :
    ((0 : Int) < 3) ∧
    ((sampleToken.Allow (sampleNow + 2000000000) 3).2 = true →
      (sampleToken.Allow (sampleNow + 2000000000) 3).1 =
        { sampleToken.refill (sampleNow + 2000000000) with
            tokens := F64.sub (sampleToken.refill (sampleNow + 2000000000)).tokens (F64.ofInt 3)
            tokensProcessed := add64 sampleToken.tokensProcessed 1 } ∧
      (sampleToken.Allow (sampleNow + 2000000000) 3).1.Stats
        = (add64 sampleToken.tokensProcessed 1, sampleToken.tokensRejected) ∧
      (sampleToken.tokensProcessed < maxInt64 → isInt64 sampleToken.tokensProcessed →
        add64 sampleToken.tokensProcessed 1 = sampleToken.tokensProcessed + 1)) ∧
    (sampleToken.Allow (sampleNow + 2000000000) 3).2 = true ∧
    (sampleToken.refill (sampleNow + 2000000000)).tokens = F64.fin 4 :=
  ⟨by decide, (TokenBucket.allow_refills_then_takes sampleToken (sampleNow + 2000000000) 3
      (by decide)).2.2.2.2.2.2.2.1, by decide!, by decide!⟩

/-! ## Elapsed time -/

theorem Time.Sub_nonneg {t u : Int} (h : u ≤ t) : 0 ≤ Time.Sub t u ∧ Time.Sub t u ≤ maxInt64 := by
  unfold Time.Sub minInt64 maxInt64
  split_ifs <;> omega

theorem Time.Sub_pos {t u : Int} (h : u < t) : 0 < Time.Sub t u := by
  unfold Time.Sub minInt64 maxInt64
  split_ifs <;> omega

/-- A positive duration is a positive number of seconds. -/
theorem Duration.Seconds_pos {d : Int} (h0 : 0 < d) (h1 : d ≤ maxInt64) :
    ∃ e : ℚ, Duration.Seconds d = F64.fin e ∧ 0 < e := by
  obtain ⟨e, he, hen, _⟩ := Duration.Seconds_nonneg (le_of_lt h0) h1
  refine ⟨e, he, lt_of_le_of_ne hen ?_⟩
  intro hzero
  rw [← hzero] at he
  unfold maxInt64 at h1
  have hs0 : 0 ≤ Int.tdiv d Second := Int.tdiv_nonneg (le_of_lt h0) (by decide)
  have hs1 : Int.tdiv d Second ≤ 9223372036 := by
    rw [Int.tdiv_eq_ediv (le_of_lt h0) (by decide)]
    unfold Second
    omega
  have hn0 : 0 ≤ Int.tmod d Second := Int.tmod_nonneg _ (le_of_lt h0)
  have hn1 : Int.tmod d Second < 1000000000 := by
    rw [Int.tmod_eq_emod (le_of_lt h0) (by decide)]
    unfold Second
    omega
  have hsum : Int.tdiv d Second * Second + Int.tmod d Second = d := by
    rw [mul_comm]; exact Int.tdiv_add_tmod d Second
  have e1 : F64.ofInt (Int.tdiv d Second) = F64.fin ((Int.tdiv d Second : Int) : ℚ) :=
    F64.ofInt_exact (by rw [abs_of_nonneg hs0]; omega)
  have e2 : F64.ofInt (Int.tmod d Second) = F64.fin ((Int.tmod d Second : Int) : ℚ) :=
    F64.ofInt_exact (by rw [abs_of_nonneg hn0]; omega)
  have hf0 : (0 : ℚ) ≤ ((Int.tmod d Second : Int) : ℚ) / 1000000000 :=
    div_nonneg (by exact_mod_cast hn0) (by norm_num)
  unfold Duration.Seconds at he
  rw [e1, e2] at he
  have hdiv : F64.div (F64.fin ((Int.tmod d Second : Int) : ℚ)) (F64.fin 1000000000)
      = F64.round (((Int.tmod d Second : Int) : ℚ) / 1000000000) := by
    unfold F64.div
    simp only [show ¬ ((1000000000 : ℚ) = 0) by norm_num, if_false]
  rw [hdiv] at he
  obtain ⟨f, hf, hfn, _, _⟩ := F64.round_nonneg_small hf0 (by
    have : ((Int.tmod d Second : Int) : ℚ) < 1000000000 := by exact_mod_cast hn1
    rw [div_le_iff₀ (by norm_num)]
    linarith)
  have hfle : f ≤ 1 := by
    have hf1 : ((Int.tmod d Second : Int) : ℚ) / 1000000000 ≤ 1 := by
      rw [div_le_iff₀ (by norm_num)]
      have : ((Int.tmod d Second : Int) : ℚ) < 1000000000 := by exact_mod_cast hn1
      linarith
    obtain ⟨r, hr, _, hr1⟩ := F64.round_le_of_le hf0 hf1
      (F64.round_exact (F64.representable_intCast (k := 1) (by norm_num)))
    rw [hf] at hr
    injection hr with hr
    rw [hr]; exact_mod_cast hr1
  rw [hf] at he
  have hadd : F64.add (F64.fin ((Int.tdiv d Second : Int) : ℚ)) (F64.fin f)
      = F64.round (((Int.tdiv d Second : Int) : ℚ) + f) := rfl
  rw [hadd] at he
  have hsq0 : (0 : ℚ) ≤ ((Int.tdiv d Second : Int) : ℚ) := by exact_mod_cast hs0
  -- a rounded sum that is zero comes from a zero sum
  have hzsum : ((Int.tdiv d Second : Int) : ℚ) + f = 0 := by
    by_contra hne
    have hpos : 0 < ((Int.tdiv d Second : Int) : ℚ) + f :=
      lt_of_le_of_ne (by linarith) (Ne.symm hne)
    by_cases hsec : 1 ≤ Int.tdiv d Second
    · have hq1 : (1 : ℚ) ≤ ((Int.tdiv d Second : Int) : ℚ) + f := by
        have : (1 : ℚ) ≤ ((Int.tdiv d Second : Int) : ℚ) := by exact_mod_cast hsec
        linarith
      obtain ⟨r, hr, _, _, hr1⟩ := F64.round_nonneg_small (le_of_lt hpos) (by
        have : ((Int.tdiv d Second : Int) : ℚ) ≤ 9223372036 := by exact_mod_cast hs1
        linarith)
      rw [hr] at he
      injection he with he
      have := hr1 hq1
      linarith
    · have hsec0 : Int.tdiv d Second = 0 := by omega
      rw [hsec0] at he hpos
      simp only [Int.cast_zero, zero_add] at he hpos
      rw [F64.round_round hf] at he
      injection he with he
      linarith
  have hfz : f = 0 := by linarith
  have hsz : Int.tdiv d Second = 0 := by
    have : ((Int.tdiv d Second : Int) : ℚ) = 0 := by linarith
    exact_mod_cast this
  -- so the nanosecond part is positive, and its quotient does not round to zero
  have hnpos : 1 ≤ Int.tmod d Second := by
    rw [hsz] at hsum
    omega
  have hq : (0 : ℚ) < ((Int.tmod d Second : Int) : ℚ) / 1000000000 := by
    apply div_pos _ (by norm_num)
    exact_mod_cast (by omega : 0 < Int.tmod d Second)
  have hqlt : ((Int.tmod d Second : Int) : ℚ) / 1000000000 < pow2 1023 := by
    have h1 : ((Int.tmod d Second : Int) : ℚ) / 1000000000 < 1 := by
      rw [div_lt_iff₀ (by norm_num)]
      have : ((Int.tmod d Second : Int) : ℚ) < 1000000000 := by exact_mod_cast hn1
      linarith
    have h2 : pow2 0 ≤ pow2 1023 := pow2_le_pow2.mpr (by norm_num)
    rw [pow2_zero] at h2
    linarith
  obtain ⟨r, hr, _, _, _, _, hlow⟩ := F64.round_pos_spec hq hqlt
  rw [hf] at hr
  injection hr with hr
  have hbig : pow2 (-30) ≤ ((Int.tmod d Second : Int) : ℚ) / 1000000000 := by
    have h30 : pow2 (-30) = 1 / 1073741824 := by rw [pow2_eq_zpow]; norm_num
    rw [h30, le_div_iff₀ (by norm_num)]
    have : (1 : ℚ) ≤ ((Int.tmod d Second : Int) : ℚ) := by exact_mod_cast hnpos
    linarith
  have hlog : -30 ≤ ilog2 (((Int.tmod d Second : Int) : ℚ) / 1000000000) := by
    obtain ⟨_, s2⟩ := ilog2_spec (ne_of_gt hq)
    rw [abs_of_pos hq] at s2
    have := pow2_lt_pow2.mp (lt_of_le_of_lt hbig s2)
    omega
  have hrpos := hlow (by omega)
  have := pow2_pos (ilog2 (((Int.tmod d Second : Int) : ℚ) / 1000000000))
  rw [← hr, hfz] at hrpos
  linarith

/-! ## LeakyBucket -/

/-- C15 (counterexample): on `NewLeakyBucket(10, 0.9999999999999999,
PerSecond)` built at `sampleNow`, `Allow(5)` at once leaves the queue at 5;
an `Allow(1)` one second later leaks `leaked = 0.9999999999999999`, so the
queue becomes `q' = 5 - leaked = 4` after rounding: the amount drained,
`queue - q'`, is 1, but `requestsProcessed` grows by `int64(leaked) = 0`. -/
theorem LeakyBucket.processed_differs_from_drained :
    NewLeakyBucket sampleNow 10 (F64.fin (9007199254740991 / 9007199254740992)) PerSecond
      = Except.ok sampleLeakyBelowOne ∧
    (sampleLeakyBelowOne.Allow sampleNow sampleNow 5).1.queue = F64.fin 5 ∧
    (sampleLeakyBelowOne.Allow sampleNow sampleNow 5).1.lastLeakTime < sampleNow + 1000000000 ∧
    ((sampleLeakyBelowOne.Allow sampleNow sampleNow 5).1.leak (sampleNow + 1000000000)
      (sampleNow + 1000000000)).queue = F64.fin 4 ∧
    F64.toInt64 (F64.sub (sampleLeakyBelowOne.Allow sampleNow sampleNow 5).1.queue
      ((sampleLeakyBelowOne.Allow sampleNow sampleNow 5).1.leak (sampleNow + 1000000000)
        (sampleNow + 1000000000)).queue) = 1 ∧
    ((sampleLeakyBelowOne.Allow sampleNow sampleNow 5).1.Allow (sampleNow + 1000000000)
      (sampleNow + 1000000000) 1).1.requestsProcessed
      = (sampleLeakyBelowOne.Allow sampleNow sampleNow 5).1.requestsProcessed + 0 := by
  refine ⟨?_, ?_, ?_, ?_, ?_, ?_⟩
  · have h1 : ¬ ((10 : Int) ≤ 0 ∨
        F64.le (F64.fin (9007199254740991 / 9007199254740992)) (F64.fin 0) = true) := by
      decide!
    unfold NewLeakyBucket
    rw [if_neg h1]
    rfl
  all_goals decide!

/-- C15 (amended): `Allow(n)` with `n > 0` at a time `now` after
`lastLeakTime` first leaks, with `leaked = elapsed * leakRate` in `float64`:
the queue becomes `q' = 0` if `leaked >= queue` and `queue - leaked`
otherwise, `lastLeakTime` becomes the clock reading `now2` taken at the end
of the leak, and `requestsProcessed` grows by `int64(queue)` in the first
case and by `int64(leaked)` in the second; then it returns true and sets
`queue = q' + n` unless `q' + float64(n) > float64(capacity)`, and otherwise
returns false, adds `n` to `requestsDropped` and leaves `queue = q'`. -/
theorem LeakyBucket.allow_leaks_then_queues (lb : LeakyBucket) (now now2 n : Int)
    (hn : 0 < n) (hlate : lb.lastLeakTime < now) :
    (lb.leak now now2).queue
      = (if F64.ge (F64.mul (Duration.Seconds (Time.Sub now lb.lastLeakTime)) lb.leakRate)
            lb.queue = true then F64.fin 0
         else F64.sub lb.queue
            (F64.mul (Duration.Seconds (Time.Sub now lb.lastLeakTime)) lb.leakRate)) ∧
    (lb.leak now now2).lastLeakTime = now2 ∧
    (lb.leak now now2).requestsProcessed
      = add64 lb.requestsProcessed (F64.toInt64
          (if F64.ge (F64.mul (Duration.Seconds (Time.Sub now lb.lastLeakTime)) lb.leakRate)
              lb.queue = true then lb.queue
           else F64.mul (Duration.Seconds (Time.Sub now lb.lastLeakTime)) lb.leakRate)) ∧
    (lb.leak now now2).capacity = lb.capacity ∧ (lb.leak now now2).leakRate = lb.leakRate ∧
    (lb.leak now now2).requestsDropped = lb.requestsDropped ∧
    (lb.Allow now now2 n).2
      = (!(F64.gt (F64.add (lb.leak now now2).queue (F64.ofInt n)) (F64.ofInt lb.capacity))) ∧
    ((lb.Allow now now2 n).2 = true →
      (lb.Allow now now2 n).1 =
        { lb.leak now now2 with queue := F64.add (lb.leak now now2).queue (F64.ofInt n) }) ∧
    ((lb.Allow now now2 n).2 = false →
      (lb.Allow now now2 n).1 =
        { lb.leak now now2 with requestsDropped := add64 lb.requestsDropped n }) := by
  have hn' : ¬ n ≤ 0 := not_le.mpr hn
  obtain ⟨hs0, hs1⟩ := Time.Sub_nonneg (le_of_lt hlate)
  obtain ⟨e, he, hepos⟩ := Duration.Seconds_pos (Time.Sub_pos hlate) hs1
  have hel : F64.le (Duration.Seconds (Time.Sub now lb.lastLeakTime)) (F64.fin 0) = false := by
    rw [he]
    show decide (e ≤ 0) = false
    exact decide_eq_false (not_le.mpr hepos)
  have hleak : lb.leak now now2 =
      (if F64.ge (F64.mul (Duration.Seconds (Time.Sub now lb.lastLeakTime)) lb.leakRate)
          lb.queue = true then
        { lb with
            requestsProcessed := add64 lb.requestsProcessed (F64.toInt64 lb.queue)
            queue := F64.fin 0
            lastLeakTime := now2 }
      else
        { lb with
            requestsProcessed := add64 lb.requestsProcessed (F64.toInt64
              (F64.mul (Duration.Seconds (Time.Sub now lb.lastLeakTime)) lb.leakRate))
            queue := F64.sub lb.queue
              (F64.mul (Duration.Seconds (Time.Sub now lb.lastLeakTime)) lb.leakRate)
            lastLeakTime := now2 }) := by
    unfold LeakyBucket.leak
    simp only [hel, Bool.false_eq_true, if_false]
    split_ifs <;> rfl
  have hcap : (lb.leak now now2).capacity = lb.capacity := by
    rw [hleak]; split_ifs <;> rfl
  have hdrop : (lb.leak now now2).requestsDropped = lb.requestsDropped := by
    rw [hleak]; split_ifs <;> rfl
  have hres : (lb.Allow now now2 n).2
      = (!(F64.gt (F64.add (lb.leak now now2).queue (F64.ofInt n)) (F64.ofInt lb.capacity))) := by
    unfold LeakyBucket.Allow
    rw [← hcap]
    by_cases hg : F64.gt (F64.add (lb.leak now now2).queue (F64.ofInt n))
        (F64.ofInt (lb.leak now now2).capacity) = true
    · simp [hn', hg]
    · simp [hn', hg]
  refine ⟨?_, ?_, ?_, hcap, ?_, hdrop, hres, ?_, ?_⟩
  · rw [hleak]; split_ifs <;> rfl
  · rw [hleak]; split_ifs <;> rfl
  · rw [hleak]; split_ifs <;> rfl
  · rw [hleak]; split_ifs <;> rfl
  · intro ht
    rw [hres, ← hcap] at ht
    have hg : F64.gt (F64.add (lb.leak now now2).queue (F64.ofInt n))
        (F64.ofInt (lb.leak now now2).capacity) = false := by simpa using ht
    unfold LeakyBucket.Allow
    simp only [hn', if_false, hg, Bool.false_eq_true]
  · intro hf
    rw [hres, ← hcap] at hf
    have hg : F64.gt (F64.add (lb.leak now now2).queue (F64.ofInt n))
        (F64.ofInt (lb.leak now now2).capacity) = true := by simpa using hf
    unfold LeakyBucket.Allow
    simp only [hn', if_false, hg, if_true, hdrop]

theorem LeakyBucket.allow_leaks_then_queues_witness :
    ((0 : Int) < 2) ∧
    (sampleLeaky.lastLeakTime < sampleNow + 1000000000) ∧
    ((sampleLeaky.leak (sampleNow + 1000000000) (sampleNow + 1000000001)).queue
      = (if F64.ge (F64.mul (Duration.Seconds (Time.Sub (sampleNow + 1000000000) sampleLeaky.lastLeakTime)) sampleLeaky.leakRate)
            sampleLeaky.queue = true then F64.fin 0
         else F64.sub sampleLeaky.queue
            (F64.mul (Duration.Seconds (Time.Sub (sampleNow + 1000000000) sampleLeaky.lastLeakTime)) sampleLeaky.leakRate)) ∧
    (sampleLeaky.leak (sampleNow + 1000000000) (sampleNow + 1000000001)).lastLeakTime = (sampleNow + 1000000001) ∧
    (sampleLeaky.leak (sampleNow + 1000000000) (sampleNow + 1000000001)).requestsProcessed
      = add64 sampleLeaky.requestsProcessed (F64.toInt64
          (if F64.ge (F64.mul (Duration.Seconds (Time.Sub (sampleNow + 1000000000) sampleLeaky.lastLeakTime)) sampleLeaky.leakRate)
              sampleLeaky.queue = true then sampleLeaky.queue
           else F64.mul (Duration.Seconds (Time.Sub (sampleNow + 1000000000) sampleLeaky.lastLeakTime)) sampleLeaky.leakRate)) ∧
    (sampleLeaky.leak (sampleNow + 1000000000) (sampleNow + 1000000001)).capacity = sampleLeaky.capacity ∧ (sampleLeaky.leak (sampleNow + 1000000000) (sampleNow + 1000000001)).leakRate = sampleLeaky.leakRate ∧
    (sampleLeaky.leak (sampleNow + 1000000000) (sampleNow + 1000000001)).requestsDropped = sampleLeaky.requestsDropped ∧
    (sampleLeaky.Allow (sampleNow + 1000000000) (sampleNow + 1000000001) 2).2
      = (!(F64.gt (F64.add (sampleLeaky.leak (sampleNow + 1000000000) (sampleNow + 1000000001)).queue (F64.ofInt 2)) (F64.ofInt sampleLeaky.capacity))) ∧
    ((sampleLeaky.Allow (sampleNow + 1000000000) (sampleNow + 1000000001) 2).2 = true →
      (sampleLeaky.Allow (sampleNow + 1000000000) (sampleNow + 1000000001) 2).1 =
        { sampleLeaky.leak (sampleNow + 1000000000) (sampleNow + 1000000001) with queue := F64.add (sampleLeaky.leak (sampleNow + 1000000000) (sampleNow + 1000000001)).queue (F64.ofInt 2) }) ∧
    ((sampleLeaky.Allow (sampleNow + 1000000000) (sampleNow + 1000000001) 2).2 = false →
      (sampleLeaky.Allow (sampleNow + 1000000000) (sampleNow + 1000000001) 2).1 =
        { sampleLeaky.leak (sampleNow + 1000000000) (sampleNow + 1000000001) with requestsDropped := add64 sampleLeaky.requestsDropped 2 })) :=
  ⟨by decide, by decide,
    LeakyBucket.allow_leaks_then_queues sampleLeaky (sampleNow + 1000000000) (sampleNow + 1000000001) 2 (by decide) (by decide)⟩


/-! ## TokenBucket: refill from empty -/

theorem NewTokenBucket_sampleTokenEmpty :
    NewTokenBucket sampleNow 100 (F64.fin 0) (F64.fin 1) = Except.ok sampleTokenEmpty := by
  have h1 : ¬ (F64.lt (F64.fin 0) (F64.fin 0) = true) := by decide!
  have h2 : ¬ (F64.le (F64.fin 1) (F64.fin 0) = true) := by decide!
  have h3 : ¬ (F64.gt (F64.fin 0) (F64.ofInt 100) = true) := by decide!
  unfold NewTokenBucket
  rw [if_neg h1, if_neg h2]
  simp only [h3, if_false]
  rfl

/-- C19 (counterexample): `NewTokenBucket(100, 0, 1)` built at `sampleNow`
is empty; 61 seconds later and with no call in between, the refill credits
only 60 seconds, so the level is 60 and `Allow(61)` returns false, although
`61 <= min(C, R * t) = min(100, 1 * 61)`. -/
theorem TokenBucket.refill_stops_after_sixty_seconds :
    NewTokenBucket sampleNow 100 (F64.fin 0) (F64.fin 1) = Except.ok sampleTokenEmpty ∧
    (sampleTokenEmpty.refill (sampleNow + 61000000000)).tokens = F64.fin 60 ∧
    (sampleTokenEmpty.Allow (sampleNow + 61000000000) 61).2 = false ∧
    ((61 : ℚ) ≤ min 100 (1 * 61)) := by
  refine ⟨NewTokenBucket_sampleTokenEmpty, ?_, ?_, ?_⟩ <;> decide!

theorem F64.add_zero_of_round {q m : ℚ} (h : F64.round q = F64.fin m) :
    F64.add (F64.fin 0) (F64.round q) = F64.round q := by
  rw [h]
  show F64.round (0 + m) = F64.fin m
  rw [zero_add]
  exact F64.round_round h

theorem F64.zero_add_mul_fin (a b : ℚ) (h : 0 ≤ a * b) :
    F64.add (F64.fin 0) (F64.mul (F64.fin a) (F64.fin b)) = F64.mul (F64.fin a) (F64.fin b) := by
  show F64.add (F64.fin 0) (F64.round (a * b)) = F64.round (a * b)
  rcases F64.round_nonneg h with hp | ⟨m, hm, _⟩
  · rw [hp]; rfl
  · exact F64.add_zero_of_round hm

/-- C19 (amended): for a bucket with capacity `C > 0` and a finite fill rate
`R > 0` whose level is 0 at `lastTime`, the refill at a time `now` not before
`lastTime` (no call in between) brings the level to
`min(float64(C), min(elapsed, 60) * R)`, the product being the `float64`
product with the elapsed seconds capped at 60; `Allow(n)`, `n >= 1`, at that
time returns true if and only if `float64(n)` is at most that level. When
`C <= 2^53` and the capped product is a `float64` value, the level is
exactly `min(C, min(elapsed, 60) * R)`. -/
theorem TokenBucket.refill_from_empty (tb : TokenBucket) (r : ℚ) (now n : Int)
    (htok : tb.tokens = F64.fin 0) (hrate : tb.fillRate = F64.fin r) (hr : 0 < r)
    (hC : 0 < tb.capacity) (hlater : tb.lastTime ≤ now) (hn : 0 < n) :
    ∃ e : ℚ, Duration.Seconds (Time.Sub now tb.lastTime) = F64.fin e ∧ 0 ≤ e ∧
      (tb.refill now).tokens
        = (if F64.gt (F64.mul (F64.fin (min e 60)) (F64.fin r)) (F64.ofInt tb.capacity) = true
            then F64.ofInt tb.capacity
           else F64.mul (F64.fin (min e 60)) (F64.fin r)) ∧
      ((tb.Allow now n).2 = true ↔ F64.le (F64.ofInt n) (tb.refill now).tokens = true) ∧
      (tb.capacity ≤ 2 ^ 53 → F64.Representable (min e 60 * r) →
        (tb.refill now).tokens = F64.fin (min (tb.capacity : ℚ) (min e 60 * r))) := by
  obtain ⟨hs0, hs1⟩ := Time.Sub_nonneg hlater
  obtain ⟨e, he, he0, _⟩ := Duration.Seconds_nonneg hs0 hs1
  have hte : (if F64.gt (Duration.Seconds (Time.Sub now tb.lastTime)) maxRefillSeconds = true
      then maxRefillSeconds else Duration.Seconds (Time.Sub now tb.lastTime))
      = F64.fin (min e 60) := by
    rw [he]
    unfold maxRefillSeconds
    show (if decide ((60 : ℚ) < e) = true then F64.fin 60 else F64.fin e) = F64.fin (min e 60)
    by_cases h60 : (60 : ℚ) < e
    · simp only [h60, decide_True, if_true, min_eq_right (le_of_lt h60)]
    · simp only [h60, decide_False, Bool.false_eq_true, if_false, min_eq_left (not_lt.mp h60)]
  have hprod : 0 ≤ min e 60 * r := mul_nonneg (le_min he0 (by norm_num)) (le_of_lt hr)
  have hlevel : (tb.refill now).tokens
      = (if F64.gt (F64.mul (F64.fin (min e 60)) (F64.fin r)) (F64.ofInt tb.capacity) = true
          then F64.ofInt tb.capacity
         else F64.mul (F64.fin (min e 60)) (F64.fin r)) := by
    unfold TokenBucket.refill
    simp only [hte, htok, hrate, F64.zero_add_mul_fin _ _ hprod]
  have hnn : (tb.refill now).tokens ≠ F64.nan := by
    rw [hlevel]
    split_ifs
    · exact F64.ofInt_ne_nan _
    · exact F64.round_ne_nan _
  have hn' : ¬ n ≤ 0 := not_le.mpr hn
  refine ⟨e, he, he0, hlevel, ?_, ?_⟩
  · have hres : (tb.Allow now n).2 = (!(F64.gt (F64.ofInt n) (tb.refill now).tokens)) := by
      unfold TokenBucket.Allow
      by_cases hg : F64.gt (F64.ofInt n) (tb.refill now).tokens = true
      · simp [hn', hg]
      · simp [hn', hg]
    rw [hres, F64.gt_eq_not_le (F64.ofInt_ne_nan n) hnn]
    simp
  · intro hC2 hrep
    rw [hlevel, F64.ofInt_exact (by rw [abs_of_pos hC]; exact hC2)]
    have hm : F64.mul (F64.fin (min e 60)) (F64.fin r) = F64.fin (min e 60 * r) :=
      F64.round_exact hrep
    rw [hm]
    show (if decide ((tb.capacity : ℚ) < min e 60 * r) = true then F64.fin (tb.capacity : ℚ)
      else F64.fin (min e 60 * r)) = F64.fin (min (tb.capacity : ℚ) (min e 60 * r))
    by_cases hlt : (tb.capacity : ℚ) < min e 60 * r
    · simp only [hlt, decide_True, if_true, min_eq_left (le_of_lt hlt)]
    · simp only [hlt, decide_False, Bool.false_eq_true, if_false, min_eq_right (not_lt.mp hlt)]

theorem TokenBucket.refill_from_empty_witness :
    (sampleTokenEmpty.tokens = F64.fin 0) ∧
    (sampleTokenEmpty.fillRate = F64.fin 1) ∧
    ((0 : ℚ) < 1) ∧
    (0 < sampleTokenEmpty.capacity) ∧
    (sampleTokenEmpty.lastTime ≤ sampleNow + 61000000000) ∧
    ((0 : Int) < 61) ∧
    (∃ e : ℚ, Duration.Seconds (Time.Sub (sampleNow + 61000000000) sampleTokenEmpty.lastTime) = F64.fin e ∧ 0 ≤ e ∧
      (sampleTokenEmpty.refill (sampleNow + 61000000000)).tokens
        = (if F64.gt (F64.mul (F64.fin (min e 60)) (F64.fin 1)) (F64.ofInt sampleTokenEmpty.capacity) = true
            then F64.ofInt sampleTokenEmpty.capacity
           else F64.mul (F64.fin (min e 60)) (F64.fin 1)) ∧
      ((sampleTokenEmpty.Allow (sampleNow + 61000000000) 61).2 = true ↔ F64.le (F64.ofInt 61) (sampleTokenEmpty.refill (sampleNow + 61000000000)).tokens = true) ∧
      (sampleTokenEmpty.capacity ≤ 2 ^ 53 → F64.Representable (min e 60 * 1) →
        (sampleTokenEmpty.refill (sampleNow + 61000000000)).tokens = F64.fin (min (sampleTokenEmpty.capacity : ℚ) (min e 60 * 1)))) :=
  ⟨rfl, rfl, zero_lt_one, by decide, by decide, by decide,
    TokenBucket.refill_from_empty sampleTokenEmpty 1 (sampleNow + 61000000000) 61 rfl rfl zero_lt_one (by decide) (by decide) (by decide)⟩


/-! ## TokenBucket: the level stays between 0 and the capacity -/

/-- C17 (counterexample): `NewTokenBucket(9007199254740995, 1e16, 1)`:
the initial tokens exceed `float64(capacity)` and are clamped to it, but
`float64(9007199254740995)` is `9007199254740996`, so the bucket starts with
more tokens than its capacity. -/
theorem TokenBucket.tokens_above_capacity_after_rounding :
    NewTokenBucket sampleNow 9007199254740995 (F64.fin 10000000000000000) (F64.fin 1)
      = Except.ok sampleTokenBig ∧
    0 < sampleTokenBig.capacity ∧
    sampleTokenBig.tokens = F64.fin 9007199254740996 ∧
    F64.gt sampleTokenBig.tokens (F64.fin (sampleTokenBig.capacity : ℚ)) = true := by
  refine ⟨?_, ?_, ?_, ?_⟩
  · have h1 : ¬ (F64.lt (F64.fin 10000000000000000) (F64.fin 0) = true) := by decide!
    have h2 : ¬ (F64.le (F64.fin 1) (F64.fin 0) = true) := by decide!
    have h3 : F64.gt (F64.fin 10000000000000000) (F64.ofInt 9007199254740995) = true := by
      decide!
    have h4 : F64.ofInt 9007199254740995 = F64.fin 9007199254740996 := by decide!
    unfold NewTokenBucket
    rw [if_neg h1, if_neg h2]
    simp only [h3, if_true, h4]
    rfl
  all_goals decide!

theorem TokenBucket.refill_bounded (tb : TokenBucket) (now : Int) (h : tb.Bounded)
    (hl : tb.lastTime ≤ now) : (tb.refill now).Bounded ∧ (tb.refill now).lastTime = now := by
  obtain ⟨hC, hC2, ⟨r, hr, hr0⟩, t, ht, ht0, ht1⟩ := h
  refine ⟨⟨hC, hC2, ⟨r, hr, hr0⟩, ?_⟩, rfl⟩
  obtain ⟨hs0, hs1⟩ := Time.Sub_nonneg hl
  obtain ⟨e, he, he0, _⟩ := Duration.Seconds_nonneg hs0 hs1
  have hte : (if F64.gt (Duration.Seconds (Time.Sub now tb.lastTime)) maxRefillSeconds = true
      then maxRefillSeconds else Duration.Seconds (Time.Sub now tb.lastTime))
      = F64.fin (min e 60) := by
    rw [he]
    unfold maxRefillSeconds
    show (if decide ((60 : ℚ) < e) = true then F64.fin 60 else F64.fin e) = F64.fin (min e 60)
    by_cases h60 : (60 : ℚ) < e
    · simp only [h60, decide_True, if_true, min_eq_right (le_of_lt h60)]
    · simp only [h60, decide_False, Bool.false_eq_true, if_false, min_eq_left (not_lt.mp h60)]
  have hprod : 0 ≤ min e 60 * r := mul_nonneg (le_min he0 (by norm_num)) (le_of_lt hr0)
  have hcapF : F64.ofInt tb.capacity = F64.fin (tb.capacity : ℚ) :=
    F64.ofInt_exact (by rw [abs_of_pos hC]; exact hC2)
  show ∃ t1 : ℚ, (tb.refill now).tokens = F64.fin t1 ∧ 0 ≤ t1 ∧ t1 ≤ (tb.capacity : ℚ)
  unfold TokenBucket.refill
  simp only [hte, ht, hr, hcapF]
  have hcap0 : (0 : ℚ) ≤ (tb.capacity : ℚ) := by exact_mod_cast le_of_lt hC
  have hmul : F64.mul (F64.fin (min e 60)) (F64.fin r) = F64.round (min e 60 * r) := rfl
  rw [hmul]
  rcases F64.round_nonneg hprod with hp | ⟨m, hm, hm0⟩
  · rw [hp]
    exact ⟨(tb.capacity : ℚ), rfl, hcap0, le_refl _⟩
  · rw [hm]
    have hadd : F64.add (F64.fin t) (F64.fin m) = F64.round (t + m) := rfl
    rw [hadd]
    rcases F64.round_nonneg (add_nonneg ht0 hm0) with hp | ⟨v, hv, hv0⟩
    · rw [hp]
      exact ⟨(tb.capacity : ℚ), rfl, hcap0, le_refl _⟩
    · rw [hv]
      show ∃ t1 : ℚ, (if decide ((tb.capacity : ℚ) < v) = true then F64.fin (tb.capacity : ℚ)
        else F64.fin v) = F64.fin t1 ∧ 0 ≤ t1 ∧ t1 ≤ (tb.capacity : ℚ)
      by_cases hlt : (tb.capacity : ℚ) < v
      · simp only [hlt, decide_True, if_true]
        exact ⟨(tb.capacity : ℚ), rfl, hcap0, le_refl _⟩
      · simp only [hlt, decide_False, Bool.false_eq_true, if_false]
        exact ⟨v, rfl, hv0, not_lt.mp hlt⟩

theorem F64.round_intCast_small {c : Int} (h0 : 0 ≤ c) (h1 : c ≤ 2 ^ 53) :
    F64.round (c : ℚ) = F64.fin (c : ℚ) :=
  F64.round_exact (F64.representable_intCast (by rw [abs_of_nonneg h0]; exact h1))

/-- Taking `a <= t` away from a level `t <= c` leaves a level in `[0, c]`. -/
theorem F64.sub_bounded {t a : ℚ} {c : Int} (h0 : 0 ≤ c) (h1 : c ≤ 2 ^ 53)
    (ha : a ≤ t) (ha0 : 0 ≤ a) (ht : t ≤ (c : ℚ)) :
    ∃ v : ℚ, F64.sub (F64.fin t) (F64.fin a) = F64.fin v ∧ 0 ≤ v ∧ v ≤ (c : ℚ) := by
  have hsub : F64.sub (F64.fin t) (F64.fin a) = F64.round (t + -a) := rfl
  rw [hsub]
  exact F64.round_le_of_le (by linarith) (by linarith) (F64.round_intCast_small h0 h1)

/-- The value of `float64(n)` for `n > 0`: a finite value of at least 0, or
`+Inf`. -/
theorem F64.ofInt_pos_cases {n : Int} (hn : 0 < n) :
    F64.ofInt n = F64.pinf ∨ ∃ a : ℚ, F64.ofInt n = F64.fin a ∧ 0 ≤ a :=
  F64.round_nonneg (by exact_mod_cast le_of_lt hn)

theorem TokenBucket.allow_bounded (tb : TokenBucket) (now n : Int) (h : tb.Bounded)
    (hl : tb.lastTime ≤ now) :
    (tb.Allow now n).1.Bounded ∧ (tb.Allow now n).1.lastTime ≤ now := by
  by_cases hn : n ≤ 0
  · have hA : tb.Allow now n = (tb, false) := by
      unfold TokenBucket.Allow; simp only [hn, if_true]
    rw [hA]; exact ⟨h, hl⟩
  · obtain ⟨hb, hlast⟩ := TokenBucket.refill_bounded tb now h hl
    obtain ⟨hC, hC2, hrate, t, ht, ht0, ht1⟩ := hb
    by_cases hg : F64.gt (F64.ofInt n) (tb.refill now).tokens = true
    · have hA : (tb.Allow now n).1
          = { tb.refill now with tokensRejected := add64 (tb.refill now).tokensRejected 1 } := by
        unfold TokenBucket.Allow; simp only [hn, if_false, hg, if_true]
      rw [hA]
      exact ⟨⟨hC, hC2, hrate, t, ht, ht0, ht1⟩, le_of_eq hlast⟩
    · have hA : (tb.Allow now n).1
          = { tb.refill now with
                tokens := F64.sub (tb.refill now).tokens (F64.ofInt n)
                tokensProcessed := add64 (tb.refill now).tokensProcessed 1 } := by
        unfold TokenBucket.Allow; simp only [hn, if_false, hg, Bool.false_eq_true]
      rw [hA]
      refine ⟨⟨hC, hC2, hrate, ?_⟩, le_of_eq hlast⟩
      show ∃ v : ℚ, F64.sub (tb.refill now).tokens (F64.ofInt n) = F64.fin v ∧ 0 ≤ v ∧
        v ≤ ((tb.refill now).capacity : ℚ)
      rw [ht] at hg ⊢
      rcases F64.ofInt_pos_cases (not_le.mp hn) with hp | ⟨a, ha, ha0⟩
      · rw [hp] at hg; exact absurd rfl hg
      · rw [ha] at hg ⊢
        have hat : a ≤ t := by
          have : ¬ (decide (t < a) = true) := hg
          simpa using this
        exact F64.sub_bounded (le_of_lt hC) hC2 hat ha0 ht1

theorem TokenBucket.waitTick_bounded (tb : TokenBucket) (now n : Int) (h : tb.Bounded)
    (hl : tb.lastTime ≤ now) (hn : 0 < n) :
    (tb.waitTick now n).1.Bounded ∧ (tb.waitTick now n).1.lastTime ≤ now := by
  obtain ⟨hb, hlast⟩ := TokenBucket.refill_bounded tb now h hl
  obtain ⟨hC, hC2, hrate, t, ht, ht0, ht1⟩ := hb
  by_cases hg : F64.le (F64.ofInt n) (tb.refill now).tokens = true
  · have hA : (tb.waitTick now n).1
        = { tb.refill now with
              tokens := F64.sub (tb.refill now).tokens (F64.ofInt n)
              tokensProcessed := add64 (tb.refill now).tokensProcessed 1 } := by
      unfold TokenBucket.waitTick; simp only [hg, if_true]
    rw [hA]
    refine ⟨⟨hC, hC2, hrate, ?_⟩, le_of_eq hlast⟩
    show ∃ v : ℚ, F64.sub (tb.refill now).tokens (F64.ofInt n) = F64.fin v ∧ 0 ≤ v ∧
      v ≤ ((tb.refill now).capacity : ℚ)
    rw [ht] at hg ⊢
    rcases F64.ofInt_pos_cases hn with hp | ⟨a, ha, ha0⟩
    · rw [hp] at hg
      have hne : ¬ (F64.le F64.pinf (F64.fin t) = true) := Bool.false_ne_true
      exact absurd hg hne
    · rw [ha] at hg ⊢
      have hat : a ≤ t := by
        have : decide (a ≤ t) = true := hg
        simpa using this
      exact F64.sub_bounded (le_of_lt hC) hC2 hat ha0 ht1
  · have hA : (tb.waitTick now n).1 = tb.refill now := by
      unfold TokenBucket.waitTick; simp only [hg, Bool.false_eq_true, if_false]
    rw [hA]
    exact ⟨⟨hC, hC2, hrate, t, ht, ht0, ht1⟩, le_of_eq hlast⟩

theorem TokenBucket.update_bounded (tb : TokenBucket) (c : Int) (r : F64) (h : tb.Bounded)
    (hc : c ≤ 2 ^ 53) (hr : r ≠ F64.pinf) :
    (tb.Update c r).Bounded ∧ (tb.Update c r).lastTime = tb.lastTime := by
  obtain ⟨hC, hC2, ⟨r0, hr0, hr0pos⟩, t, ht, ht0, ht1⟩ := h
  have hrate : ∀ tb1 : TokenBucket, tb1.fillRate = tb.fillRate →
      ∃ r1 : ℚ, (if F64.gt r (F64.fin 0) = true then { tb1 with fillRate := r } else tb1).fillRate
        = F64.fin r1 ∧ 0 < r1 := by
    intro tb1 h1
    by_cases hg : F64.gt r (F64.fin 0) = true
    · simp only [hg, if_true]
      cases r with
      | fin x =>
        have : decide ((0 : ℚ) < x) = true := hg
        exact ⟨x, rfl, by simpa using this⟩
      | pinf => exact absurd rfl hr
      | ninf => exact absurd hg (by decide)
      | nan => exact absurd hg (by decide)
    · simp only [hg, Bool.false_eq_true, if_false]
      exact ⟨r0, by rw [h1, hr0], hr0pos⟩
  have hframe : ∀ tb1 : TokenBucket,
      (if F64.gt r (F64.fin 0) = true then { tb1 with fillRate := r } else tb1).capacity
        = tb1.capacity ∧
      (if F64.gt r (F64.fin 0) = true then { tb1 with fillRate := r } else tb1).tokens
        = tb1.tokens ∧
      (if F64.gt r (F64.fin 0) = true then { tb1 with fillRate := r } else tb1).lastTime
        = tb1.lastTime := by
    intro tb1
    split_ifs <;> exact ⟨rfl, rfl, rfl⟩
  unfold TokenBucket.Update
  by_cases hpos : 0 < c
  · simp only [hpos, if_true]
    obtain ⟨f1, f2, f3⟩ := hframe
      { tb with
          capacity := c
          tokens := if F64.gt tb.tokens (F64.ofInt c) = true then F64.ofInt c else tb.tokens }
    refine ⟨⟨by rw [f1]; exact hpos, by rw [f1]; exact hc, hrate _ rfl, ?_⟩, f3⟩
    rw [f1, f2]
    show ∃ t1 : ℚ, (if F64.gt tb.tokens (F64.ofInt c) = true then F64.ofInt c else tb.tokens)
      = F64.fin t1 ∧ 0 ≤ t1 ∧ t1 ≤ (c : ℚ)
    rw [ht, F64.ofInt_exact (by rw [abs_of_pos hpos]; exact hc)]
    by_cases hlt : (c : ℚ) < t
    · have hg : F64.gt (F64.fin t) (F64.fin (c : ℚ)) = true := by
        show decide ((c : ℚ) < t) = true
        exact decide_eq_true hlt
      simp only [hg, if_true]
      exact ⟨(c : ℚ), rfl, by exact_mod_cast le_of_lt hpos, le_refl _⟩
    · have hg : ¬ (F64.gt (F64.fin t) (F64.fin (c : ℚ)) = true) := by
        show ¬ (decide ((c : ℚ) < t) = true)
        simpa using hlt
      simp only [hg, if_false]
      exact ⟨t, rfl, ht0, not_lt.mp hlt⟩
  · simp only [hpos, if_false]
    obtain ⟨f1, f2, f3⟩ := hframe tb
    refine ⟨⟨by rw [f1]; exact hC, by rw [f1]; exact hC2, hrate _ rfl, ?_⟩, f3⟩
    rw [f1, f2]
    exact ⟨t, ht, ht0, ht1⟩

/-- The bounds are kept by every sequence of operations at non-decreasing
times whose updates are plain. -/
theorem TokenBucket.runOps_bounded :
    ∀ (ops : List TokenBucket.Op) (tb : TokenBucket) (T : Int), tb.Bounded → tb.lastTime ≤ T →
      TokenBucket.ordered T ops = true → TokenBucket.plain ops = true →
      (tb.runOps ops).Bounded := by
  intro ops
  induction ops with
  | nil => intro tb T h _ _ _; exact h
  | cons o os ih =>
    intro tb T h hl hord hplain
    cases o with
    | allow now n =>
      simp only [TokenBucket.ordered, Bool.and_eq_true, decide_eq_true_eq] at hord
      simp only [TokenBucket.plain] at hplain
      obtain ⟨hb, hl1⟩ := TokenBucket.allow_bounded tb now n h (le_trans hl hord.1)
      exact ih _ now hb hl1 hord.2 hplain
    | update c r =>
      simp only [TokenBucket.ordered] at hord
      simp only [TokenBucket.plain, Bool.and_eq_true, decide_eq_true_eq] at hplain
      obtain ⟨hb, hl1⟩ := TokenBucket.update_bounded tb c r h hplain.1.1 hplain.1.2
      exact ih _ T hb (le_of_eq_of_le hl1 hl) hord hplain.2
    | tick now n =>
      simp only [TokenBucket.ordered, Bool.and_eq_true, decide_eq_true_eq] at hord
      simp only [TokenBucket.plain] at hplain
      obtain ⟨hb, hl1⟩ := TokenBucket.waitTick_bounded tb now n h (le_trans hl hord.1.1) hord.1.2
      exact ih _ now hb hl1 hord.2 hplain

/-- C17 (amended): for a bucket built by `NewTokenBucket(C, tokens, R)` with
`0 < C <= 2^53`, initial tokens that are not NaN and a finite rate `R`, and
for every sequence of `Allow`, `Update` and `WaitAllowContext` tick
operations at non-decreasing times in which every `Update` has a capacity of
at most `2^53` and a fill rate other than `+Inf`, the token level after the
sequence is finite and satisfies `0 <= tokens <= capacity` (the capacity then
in force). -/
theorem TokenBucket.tokens_within_capacity (now0 C : Int) (tokens0 : F64) (r : ℚ)
    (tb0 : TokenBucket) (ops : List TokenBucket.Op)
    (hnew : NewTokenBucket now0 C tokens0 (F64.fin r) = Except.ok tb0)
    (hC : 0 < C) (hC2 : C ≤ 2 ^ 53) (htok : tokens0 ≠ F64.nan)
    (hord : TokenBucket.ordered now0 ops = true) (hplain : TokenBucket.plain ops = true) :
    ∃ t : ℚ, (tb0.runOps ops).tokens = F64.fin t ∧ 0 ≤ t ∧
      t ≤ ((tb0.runOps ops).capacity : ℚ) := by
  unfold NewTokenBucket at hnew
  by_cases h1 : F64.lt tokens0 (F64.fin 0) = true
  · rw [if_pos h1] at hnew; cases hnew
  by_cases h2 : F64.le (F64.fin r) (F64.fin 0) = true
  · rw [if_neg h1, if_pos h2] at hnew; cases hnew
  rw [if_neg h1, if_neg h2] at hnew
  simp only [Except.ok.injEq] at hnew
  have hcapF : F64.ofInt C = F64.fin (C : ℚ) :=
    F64.ofInt_exact (by rw [abs_of_pos hC]; exact hC2)
  have hcap0 : (0 : ℚ) ≤ (C : ℚ) := by exact_mod_cast le_of_lt hC
  have hb : tb0.Bounded ∧ tb0.lastTime ≤ now0 := by
    rw [← hnew]
    refine ⟨⟨hC, hC2, ⟨r, rfl, ?_⟩, ?_⟩, le_refl _⟩
    · have : ¬ (decide (r ≤ 0) = true) := h2
      simpa using this
    · show ∃ t : ℚ, (if F64.gt tokens0 (F64.ofInt C) = true then F64.ofInt C else tokens0)
        = F64.fin t ∧ 0 ≤ t ∧ t ≤ (C : ℚ)
      rw [hcapF]
      cases tokens0 with
      | fin x =>
        have hx0 : 0 ≤ x := by
          have : ¬ (decide (x < 0) = true) := h1
          simpa using this
        by_cases hlt : (C : ℚ) < x
        · have hg : F64.gt (F64.fin x) (F64.fin (C : ℚ)) = true := by
            show decide ((C : ℚ) < x) = true
            exact decide_eq_true hlt
          simp only [hg, if_true]
          exact ⟨(C : ℚ), rfl, hcap0, le_refl _⟩
        · have hg : ¬ (F64.gt (F64.fin x) (F64.fin (C : ℚ)) = true) := by
            show ¬ (decide ((C : ℚ) < x) = true)
            simpa using hlt
          simp only [hg, if_false]
          exact ⟨x, rfl, hx0, not_lt.mp hlt⟩
      | pinf => exact ⟨(C : ℚ), rfl, hcap0, le_refl _⟩
      | ninf => exact absurd rfl h1
      | nan => exact absurd rfl htok
  obtain ⟨_, _, _, t, ht, ht0, ht1⟩ :=
    TokenBucket.runOps_bounded ops tb0 now0 hb.1 hb.2 hord hplain
  exact ⟨t, ht, ht0, ht1⟩

theorem TokenBucket.tokens_within_capacity_witness :
    (NewTokenBucket sampleNow 100 (F64.fin 0) (F64.fin 1) = Except.ok sampleTokenEmpty) ∧
    ((0 : Int) < 100) ∧ ((100 : Int) ≤ 2 ^ 53) ∧ (F64.fin 0 ≠ F64.nan) ∧
    (TokenBucket.ordered sampleNow
      [TokenBucket.Op.allow (sampleNow + 5000000000) 3, TokenBucket.Op.update 4 (F64.fin 2),
        TokenBucket.Op.tick (sampleNow + 5100000000) 1] = true) ∧
    (TokenBucket.plain
      [TokenBucket.Op.allow (sampleNow + 5000000000) 3, TokenBucket.Op.update 4 (F64.fin 2),
        TokenBucket.Op.tick (sampleNow + 5100000000) 1] = true) ∧
    (∃ t : ℚ, (sampleTokenEmpty.runOps
        [TokenBucket.Op.allow (sampleNow + 5000000000) 3, TokenBucket.Op.update 4 (F64.fin 2),
          TokenBucket.Op.tick (sampleNow + 5100000000) 1]).tokens = F64.fin t ∧ 0 ≤ t ∧
      t ≤ ((sampleTokenEmpty.runOps
        [TokenBucket.Op.allow (sampleNow + 5000000000) 3, TokenBucket.Op.update 4 (F64.fin 2),
          TokenBucket.Op.tick (sampleNow + 5100000000) 1]).capacity : ℚ)) :=
  ⟨NewTokenBucket_sampleTokenEmpty, by decide, by decide, by decide, by decide,
    by decide,
    TokenBucket.tokens_within_capacity sampleNow 100 (F64.fin 0) 1 sampleTokenEmpty
      [TokenBucket.Op.allow (sampleNow + 5000000000) 3, TokenBucket.Op.update 4 (F64.fin 2),
        TokenBucket.Op.tick (sampleNow + 5100000000) 1]
      NewTokenBucket_sampleTokenEmpty (by decide) (by decide) (by decide)
      (by decide) (by decide)⟩

/-! ## LeakyBucket: the queue stays between 0 and the capacity -/

theorem NewLeakyBucket_perSecond (now C : Int) (r : ℚ) (hC : 0 < C) (hr : 0 < r) :
    NewLeakyBucket now C (F64.fin r) PerSecond
      = Except.ok { capacity := C, leakRate := F64.fin r, queue := F64.fin 0,
                    requestsDropped := 0, requestsProcessed := 0, lastLeakTime := now } := by
  have h1 : ¬ (C ≤ 0 ∨ F64.le (F64.fin r) (F64.fin 0) = true) := by
    intro h
    rcases h with h | h
    · omega
    · have : decide (r ≤ 0) = true := h
      have := of_decide_eq_true this
      linarith
  unfold NewLeakyBucket
  rw [if_neg h1]
  rfl

/-- C14 (counterexample): `NewLeakyBucket(9007199254740995, 1, PerSecond)`:
`float64(capacity)` is `9007199254740996`, so `Allow(9007199254740996)` on
the empty bucket is admitted and leaves the stored queue level, and the level
`QueueSize` reports at that instant, above the capacity. -/
theorem LeakyBucket.queue_above_capacity_after_rounding :
    NewLeakyBucket sampleNow 9007199254740995 (F64.fin 1) PerSecond = Except.ok sampleLeakyBig ∧
    sampleLeakyBig.Allow sampleNow sampleNow 9007199254740996
      = ({ sampleLeakyBig with queue := F64.fin 9007199254740996 }, true) ∧
    (sampleLeakyBig.Allow sampleNow sampleNow 9007199254740996).1.QueueSize sampleNow
      = F64.fin 9007199254740996 ∧
    F64.gt (sampleLeakyBig.Allow sampleNow sampleNow 9007199254740996).1.queue
      (F64.fin (sampleLeakyBig.capacity : ℚ)) = true := by
  refine ⟨NewLeakyBucket_perSecond sampleNow 9007199254740995 1 (by decide) zero_lt_one,
    ?_, ?_, ?_⟩ <;> decide!

theorem LeakyBucket.leak_bounded (lb : LeakyBucket) (now now2 : Int) (h : lb.Bounded)
    (hl : lb.lastLeakTime ≤ now) (h2 : now ≤ now2) :
    (lb.leak now now2).Bounded ∧ (lb.leak now now2).lastLeakTime ≤ now2 := by
  obtain ⟨hC, hC2, ⟨r, hr, hr0⟩, q, hq, hq0, hq1⟩ := h
  obtain ⟨hs0, hs1⟩ := Time.Sub_nonneg hl
  obtain ⟨e, he, he0, _⟩ := Duration.Seconds_nonneg hs0 hs1
  unfold LeakyBucket.leak
  simp only [he, hr, hq]
  by_cases hle : F64.le (F64.fin e) (F64.fin 0) = true
  · simp only [hle, if_true]
    exact ⟨⟨hC, hC2, ⟨r, hr, hr0⟩, q, hq, hq0, hq1⟩, le_trans hl h2⟩
  · have hle' : F64.le (F64.fin e) (F64.fin 0) = false := Bool.eq_false_iff.mpr hle
    simp only [hle', Bool.false_eq_true, if_false]
    have hmul : F64.mul (F64.fin e) (F64.fin r) = F64.round (e * r) := rfl
    rw [hmul]
    rcases F64.round_nonneg (mul_nonneg he0 hr0) with hp | ⟨l, hlk, hl0⟩
    · rw [hp]
      have hge : F64.ge F64.pinf (F64.fin q) = true := rfl
      simp only [hge, if_true]
      exact ⟨⟨hC, hC2, ⟨r, rfl, hr0⟩, 0, rfl, le_refl _, by exact_mod_cast le_of_lt hC⟩,
        le_refl _⟩
    · rw [hlk]
      by_cases hge : F64.ge (F64.fin l) (F64.fin q) = true
      · simp only [hge, if_true]
        exact ⟨⟨hC, hC2, ⟨r, rfl, hr0⟩, 0, rfl, le_refl _, by exact_mod_cast le_of_lt hC⟩,
          le_refl _⟩
      · have hge' : F64.ge (F64.fin l) (F64.fin q) = false := Bool.eq_false_iff.mpr hge
        simp only [hge', Bool.false_eq_true, if_false]
        have hlt : l ≤ q := by
          have h3 : decide (q ≤ l) = false := hge'
          have := of_decide_eq_false h3
          linarith
        obtain ⟨v, hv, hv0, hv1⟩ := F64.sub_bounded (le_of_lt hC) hC2 hlt hl0 hq1
        exact ⟨⟨hC, hC2, ⟨r, rfl, hr0⟩, v, hv, hv0, hv1⟩, le_refl _⟩

theorem LeakyBucket.allow_bounded_leaky (lb : LeakyBucket) (now now2 n : Int) (h : lb.Bounded)
    (hl : lb.lastLeakTime ≤ now) (h2 : now ≤ now2) :
    (lb.Allow now now2 n).1.Bounded ∧ (lb.Allow now now2 n).1.lastLeakTime ≤ now2 := by
  by_cases hn : n ≤ 0
  · have hA : lb.Allow now now2 n = (lb, false) := by
      unfold LeakyBucket.Allow; simp only [hn, if_true]
    rw [hA]; exact ⟨h, le_trans hl h2⟩
  · obtain ⟨hb, hlast⟩ := LeakyBucket.leak_bounded lb now now2 h hl h2
    obtain ⟨hC, hC2, hrate, q, hq, hq0, hq1⟩ := hb
    have hcapF : F64.ofInt (lb.leak now now2).capacity
        = F64.fin ((lb.leak now now2).capacity : ℚ) :=
      F64.ofInt_exact (by rw [abs_of_pos hC]; exact hC2)
    by_cases hg : F64.gt (F64.add (lb.leak now now2).queue (F64.ofInt n))
        (F64.ofInt (lb.leak now now2).capacity) = true
    · have hA : (lb.Allow now now2 n).1
          = { lb.leak now now2 with
                requestsDropped := add64 (lb.leak now now2).requestsDropped n } := by
        unfold LeakyBucket.Allow; simp only [hn, if_false, hg, if_true]
      rw [hA]
      exact ⟨⟨hC, hC2, hrate, q, hq, hq0, hq1⟩, hlast⟩
    · have hA : (lb.Allow now now2 n).1
          = { lb.leak now now2 with
                queue := F64.add (lb.leak now now2).queue (F64.ofInt n) } := by
        unfold LeakyBucket.Allow; simp only [hn, if_false, hg, Bool.false_eq_true]
      rw [hA]
      refine ⟨⟨hC, hC2, hrate, ?_⟩, hlast⟩
      show ∃ v : ℚ, F64.add (lb.leak now now2).queue (F64.ofInt n) = F64.fin v ∧ 0 ≤ v ∧
        v ≤ ((lb.leak now now2).capacity : ℚ)
      rw [hq, hcapF] at hg
      rw [hq]
      rcases F64.ofInt_pos_cases (not_le.mp hn) with hp | ⟨a, ha, ha0⟩
      · rw [hp] at hg; exact absurd rfl hg
      · rw [ha] at hg ⊢
        have hadd : F64.add (F64.fin q) (F64.fin a) = F64.round (q + a) := rfl
        rw [hadd] at hg ⊢
        rcases F64.round_nonneg (add_nonneg hq0 ha0) with hp | ⟨v, hv, hv0⟩
        · rw [hp] at hg; exact absurd rfl hg
        · rw [hv] at hg ⊢
          refine ⟨v, rfl, hv0, ?_⟩
          have h3 : ¬ (decide (((lb.leak now now2).capacity : ℚ) < v) = true) := hg
          have := of_decide_eq_false (Bool.eq_false_iff.mpr h3)
          linarith

/-- The bounds are kept by every sequence of `Allow` calls whose clock
readings never go back, and `lastLeakTime` stays at or before every reading
not before the last one. -/
theorem LeakyBucket.run_bounded :
    ∀ (calls : List (Int × Int × Int)) (lb : LeakyBucket) (T T1 : Int), lb.Bounded →
      lb.lastLeakTime ≤ T → LeakyBucket.ordered T calls = true → T ≤ T1 →
      (∀ c ∈ calls, c.2.1 ≤ T1) →
      (lb.run calls).Bounded ∧ (lb.run calls).lastLeakTime ≤ T1 := by
  intro calls
  induction calls with
  | nil => intro lb T T1 h hl _ hT _; exact ⟨h, le_trans hl hT⟩
  | cons c cs ih =>
    intro lb T T1 h hl hord hT hall
    simp only [LeakyBucket.ordered, Bool.and_eq_true, decide_eq_true_eq] at hord
    obtain ⟨hb, hl1⟩ := LeakyBucket.allow_bounded_leaky lb c.1 c.2.1 c.2.2 h
      (le_trans hl hord.1.1) hord.1.2
    exact ih _ c.2.1 T1 hb hl1 hord.2 (hall c (List.mem_cons_self _ _))
      (fun c1 h1 => hall c1 (List.mem_cons_of_mem _ h1))

/-- The projected level of a bounded bucket, read at or after
`lastLeakTime`, lies between 0 and the capacity. -/
theorem LeakyBucket.getCurrentQueue_bounded (lb : LeakyBucket) (now : Int) (h : lb.Bounded)
    (hl : lb.lastLeakTime ≤ now) :
    ∃ v : ℚ, lb.getCurrentQueue now = F64.fin v ∧ 0 ≤ v ∧ v ≤ (lb.capacity : ℚ) := by
  obtain ⟨hC, hC2, ⟨r, hr, hr0⟩, q, hq, hq0, hq1⟩ := h
  obtain ⟨hs0, hs1⟩ := Time.Sub_nonneg hl
  obtain ⟨e, he, he0, _⟩ := Duration.Seconds_nonneg hs0 hs1
  have hcap0 : (0 : ℚ) ≤ (lb.capacity : ℚ) := by exact_mod_cast le_of_lt hC
  unfold LeakyBucket.getCurrentQueue
  simp only [he, hr, hq]
  have hmul : F64.mul (F64.fin e) (F64.fin r) = F64.round (e * r) := rfl
  rw [hmul]
  rcases F64.round_nonneg (mul_nonneg he0 hr0) with hp | ⟨l, hlk, hl0⟩
  · rw [hp]
    exact ⟨0, rfl, le_refl _, hcap0⟩
  · rw [hlk]
    have hsub : F64.sub (F64.fin q) (F64.fin l) = F64.round (q + -l) := rfl
    rw [hsub]
    by_cases hneg : q + -l < 0
    · rcases F64.round_nonpos (le_of_lt hneg) with hp | ⟨v, hv, hv0⟩
      · rw [hp]
        exact ⟨0, rfl, le_refl _, hcap0⟩
      · rw [hv]
        by_cases hv1 : v < 0
        · have hlt : F64.lt (F64.fin v) (F64.fin 0) = true := decide_eq_true hv1
          simp only [hlt, if_true]
          exact ⟨0, rfl, le_refl _, hcap0⟩
        · have hlt : F64.lt (F64.fin v) (F64.fin 0) = false := decide_eq_false hv1
          simp only [hlt, Bool.false_eq_true, if_false]
          exact ⟨v, rfl, not_lt.mp hv1, le_trans hv0 hcap0⟩
    · obtain ⟨v, hv, hv0, hv1⟩ := F64.round_le_of_le (not_lt.mp hneg)
        (by linarith : q + -l ≤ (lb.capacity : ℚ))
        (F64.round_intCast_small (le_of_lt hC) hC2)
      rw [hv]
      have hlt : F64.lt (F64.fin v) (F64.fin 0) = false := decide_eq_false (not_lt.mpr hv0)
      simp only [hlt, Bool.false_eq_true, if_false]
      exact ⟨v, rfl, hv0, hv1⟩

theorem F64.div_pos_finite {a b : ℚ} (ha : 0 < a) (ha2 : a < pow2 1024) (hb : 2 ≤ b) :
    ∃ r : ℚ, F64.div (F64.fin a) (F64.fin b) = F64.fin r ∧ 0 ≤ r := by
  have hb0 : 0 < b := by linarith
  have hdiv : F64.div (F64.fin a) (F64.fin b) = F64.round (a / b) := by
    unfold F64.div
    simp only [ne_of_gt hb0, if_false]
  have h1024 : pow2 1024 = 2 * pow2 1023 := by
    have : pow2 1 = 2 := by rw [pow2_eq_zpow]; norm_num
    rw [← this, ← pow2_add]; norm_num
  have hlt : a / b < pow2 1023 := by
    rw [div_lt_iff₀ hb0]
    have := pow2_pos 1023
    nlinarith
  obtain ⟨r, hr, hr0, _⟩ := F64.round_pos_spec (div_pos ha hb0) hlt
  exact ⟨r, by rw [hdiv, hr], hr0⟩

/-- A bucket built by `NewLeakyBucket` from a capacity of at most `2^53` and
a finite leak rate is bounded. -/
theorem NewLeakyBucket_bounded (now0 C : Int) (r0 : ℚ) (unit : String) (lb0 : LeakyBucket)
    (hnew : NewLeakyBucket now0 C (F64.fin r0) unit = Except.ok lb0)
    (hC2 : C ≤ 2 ^ 53) (hfin : r0 < pow2 1024) :
    lb0.Bounded ∧ lb0.lastLeakTime = now0 ∧ lb0.capacity = C := by
  unfold NewLeakyBucket at hnew
  by_cases h1 : C ≤ 0 ∨ F64.le (F64.fin r0) (F64.fin 0) = true
  · rw [if_pos h1] at hnew; cases hnew
  rw [if_neg h1] at hnew
  have hC : 0 < C := by
    by_contra hc
    exact h1 (Or.inl (not_lt.mp hc))
  have hr0 : 0 < r0 := by
    by_contra hc
    exact h1 (Or.inr (decide_eq_true (not_lt.mp hc)))
  have hbuild : ∀ rate : F64, (∃ r : ℚ, rate = F64.fin r ∧ 0 ≤ r) →
      (Except.ok { capacity := C, leakRate := rate, queue := F64.fin 0, requestsDropped := 0,
                   requestsProcessed := 0, lastLeakTime := now0 } : Except String LeakyBucket)
        = Except.ok lb0 → lb0.Bounded ∧ lb0.lastLeakTime = now0 ∧ lb0.capacity = C := by
    intro rate hrate heq
    simp only [Except.ok.injEq] at heq
    rw [← heq]
    exact ⟨⟨hC, hC2, hrate, 0, rfl, le_refl _, by exact_mod_cast le_of_lt hC⟩, rfl, rfl⟩
  by_cases u1 : unit = PerSecond
  · simp only [u1, if_true] at hnew
    exact hbuild _ ⟨r0, rfl, le_of_lt hr0⟩ hnew
  by_cases u2 : unit = PerMinute
  · have hne : ¬ (PerMinute = PerSecond) := by decide
    simp only [u2, hne, if_false, if_true] at hnew
    exact hbuild _ (F64.div_pos_finite hr0 hfin (by norm_num)) hnew
  by_cases u3 : unit = PerHour
  · have hne1 : ¬ (PerHour = PerSecond) := by decide
    have hne2 : ¬ (PerHour = PerMinute) := by decide
    simp only [u3, hne1, hne2, if_false, if_true] at hnew
    exact hbuild _ (F64.div_pos_finite hr0 hfin (by norm_num)) hnew
  simp only [u1, u2, u3, if_false] at hnew
  cases hnew

theorem LeakyBucket.leak_capacity (lb : LeakyBucket) (now now2 : Int) :
    (lb.leak now now2).capacity = lb.capacity := by
  unfold LeakyBucket.leak
  dsimp only
  split_ifs <;> rfl

theorem LeakyBucket.Allow_capacity (lb : LeakyBucket) (now now2 n : Int) :
    (lb.Allow now now2 n).1.capacity = lb.capacity := by
  by_cases hn : n ≤ 0
  · unfold LeakyBucket.Allow; simp only [hn, if_true]
  · by_cases hg : F64.gt (F64.add (lb.leak now now2).queue (F64.ofInt n))
        (F64.ofInt (lb.leak now now2).capacity) = true
    · unfold LeakyBucket.Allow
      simp only [hn, if_false, hg, if_true]
      exact LeakyBucket.leak_capacity lb now now2
    · unfold LeakyBucket.Allow
      simp only [hn, if_false, hg, Bool.false_eq_true]
      exact LeakyBucket.leak_capacity lb now now2

theorem LeakyBucket.run_capacity :
    ∀ (calls : List (Int × Int × Int)) (lb : LeakyBucket),
      (lb.run calls).capacity = lb.capacity := by
  intro calls
  induction calls with
  | nil => intro lb; rfl
  | cons c cs ih =>
    intro lb
    show ((lb.Allow c.1 c.2.1 c.2.2).1.run cs).capacity = lb.capacity
    rw [ih, LeakyBucket.Allow_capacity]

/-- C14 (amended): for a bucket built by `NewLeakyBucket(C, leakRate, unit)`
with `C <= 2^53` and a finite leak rate, and for every sequence of `Allow`
calls whose clock readings never go back, the stored queue level after the
sequence is finite and satisfies `0 <= queue <= capacity`, and the projected
level returned by `QueueSize` and by `Stats` at every later time also lies
in `[0, capacity]`. -/
theorem LeakyBucket.queue_within_capacity (now0 C : Int) (r0 : ℚ) (unit : String)
    (lb0 : LeakyBucket) (calls : List (Int × Int × Int)) (later : Int)
    (hnew : NewLeakyBucket now0 C (F64.fin r0) unit = Except.ok lb0)
    (hC2 : C ≤ 2 ^ 53) (hfin : r0 < pow2 1024)
    (hord : LeakyBucket.ordered now0 calls = true)
    (hlater0 : now0 ≤ later) (hlater : ∀ c ∈ calls, c.2.1 ≤ later) :
    (lb0.run calls).capacity = C ∧
    (∃ q : ℚ, (lb0.run calls).queue = F64.fin q ∧ 0 ≤ q ∧ q ≤ (C : ℚ)) ∧
    (∃ v : ℚ, (lb0.run calls).QueueSize later = F64.fin v ∧
      ((lb0.run calls).Stats later).2.2 = F64.fin v ∧ 0 ≤ v ∧ v ≤ (C : ℚ)) := by
  obtain ⟨hb0, hl0, hcap0⟩ := NewLeakyBucket_bounded now0 C r0 unit lb0 hnew hC2 hfin
  obtain ⟨hb, hl⟩ := LeakyBucket.run_bounded calls lb0 now0 later hb0 (le_of_eq hl0) hord
    hlater0 hlater
  obtain ⟨v, hv, hv0, hv1⟩ := LeakyBucket.getCurrentQueue_bounded (lb0.run calls) later hb hl
  have hcap : (lb0.run calls).capacity = C := by rw [LeakyBucket.run_capacity, hcap0]
  rw [hcap] at hv1
  obtain ⟨q, hq, hq0, hq1⟩ := hb.2.2.2
  rw [hcap] at hq1
  exact ⟨hcap, ⟨q, hq, hq0, hq1⟩, ⟨v, hv, hv, hv0, hv1⟩⟩

theorem one_lt_pow2_1024 : (1 : ℚ) < pow2 1024 := by
  have h := pow2_lt_pow2.mpr (show (0 : Int) < 1024 by norm_num)
  rwa [pow2_zero] at h

theorem LeakyBucket.queue_within_capacity_witness :
    (NewLeakyBucket sampleNow 5 (F64.fin 1) PerSecond = Except.ok sampleLeaky) ∧
    ((5 : Int) ≤ 2 ^ 53) ∧
    ((1 : ℚ) < pow2 1024) ∧
    (LeakyBucket.ordered sampleNow [(sampleNow + 1000000000, sampleNow + 1000000001, 3), (sampleNow + 2000000000, sampleNow + 2000000000, 4)] = true) ∧
    (sampleNow ≤ sampleNow + 3000000000) ∧
    (∀ c ∈ [(sampleNow + 1000000000, sampleNow + 1000000001, (3 : Int)), (sampleNow + 2000000000, sampleNow + 2000000000, (4 : Int))], c.2.1 ≤ sampleNow + 3000000000) ∧
    ((sampleLeaky.run [(sampleNow + 1000000000, sampleNow + 1000000001, 3), (sampleNow + 2000000000, sampleNow + 2000000000, 4)]).capacity = 5 ∧
    (∃ q : ℚ, (sampleLeaky.run [(sampleNow + 1000000000, sampleNow + 1000000001, 3), (sampleNow + 2000000000, sampleNow + 2000000000, 4)]).queue = F64.fin q ∧ 0 ≤ q ∧ q ≤ (5 : ℚ)) ∧
    (∃ v : ℚ, (sampleLeaky.run [(sampleNow + 1000000000, sampleNow + 1000000001, 3), (sampleNow + 2000000000, sampleNow + 2000000000, 4)]).QueueSize (sampleNow + 3000000000) = F64.fin v ∧
      ((sampleLeaky.run [(sampleNow + 1000000000, sampleNow + 1000000001, 3), (sampleNow + 2000000000, sampleNow + 2000000000, 4)]).Stats (sampleNow + 3000000000)).2.2 = F64.fin v ∧ 0 ≤ v ∧ v ≤ (5 : ℚ))) :=
  ⟨NewLeakyBucket_perSecond sampleNow 5 1 (by decide) zero_lt_one, by decide, one_lt_pow2_1024, by decide, by decide, by decide,
    LeakyBucket.queue_within_capacity sampleNow 5 1 PerSecond sampleLeaky [(sampleNow + 1000000000, sampleNow + 1000000001, 3), (sampleNow + 2000000000, sampleNow + 2000000000, 4)] (sampleNow + 3000000000) (NewLeakyBucket_perSecond sampleNow 5 1 (by decide) zero_lt_one) (by decide) one_lt_pow2_1024 (by decide) (by decide) (by decide)⟩


/-! ## LeakyBucket: admission after a wait on a full bucket -/

theorem LeakyBucket.leak_of_nonpos (lb : LeakyBucket) (now now2 : Int)
    (h : F64.le (Duration.Seconds (Time.Sub now lb.lastLeakTime)) (F64.fin 0) = true) :
    lb.leak now now2 = lb := by
  unfold LeakyBucket.leak
  simp only [h, if_true]

theorem LeakyBucket.leak_of_pos (lb : LeakyBucket) (now now2 : Int)
    (h : F64.le (Duration.Seconds (Time.Sub now lb.lastLeakTime)) (F64.fin 0) = false) :
    lb.leak now now2 =
      (if F64.ge (F64.mul (Duration.Seconds (Time.Sub now lb.lastLeakTime)) lb.leakRate)
          lb.queue = true then
        { lb with
            requestsProcessed := add64 lb.requestsProcessed (F64.toInt64 lb.queue)
            queue := F64.fin 0
            lastLeakTime := now2 }
      else
        { lb with
            requestsProcessed := add64 lb.requestsProcessed (F64.toInt64
              (F64.mul (Duration.Seconds (Time.Sub now lb.lastLeakTime)) lb.leakRate))
            queue := F64.sub lb.queue
              (F64.mul (Duration.Seconds (Time.Sub now lb.lastLeakTime)) lb.leakRate)
            lastLeakTime := now2 }) := by
  unfold LeakyBucket.leak
  simp only [h, Bool.false_eq_true, if_false]
  split_ifs <;> rfl

/-- The queue left by the leak on a full bucket, bracketed by the whole
numbers around `capacity - leaked`. -/
theorem LeakyBucket.leak_full (lb : LeakyBucket) (r : ℚ) (now now2 : Int)
    (hC : 0 < lb.capacity) (hC2 : lb.capacity ≤ 2 ^ 53)
    (hq : lb.queue = F64.fin (lb.capacity : ℚ)) (hr : lb.leakRate = F64.fin r) (hr0 : 0 ≤ r)
    (hl : lb.lastLeakTime ≤ now) :
    (F64.mul (Duration.Seconds (Time.Sub now lb.lastLeakTime)) (F64.fin r) = F64.pinf ∨
      ∃ l : ℚ, F64.mul (Duration.Seconds (Time.Sub now lb.lastLeakTime)) (F64.fin r) = F64.fin l ∧
        0 ≤ l) ∧
    ∃ q1 : ℚ, (lb.leak now now2).queue = F64.fin q1 ∧ 0 ≤ q1 ∧ q1 ≤ (lb.capacity : ℚ) ∧
      (F64.mul (Duration.Seconds (Time.Sub now lb.lastLeakTime)) (F64.fin r) = F64.pinf →
        q1 = 0) ∧
      (∀ (l : ℚ) (k : Int),
        F64.mul (Duration.Seconds (Time.Sub now lb.lastLeakTime)) (F64.fin r) = F64.fin l →
        0 ≤ k → k ≤ 2 ^ 53 →
        (((k : ℚ) ≤ (lb.capacity : ℚ) - l → (k : ℚ) ≤ q1) ∧
          ((lb.capacity : ℚ) - l ≤ (k : ℚ) → q1 ≤ (k : ℚ)))) := by
  obtain ⟨hs0, hs1⟩ := Time.Sub_nonneg hl
  obtain ⟨e, he, he0, _⟩ := Duration.Seconds_nonneg hs0 hs1
  have hcap0 : (0 : ℚ) ≤ (lb.capacity : ℚ) := by exact_mod_cast le_of_lt hC
  rw [he]
  have hmul : F64.mul (F64.fin e) (F64.fin r) = F64.round (e * r) := rfl
  rw [hmul]
  refine ⟨F64.round_nonneg (mul_nonneg he0 hr0), ?_⟩
  by_cases hle : F64.le (F64.fin e) (F64.fin 0) = true
  · have hez : e = 0 := by
      have h1 : decide (e ≤ 0) = true := hle
      have := of_decide_eq_true h1
      linarith
    rw [LeakyBucket.leak_of_nonpos lb now now2 (by rw [he]; exact hle), hez, zero_mul,
      F64.round_zero]
    refine ⟨(lb.capacity : ℚ), hq, hcap0, le_refl _, ?_, ?_⟩
    · intro h; cases h
    · intro l k hlk _ _
      have hl0 : l = 0 := by injection hlk with h; exact h.symm
      rw [hl0, sub_zero]
      exact ⟨fun h => h, fun h => h⟩
  · have hle' : F64.le (Duration.Seconds (Time.Sub now lb.lastLeakTime)) (F64.fin 0) = false := by
      rw [he]; exact Bool.eq_false_iff.mpr hle
    rw [LeakyBucket.leak_of_pos lb now now2 hle', he, hr, hq, hmul]
    rcases F64.round_nonneg (mul_nonneg he0 hr0) with hp | ⟨l, hlk, hl0⟩
    · rw [hp]
      have hge : F64.ge F64.pinf (F64.fin (lb.capacity : ℚ)) = true := rfl
      simp only [hge, if_true]
      refine ⟨0, rfl, le_refl _, hcap0, fun _ => rfl, ?_⟩
      intro l k hlk _ _
      cases hlk
    · rw [hlk]
      by_cases hge : F64.ge (F64.fin l) (F64.fin (lb.capacity : ℚ)) = true
      · have hcl : (lb.capacity : ℚ) ≤ l := of_decide_eq_true hge
        simp only [hge, if_true]
        refine ⟨0, rfl, le_refl _, hcap0, fun _ => rfl, ?_⟩
        intro l1 k h1 hk0 _
        have hl1 : l = l1 := by injection h1
        rw [← hl1]
        have hk0' : (0 : ℚ) ≤ (k : ℚ) := by exact_mod_cast hk0
        exact ⟨fun h => by linarith, fun _ => hk0'⟩
      · have hge' : F64.ge (F64.fin l) (F64.fin (lb.capacity : ℚ)) = false :=
          Bool.eq_false_iff.mpr hge
        have hlc : l < (lb.capacity : ℚ) := by
          have h3 : decide ((lb.capacity : ℚ) ≤ l) = false := hge'
          exact not_le.mp (of_decide_eq_false h3)
        simp only [hge', Bool.false_eq_true, if_false]
        obtain ⟨v, hv, hv0, hv1⟩ := F64.sub_bounded (le_of_lt hC) hC2 (le_of_lt hlc) hl0
          (le_refl (lb.capacity : ℚ))
        refine ⟨v, hv, hv0, hv1, (fun h => by cases h), ?_⟩
        intro l1 k h1 hk0 hk2
        have hl1 : l = l1 := by injection h1
        rw [← hl1]
        have hk0' : (0 : ℚ) ≤ (k : ℚ) := by exact_mod_cast hk0
        have hsub : F64.sub (F64.fin (lb.capacity : ℚ)) (F64.fin l)
            = F64.round ((lb.capacity : ℚ) + -l) := rfl
        rw [hsub] at hv
        constructor
        · intro hk
          rcases F64.le_round_of_le hk0' (by linarith : (k : ℚ) ≤ (lb.capacity : ℚ) + -l)
            (F64.round_intCast_small hk0 hk2) with hp | ⟨w, hw, hkw⟩
          · rw [hp] at hv; cases hv
          · rw [hw] at hv
            injection hv with hv
            rw [← hv]; exact hkw
        · intro hk
          obtain ⟨w, hw, _, hwk⟩ := F64.round_le_of_le
            (by linarith : (0 : ℚ) ≤ (lb.capacity : ℚ) + -l)
            (by linarith : (lb.capacity : ℚ) + -l ≤ (k : ℚ)) (F64.round_intCast_small hk0 hk2)
          rw [hw] at hv
          injection hv with hv
          rw [← hv]; exact hwk

theorem F64.round_gt_of_succ_le {x : ℚ} {c : Int} (h0 : 0 ≤ c) (h1 : c < 2 ^ 53)
    (h : (c : ℚ) + 1 ≤ x) : F64.gt (F64.round x) (F64.fin (c : ℚ)) = true := by
  have hc1 : F64.round (((c + 1 : Int) : ℚ)) = F64.fin (((c + 1 : Int) : ℚ)) :=
    F64.round_intCast_small (by omega) (by omega)
  have hx : (((c + 1 : Int) : ℚ)) ≤ x := by push_cast; exact h
  have hpos : (0 : ℚ) ≤ (((c + 1 : Int) : ℚ)) := by exact_mod_cast (by omega : 0 ≤ c + 1)
  rcases F64.le_round_of_le hpos hx hc1 with hp | ⟨w, hw, hcw⟩
  · rw [hp]; rfl
  · rw [hw]
    show decide ((c : ℚ) < w) = true
    apply decide_eq_true
    push_cast at hcw
    linarith

theorem LeakyBucket.allow_result_leaky (lb : LeakyBucket) (now now2 n : Int) (hn : 0 < n) :
    (lb.Allow now now2 n).2
      = (!(F64.gt (F64.add (lb.leak now now2).queue (F64.ofInt n)) (F64.ofInt lb.capacity))) := by
  have hn' : ¬ n ≤ 0 := not_le.mpr hn
  unfold LeakyBucket.Allow
  rw [← LeakyBucket.leak_capacity lb now now2]
  by_cases hg : F64.gt (F64.add (lb.leak now now2).queue (F64.ofInt n))
      (F64.ofInt (lb.leak now now2).capacity) = true
  · simp [hn', hg]
  · simp [hn', hg]

/-- Admission on a bucket of capacity below `2^53` whose queue after the
leak is `q1`. -/
theorem LeakyBucket.admit_cases (lb : LeakyBucket) (now now2 n : Int) (q1 : ℚ)
    (hC : 0 < lb.capacity) (hC2 : lb.capacity < 2 ^ 53) (hn : 1 ≤ n)
    (hq : (lb.leak now now2).queue = F64.fin q1) (hq0 : 0 ≤ q1) :
    (n ≤ lb.capacity → q1 ≤ (lb.capacity : ℚ) - (n : ℚ) → (lb.Allow now now2 n).2 = true) ∧
    (lb.capacity < n → (lb.Allow now now2 n).2 = false) ∧
    (n ≤ lb.capacity → (lb.capacity : ℚ) - (n : ℚ) + 1 ≤ q1 →
      (lb.Allow now now2 n).2 = false) := by
  have hcapF : F64.ofInt lb.capacity = F64.fin (lb.capacity : ℚ) :=
    F64.ofInt_exact (by rw [abs_of_pos hC]; omega)
  have hres := LeakyBucket.allow_result_leaky lb now now2 n (by omega)
  rw [hq, hcapF] at hres
  have hnq : (0 : ℚ) ≤ (n : ℚ) := by exact_mod_cast (by omega : 0 ≤ n)
  have hsmall : n ≤ lb.capacity → F64.ofInt n = F64.fin (n : ℚ) := by
    intro h
    exact F64.ofInt_exact (by rw [abs_of_pos (by omega : 0 < n)]; omega)
  refine ⟨?_, ?_, ?_⟩
  · intro hnc hle
    rw [hres, hsmall hnc]
    have hadd : F64.add (F64.fin q1) (F64.fin (n : ℚ)) = F64.round (q1 + (n : ℚ)) := rfl
    rw [hadd]
    obtain ⟨v, hv, _, hvc⟩ := F64.round_le_of_le (add_nonneg hq0 hnq)
      (by linarith : q1 + (n : ℚ) ≤ (lb.capacity : ℚ))
      (F64.round_intCast_small (le_of_lt hC) (by omega))
    rw [hv]
    have : F64.gt (F64.fin v) (F64.fin (lb.capacity : ℚ)) = false :=
      decide_eq_false (not_lt.mpr hvc)
    rw [this]; rfl
  · intro hcn
    rw [hres]
    rcases F64.ofInt_pos_cases (by omega : 0 < n) with hp | ⟨a, ha, ha0⟩
    · rw [hp]; rfl
    · have hac : (lb.capacity : ℚ) + 1 ≤ a := by
        have ha' : F64.round (n : ℚ) = F64.fin a := ha
        have hc1 : F64.round (((lb.capacity + 1 : Int) : ℚ))
            = F64.fin (((lb.capacity + 1 : Int) : ℚ)) :=
          F64.round_intCast_small (by omega) (by omega)
        have hpos : (0 : ℚ) ≤ (((lb.capacity + 1 : Int) : ℚ)) := by
          exact_mod_cast (by omega : 0 ≤ lb.capacity + 1)
        have hxle : (((lb.capacity + 1 : Int) : ℚ)) ≤ (n : ℚ) := by
          exact_mod_cast (by omega : lb.capacity + 1 ≤ n)
        rcases F64.le_round_of_le hpos hxle hc1 with hp | ⟨w, hw, hcw⟩
        · rw [ha'] at hp; cases hp
        · rw [ha'] at hw
          injection hw with hw
          rw [hw]; push_cast at hcw; exact hcw
      rw [ha]
      have hadd : F64.add (F64.fin q1) (F64.fin a) = F64.round (q1 + a) := rfl
      rw [hadd, F64.round_gt_of_succ_le (le_of_lt hC) hC2 (by linarith)]
      rfl
  · intro hnc hge
    rw [hres, hsmall hnc]
    have hadd : F64.add (F64.fin q1) (F64.fin (n : ℚ)) = F64.round (q1 + (n : ℚ)) := rfl
    rw [hadd, F64.round_gt_of_succ_le (le_of_lt hC) hC2 (by linarith)]
    rfl

/-- C16 (counterexample): `NewLeakyBucket(5, 2.9999999999999996, PerSecond)`
filled by `Allow(5)` at `sampleNow` holds exactly 5 units; one second later
`Allow(3)` returns true, because `5 - leaked + 3` rounds to 5, although
`floor(R * t) = 2` and so `3 > min(C, floor(R * t))`. -/
theorem LeakyBucket.whole_unit_admitted_early :
    NewLeakyBucket sampleNow 5 (F64.fin (6755399441055743 / 2251799813685248)) PerSecond
      = Except.ok sampleLeakyBelowThree ∧
    (sampleLeakyBelowThree.Allow sampleNow sampleNow 5).1.queue = F64.fin 5 ∧
    (sampleLeakyBelowThree.Allow sampleNow sampleNow 5).1.lastLeakTime = sampleNow ∧
    ((sampleLeakyBelowThree.Allow sampleNow sampleNow 5).1.Allow (sampleNow + 1000000000)
      (sampleNow + 1000000000) 3).2 = true ∧
    Rat.floor ((6755399441055743 / 2251799813685248 : ℚ) * 1) = 2 ∧
    ¬ ((3 : Int) ≤ min 5 (Rat.floor ((6755399441055743 / 2251799813685248 : ℚ) * 1))) := by
  refine ⟨NewLeakyBucket_perSecond sampleNow 5 _ (by decide) (by decide!), ?_, ?_, ?_, ?_, ?_⟩ <;>
    decide!

/-- C16 (amended): for a bucket with capacity `0 < C < 2^53` and a finite
leak rate `R >= 0` whose queue holds exactly `C` units at `lastLeakTime`,
let `L` be the `float64` product of the seconds elapsed at `now` and `R`
(finite and non-negative, or `+Inf`). For every `n >= 1`, `Allow(n)` at `now`
returns true when `n <= min(C, floor(L))`, and when it returns true then
`n <= C` and `n < L + 1`; so when `L` is a whole number it returns true if
and only if `n <= min(C, L)`, and when `L` is `+Inf` if and only if
`n <= C`. -/
theorem LeakyBucket.full_bucket_after_wait (lb : LeakyBucket) (r : ℚ) (now now2 n : Int)
    (hC : 0 < lb.capacity) (hC2 : lb.capacity < 2 ^ 53)
    (hq : lb.queue = F64.fin (lb.capacity : ℚ)) (hr : lb.leakRate = F64.fin r) (hr0 : 0 ≤ r)
    (hl : lb.lastLeakTime ≤ now) (hn : 1 ≤ n) :
    (F64.mul (Duration.Seconds (Time.Sub now lb.lastLeakTime)) lb.leakRate = F64.pinf ∨
      ∃ l : ℚ, F64.mul (Duration.Seconds (Time.Sub now lb.lastLeakTime)) lb.leakRate = F64.fin l ∧
        0 ≤ l) ∧
    (∀ l : ℚ, F64.mul (Duration.Seconds (Time.Sub now lb.lastLeakTime)) lb.leakRate = F64.fin l →
      n ≤ min lb.capacity (Rat.floor l) → (lb.Allow now now2 n).2 = true) ∧
    (F64.mul (Duration.Seconds (Time.Sub now lb.lastLeakTime)) lb.leakRate = F64.pinf →
      ((lb.Allow now now2 n).2 = true ↔ n ≤ lb.capacity)) ∧
    ((lb.Allow now now2 n).2 = true →
      n ≤ lb.capacity ∧
      ∀ l : ℚ, F64.mul (Duration.Seconds (Time.Sub now lb.lastLeakTime)) lb.leakRate = F64.fin l →
        (n : ℚ) < l + 1) ∧
    (∀ l : ℚ, F64.mul (Duration.Seconds (Time.Sub now lb.lastLeakTime)) lb.leakRate = F64.fin l →
      ((Rat.floor l : Int) : ℚ) = l →
      ((lb.Allow now now2 n).2 = true ↔ n ≤ min lb.capacity (Rat.floor l))) := by
  rw [hr]
  obtain ⟨hL, q1, hq1, hq10, hq11, hinf, hbr⟩ :=
    LeakyBucket.leak_full lb r now now2 hC (by omega) hq hr hr0 hl
  obtain ⟨hyes, hover, hno⟩ := LeakyBucket.admit_cases lb now now2 n q1 hC hC2 hn hq1 hq10
  have hnq : (1 : ℚ) ≤ (n : ℚ) := by exact_mod_cast hn
  have hfloor : ∀ l : ℚ, n ≤ Rat.floor l → (n : ℚ) ≤ l := by
    intro l h
    rw [ratFloor_eq] at h
    exact Int.le_floor.mp h
  -- admitted when `n <= min(C, floor(L))`
  have hA : ∀ l : ℚ,
      F64.mul (Duration.Seconds (Time.Sub now lb.lastLeakTime)) (F64.fin r) = F64.fin l →
      n ≤ min lb.capacity (Rat.floor l) → (lb.Allow now now2 n).2 = true := by
    intro l hlk hmin
    have hnc : n ≤ lb.capacity := le_trans hmin (min_le_left _ _)
    have hnl : (n : ℚ) ≤ l := hfloor l (le_trans hmin (min_le_right _ _))
    have hk := (hbr l (lb.capacity - n) hlk (by omega) (by omega)).2
      (by push_cast; linarith)
    push_cast at hk
    exact hyes hnc hk
  -- an admitted request fits the capacity and stays below `L + 1`
  have hB : (lb.Allow now now2 n).2 = true →
      n ≤ lb.capacity ∧
      ∀ l : ℚ, F64.mul (Duration.Seconds (Time.Sub now lb.lastLeakTime)) (F64.fin r) = F64.fin l →
        (n : ℚ) < l + 1 := by
    intro ht
    have hnc : n ≤ lb.capacity := by
      by_contra hc
      have := hover (not_le.mp hc)
      rw [ht] at this
      cases this
    refine ⟨hnc, ?_⟩
    intro l hlk
    by_contra hc
    have hge : l + 1 ≤ (n : ℚ) := not_lt.mp hc
    have hk := (hbr l (lb.capacity - n + 1) hlk (by omega) (by omega)).1
      (by push_cast; linarith)
    push_cast at hk
    have := hno hnc hk
    rw [ht] at this
    cases this
  refine ⟨hL, hA, ?_, hB, ?_⟩
  · intro hp
    have hq0 : q1 = 0 := hinf hp
    constructor
    · intro ht; exact (hB ht).1
    · intro hnc
      apply hyes hnc
      rw [hq0]
      have : (n : ℚ) ≤ (lb.capacity : ℚ) := by exact_mod_cast hnc
      linarith
  · intro l hlk hwhole
    constructor
    · intro ht
      obtain ⟨hnc, hlt⟩ := hB ht
      refine le_min hnc ?_
      have h1 := hlt l hlk
      rw [← hwhole] at h1
      have h2 : (n : ℚ) < ((Rat.floor l + 1 : Int) : ℚ) := by push_cast; exact h1
      have h3 : n < Rat.floor l + 1 := by exact_mod_cast h2
      omega
    · exact hA l hlk

theorem LeakyBucket.full_bucket_after_wait_witness :
    (0 < sampleLeakyFull.capacity) ∧
    (sampleLeakyFull.capacity < 2 ^ 53) ∧
    (sampleLeakyFull.queue = F64.fin (sampleLeakyFull.capacity : ℚ)) ∧
    (sampleLeakyFull.leakRate = F64.fin 1) ∧
    ((0 : ℚ) ≤ 1) ∧
    (sampleLeakyFull.lastLeakTime ≤ sampleNow + 2000000000) ∧
    ((1 : Int) ≤ 2) ∧
    ((F64.mul (Duration.Seconds (Time.Sub (sampleNow + 2000000000) sampleLeakyFull.lastLeakTime)) sampleLeakyFull.leakRate = F64.pinf ∨
      ∃ l : ℚ, F64.mul (Duration.Seconds (Time.Sub (sampleNow + 2000000000) sampleLeakyFull.lastLeakTime)) sampleLeakyFull.leakRate = F64.fin l ∧
        0 ≤ l) ∧
    (∀ l : ℚ, F64.mul (Duration.Seconds (Time.Sub (sampleNow + 2000000000) sampleLeakyFull.lastLeakTime)) sampleLeakyFull.leakRate = F64.fin l →
      2 ≤ min sampleLeakyFull.capacity (Rat.floor l) → (sampleLeakyFull.Allow (sampleNow + 2000000000) (sampleNow + 2000000000) 2).2 = true) ∧
    (F64.mul (Duration.Seconds (Time.Sub (sampleNow + 2000000000) sampleLeakyFull.lastLeakTime)) sampleLeakyFull.leakRate = F64.pinf →
      ((sampleLeakyFull.Allow (sampleNow + 2000000000) (sampleNow + 2000000000) 2).2 = true ↔ 2 ≤ sampleLeakyFull.capacity)) ∧
    ((sampleLeakyFull.Allow (sampleNow + 2000000000) (sampleNow + 2000000000) 2).2 = true →
      2 ≤ sampleLeakyFull.capacity ∧
      ∀ l : ℚ, F64.mul (Duration.Seconds (Time.Sub (sampleNow + 2000000000) sampleLeakyFull.lastLeakTime)) sampleLeakyFull.leakRate = F64.fin l →
        (2 : ℚ) < l + 1) ∧
    (∀ l : ℚ, F64.mul (Duration.Seconds (Time.Sub (sampleNow + 2000000000) sampleLeakyFull.lastLeakTime)) sampleLeakyFull.leakRate = F64.fin l →
      ((Rat.floor l : Int) : ℚ) = l →
      ((sampleLeakyFull.Allow (sampleNow + 2000000000) (sampleNow + 2000000000) 2).2 = true ↔ 2 ≤ min sampleLeakyFull.capacity (Rat.floor l)))) :=
  ⟨by decide, by decide, by decide!, rfl, zero_le_one, by decide, by decide,
    LeakyBucket.full_bucket_after_wait sampleLeakyFull 1 (sampleNow + 2000000000) (sampleNow + 2000000000) 2 (by decide) (by decide) (by decide!) rfl zero_le_one (by decide) (by decide)⟩


/-! ## Construction -/

/-- C21: each of `NewFixedWindowCounter`, `NewSlidingWindow` and
`NewSlidingWindowLog` returns an error exactly when `windowSize <= 0` or
`maxRequests <= 0`; on success the limiter stores the given `windowSize` and
`maxRequests` and starts with every count at zero (an empty log). -/
theorem window_constructors_validate (now W M : Int) :
    (((∃ e, NewFixedWindowCounter now W M = Except.error e) ↔ (W ≤ 0 ∨ M ≤ 0)) ∧
      ∀ s, NewFixedWindowCounter now W M = Except.ok s →
        s.WindowSize = W ∧ s.MaxRequests = M ∧ s.RequestCount = 0 ∧
        s.RequestsAllowed = 0 ∧ s.RequestsDenied = 0) ∧
    (((∃ e, NewSlidingWindow now W M = Except.error e) ↔ (W ≤ 0 ∨ M ≤ 0)) ∧
      ∀ s, NewSlidingWindow now W M = Except.ok s →
        s.windowSize = W ∧ s.maxRequests = M ∧ s.lastWindowRequests = 0 ∧
        s.currentWindowRequests = 0 ∧ s.requestsAllowed = 0 ∧ s.requestsDenied = 0) ∧
    (((∃ e, NewSlidingWindowLog W M = Except.error e) ↔ (W ≤ 0 ∨ M ≤ 0)) ∧
      ∀ s, NewSlidingWindowLog W M = Except.ok s →
        s.windowSize = W ∧ s.maxRequests = M ∧ s.requestLog.toList = [] ∧
        s.requestLog.Size = 0) := by
  refine ⟨⟨?_, ?_⟩, ⟨?_, ?_⟩, ⟨?_, ?_⟩⟩
  · unfold NewFixedWindowCounter
    by_cases h1 : W ≤ 0
    · simp [h1]
    · by_cases h2 : M ≤ 0
      · simp [h1, h2]
      · simp [h1, h2]
  · intro s hs
    unfold NewFixedWindowCounter at hs
    by_cases h1 : W ≤ 0
    · rw [if_pos h1] at hs; cases hs
    · by_cases h2 : M ≤ 0
      · rw [if_neg h1, if_pos h2] at hs; cases hs
      · rw [if_neg h1, if_neg h2] at hs
        simp only [Except.ok.injEq] at hs
        rw [← hs]
        exact ⟨rfl, rfl, rfl, rfl, rfl⟩
  · unfold NewSlidingWindow
    by_cases h1 : W ≤ 0
    · simp [h1]
    · by_cases h2 : M ≤ 0
      · simp [h1, h2]
      · simp [h1, h2]
  · intro s hs
    unfold NewSlidingWindow at hs
    by_cases h1 : W ≤ 0
    · rw [if_pos h1] at hs; cases hs
    · by_cases h2 : M ≤ 0
      · rw [if_neg h1, if_pos h2] at hs; cases hs
      · rw [if_neg h1, if_neg h2] at hs
        simp only [Except.ok.injEq] at hs
        rw [← hs]
        exact ⟨rfl, rfl, rfl, rfl, rfl, rfl⟩
  · unfold NewSlidingWindowLog
    by_cases h1 : W ≤ 0
    · simp [h1]
    · by_cases h2 : M ≤ 0
      · simp [h1, h2]
      · simp [h1, h2]
  · intro s hs
    unfold NewSlidingWindowLog at hs
    by_cases h1 : W ≤ 0
    · rw [if_pos h1] at hs; cases hs
    · by_cases h2 : M ≤ 0
      · rw [if_neg h1, if_pos h2] at hs; cases hs
      · rw [if_neg h1, if_neg h2] at hs
        simp only [Except.ok.injEq] at hs
        rw [← hs]
        exact ⟨rfl, rfl, (Deque.NewDeque_spec Int).2, rfl⟩

theorem window_constructors_validate_witness :
    (sampleFixed.WindowSize = 5000000000 ∧ sampleFixed.MaxRequests = 3 ∧
      sampleFixed.RequestCount = 0 ∧ sampleFixed.RequestsAllowed = 0 ∧
      sampleFixed.RequestsDenied = 0) ∧
    (sampleLog.windowSize = 100000000 ∧ sampleLog.maxRequests = 3 ∧
      sampleLog.requestLog.toList = [] ∧ sampleLog.requestLog.Size = 0) ∧
    (∃ e, NewSlidingWindow sampleNow 0 3 = Except.error e) :=
  ⟨(window_constructors_validate sampleNow 5000000000 3).1.2 sampleFixed rfl,
    (window_constructors_validate sampleNow 100000000 3).2.2.2 sampleLog rfl,
    (window_constructors_validate sampleNow 0 3).2.1.1.mpr (Or.inl (by decide))⟩

/-- A fill rate `<= 0` makes `NewTokenBucket` fail, whatever the capacity
and the initial tokens are. -/
theorem NewTokenBucket_error_of_rate (now C : Int) (tokens fillRate : F64)
    (h : F64.le fillRate (F64.fin 0) = true) :
    ∃ e, NewTokenBucket now C tokens fillRate = Except.error e := by
  unfold NewTokenBucket
  by_cases h1 : F64.lt tokens (F64.fin 0) = true
  · exact ⟨_, by rw [if_pos h1]⟩
  · exact ⟨_, by rw [if_neg h1, if_pos h]⟩

/-- C22 (failing input): `NewTokenBucket(-5, 10, 1)` returns no error: the
constructor checks `tokens < 0` and `fillRate <= 0` but not the capacity, so
it builds a bucket with capacity -5 whose tokens are clamped to
`float64(-5)`. -/
theorem NewTokenBucket_accepts_negative_capacity :
    NewTokenBucket sampleNow (-5) (F64.fin 10) (F64.fin 1) = Except.ok sampleTokenNegative ∧
    sampleTokenNegative.capacity ≤ 0 ∧
    sampleTokenNegative.tokens = F64.fin (-5) ∧
    F64.lt sampleTokenNegative.tokens (F64.fin 0) = true := by
  refine ⟨?_, by decide, rfl, by decide!⟩
  have h1 : ¬ (F64.lt (F64.fin 10) (F64.fin 0) = true) := by decide!
  have h2 : ¬ (F64.le (F64.fin 1) (F64.fin 0) = true) := by decide!
  have h3 : F64.gt (F64.fin 10) (F64.ofInt (-5)) = true := by decide!
  have h4 : F64.ofInt (-5) = F64.fin (-5) := by decide!
  unfold NewTokenBucket
  rw [if_neg h1, if_neg h2]
  simp only [h3, if_true, h4]
  rfl

/-- C23: `NewLeakyBucket(capacity, leakRate, unit)` returns an error exactly
when `capacity <= 0`, or `leakRate <= 0` (a `float64` comparison), or `unit`
is none of `"second"`, `"minute"`, `"hour"`; on success the bucket has the
given capacity, an empty queue and zero statistics, and `LeakRate()` is
`leakRate` for `"second"`, `leakRate / 60` for `"minute"` and
`leakRate / 3600` for `"hour"` (`float64` divisions). -/
theorem NewLeakyBucket_validates (now C : Int) (leakRate : F64) (unit : String) :
    ((∃ e, NewLeakyBucket now C leakRate unit = Except.error e) ↔
      (C ≤ 0 ∨ F64.le leakRate (F64.fin 0) = true ∨
        (unit ≠ PerSecond ∧ unit ≠ PerMinute ∧ unit ≠ PerHour))) ∧
    ∀ lb, NewLeakyBucket now C leakRate unit = Except.ok lb →
      lb.Capacity = C ∧ lb.queue = F64.fin 0 ∧ lb.requestsProcessed = 0 ∧
      lb.requestsDropped = 0 ∧ lb.lastLeakTime = now ∧
      (unit = PerSecond → lb.LeakRate = leakRate) ∧
      (unit = PerMinute → lb.LeakRate = F64.div leakRate (F64.fin 60)) ∧
      (unit = PerHour → lb.LeakRate = F64.div leakRate (F64.fin 3600)) := by
  have hne12 : ¬ (PerMinute = PerSecond) := by decide
  have hne13 : ¬ (PerHour = PerSecond) := by decide
  have hne23 : ¬ (PerHour = PerMinute) := by decide
  by_cases h1 : C ≤ 0 ∨ F64.le leakRate (F64.fin 0) = true
  · have herr : NewLeakyBucket now C leakRate unit
        = Except.error "capacity and leakRate must be positive" := by
      unfold NewLeakyBucket; rw [if_pos h1]
    refine ⟨⟨fun _ => ?_, fun _ => ⟨_, herr⟩⟩, ?_⟩
    · rcases h1 with h | h
      · exact Or.inl h
      · exact Or.inr (Or.inl h)
    · intro lb hlb
      rw [herr] at hlb; cases hlb
  · have hC : ¬ C ≤ 0 := fun h => h1 (Or.inl h)
    have hR : ¬ F64.le leakRate (F64.fin 0) = true := fun h => h1 (Or.inr h)
    have hok : ∀ r : F64,
        (unit = PerSecond ∧ r = leakRate) ∨ (unit = PerMinute ∧ r = F64.div leakRate (F64.fin 60))
          ∨ (unit = PerHour ∧ r = F64.div leakRate (F64.fin 3600)) →
        NewLeakyBucket now C leakRate unit
          = Except.ok { capacity := C, leakRate := r, queue := F64.fin 0, requestsDropped := 0,
                        requestsProcessed := 0, lastLeakTime := now } := by
      intro r hr
      unfold NewLeakyBucket
      rw [if_neg h1]
      rcases hr with ⟨hu, hr⟩ | ⟨hu, hr⟩ | ⟨hu, hr⟩
      · simp only [hu, if_true, hr]
      · simp only [hu, hne12, if_false, if_true, hr]
      · simp only [hu, hne13, hne23, if_false, if_true, hr]
    by_cases u1 : unit = PerSecond
    · have h := hok leakRate (Or.inl ⟨u1, rfl⟩)
      refine ⟨⟨fun ⟨e, he⟩ => ?_, fun hh => ?_⟩, ?_⟩
      · rw [h] at he; cases he
      · rcases hh with h' | h' | h'
        · exact absurd h' hC
        · exact absurd h' hR
        · exact absurd u1 h'.1
      · intro lb hlb
        rw [h] at hlb
        simp only [Except.ok.injEq] at hlb
        rw [← hlb]
        refine ⟨rfl, rfl, rfl, rfl, rfl, fun _ => rfl, fun hu => ?_, fun hu => ?_⟩
        · rw [u1] at hu; exact absurd hu.symm hne12
        · rw [u1] at hu; exact absurd hu.symm hne13
    by_cases u2 : unit = PerMinute
    · have h := hok (F64.div leakRate (F64.fin 60)) (Or.inr (Or.inl ⟨u2, rfl⟩))
      refine ⟨⟨fun ⟨e, he⟩ => ?_, fun hh => ?_⟩, ?_⟩
      · rw [h] at he; cases he
      · rcases hh with h' | h' | h'
        · exact absurd h' hC
        · exact absurd h' hR
        · exact absurd u2 h'.2.1
      · intro lb hlb
        rw [h] at hlb
        simp only [Except.ok.injEq] at hlb
        rw [← hlb]
        refine ⟨rfl, rfl, rfl, rfl, rfl, fun hu => absurd hu u1, fun _ => rfl, fun hu => ?_⟩
        rw [u2] at hu; exact absurd hu.symm hne23
    by_cases u3 : unit = PerHour
    · have h := hok (F64.div leakRate (F64.fin 3600)) (Or.inr (Or.inr ⟨u3, rfl⟩))
      refine ⟨⟨fun ⟨e, he⟩ => ?_, fun hh => ?_⟩, ?_⟩
      · rw [h] at he; cases he
      · rcases hh with h' | h' | h'
        · exact absurd h' hC
        · exact absurd h' hR
        · exact absurd u3 h'.2.2
      · intro lb hlb
        rw [h] at hlb
        simp only [Except.ok.injEq] at hlb
        rw [← hlb]
        exact ⟨rfl, rfl, rfl, rfl, rfl, fun hu => absurd hu u1, fun hu => absurd hu u2,
          fun _ => rfl⟩
    · have herr : NewLeakyBucket now C leakRate unit = Except.error "invalid time unit" := by
        unfold NewLeakyBucket
        rw [if_neg h1]
        simp only [u1, u2, u3, if_false]
      refine ⟨⟨fun _ => Or.inr (Or.inr ⟨u1, u2, u3⟩), fun _ => ⟨_, herr⟩⟩, ?_⟩
      intro lb hlb
      rw [herr] at hlb; cases hlb

theorem NewLeakyBucket_validates_witness :
    (sampleLeaky.Capacity = 5 ∧ sampleLeaky.queue = F64.fin 0 ∧
      sampleLeaky.requestsProcessed = 0 ∧ sampleLeaky.requestsDropped = 0 ∧
      sampleLeaky.lastLeakTime = sampleNow ∧
      (PerSecond = PerSecond → sampleLeaky.LeakRate = F64.fin 1) ∧
      (PerSecond = PerMinute → sampleLeaky.LeakRate = F64.div (F64.fin 1) (F64.fin 60)) ∧
      (PerSecond = PerHour → sampleLeaky.LeakRate = F64.div (F64.fin 1) (F64.fin 3600))) ∧
    (∃ e, NewLeakyBucket sampleNow 5 (F64.fin 1) "day" = Except.error e) :=
  ⟨(NewLeakyBucket_validates sampleNow 5 (F64.fin 1) PerSecond).2 sampleLeaky
      (NewLeakyBucket_perSecond sampleNow 5 1 (by decide) zero_lt_one),
    (NewLeakyBucket_validates sampleNow 5 (F64.fin 1) "day").1.mpr
      (Or.inr (Or.inr ⟨by decide, by decide, by decide⟩))⟩

/-! ## Finite results of rounding -/

theorem F64.rawRound_abs_le {q : ℚ} (hq : q ≠ 0) :
    |F64.rawRound q| ≤ pow2 (max (ilog2 q) (-1022) + 1) := by
  rw [F64.rawRound_eq, pow2_succ_52, abs_mul, abs_of_pos (pow2_pos _)]
  have hk := F64.roundEven_scaled_le hq
  have hk' : |(roundEven (q / pow2 (max (ilog2 q) (-1022) - 52)) : ℚ)| ≤ 9007199254740992 := by
    rw [← Int.cast_abs]
    exact_mod_cast hk
  exact mul_le_mul_of_nonneg_right hk' (le_of_lt (pow2_pos _))

/-- A value of magnitude below `2^k`, `k <= 1023`, rounds to a finite value
of magnitude at most `2^k`. -/
theorem F64.round_fin_of_abs_lt {q : ℚ} {k : Int} (hk1 : -1021 ≤ k) (hk2 : k ≤ 1023)
    (h : |q| < pow2 k) : ∃ r : ℚ, F64.round q = F64.fin r ∧ |r| ≤ pow2 k := by
  by_cases hq : q = 0
  · refine ⟨0, by rw [hq, F64.round_zero], ?_⟩
    rw [abs_zero]; exact le_of_lt (pow2_pos k)
  · obtain ⟨s1, _⟩ := ilog2_spec hq
    have hlog : ilog2 q < k := pow2_lt_pow2.mp (lt_of_le_of_lt s1 h)
    have hraw := F64.rawRound_abs_le hq
    have hle : pow2 (max (ilog2 q) (-1022) + 1) ≤ pow2 k := pow2_le_pow2.mpr (by omega)
    have hlt : pow2 k < pow2 1024 := pow2_lt_pow2.mpr (by omega)
    have habs : |F64.rawRound q| ≤ pow2 k := le_trans hraw hle
    obtain ⟨b1, b2⟩ := abs_le.mp habs
    refine ⟨F64.rawRound q, ?_, habs⟩
    rw [F64.round_eq_raw hq]
    have h1 : ¬ pow2 1024 ≤ F64.rawRound q := by intro hh; linarith
    have h2 : ¬ F64.rawRound q ≤ -pow2 1024 := by intro hh; linarith
    simp only [h1, h2, if_false]

theorem pow2_lit_64 : pow2 64 = 18446744073709551616 := by
  rw [pow2_eq_zpow]; norm_num

/-- The conversion `float64(d)` of a duration is finite, of magnitude at
most `2^64`. -/
theorem F64.ofInt_duration (d : Int) (h1 : -9223372036854775808 ≤ d)
    (h2 : d ≤ 9223372036854775807) :
    ∃ r : ℚ, F64.ofInt d = F64.fin r ∧ |r| ≤ pow2 64 := by
  apply F64.round_fin_of_abs_lt (by norm_num) (by norm_num)
  rw [pow2_lit_64, abs_lt]
  have a1 : (-9223372036854775808 : ℚ) ≤ (d : ℚ) := by exact_mod_cast h1
  have a2 : (d : ℚ) ≤ 9223372036854775807 := by exact_mod_cast h2
  constructor <;> linarith

/-- The elapsed fraction `float64(elapsed) / float64(windowSize)` of a
positive window is finite, of magnitude at most `2^65`. -/
theorem F64.div_duration_finite (d W : Int) (h1 : -9223372036854775808 ≤ d)
    (h2 : d ≤ 9223372036854775807) (hW : 0 < W) :
    ∃ x : ℚ, F64.div (F64.ofInt d) (F64.ofInt W) = F64.fin x ∧ |x| ≤ pow2 65 := by
  obtain ⟨r, hr, hrb⟩ := F64.ofInt_duration d h1 h2
  rw [hr]
  have h65 : (0 : ℚ) ≤ pow2 65 := le_of_lt (pow2_pos 65)
  have hone : F64.round (1 : ℚ) = F64.fin 1 := by
    have := F64.round_intCast_small (c := 1) (by norm_num) (by norm_num)
    simpa using this
  have hWq : (1 : ℚ) ≤ (W : ℚ) := by exact_mod_cast hW
  rcases F64.le_round_of_le (x := (W : ℚ)) (c := 1) (by norm_num) hWq hone with hp | ⟨w, hw, hw1⟩
  · have : F64.ofInt W = F64.pinf := hp
    rw [this]
    exact ⟨0, rfl, by rw [abs_zero]; exact h65⟩
  · have : F64.ofInt W = F64.fin w := hw
    rw [this]
    have hw0 : w ≠ 0 := by intro h0; rw [h0] at hw1; linarith
    have hdiv : F64.div (F64.fin r) (F64.fin w) = F64.round (r / w) := by
      unfold F64.div
      simp only [hw0, if_false]
    rw [hdiv]
    apply F64.round_fin_of_abs_lt (by norm_num) (by norm_num)
    have hwpos : 0 < w := by linarith
    rw [abs_div, abs_of_pos hwpos, div_lt_iff₀ hwpos]
    have h6465 : pow2 64 < pow2 65 := pow2_lt_pow2.mpr (by norm_num)
    have hp65 := pow2_pos 65
    nlinarith

/-- With no request counted in either window the sliding estimate is 0 at
every time. -/
theorem F64.sliding_zero (d W : Int) (h1 : -9223372036854775808 ≤ d)
    (h2 : d ≤ 9223372036854775807) (hW : 0 < W) (clamp : Bool) :
    F64.add (F64.ofInt 0)
      (F64.mul (F64.sub (F64.fin 1)
        (if (clamp && F64.gt (F64.div (F64.ofInt d) (F64.ofInt W)) (F64.fin 1)) = true
          then F64.fin 1 else F64.div (F64.ofInt d) (F64.ofInt W))) (F64.ofInt 0))
      = F64.fin 0 := by
  obtain ⟨x, hx, hxb⟩ := F64.div_duration_finite d W h1 h2 hW
  have h65 : pow2 65 < pow2 66 := pow2_lt_pow2.mpr (by norm_num)
  have h0 : pow2 0 < pow2 65 := pow2_lt_pow2.mpr (by norm_num)
  rw [pow2_zero] at h0
  have h6566 : pow2 66 = 2 * pow2 65 := by
    have : pow2 1 = 2 := by rw [pow2_eq_zpow]; norm_num
    rw [← this, ← pow2_add]; norm_num
  have hfin : ∀ y : ℚ, |y| ≤ pow2 65 →
      F64.add (F64.ofInt 0) (F64.mul (F64.sub (F64.fin 1) (F64.fin y)) (F64.ofInt 0))
        = F64.fin 0 := by
    intro y hy
    have hsub : F64.sub (F64.fin 1) (F64.fin y) = F64.round (1 + -y) := rfl
    obtain ⟨b1, b2⟩ := abs_le.mp hy
    obtain ⟨s, hs, _⟩ := F64.round_fin_of_abs_lt (q := 1 + -y) (k := 66) (by norm_num)
      (by norm_num) (by rw [abs_lt]; constructor <;> linarith)
    rw [hsub, hs, F64.ofInt_zero]
    show F64.add (F64.fin 0) (F64.round (s * 0)) = F64.fin 0
    rw [mul_zero, F64.round_zero]
    show F64.round (0 + 0) = F64.fin 0
    rw [add_zero, F64.round_zero]
  rw [hx]
  split_ifs
  · exact hfin 1 (by rw [abs_one]; exact le_of_lt h0)
  · exact hfin x hxb

/-! ## Reset -/

theorem SlidingWindow.stats_zero (sw : SlidingWindow) (now : Int)
    (hW : 0 < sw.windowSize) (hc : sw.currentWindowRequests = 0)
    (hl : sw.lastWindowRequests = 0) :
    (sw.Stats now).1 = F64.fin 0 ∧ (sw.DetailedStats now).2.2 = F64.fin 0 := by
  have h := F64.sliding_zero (Time.Sub now (timeUnixNano sw.currentWindow)) sw.windowSize
    (Time.Sub_ge _ _) (Time.Sub_le _ _) hW true
  simp only [Bool.true_and] at h
  constructor
  · unfold SlidingWindow.Stats
    simp only [hc, hl]
    exact h
  · unfold SlidingWindow.DetailedStats
    simp only [hc, hl]
    exact h

/-- C24: `Reset` at time `t` keeps `windowSize` and `maxRequests` and leaves
exactly the state the constructor builds at time `t` with that
configuration, for `FixedWindowCounter`, `SlidingWindow` (whose fields
`RequestCount` and `PrevCount` are never written and so are 0) and
`SlidingWindowLog`, each with the positive configuration every constructed
limiter has. Hence a second `Reset` at `t` changes nothing, the statistics
after a reset are zero, and every `Allow` after a reset returns what it
returns on the freshly constructed limiter. -/
theorem reset_is_fresh_construction (fwc : FixedWindowCounter) (sw : SlidingWindow)
    (swl : SlidingWindowLog) (t : Int)
    (h1 : 0 < fwc.WindowSize) (h2 : 0 < fwc.MaxRequests)
    (h3 : 0 < sw.windowSize) (h4 : 0 < sw.maxRequests)
    (h5 : sw.RequestCount = 0) (h6 : sw.PrevCount = 0)
    (h7 : 0 < swl.windowSize) (h8 : 0 < swl.maxRequests) :
    (NewFixedWindowCounter t fwc.WindowSize fwc.MaxRequests = Except.ok (fwc.Reset t) ∧
      (fwc.Reset t).WindowSize = fwc.WindowSize ∧ (fwc.Reset t).MaxRequests = fwc.MaxRequests ∧
      (fwc.Reset t).Reset t = fwc.Reset t ∧
      (fwc.Reset t).Stats.1 = 0 ∧ (fwc.Reset t).RequestsAllowed = 0 ∧
      (fwc.Reset t).RequestsDenied = 0 ∧
      ∀ fresh, NewFixedWindowCounter t fwc.WindowSize fwc.MaxRequests = Except.ok fresh →
        ∀ calls, (fwc.Reset t).results calls = fresh.results calls) ∧
    (NewSlidingWindow t sw.windowSize sw.maxRequests = Except.ok (sw.Reset t) ∧
      (sw.Reset t).windowSize = sw.windowSize ∧ (sw.Reset t).maxRequests = sw.maxRequests ∧
      (sw.Reset t).Reset t = sw.Reset t ∧
      (∀ now, ((sw.Reset t).Stats now).1 = F64.fin 0 ∧
        (sw.Reset t).DetailedStats now = (0, 0, F64.fin 0)) ∧
      ∀ fresh, NewSlidingWindow t sw.windowSize sw.maxRequests = Except.ok fresh →
        ∀ calls, (sw.Reset t).results calls = fresh.results calls) ∧
    (NewSlidingWindowLog swl.windowSize swl.maxRequests = Except.ok swl.Reset ∧
      swl.Reset.windowSize = swl.windowSize ∧ swl.Reset.maxRequests = swl.maxRequests ∧
      swl.Reset.Reset = swl.Reset ∧
      (∀ now, (swl.Reset.Stats now).1 = 0) ∧ swl.Reset.requestLog.toList = [] ∧
      ∀ fresh, NewSlidingWindowLog swl.windowSize swl.maxRequests = Except.ok fresh →
        ∀ calls, swl.Reset.results calls = fresh.results calls) := by
  have e1 : NewFixedWindowCounter t fwc.WindowSize fwc.MaxRequests
      = Except.ok (fwc.Reset t) := by
    unfold NewFixedWindowCounter
    rw [if_neg (not_le.mpr h1), if_neg (not_le.mpr h2)]
    rfl
  have e2 : NewSlidingWindow t sw.windowSize sw.maxRequests = Except.ok (sw.Reset t) := by
    unfold NewSlidingWindow
    rw [if_neg (not_le.mpr h3), if_neg (not_le.mpr h4)]
    unfold SlidingWindow.Reset
    simp only [h5, h6]
  have e3 : NewSlidingWindowLog swl.windowSize swl.maxRequests = Except.ok swl.Reset := by
    unfold NewSlidingWindowLog
    rw [if_neg (not_le.mpr h7), if_neg (not_le.mpr h8)]
    rfl
  refine ⟨⟨e1, rfl, rfl, rfl, rfl, rfl, rfl, ?_⟩, ⟨e2, rfl, rfl, rfl, ?_, ?_⟩,
    ⟨e3, rfl, rfl, rfl, fun _ => rfl, (Deque.NewDeque_spec Int).2, ?_⟩⟩
  · intro fresh hf calls
    rw [e1] at hf
    simp only [Except.ok.injEq] at hf
    rw [hf]
  · intro now
    obtain ⟨s1, s2⟩ := SlidingWindow.stats_zero (sw.Reset t) now h3 rfl rfl
    refine ⟨s1, ?_⟩
    have hd : (sw.Reset t).DetailedStats now
        = (0, 0, ((sw.Reset t).DetailedStats now).2.2) := rfl
    rw [hd, s2]
  · intro fresh hf calls
    rw [e2] at hf
    simp only [Except.ok.injEq] at hf
    rw [hf]
  · intro fresh hf calls
    rw [e3] at hf
    simp only [Except.ok.injEq] at hf
    rw [hf]

theorem reset_is_fresh_construction_witness :
    (0 < sampleFixed.WindowSize) ∧
    (0 < sampleFixed.MaxRequests) ∧
    (0 < sampleSliding.windowSize) ∧
    (0 < sampleSliding.maxRequests) ∧
    (sampleSliding.RequestCount = 0) ∧
    (sampleSliding.PrevCount = 0) ∧
    (0 < sampleLogTwo.windowSize) ∧
    (0 < sampleLogTwo.maxRequests) ∧
    ((NewFixedWindowCounter (sampleNow + 7000000000) sampleFixed.WindowSize sampleFixed.MaxRequests = Except.ok (sampleFixed.Reset (sampleNow + 7000000000)) ∧
      (sampleFixed.Reset (sampleNow + 7000000000)).WindowSize = sampleFixed.WindowSize ∧ (sampleFixed.Reset (sampleNow + 7000000000)).MaxRequests = sampleFixed.MaxRequests ∧
      (sampleFixed.Reset (sampleNow + 7000000000)).Reset (sampleNow + 7000000000) = sampleFixed.Reset (sampleNow + 7000000000) ∧
      (sampleFixed.Reset (sampleNow + 7000000000)).Stats.1 = 0 ∧ (sampleFixed.Reset (sampleNow + 7000000000)).RequestsAllowed = 0 ∧
      (sampleFixed.Reset (sampleNow + 7000000000)).RequestsDenied = 0 ∧
      ∀ fresh, NewFixedWindowCounter (sampleNow + 7000000000) sampleFixed.WindowSize sampleFixed.MaxRequests = Except.ok fresh →
        ∀ calls, (sampleFixed.Reset (sampleNow + 7000000000)).results calls = fresh.results calls) ∧
    (NewSlidingWindow (sampleNow + 7000000000) sampleSliding.windowSize sampleSliding.maxRequests = Except.ok (sampleSliding.Reset (sampleNow + 7000000000)) ∧
      (sampleSliding.Reset (sampleNow + 7000000000)).windowSize = sampleSliding.windowSize ∧ (sampleSliding.Reset (sampleNow + 7000000000)).maxRequests = sampleSliding.maxRequests ∧
      (sampleSliding.Reset (sampleNow + 7000000000)).Reset (sampleNow + 7000000000) = sampleSliding.Reset (sampleNow + 7000000000) ∧
      (∀ now, ((sampleSliding.Reset (sampleNow + 7000000000)).Stats now).1 = F64.fin 0 ∧
        (sampleSliding.Reset (sampleNow + 7000000000)).DetailedStats now = (0, 0, F64.fin 0)) ∧
      ∀ fresh, NewSlidingWindow (sampleNow + 7000000000) sampleSliding.windowSize sampleSliding.maxRequests = Except.ok fresh →
        ∀ calls, (sampleSliding.Reset (sampleNow + 7000000000)).results calls = fresh.results calls) ∧
    (NewSlidingWindowLog sampleLogTwo.windowSize sampleLogTwo.maxRequests = Except.ok sampleLogTwo.Reset ∧
      sampleLogTwo.Reset.windowSize = sampleLogTwo.windowSize ∧ sampleLogTwo.Reset.maxRequests = sampleLogTwo.maxRequests ∧
      sampleLogTwo.Reset.Reset = sampleLogTwo.Reset ∧
      (∀ now, (sampleLogTwo.Reset.Stats now).1 = 0) ∧ sampleLogTwo.Reset.requestLog.toList = [] ∧
      ∀ fresh, NewSlidingWindowLog sampleLogTwo.windowSize sampleLogTwo.maxRequests = Except.ok fresh →
        ∀ calls, sampleLogTwo.Reset.results calls = fresh.results calls)) :=
  ⟨by decide, by decide, by decide, by decide, rfl, rfl, by decide, by decide,
    reset_is_fresh_construction sampleFixed sampleSliding sampleLogTwo (sampleNow + 7000000000) (by decide) (by decide) (by decide) (by decide) rfl rfl (by decide) (by decide)⟩


/-! ## LeakyBucket: ResetStats -/

/-- C25 (counterexample): `NewLeakyBucket(5, 1, PerSecond)` filled by
`Allow(5)`, then `ResetStats()`: the queue still holds 5 units, so `Allow(1)`
at the same instant returns false, while it returns true on the freshly
constructed bucket. -/
theorem LeakyBucket.resetStats_keeps_queue :
    NewLeakyBucket sampleNow 5 (F64.fin 1) PerSecond = Except.ok sampleLeaky ∧
    (sampleLeaky.Allow sampleNow sampleNow 5).1 = sampleLeakyFull ∧
    sampleLeakyFull.ResetStats.queue = F64.fin 5 ∧
    (sampleLeakyFull.ResetStats.Allow sampleNow sampleNow 1).2 = false ∧
    (sampleLeaky.Allow sampleNow sampleNow 1).2 = true := by
  refine ⟨NewLeakyBucket_perSecond sampleNow 5 1 (by decide) zero_lt_one, ?_, ?_, ?_, ?_⟩ <;>
    decide!

theorem LeakyBucket.resetStats_leak (lb : LeakyBucket) (now now2 : Int) :
    (lb.ResetStats.leak now now2).queue = (lb.leak now now2).queue ∧
    (lb.ResetStats.leak now now2).capacity = (lb.leak now now2).capacity ∧
    (lb.ResetStats.leak now now2).leakRate = (lb.leak now now2).leakRate ∧
    (lb.ResetStats.leak now now2).lastLeakTime = (lb.leak now now2).lastLeakTime := by
  unfold LeakyBucket.leak LeakyBucket.ResetStats
  dsimp only
  split_ifs <;> exact ⟨rfl, rfl, rfl, rfl⟩

/-- C25 (amended): `ResetStats` clears only the accumulated statistics: for
every state, after it `requestsProcessed = 0` and `requestsDropped = 0`,
while capacity, leak rate, queue level and `lastLeakTime` are unchanged; so
an `Allow(n)` issued afterwards returns what it would have returned without
the reset and leaves the same queue level. -/
theorem LeakyBucket.resetStats_clears_statistics_only (lb : LeakyBucket) (now now2 n : Int) :
    lb.ResetStats.requestsProcessed = 0 ∧ lb.ResetStats.requestsDropped = 0 ∧
    lb.ResetStats.capacity = lb.capacity ∧ lb.ResetStats.leakRate = lb.leakRate ∧
    lb.ResetStats.queue = lb.queue ∧ lb.ResetStats.lastLeakTime = lb.lastLeakTime ∧
    (lb.ResetStats.Allow now now2 n).2 = (lb.Allow now now2 n).2 ∧
    (lb.ResetStats.Allow now now2 n).1.queue = (lb.Allow now now2 n).1.queue := by
  refine ⟨rfl, rfl, rfl, rfl, rfl, rfl, ?_⟩
  obtain ⟨hq, hc, _, _⟩ := LeakyBucket.resetStats_leak lb now now2
  by_cases hn : n ≤ 0
  · have e1 : lb.ResetStats.Allow now now2 n = (lb.ResetStats, false) := by
      unfold LeakyBucket.Allow; simp only [hn, if_true]
    have e2 : lb.Allow now now2 n = (lb, false) := by
      unfold LeakyBucket.Allow; simp only [hn, if_true]
    rw [e1, e2]
    exact ⟨rfl, rfl⟩
  · by_cases hg : F64.gt (F64.add (lb.leak now now2).queue (F64.ofInt n))
        (F64.ofInt (lb.leak now now2).capacity) = true
    · have e1 : lb.ResetStats.Allow now now2 n
          = ({ lb.ResetStats.leak now now2 with
                requestsDropped := add64 (lb.ResetStats.leak now now2).requestsDropped n },
              false) := by
        unfold LeakyBucket.Allow; simp only [hn, if_false, hq, hc, hg, if_true]
      have e2 : lb.Allow now now2 n
          = ({ lb.leak now now2 with
                requestsDropped := add64 (lb.leak now now2).requestsDropped n }, false) := by
        unfold LeakyBucket.Allow; simp only [hn, if_false, hg, if_true]
      rw [e1, e2]
      exact ⟨rfl, hq⟩
    · have e1 : lb.ResetStats.Allow now now2 n
          = ({ lb.ResetStats.leak now now2 with
                queue := F64.add (lb.ResetStats.leak now now2).queue (F64.ofInt n) },
              true) := by
        unfold LeakyBucket.Allow; simp only [hn, if_false, hq, hc, hg, Bool.false_eq_true]
      have e2 : lb.Allow now now2 n
          = ({ lb.leak now now2 with
                queue := F64.add (lb.leak now now2).queue (F64.ofInt n) }, true) := by
        unfold LeakyBucket.Allow; simp only [hn, if_false, hg, Bool.false_eq_true]
      rw [e1, e2]
      refine ⟨rfl, ?_⟩
      show F64.add (lb.ResetStats.leak now now2).queue (F64.ofInt n)
        = F64.add (lb.leak now now2).queue (F64.ofInt n)
      rw [hq]

theorem LeakyBucket.resetStats_clears_statistics_only_witness :
    (sampleLeakyFull.Allow sampleNow sampleNow 5).1.ResetStats.requestsDropped = 0 ∧
    ((sampleLeakyFull.Allow sampleNow sampleNow 5).1.ResetStats.Allow (sampleNow + 1000000000)
      (sampleNow + 1000000000) 1).2
      = ((sampleLeakyFull.Allow sampleNow sampleNow 5).1.Allow (sampleNow + 1000000000)
          (sampleNow + 1000000000) 1).2 :=
  ⟨(LeakyBucket.resetStats_clears_statistics_only
      (sampleLeakyFull.Allow sampleNow sampleNow 5).1 (sampleNow + 1000000000)
      (sampleNow + 1000000000) 1).2.1,
    (LeakyBucket.resetStats_clears_statistics_only
      (sampleLeakyFull.Allow sampleNow sampleNow 5).1 (sampleNow + 1000000000)
      (sampleNow + 1000000000) 1).2.2.2.2.2.2.1⟩

/-! ## FixedWindowCounter: TimeUntilReset -/

/-- C26 (failing input): `NewFixedWindowCounter(2*time.Second, 1)` built at
`sampleNow`; `TimeUntilReset()` five seconds later (no call in between)
returns -3.05 s, not 0: the result of `time.Until` is returned unclamped.
And `NewFixedWindowCounter(100*time.Millisecond, 1)` built 0.95 s into a
second stores the window start cut to whole seconds, so `TimeUntilReset()`
right after construction returns -850 ms. -/
theorem FixedWindowCounter.timeUntilReset_negative :
    NewFixedWindowCounter sampleNow 2000000000 1 = Except.ok sampleFixedTwo ∧
    sampleFixedTwo.TimeUntilReset (sampleNow + 5000000000) = -3050000000 ∧
    NewFixedWindowCounter (sampleNow + 900000000) 100000000 1 = Except.ok sampleFixedFast ∧
    sampleFixedFast.TimeUntilReset (sampleNow + 900000000) = -850000000 := by
  refine ⟨rfl, ?_, rfl, ?_⟩ <;> decide

/-- While `now` lies in the stored window, `TimeUntilReset` is the time to
the end of that window, a value in `(0, WindowSize]`. -/
theorem FixedWindowCounter.timeUntilReset_in_window (fwc : FixedWindowCounter) (now : Int)
    (hW : fwc.WindowSize ≤ maxInt64) (h1 : timeUnixSec fwc.CurrentWindow ≤ now)
    (h2 : now < timeUnixSec fwc.CurrentWindow + fwc.WindowSize) :
    fwc.TimeUntilReset now = timeUnixSec fwc.CurrentWindow + fwc.WindowSize - now ∧
    0 < fwc.TimeUntilReset now ∧ fwc.TimeUntilReset now ≤ fwc.WindowSize := by
  have h : fwc.TimeUntilReset now = timeUnixSec fwc.CurrentWindow + fwc.WindowSize - now := by
    unfold FixedWindowCounter.TimeUntilReset Time.Sub Time.Add minInt64
    unfold maxInt64 at hW ⊢
    dsimp only
    split_ifs <;> omega
  rw [h]
  omega

/-! ## SlidingWindow: TimeUntilAllowed -/

/-- C27 (counterexample): `NewSlidingWindow(100*time.Millisecond, 5)` built
at `sampleNow`, 50 ms into its window, and filled by `Allow(5)`. At the start
of the next window (50 ms later, no call in between) `TimeUntilAllowed(1)`
returns 0 because the stored window has ended, but `Allow(1)` at that instant
is denied: the full previous window is carried over with weight 1. -/
theorem SlidingWindow.timeUntilAllowed_zero_but_denied :
    NewSlidingWindow sampleNow 100000000 5 = Except.ok sampleSliding ∧
    (sampleSliding.Allow sampleNow 5).2 = true ∧
    (sampleSliding.Allow sampleNow 5).1.TimeUntilAllowed (sampleNow + 50000000) 1 = 0 ∧
    ((sampleSliding.Allow sampleNow 5).1.Allow (sampleNow + 50000000) 1).2 = false := by
  refine ⟨rfl, ?_, ?_, ?_⟩ <;> decide!

theorem F64.raw_of_round_fin {q r : ℚ} (hq : q ≠ 0) (h : F64.round q = F64.fin r) :
    r = F64.rawRound q := by
  rw [F64.round_eq_raw hq] at h
  split_ifs at h
  injection h with h
  exact h.symm

/-- Rounding is monotone on the non-negative rationals with finite
results. -/
theorem F64.round_mono_fin {x y a b : ℚ} (hx : 0 ≤ x) (hxy : x ≤ y)
    (ha : F64.round x = F64.fin a) (hb : F64.round y = F64.fin b) : a ≤ b := by
  by_cases hx0 : x = 0
  · rw [hx0, F64.round_zero] at ha
    injection ha with ha
    rcases F64.round_nonneg (le_trans hx hxy) with hp | ⟨r, hr, hr0⟩
    · rw [hp] at hb; cases hb
    · rw [hr] at hb
      injection hb with hb
      rw [← ha, ← hb]; exact hr0
  · have hxpos : 0 < x := lt_of_le_of_ne hx (Ne.symm hx0)
    have hy0 : y ≠ 0 := ne_of_gt (lt_of_lt_of_le hxpos hxy)
    rw [F64.raw_of_round_fin hx0 ha, F64.raw_of_round_fin hy0 hb]
    exact F64.rawRound_mono hxpos hxy

/-- The elapsed fraction of a window that has not ended is at most 1. -/
theorem F64.ofInt_div_le_one (e W : Int) (he : 0 ≤ e) (heW : e < W) (hW2 : W ≤ maxInt64) :
    F64.gt (F64.div (F64.ofInt e) (F64.ofInt W)) (F64.fin 1) = false := by
  obtain ⟨a, ha, ha0, _, _⟩ := F64.ofInt_nonneg_small he (by omega)
  obtain ⟨b, hb, _, _, hb1⟩ := F64.ofInt_nonneg_small (by omega : 0 ≤ W) hW2
  have hb1' : 1 ≤ b := hb1 (by omega)
  have hab : a ≤ b := F64.round_mono_fin (by exact_mod_cast he)
    (by exact_mod_cast le_of_lt heW) ha hb
  rw [ha, hb]
  have hb0 : b ≠ 0 := by intro h; rw [h] at hb1'; linarith
  have hdiv : F64.div (F64.fin a) (F64.fin b) = F64.round (a / b) := by
    unfold F64.div
    simp only [hb0, if_false]
  have hbpos : 0 < b := by linarith
  have hone : F64.round (1 : ℚ) = F64.fin 1 := by
    have := F64.round_intCast_small (c := 1) (by norm_num) (by norm_num)
    simpa using this
  obtain ⟨v, hv, _, hv1⟩ := F64.round_le_of_le (div_nonneg ha0 (le_of_lt hbpos))
    ((div_le_one hbpos).mpr hab) hone
  rw [hdiv, hv]
  exact decide_eq_false (not_lt.mpr hv1)

theorem truncate_emod (t W : Int) (hW : 0 < W) : Time.Truncate t W % W = 0 := by
  unfold Time.Truncate
  rw [if_neg (not_le.mpr hW)]
  exact Int.emod_eq_zero_of_dvd (Int.dvd_sub_of_emod_eq rfl)

/-- A time inside the aligned window that starts at `ws` truncates to
`ws`. -/
theorem truncate_eq_of_mem_window {W ws now : Int} (hW : 0 < W) (hmul : ws % W = 0)
    (h1 : ws ≤ now) (h2 : now < ws + W) : Time.Truncate now W = ws := by
  unfold Time.Truncate
  rw [if_neg (not_le.mpr hW)]
  have hsub : (now - ws) % W = now % W := by
    rw [Int.sub_emod, hmul, sub_zero, Int.emod_emod_of_dvd _ (dvd_refl W)]
  have hsmall : (now - ws) % W = now - ws := Int.emod_eq_of_lt (by omega) (by omega)
  omega

theorem SlidingWindow.rollover_same_window (sw : SlidingWindow) (now : Int)
    (h : Time.UnixNano (Time.Truncate now sw.windowSize) = sw.currentWindow) :
    sw.rollover now = sw := by
  unfold SlidingWindow.rollover
  simp only [h, ne_eq, not_true_eq_false, if_false]

/-- C27 (amended): for a state whose stored window was set at a time `t0`
(by the constructor, `Reset` or an `Allow`), and a time `now >= t0`:
`TimeUntilAllowed(n)` returns 0 when `n <= 0`, and also when the stored
window has already ended at `now`, whatever `Allow(n)` would return then.
While `now` lies in the stored window and `n > 0`, it returns 0 if `Allow(n)`
at the same instant would be admitted, and otherwise the time remaining to
the end of that window, a value in `(0, windowSize]`. The result is always in
`[0, windowSize]`. -/
theorem SlidingWindow.timeUntilAllowed_cases (sw : SlidingWindow) (t0 now n : Int)
    (hW : 0 < sw.windowSize) (hW2 : sw.windowSize ≤ maxInt64)
    (hcur : sw.currentWindow = Time.UnixNano (Time.Truncate t0 sw.windowSize))
    (hr : isInt64 (Time.Truncate t0 sw.windowSize - unixEpoch)) (ht : t0 ≤ now) :
    (n ≤ 0 → sw.TimeUntilAllowed now n = 0) ∧
    (Time.Truncate t0 sw.windowSize + sw.windowSize ≤ now → sw.TimeUntilAllowed now n = 0) ∧
    (0 < n → now < Time.Truncate t0 sw.windowSize + sw.windowSize →
      ((sw.Allow now n).2 = true → sw.TimeUntilAllowed now n = 0) ∧
      ((sw.Allow now n).2 = false →
        sw.TimeUntilAllowed now n = Time.Truncate t0 sw.windowSize + sw.windowSize - now ∧
        0 < sw.TimeUntilAllowed now n ∧ sw.TimeUntilAllowed now n ≤ sw.windowSize)) ∧
    (0 ≤ sw.TimeUntilAllowed now n ∧ sw.TimeUntilAllowed now n ≤ sw.windowSize) := by
  have hws : timeUnixNano sw.currentWindow = Time.Truncate t0 sw.windowSize := by
    rw [hcur]
    unfold timeUnixNano Time.UnixNano
    rw [wrap64_of_isInt64 hr]; ring
  have hle0 : Time.Truncate t0 sw.windowSize ≤ t0 := by
    unfold Time.Truncate
    rw [if_neg (not_le.mpr hW)]
    have := Int.emod_nonneg t0 (ne_of_gt hW)
    omega
  have hge : Time.Truncate t0 sw.windowSize ≤ now := le_trans hle0 ht
  have hsub : Time.Sub now (Time.Truncate t0 sw.windowSize)
      = min (now - Time.Truncate t0 sw.windowSize) maxInt64 := by
    unfold Time.Sub minInt64 maxInt64
    split_ifs <;> omega
  -- the three outcomes of the function
  have hzero : n ≤ 0 → sw.TimeUntilAllowed now n = 0 := by
    intro hn
    unfold SlidingWindow.TimeUntilAllowed
    simp only [hn, if_true]
  have hended : Time.Truncate t0 sw.windowSize + sw.windowSize ≤ now →
      sw.TimeUntilAllowed now n = 0 := by
    intro hend
    by_cases hn : n ≤ 0
    · exact hzero hn
    · have hel : sw.windowSize ≤ Time.Sub now (timeUnixNano sw.currentWindow) := by
        rw [hws, hsub]
        exact le_min (by omega) hW2
      unfold SlidingWindow.TimeUntilAllowed
      simp only [hn, if_false, hel, if_true]
  have hin : 0 < n → now < Time.Truncate t0 sw.windowSize + sw.windowSize →
      sw.TimeUntilAllowed now n
        = if (sw.Allow now n).2 = true then 0
          else Time.Truncate t0 sw.windowSize + sw.windowSize - now := by
    intro hn hlt
    have hn' : ¬ n ≤ 0 := not_le.mpr hn
    have hel : Time.Sub now (timeUnixNano sw.currentWindow)
        = now - Time.Truncate t0 sw.windowSize := by
      rw [hws, hsub]
      unfold maxInt64 at hW2 ⊢
      exact min_eq_left (by omega)
    have hnot : ¬ sw.windowSize ≤ now - Time.Truncate t0 sw.windowSize := by omega
    have htr : Time.Truncate now sw.windowSize = Time.Truncate t0 sw.windowSize :=
      truncate_eq_of_mem_window hW (truncate_emod t0 sw.windowSize hW) hge hlt
    have hsame : Time.UnixNano (Time.Truncate now sw.windowSize) = sw.currentWindow := by
      rw [htr, hcur]
    have hclamp := F64.ofInt_div_le_one (now - Time.Truncate t0 sw.windowSize) sw.windowSize
      (by omega) (by omega) hW2
    have hdone : sw.doneFraction now
        = F64.div (F64.ofInt (now - Time.Truncate t0 sw.windowSize))
            (F64.ofInt sw.windowSize) := by
      rw [SlidingWindow.doneFraction_eq sw now hW hW2 (by rw [htr]; exact hr), htr]
      simp only [hclamp, Bool.false_eq_true, if_false]
    have hres := SlidingWindow.allow_result sw now n hn
    rw [SlidingWindow.rollover_same_window sw now hsame, hdone] at hres
    have hwrap : wrap64 (sw.windowSize - (now - Time.Truncate t0 sw.windowSize))
        = Time.Truncate t0 sw.windowSize + sw.windowSize - now := by
      rw [wrap64_of_isInt64]
      · ring
      · unfold isInt64 minInt64 maxInt64
        unfold maxInt64 at hW2
        constructor <;> omega
    unfold SlidingWindow.TimeUntilAllowed
    simp only [hn', if_false, hel, hnot, hwrap]
    rw [hres]
  refine ⟨hzero, hended, ?_, ?_⟩
  · intro hn hlt
    have h := hin hn hlt
    constructor
    · intro ha
      rw [h, if_pos ha]
    · intro ha
      have ha' : ¬ (sw.Allow now n).2 = true := by rw [ha]; exact Bool.false_ne_true
      rw [h, if_neg ha']
      refine ⟨rfl, by omega, by omega⟩
  · by_cases hn : n ≤ 0
    · rw [hzero hn]; exact ⟨le_refl _, le_of_lt hW⟩
    · by_cases hlt : now < Time.Truncate t0 sw.windowSize + sw.windowSize
      · rw [hin (not_le.mp hn) hlt]
        split_ifs
        · exact ⟨le_refl _, le_of_lt hW⟩
        · constructor <;> omega
      · rw [hended (not_lt.mp hlt)]; exact ⟨le_refl _, le_of_lt hW⟩

theorem SlidingWindow.timeUntilAllowed_cases_witness :
    (0 < sampleSliding.windowSize) ∧
    (sampleSliding.windowSize ≤ maxInt64) ∧
    (sampleSliding.currentWindow = Time.UnixNano (Time.Truncate sampleNow sampleSliding.windowSize)) ∧
    (isInt64 (Time.Truncate sampleNow sampleSliding.windowSize - unixEpoch)) ∧
    (sampleNow ≤ sampleNow + 10000000) ∧
    (((6 : Int) ≤ 0 → sampleSliding.TimeUntilAllowed (sampleNow + 10000000) (6 : Int) = 0) ∧
    (Time.Truncate sampleNow sampleSliding.windowSize + sampleSliding.windowSize ≤ (sampleNow + 10000000) → sampleSliding.TimeUntilAllowed (sampleNow + 10000000) (6 : Int) = 0) ∧
    (0 < (6 : Int) → (sampleNow + 10000000) < Time.Truncate sampleNow sampleSliding.windowSize + sampleSliding.windowSize →
      ((sampleSliding.Allow (sampleNow + 10000000) (6 : Int)).2 = true → sampleSliding.TimeUntilAllowed (sampleNow + 10000000) (6 : Int) = 0) ∧
      ((sampleSliding.Allow (sampleNow + 10000000) (6 : Int)).2 = false →
        sampleSliding.TimeUntilAllowed (sampleNow + 10000000) (6 : Int) = Time.Truncate sampleNow sampleSliding.windowSize + sampleSliding.windowSize - (sampleNow + 10000000) ∧
        0 < sampleSliding.TimeUntilAllowed (sampleNow + 10000000) (6 : Int) ∧ sampleSliding.TimeUntilAllowed (sampleNow + 10000000) (6 : Int) ≤ sampleSliding.windowSize)) ∧
    (0 ≤ sampleSliding.TimeUntilAllowed (sampleNow + 10000000) (6 : Int) ∧ sampleSliding.TimeUntilAllowed (sampleNow + 10000000) (6 : Int) ≤ sampleSliding.windowSize)) :=
  ⟨by decide, by decide, by decide, by decide, by decide,
    SlidingWindow.timeUntilAllowed_cases sampleSliding sampleNow (sampleNow + 10000000) 6 (by decide) (by decide) (by decide) (by decide) (by decide)⟩


/-! ## SlidingWindowLog: the read-only operations -/

/-- C28 (failing input): `NewSlidingWindowLog(100*time.Millisecond, 3)`
filled by `Allow(3)` at `sampleNow`; 30 ms later `Allow(1)` would be denied.
`TimeUntilAllowed(1)` has `excess = 1 < size = 3` and returns `windowSize`
(100 ms), not the 70 ms until the oldest entry ages out; `TimeUntilAllowed(3)`
has `excess = 3 >= size` and returns those 70 ms, not `windowSize`: the two
branches are the other way round. -/
theorem SlidingWindowLog.timeUntilAllowed_branches_swapped :
    NewSlidingWindowLog 100000000 3 = Except.ok sampleLog ∧
    (sampleLog.Allow sampleNow 3).map (fun r => (r.1.requestLog.toList, r.2))
      = some ([sampleNow, sampleNow, sampleNow], true) ∧
    (sampleLog.Allow sampleNow 3).bind
      (fun r => (r.1.Allow (sampleNow + 30000000) 1).map Prod.snd) = some false ∧
    (sampleLog.Allow sampleNow 3).bind
      (fun r => r.1.TimeUntilAllowed (sampleNow + 30000000) 1) = some 100000000 ∧
    (sampleLog.Allow sampleNow 3).bind
      (fun r => r.1.TimeUntilAllowed (sampleNow + 30000000) 3) = some 70000000 ∧
    sampleNow + 100000000 - (sampleNow + 30000000) = 70000000 := by
  refine ⟨rfl, ?_, ?_, ?_, ?_, ?_⟩ <;> decide

/-- C29 (failing input): `NewSlidingWindowLog(100*time.Millisecond, 3)`,
`Allow(3)` at `sampleNow`, then `Stats()` 200 ms later (no call in between):
it returns the count 3 with the window start `now - windowSize`, although no
logged timestamp is after that window start. -/
theorem SlidingWindowLog.stats_counts_expired_entries :
    NewSlidingWindowLog 100000000 3 = Except.ok sampleLog ∧
    (sampleLog.Allow sampleNow 3).map (fun r => r.1.Stats (sampleNow + 200000000))
      = some (3, 3, sampleNow + 100000000) ∧
    (sampleLog.Allow sampleNow 3).map
      (fun r => (r.1.requestLog.toList.filter
        (fun t => decide (sampleNow + 200000000 - 100000000 < t))).length) = some 0 := by
  refine ⟨rfl, ?_, ?_⟩ <;> decide

/-- Right after an `Allow(n)` with `n > 0` and at the same instant, `Stats`
does count the entries inside the trailing window. -/
theorem SlidingWindowLog.stats_exact_at_call_time (s : SlidingWindowLog) (now n T : Int)
    (hn : 0 < n) (hW : 0 < s.windowSize) (hW2 : s.windowSize ≤ maxInt64)
    (hwf : s.requestLog.WF) (hsorted : s.requestLog.toList.Pairwise (· ≤ ·))
    (hT : ∀ t ∈ s.requestLog.toList, t ≤ T) (hle : T ≤ now) :
    ∃ r : SlidingWindowLog × Bool, s.Allow now n = some r ∧
      (r.1.Stats now).1
        = ((r.1.requestLog.toList.filter
            (fun t => decide (now - s.windowSize < t))).length : Int) ∧
      (r.1.Stats now).2.1 = s.maxRequests ∧
      (r.1.Stats now).2.2 = now - s.windowSize := by
  obtain ⟨r, hr, rW, rM, _, _, _, rin, _⟩ :=
    SlidingWindowLog.allow_step s now n T hW hW2 hwf hsorted hT hle
  refine ⟨r, hr, ?_, ?_, ?_⟩
  · have hall : r.1.requestLog.toList.filter (fun t => decide (now - s.windowSize < t))
        = r.1.requestLog.toList := by
      rw [List.filter_eq_self]
      intro t ht
      exact decide_eq_true (rin hn t ht)
    rw [hall, Deque.toList_length]
    rfl
  · exact rM
  · show Time.Add now (neg64 r.1.windowSize) = now - s.windowSize
    rw [rW, neg64_eq_neg (by unfold minInt64; omega) hW2]
    unfold Time.Add
    ring

/-! ## LeakyBucket: TimeUntilAllowed -/

/-- The projected queue level of the read-only path is the level the leak
step stores, for a finite non-negative `float64` queue and a finite rate. -/
theorem LeakyBucket.specQueue_eq_leak (lb : LeakyBucket) (q r : ℚ) (now now2 : Int)
    (hq : lb.queue = F64.fin q) (hq0 : 0 ≤ q) (hqr : F64.Representable q)
    (hr : lb.leakRate = F64.fin r) (hl : lb.lastLeakTime ≤ now) :
    lb.specQueue now = (lb.leak now now2).queue := by
  obtain ⟨hs0, hs1⟩ := Time.Sub_nonneg hl
  obtain ⟨e, he, he0, _⟩ := Duration.Seconds_nonneg hs0 hs1
  have hmul : F64.mul (F64.fin e) (F64.fin r) = F64.round (e * r) := rfl
  have hnotneg : F64.lt (F64.fin q) (F64.fin 0) = false := decide_eq_false (not_lt.mpr hq0)
  by_cases hle : F64.le (Duration.Seconds (Time.Sub now lb.lastLeakTime)) (F64.fin 0) = true
  · rw [LeakyBucket.leak_of_nonpos lb now now2 hle, hq]
    have hez : e = 0 := by
      rw [he] at hle
      have := of_decide_eq_true hle
      linarith
    have hmul0 : F64.mul (F64.fin 0) (F64.fin r) = F64.fin 0 := by
      show F64.round (0 * r) = F64.fin 0
      rw [zero_mul, F64.round_zero]
    have hsub : F64.sub (F64.fin q) (F64.fin 0) = F64.fin q := by
      show F64.round (q + -0) = F64.fin q
      rw [neg_zero, add_zero]
      exact F64.round_exact hqr
    unfold LeakyBucket.specQueue
    simp only [he, hr, hq, hez, hmul0, hsub, hnotneg, Bool.false_eq_true, if_false]
  · have hle' : F64.le (Duration.Seconds (Time.Sub now lb.lastLeakTime)) (F64.fin 0) = false :=
      Bool.eq_false_iff.mpr hle
    rw [LeakyBucket.leak_of_pos lb now now2 hle']
    unfold LeakyBucket.specQueue
    simp only [he, hr, hq, hmul]
    cases hL : F64.round (e * r) with
    | nan => exact absurd hL (F64.round_ne_nan _)
    | pinf =>
      have hge : F64.ge F64.pinf (F64.fin q) = true := rfl
      have hx : F64.sub (F64.fin q) F64.pinf = F64.ninf := rfl
      have hlt : F64.lt F64.ninf (F64.fin 0) = true := rfl
      simp only [hge, hx, hlt, if_true]
    | ninf =>
      have hge : F64.ge F64.ninf (F64.fin q) = false := rfl
      have hx : F64.sub (F64.fin q) F64.ninf = F64.pinf := rfl
      have hlt : F64.lt F64.pinf (F64.fin 0) = false := rfl
      simp only [hge, hx, hlt, Bool.false_eq_true, if_false]
    | fin l =>
      have hsub : F64.sub (F64.fin q) (F64.fin l) = F64.round (q + -l) := rfl
      by_cases hql : q ≤ l
      · have hge : F64.ge (F64.fin l) (F64.fin q) = true := decide_eq_true hql
        simp only [hge, if_true, hsub]
        rcases F64.round_nonpos (by linarith : q + -l ≤ 0) with hp | ⟨v, hv, hv0⟩
        · rw [hp]
          have hlt : F64.lt F64.ninf (F64.fin 0) = true := rfl
          simp only [hlt, if_true]
        · rw [hv]
          by_cases hvneg : v < 0
          · have hlt : F64.lt (F64.fin v) (F64.fin 0) = true := decide_eq_true hvneg
            simp only [hlt, if_true]
          · have hlt : F64.lt (F64.fin v) (F64.fin 0) = false := decide_eq_false hvneg
            have hv0' : v = 0 := le_antisymm hv0 (not_lt.mp hvneg)
            rw [hlt, hv0']
            simp
      · have hge : F64.ge (F64.fin l) (F64.fin q) = false := decide_eq_false hql
        simp only [hge, Bool.false_eq_true, if_false, hsub]
        rcases F64.round_nonneg (by linarith : 0 ≤ q + -l) with hp | ⟨v, hv, hv0⟩
        · rw [hp]
          have hlt : F64.lt F64.pinf (F64.fin 0) = false := rfl
          simp only [hlt, Bool.false_eq_true, if_false]
        · rw [hv]
          have hlt : F64.lt (F64.fin v) (F64.fin 0) = false :=
            decide_eq_false (not_lt.mpr hv0)
          simp only [hlt, Bool.false_eq_true, if_false]

/-- Scope of the failure of C30: for a state with a finite non-negative
`float64` queue and a finite
leak rate, a time `now >= lastLeakTime` and every `n`, `TimeUntilAllowed(n)`
(a read-only function: it yields no new state) returns 0 for `n <= 0` and
otherwise the hint of the specification computed from
`q = max(0, queue - (now - lastLeakTime) * leakRate)`: 0 if
`q + n <= capacity`, else `(q + n - capacity) / leakRate` seconds converted
to nanoseconds as `int64`, all in `float64`; and `q` is exactly the queue
level the leak step of `Allow` stores at the same instant. -/
theorem LeakyBucket.timeUntilAllowed_refines (lb : LeakyBucket) (q r : ℚ) (now now2 n : Int)
    (hq : lb.queue = F64.fin q) (hq0 : 0 ≤ q) (hqr : F64.Representable q)
    (hr : lb.leakRate = F64.fin r) (hl : lb.lastLeakTime ≤ now) :
    lb.TimeUntilAllowed now n = lb.specTimeUntilAllowed (lb.specQueue now) n ∧
    lb.specQueue now = (lb.leak now now2).queue ∧
    lb.TimeUntilAllowed now n = lb.specTimeUntilAllowed (lb.leak now now2).queue n ∧
    (n ≤ 0 → lb.TimeUntilAllowed now n = 0) := by
  have hsec : F64.ofInt Second = F64.fin 1000000000 := by
    have := F64.ofInt_exact (k := 1000000000) (by norm_num)
    simpa [Second] using this
  have h1 : lb.TimeUntilAllowed now n = lb.specTimeUntilAllowed (lb.specQueue now) n := by
    unfold LeakyBucket.TimeUntilAllowed LeakyBucket.TimeUntilSpace
      LeakyBucket.specTimeUntilAllowed
    have hcq : lb.getCurrentQueue now = lb.specQueue now := rfl
    simp only [hcq, hsec]
  have h2 := LeakyBucket.specQueue_eq_leak lb q r now now2 hq hq0 hqr hr hl
  refine ⟨h1, h2, by rw [h1, h2], ?_⟩
  intro hn
  unfold LeakyBucket.TimeUntilAllowed
  simp only [hn, if_true]

theorem F64.representable_five : F64.Representable 5 := by
  have := F64.representable_intCast (k := 5) (by norm_num)
  simpa using this

theorem LeakyBucket.timeUntilAllowed_refines_witness :
    (sampleLeakyFull.queue = F64.fin 5) ∧
    ((0 : ℚ) ≤ 5) ∧
    (F64.Representable 5) ∧
    (sampleLeakyFull.leakRate = F64.fin 1) ∧
    (sampleLeakyFull.lastLeakTime ≤ sampleNow + 2000000000) ∧
    (sampleLeakyFull.TimeUntilAllowed (sampleNow + 2000000000) (4 : Int) = sampleLeakyFull.specTimeUntilAllowed (sampleLeakyFull.specQueue (sampleNow + 2000000000)) (4 : Int) ∧
    sampleLeakyFull.specQueue (sampleNow + 2000000000) = (sampleLeakyFull.leak (sampleNow + 2000000000) (sampleNow + 2000000001)).queue ∧
    sampleLeakyFull.TimeUntilAllowed (sampleNow + 2000000000) (4 : Int) = sampleLeakyFull.specTimeUntilAllowed (sampleLeakyFull.leak (sampleNow + 2000000000) (sampleNow + 2000000001)).queue (4 : Int) ∧
    ((4 : Int) ≤ 0 → sampleLeakyFull.TimeUntilAllowed (sampleNow + 2000000000) (4 : Int) = 0)) :=
  ⟨rfl, by norm_num, F64.representable_five, rfl, by decide,
    LeakyBucket.timeUntilAllowed_refines sampleLeakyFull 5 1 (sampleNow + 2000000000) (sampleNow + 2000000001) 4 rfl (by norm_num) F64.representable_five rfl (by decide)⟩

/-- The conversion `int64(x)` of a value in `[0, 2^63)` is its integer part. -/
theorem F64.toInt64_of_range {x : ℚ} (h0 : 0 ≤ x) (h1 : x < 9223372036854775808) :
    F64.toInt64 (F64.fin x) = ⌊x⌋ := by
  have hf0 : 0 ≤ ⌊x⌋ := Int.floor_nonneg.mpr h0
  have hf1 : ⌊x⌋ < 9223372036854775808 := by
    have : ⌊x⌋ < (9223372036854775808 : Int) := by
      rw [Int.floor_lt]
      exact_mod_cast h1
    exact this
  unfold F64.toInt64
  simp only [h0, if_true, ratFloor_eq]
  unfold minInt64 maxInt64
  rw [if_pos ⟨by omega, by omega⟩]

/-- Scope of the failure of C30, the value of the hint: for a state with a
finite non-negative queue and a finite leak rate, `now >= lastLeakTime` and
`n > 0`, with `q` the queue level the leak step of `Allow` stores at the same
instant, `TimeUntilAllowed(n)` is 0 when `q + n <= capacity`; otherwise, when
the `float64` value `x` of `(q + n - capacity) / leakRate * 1e9` is a number
in `[0, 2^63)`, it is `x` truncated to a whole number of nanoseconds. -/
theorem LeakyBucket.hint_in_range (lb : LeakyBucket) (q r : ℚ) (now now2 n : Int)
    (hq : lb.queue = F64.fin q) (hq0 : 0 ≤ q) (hqr : F64.Representable q)
    (hr : lb.leakRate = F64.fin r) (hl : lb.lastLeakTime ≤ now) (hn : 0 < n) :
    (F64.le (F64.add (lb.leak now now2).queue (F64.ofInt n)) (F64.ofInt lb.capacity) = true →
      lb.TimeUntilAllowed now n = 0) ∧
    (∀ x : ℚ,
      F64.le (F64.add (lb.leak now now2).queue (F64.ofInt n)) (F64.ofInt lb.capacity) = false →
      F64.mul
        (F64.div (F64.sub (F64.add (lb.leak now now2).queue (F64.ofInt n))
          (F64.ofInt lb.capacity)) lb.leakRate)
        (F64.fin 1000000000) = F64.fin x →
      0 ≤ x → x < 9223372036854775808 →
      lb.TimeUntilAllowed now n = ⌊x⌋) := by
  have h := (LeakyBucket.timeUntilAllowed_refines lb q r now now2 n hq hq0 hqr hr hl).2.2.1
  have hn' : ¬ n ≤ 0 := not_le.mpr hn
  refine ⟨?_, ?_⟩
  · intro hle
    rw [h]
    unfold LeakyBucket.specTimeUntilAllowed
    rw [if_neg hn', if_pos hle]
  · intro x hle hx h0 h1
    rw [h]
    unfold LeakyBucket.specTimeUntilAllowed
    rw [if_neg hn', if_neg (by rw [hle]; simp), hx]
    exact F64.toInt64_of_range h0 h1

theorem LeakyBucket.hint_in_range_sample :
    (F64.le (F64.add (sampleLeakyFull.leak (sampleNow + 2000000000)
        (sampleNow + 2000000000)).queue (F64.ofInt 4)) (F64.ofInt sampleLeakyFull.capacity)
      = false) ∧
    F64.mul
      (F64.div (F64.sub (F64.add (sampleLeakyFull.leak (sampleNow + 2000000000)
          (sampleNow + 2000000000)).queue (F64.ofInt 4))
        (F64.ofInt sampleLeakyFull.capacity)) sampleLeakyFull.leakRate)
      (F64.fin 1000000000) = F64.fin 2000000000 ∧
    sampleLeakyFull.TimeUntilAllowed (sampleNow + 2000000000) 4 = 2000000000 := by
  refine ⟨by decide!, by decide!, by decide!⟩

theorem NewLeakyBucket_sampleLeakyInf :
    NewLeakyBucket sampleNow 5 F64.pinf PerSecond = Except.ok sampleLeakyInf := by
  have h1 : ¬ ((5 : Int) ≤ 0 ∨ F64.le F64.pinf (F64.fin 0) = true) := by
    intro h
    rcases h with h | h
    · omega
    · exact absurd h (by decide)
  unfold NewLeakyBucket
  rw [if_neg h1]
  rfl

/-- C30 (failing input): `NewLeakyBucket(5, 2^-40, PerSecond)` is filled by
`Allow(5)`. At the same instant the projected level is `q = 5`, the level the
leak step of `Allow` stores, and `(q + 1 - capacity) / leakRate` is `2^40`
seconds, more than `MaxInt64` nanoseconds; `TimeUntilAllowed(1)` returns the
negative duration `-9223372036854775808`. On
`NewLeakyBucket(5, math.Inf(1), PerSecond)` the leak step stores the level 0
and `Allow(1)` succeeds, so `q + 1 <= capacity`, but the projected level of
the read-only path is NaN and `TimeUntilAllowed(1)` returns
`-9223372036854775808` instead of 0. -/
theorem LeakyBucket.hint_negative_out_of_range :
    NewLeakyBucket sampleNow 5 (F64.fin (1 / 1099511627776)) PerSecond
      = Except.ok sampleLeakyTrickle ∧
    (sampleLeakyTrickle.Allow sampleNow sampleNow 5).2 = true ∧
    ((sampleLeakyTrickle.Allow sampleNow sampleNow 5).1.leak sampleNow sampleNow).queue
      = F64.fin 5 ∧
    (sampleLeakyTrickle.Allow sampleNow sampleNow 5).1.getCurrentQueue sampleNow = F64.fin 5 ∧
    F64.div (F64.sub (F64.add (F64.fin 5) (F64.ofInt 1)) (F64.ofInt 5))
      (F64.fin (1 / 1099511627776)) = F64.fin 1099511627776 ∧
    ((9223372036854775807 : Int) : ℚ) < 1099511627776 * 1000000000 ∧
    (sampleLeakyTrickle.Allow sampleNow sampleNow 5).1.TimeUntilAllowed sampleNow 1
      = -9223372036854775808 ∧
    NewLeakyBucket sampleNow 5 F64.pinf PerSecond = Except.ok sampleLeakyInf ∧
    (sampleLeakyInf.leak sampleNow sampleNow).queue = F64.fin 0 ∧
    (sampleLeakyInf.Allow sampleNow sampleNow 1).2 = true ∧
    sampleLeakyInf.getCurrentQueue sampleNow = F64.nan ∧
    sampleLeakyInf.TimeUntilAllowed sampleNow 1 = -9223372036854775808 := by
  refine ⟨NewLeakyBucket_perSecond sampleNow 5 _ (by decide) (by norm_num),
    by decide!, by decide!, by decide!, by decide!, by norm_num, by decide!,
    NewLeakyBucket_sampleLeakyInf, by decide!, by decide!, by decide!, by decide!⟩

/-! ## Waiting hint of the token bucket -/

theorem F64.min_eq_clamp_right (a b : F64) (hb : b ≠ F64.nan) :
    F64.min a b = if F64.gt a b = true then b else a := by
  unfold F64.min F64.gt
  cases a <;> cases b <;> simp [F64.le, F64.lt] at hb ⊢
  rename_i x y
  by_cases h : x ≤ y
  · simp [h, not_lt.mpr h]
  · simp [h, not_le.mp h]

theorem F64.min_eq_clamp_left (c x : F64) (hc : c ≠ F64.nan) :
    F64.min c x = if F64.gt x c = true then c else x := by
  unfold F64.min F64.gt
  cases c <;> cases x <;> simp [F64.le, F64.lt] at hc ⊢
  rename_i a b
  rcases lt_trichotomy a b with h | h | h
  · simp [h, le_of_lt h]
  · simp [h]
  · simp [h, not_le.mpr h, not_lt.mpr (le_of_lt h)]

theorem F64.representable_grid {q : ℚ} (h : F64.Representable q) :
    ∃ k : Int, q = (k : ℚ) * pow2 (-1074) := by
  obtain ⟨m, c, _, hc, hq, _⟩ := h
  refine ⟨m * 2 ^ (c + 1074).toNat, ?_⟩
  have h1 : pow2 c = pow2 (c + 1074) * pow2 (-1074) := by
    rw [← pow2_add]; congr 1; ring
  have h2 : pow2 (c + 1074) = (((2 : Int) ^ (c + 1074).toNat : Int) : ℚ) :=
    pow2_toNat (by omega)
  rw [hq, h1, h2]; push_cast; ring

theorem F64.round_min_subnormal :
    F64.round (pow2 (-1074)) = F64.fin (pow2 (-1074)) := by
  apply F64.round_exact
  refine ⟨1, -1074, by norm_num, le_refl _, by simp, ?_⟩
  rw [abs_of_pos (pow2_pos _)]
  exact pow2_lt_pow2.mpr (by norm_num)

theorem F64.sub_le_zero_fin {x y : ℚ} (hx : F64.Representable x) (hy : F64.Representable y) :
    F64.le (F64.sub (F64.fin x) (F64.fin y)) (F64.fin 0) = F64.le (F64.fin x) (F64.fin y) := by
  have hsub : F64.sub (F64.fin x) (F64.fin y) = F64.round (x - y) := by
    simp [F64.sub, F64.neg, F64.add, sub_eq_add_neg]
  rw [hsub]
  by_cases hxy : x ≤ y
  · have h2 : F64.le (F64.fin x) (F64.fin y) = true := by simp [F64.le, hxy]
    rw [h2]
    rcases F64.round_nonpos (q := x - y) (by linarith) with h | ⟨r, h, hr⟩
    · rw [h]; rfl
    · rw [h]; simp [F64.le, hr]
  · have h2 : F64.le (F64.fin x) (F64.fin y) = false := by simp [F64.le, hxy]
    rw [h2]
    obtain ⟨k1, hk1⟩ := F64.representable_grid hx
    obtain ⟨k2, hk2⟩ := F64.representable_grid hy
    have hu := pow2_pos (-1074)
    have hk : k2 + 1 ≤ k1 := by
      have hlt : y < x := not_le.mp hxy
      rw [hk1, hk2] at hlt
      have : (k2 : ℚ) < (k1 : ℚ) := lt_of_mul_lt_mul_right hlt (le_of_lt hu)
      have : k2 < k1 := by exact_mod_cast this
      omega
    have hge : pow2 (-1074) ≤ x - y := by
      rw [hk1, hk2]
      have : ((k2 : ℚ) + 1) ≤ (k1 : ℚ) := by exact_mod_cast hk
      nlinarith
    rcases F64.le_round_of_le (le_of_lt hu) hge F64.round_min_subnormal with h | ⟨r, h, hr⟩
    · rw [h]; rfl
    · rw [h]
      have : ¬ r ≤ 0 := by linarith
      simp [F64.le, this]

theorem F64.sub_le_zero (a p : F64) (ha : ∃ x : ℚ, a = F64.fin x ∧ F64.Representable x)
    (hp : ∀ y : ℚ, p = F64.fin y → F64.Representable y) :
    F64.le (F64.sub a p) (F64.fin 0) = F64.le a p := by
  obtain ⟨x, rfl, hx⟩ := ha
  cases p with
  | fin y => exact F64.sub_le_zero_fin hx (hp y rfl)
  | pinf => rfl
  | ninf => rfl
  | nan => rfl

theorem F64.add_fin_representable {a b : F64} {r : ℚ} (h : F64.add a b = F64.fin r) :
    F64.Representable r := by
  cases a <;> cases b <;> simp [F64.add] at h
  exact F64.round_fin_representable h

theorem F64.ofInt_int64_representable {n : Int} (hn : isInt64 n) :
    ∃ x : ℚ, F64.ofInt n = F64.fin x ∧ F64.Representable x := by
  obtain ⟨h1, h2⟩ := hn
  obtain ⟨r, hr, _⟩ := F64.ofInt_duration n (by unfold minInt64 at h1; exact h1)
    (by unfold maxInt64 at h2; exact h2)
  exact ⟨r, hr, F64.round_fin_representable hr⟩

theorem TokenBucket.refill_tokens_representable (tb : TokenBucket) (now : Int) {y : ℚ}
    (h : (tb.refill now).tokens = F64.fin y) : F64.Representable y := by
  unfold TokenBucket.refill at h
  dsimp only at h
  split_ifs at h
  all_goals first
    | exact F64.round_fin_representable h
    | exact F64.add_fin_representable h

theorem TokenBucket.specLevel_eq_refill (tb : TokenBucket) (now : Int) :
    tb.specLevel now = (tb.refill now).tokens := by
  unfold TokenBucket.specLevel TokenBucket.refill maxRefillSeconds
  dsimp only
  rw [F64.min_eq_clamp_left _ _ (F64.ofInt_ne_nan _),
    F64.min_eq_clamp_right _ _ (by simp)]

theorem TokenBucket.timeUntilSpace_eq (tb : TokenBucket) (now n : Int) :
    tb.TimeUntilSpace now n =
      if F64.le (F64.sub (F64.ofInt n) (tb.refill now).tokens) (F64.fin 0) = true then 0
      else F64.toInt64 (F64.mul
        (F64.div (F64.sub (F64.ofInt n) (tb.refill now).tokens) tb.fillRate)
        (F64.ofInt Second)) := rfl

theorem F64.ofInt_second : F64.ofInt Second = F64.fin 1000000000 := by
  have h := F64.ofInt_exact (k := Second) (by unfold Second; norm_num)
  rw [h]; unfold Second; norm_num

/-- Scope of the failure of C31: for every token bucket, every clock reading
and every `int64` request size `n`, `TimeUntilAllowed(n)` is a pure function
of the state that returns 0 for `n <= 0` and when `n <= p`, and otherwise
`(n - p) / fillRate` seconds converted to nanoseconds as `int64`, where
`p = min(capacity, tokens + min(now - lastTime, 60 s) * fillRate)` is the
level that `refill` stores at the same instant (all in `float64`). -/
theorem TokenBucket.hint_refines_deficit (tb : TokenBucket) (now n : Int) (hn : isInt64 n) :
    tb.TimeUntilAllowed now n = tb.specTimeUntilAllowed (tb.specLevel now) n ∧
    tb.specLevel now = (tb.refill now).tokens ∧
    tb.TimeUntilAllowed now n = tb.specTimeUntilAllowed (tb.refill now).tokens n ∧
    (n ≤ 0 → tb.TimeUntilAllowed now n = 0) := by
  have hmain : tb.TimeUntilAllowed now n =
      tb.specTimeUntilAllowed (tb.refill now).tokens n := by
    unfold TokenBucket.TimeUntilAllowed TokenBucket.specTimeUntilAllowed
    by_cases h0 : n ≤ 0
    · simp only [h0, if_true]
    · simp only [h0, if_false]
      rw [TokenBucket.timeUntilSpace_eq, F64.ofInt_second,
        F64.sub_le_zero _ _ (F64.ofInt_int64_representable hn)
          (fun y hy => TokenBucket.refill_tokens_representable tb now hy)]
  refine ⟨?_, TokenBucket.specLevel_eq_refill tb now, hmain, ?_⟩
  · rw [TokenBucket.specLevel_eq_refill]; exact hmain
  · intro h0
    unfold TokenBucket.TimeUntilAllowed
    simp only [h0, if_true]

theorem TokenBucket.hint_refines_deficit_witness :
    isInt64 3 ∧
    (sampleToken.TimeUntilAllowed (sampleNow + 1000000000) 3 =
        sampleToken.specTimeUntilAllowed (sampleToken.specLevel (sampleNow + 1000000000)) 3 ∧
      sampleToken.specLevel (sampleNow + 1000000000) =
        (sampleToken.refill (sampleNow + 1000000000)).tokens ∧
      sampleToken.TimeUntilAllowed (sampleNow + 1000000000) 3 =
        sampleToken.specTimeUntilAllowed (sampleToken.refill (sampleNow + 1000000000)).tokens 3 ∧
      ((3 : Int) ≤ 0 → sampleToken.TimeUntilAllowed (sampleNow + 1000000000) 3 = 0)) :=
  ⟨by decide, TokenBucket.hint_refines_deficit sampleToken (sampleNow + 1000000000) 3 (by decide)⟩

/-- The hint on the sample bucket: one second after an empty start at two
tokens per second the level is 2, so three tokens are half a second away and
two tokens are available at once. -/
theorem TokenBucket.hint_sample_values :
    sampleToken.TimeUntilAllowed (sampleNow + 1000000000) 3 = 500000000 ∧
    sampleToken.TimeUntilAllowed (sampleNow + 1000000000) 2 = 0 := by
  decide!

/-- Scope of the failure of C31, the value of the hint: with `p` the level
that `refill` stores at the same instant and `n > 0` in the `int64` range,
`TimeUntilAllowed(n)` is 0 when `n <= p`; otherwise, when the `float64` value
`x` of `(n - p) / fillRate * 1e9` is a number in `[0, 2^63)`, it is `x`
truncated to a whole number of nanoseconds. -/
theorem TokenBucket.hint_in_range_of_deficit (tb : TokenBucket) (now n : Int) (hn : isInt64 n)
    (hpos : 0 < n) :
    (F64.le (F64.ofInt n) (tb.refill now).tokens = true → tb.TimeUntilAllowed now n = 0) ∧
    (∀ x : ℚ, F64.le (F64.ofInt n) (tb.refill now).tokens = false →
      F64.mul (F64.div (F64.sub (F64.ofInt n) (tb.refill now).tokens) tb.fillRate)
        (F64.fin 1000000000) = F64.fin x →
      0 ≤ x → x < 9223372036854775808 →
      tb.TimeUntilAllowed now n = ⌊x⌋) := by
  have h := (TokenBucket.hint_refines_deficit tb now n hn).2.2.1
  have hn' : ¬ n ≤ 0 := not_le.mpr hpos
  refine ⟨?_, ?_⟩
  · intro hle
    rw [h]
    unfold TokenBucket.specTimeUntilAllowed
    rw [if_neg hn', if_pos hle]
  · intro x hle hx h0 h1
    rw [h]
    unfold TokenBucket.specTimeUntilAllowed
    rw [if_neg hn', if_neg (by rw [hle]; simp), hx]
    exact F64.toInt64_of_range h0 h1

theorem NewTokenBucket_sampleTokenTrickle :
    NewTokenBucket sampleNow 10 (F64.fin 0) (F64.fin (1 / 1099511627776))
      = Except.ok sampleTokenTrickle := by
  unfold NewTokenBucket
  rw [if_neg (by decide!), if_neg (by decide!)]
  simp only
  rw [if_neg (by decide!)]
  rfl

/-- C31 (failing input): `NewTokenBucket(10, 0, 2^-40)` is empty and gains one
token in `2^40` seconds. At the instant of its construction the level that
the refill step of `Allow` stores is `p = 0`, so for `n = 1` the claim's value
is `(1 - 0) / fillRate = 2^40` seconds, more than `MaxInt64` nanoseconds;
`TimeUntilAllowed(1)` returns the negative duration `-9223372036854775808`. -/
theorem TokenBucket.hint_negative_for_slow_fill :
    NewTokenBucket sampleNow 10 (F64.fin 0) (F64.fin (1 / 1099511627776))
      = Except.ok sampleTokenTrickle ∧
    (sampleTokenTrickle.refill sampleNow).tokens = F64.fin 0 ∧
    F64.le (F64.ofInt 1) (sampleTokenTrickle.refill sampleNow).tokens = false ∧
    F64.div (F64.sub (F64.ofInt 1) (sampleTokenTrickle.refill sampleNow).tokens)
      sampleTokenTrickle.fillRate = F64.fin 1099511627776 ∧
    ((9223372036854775807 : Int) : ℚ) < 1099511627776 * 1000000000 ∧
    sampleTokenTrickle.TimeUntilAllowed sampleNow 1 = -9223372036854775808 ∧
    sampleTokenTrickle.TimeUntilAllowed sampleNow 1 < 0 := by
  refine ⟨NewTokenBucket_sampleTokenTrickle, by decide!, by decide!, by decide!, by norm_num,
    by decide!, by decide!⟩

/-! ## Waiting for more tokens than the bucket holds -/

theorem TokenBucket.refill_capacity (tb : TokenBucket) (now : Int) :
    (tb.refill now).capacity = tb.capacity := rfl

theorem TokenBucket.waitTick_capacity (tb : TokenBucket) (now n : Int) :
    (tb.waitTick now n).1.capacity = tb.capacity := by
  unfold TokenBucket.waitTick
  dsimp only
  split_ifs <;> rfl

theorem F64.ofInt_above {c n : Int} (h0 : 0 < c) (h1 : c < 2 ^ 53) (hn : c < n) :
    F64.ofInt n = F64.pinf ∨ ∃ r : ℚ, F64.ofInt n = F64.fin r ∧ ((c : ℚ) + 1) ≤ r := by
  have hrep : F64.round (((c + 1 : Int) : ℚ)) = F64.fin (((c + 1 : Int) : ℚ)) :=
    F64.ofInt_exact (k := c + 1) (by rw [abs_of_pos (by omega)]; omega)
  have hle : (((c + 1 : Int) : ℚ)) ≤ (n : ℚ) := by exact_mod_cast (by omega : c + 1 ≤ n)
  have h0q : (0 : ℚ) ≤ ((c + 1 : Int) : ℚ) := by exact_mod_cast (by omega : (0 : Int) ≤ c + 1)
  rcases F64.le_round_of_le h0q hle hrep with h | ⟨r, h, hr⟩
  · left; exact h
  · right; exact ⟨r, h, by push_cast at hr; exact hr⟩

theorem TokenBucket.refill_below_request (tb : TokenBucket) (now n : Int)
    (h0 : 0 < tb.capacity) (h1 : tb.capacity < 2 ^ 53) (hn : tb.capacity < n) :
    F64.le (F64.ofInt n) (tb.refill now).tokens = false := by
  have hcap : F64.ofInt tb.capacity = F64.fin (tb.capacity : ℚ) :=
    F64.ofInt_exact (by rw [abs_of_pos h0]; omega)
  have hn2 := F64.ofInt_above h0 h1 hn
  have hshape : ∃ x : F64, (tb.refill now).tokens =
      if F64.gt x (F64.ofInt tb.capacity) = true then F64.ofInt tb.capacity else x :=
    ⟨_, rfl⟩
  obtain ⟨x, hx⟩ := hshape
  rw [hx, hcap]
  by_cases hgt : F64.gt x (F64.fin (tb.capacity : ℚ)) = true
  · rw [if_pos hgt]
    rcases hn2 with h | ⟨r, h, hr⟩
    · rw [h]; rfl
    · rw [h]
      have : ¬ r ≤ (tb.capacity : ℚ) := by linarith
      simp [F64.le, this]
  · rw [if_neg hgt]
    cases x with
    | nan => rcases hn2 with h | ⟨r, h, _⟩ <;> rw [h] <;> rfl
    | pinf => exact absurd rfl hgt
    | ninf => rcases hn2 with h | ⟨r, h, _⟩ <;> rw [h] <;> rfl
    | fin y =>
      have hy : y ≤ (tb.capacity : ℚ) := by
        simpa [F64.gt, F64.lt] using hgt
      rcases hn2 with h | ⟨r, h, hr⟩
      · rw [h]; rfl
      · rw [h]
        have : ¬ r ≤ y := by linarith
        simp [F64.le, this]

theorem TokenBucket.waitTick_beyond_capacity (tb : TokenBucket) (now n : Int)
    (h0 : 0 < tb.capacity) (h1 : tb.capacity < 2 ^ 53) (hn : tb.capacity < n) :
    tb.waitTick now n = (tb.refill now, false) := by
  unfold TokenBucket.waitTick
  dsimp only
  rw [TokenBucket.refill_below_request tb now n h0 h1 hn]
  rfl

theorem TokenBucket.waitLoop_beyond_capacity (n : Int) (ticks : List Int) :
    ∀ tb : TokenBucket, 0 < tb.capacity → tb.capacity < 2 ^ 53 → tb.capacity < n →
      (TokenBucket.waitLoop n tb ticks).2 = false := by
  induction ticks with
  | nil => intro tb _ _ _; rfl
  | cons t ts ih =>
    intro tb h0 h1 hn
    unfold TokenBucket.waitLoop
    rw [TokenBucket.waitTick_beyond_capacity tb t n h0 h1 hn]
    simp only [Bool.false_eq_true, if_false]
    exact ih (tb.refill t) h0 h1 hn

/-- C32 (counterexample): on the full bucket of capacity `2^53` a wait for
`2^53 + 1` tokens, more than the capacity, succeeds at the first tick,
because `float64(2^53 + 1)` is `2^53`. -/
theorem TokenBucket.wait_beyond_capacity_succeeds :
    NewTokenBucket sampleNow 9007199254740992 (F64.fin 9007199254740992) (F64.fin 1)
      = Except.ok sampleTokenFull53 ∧
    0 < sampleTokenFull53.capacity ∧
    sampleTokenFull53.capacity < 9007199254740993 ∧
    (sampleTokenFull53.WaitAllowContext 9007199254740993 [sampleNow + 100000000]).2 = true := by
  refine ⟨?_, by decide, by decide, by decide!⟩
  have h1 : ¬ (F64.lt (F64.fin 9007199254740992) (F64.fin 0) = true) := by decide!
  have h2 : ¬ (F64.le (F64.fin 1) (F64.fin 0) = true) := by decide!
  have h3 : ¬ (F64.gt (F64.fin 9007199254740992) (F64.ofInt 9007199254740992) = true) := by
    decide!
  unfold NewTokenBucket
  rw [if_neg h1, if_neg h2]
  simp only [h3, if_false]
  rfl

/-- C32 (amended): `WaitAllowContext(ctx, n)` returns false without changing
a field when `n <= 0`; and for a bucket with `0 < capacity < 2^53` and every
`n > capacity` it returns false whatever the token level, the fill rate, the
tick times and the number of ticks taken before the context is done. -/
theorem TokenBucket.wait_beyond_capacity_fails (tb : TokenBucket) (n : Int) (ticks : List Int) :
    (n ≤ 0 → tb.WaitAllowContext n ticks = (tb, false)) ∧
    (0 < tb.capacity → tb.capacity < 2 ^ 53 → tb.capacity < n →
      (tb.WaitAllowContext n ticks).2 = false ∧
      ∀ (s : TokenBucket) (t : Int), s.capacity = tb.capacity →
        F64.le (F64.ofInt n) (s.refill t).tokens = false) := by
  refine ⟨?_, ?_⟩
  · intro h
    unfold TokenBucket.WaitAllowContext
    simp only [h, if_true]
  · intro h0 h1 hn
    refine ⟨?_, ?_⟩
    · unfold TokenBucket.WaitAllowContext
      have : ¬ n ≤ 0 := by omega
      simp only [this, if_false]
      exact TokenBucket.waitLoop_beyond_capacity n ticks tb h0 h1 hn
    · intro s t hs
      exact TokenBucket.refill_below_request s t n (by omega) (by omega) (by omega)

theorem TokenBucket.wait_beyond_capacity_fails_witness :
    ((0 : Int) ≤ 0 ∧
      sampleToken.WaitAllowContext 0 [sampleNow + 100000000] = (sampleToken, false)) ∧
    (0 < sampleToken.capacity ∧ sampleToken.capacity < 2 ^ 53 ∧ sampleToken.capacity < 11 ∧
      (sampleToken.WaitAllowContext 11
        [sampleNow + 100000000, sampleNow + 200000000, sampleNow + 300000000]).2 = false) :=
  ⟨⟨by decide,
      (TokenBucket.wait_beyond_capacity_fails sampleToken 0 [sampleNow + 100000000]).1
        (by decide)⟩,
    by decide, by decide, by decide,
    ((TokenBucket.wait_beyond_capacity_fails sampleToken 11
        [sampleNow + 100000000, sampleNow + 200000000, sampleNow + 300000000]).2
      (by decide) (by decide) (by decide)).1⟩

/-! ## Waiting on a ticker -/

theorem Duration.Seconds_maxSleep_le :
    F64.gt (Duration.Seconds maxSleep) maxRefillSeconds = false := by decide!

theorem TokenBucket.refill_after_tick (tb : TokenBucket) (t0 : Int) (j : Nat) (x : F64) :
    ({ tb with tokens := x, lastTime := t0 + (j : Int) * maxSleep } : TokenBucket).refill
        (t0 + ((j : Int) + 1) * maxSleep) =
      { tb with
          tokens :=
            (if F64.gt (F64.add x (F64.mul (Duration.Seconds maxSleep) tb.fillRate))
                (F64.ofInt tb.capacity) = true
              then F64.ofInt tb.capacity
              else F64.add x (F64.mul (Duration.Seconds maxSleep) tb.fillRate))
          lastTime := t0 + ((j : Int) + 1) * maxSleep } := by
  have hsub : Time.Sub (t0 + ((j : Int) + 1) * maxSleep) (t0 + (j : Int) * maxSleep)
      = maxSleep := by
    have : t0 + ((j : Int) + 1) * maxSleep - (t0 + (j : Int) * maxSleep) = maxSleep := by ring
    unfold Time.Sub
    rw [this]
    have h1 : ¬ maxSleep < minInt64 := by decide
    have h2 : ¬ maxInt64 < maxSleep := by decide
    rw [if_neg h1, if_neg h2]
  unfold TokenBucket.refill
  dsimp only
  rw [hsub, Duration.Seconds_maxSleep_le]
  simp only [Bool.false_eq_true, if_false]

theorem TokenBucket.afterTicks_zero (tb : TokenBucket) (t0 : Int) (hl : tb.lastTime = t0) :
    tb.afterTicks t0 0 = tb := by
  unfold TokenBucket.afterTicks TokenBucket.tickLevel
  cases tb
  simp only [TokenBucket.mk.injEq, true_and] at hl ⊢
  simp at hl ⊢
  omega

theorem TokenBucket.waitTick_afterTicks (tb : TokenBucket) (t0 n : Int) (j : Nat) :
    (tb.afterTicks t0 j).waitTick (t0 + ((j : Int) + 1) * maxSleep) n =
      if F64.le (F64.ofInt n) (tb.tickLevel (j + 1)) = true
        then (tb.afterHit t0 (j + 1) n, true)
        else (tb.afterTicks t0 (j + 1), false) := by
  unfold TokenBucket.waitTick TokenBucket.afterTicks
  dsimp only
  rw [TokenBucket.refill_after_tick]
  unfold TokenBucket.afterHit
  simp only [TokenBucket.tickLevel, Nat.cast_add, Nat.cast_one]

theorem TokenBucket.waitLoop_all_fail (tb : TokenBucket) (t0 n : Int) :
    ∀ (c j : Nat),
      (∀ k, k < c → F64.le (F64.ofInt n) (tb.tickLevel (j + k + 1)) = false) →
      TokenBucket.waitLoop n (tb.afterTicks t0 j) (TokenBucket.tickTimes t0 j c) =
        (tb.afterTicks t0 (j + c), false) := by
  intro c
  induction c with
  | zero => intro j _; rfl
  | succ c ih =>
    intro j h
    have h0 := h 0 (Nat.succ_pos c)
    simp only [Nat.add_zero] at h0
    unfold TokenBucket.tickTimes TokenBucket.waitLoop
    rw [TokenBucket.waitTick_afterTicks, h0]
    simp only [Bool.false_eq_true, if_false]
    rw [ih (j + 1) (fun k hk => by
      have := h (k + 1) (by omega)
      rw [show j + 1 + k + 1 = j + (k + 1) + 1 by omega]; exact this)]
    rw [show j + 1 + c = j + (c + 1) by omega]

theorem TokenBucket.waitLoop_first_hit (tb : TokenBucket) (t0 n : Int) :
    ∀ (c j extra : Nat),
      (∀ k, k < c → F64.le (F64.ofInt n) (tb.tickLevel (j + k + 1)) = false) →
      F64.le (F64.ofInt n) (tb.tickLevel (j + c + 1)) = true →
      TokenBucket.waitLoop n (tb.afterTicks t0 j) (TokenBucket.tickTimes t0 j (c + 1 + extra)) =
        (tb.afterHit t0 (j + c + 1) n, true) := by
  intro c
  induction c with
  | zero =>
    intro j extra _ hhit
    simp only [Nat.add_zero] at hhit
    rw [show 0 + 1 + extra = extra + 1 by omega]
    unfold TokenBucket.tickTimes TokenBucket.waitLoop
    rw [TokenBucket.waitTick_afterTicks, hhit]
    simp only [if_true]
  | succ c ih =>
    intro j extra h hhit
    have h0 := h 0 (Nat.succ_pos c)
    simp only [Nat.add_zero] at h0
    rw [show c + 1 + 1 + extra = (c + 1 + extra) + 1 by omega]
    unfold TokenBucket.tickTimes TokenBucket.waitLoop
    rw [TokenBucket.waitTick_afterTicks, h0]
    simp only [Bool.false_eq_true, if_false]
    rw [ih (j + 1) extra (fun k hk => by
      have := h (k + 1) (by omega)
      rw [show j + 1 + k + 1 = j + (k + 1) + 1 by omega]; exact this)
      (by rw [show j + 1 + c + 1 = j + (c + 1) + 1 by omega]; exact hhit)]
    rw [show j + 1 + c + 1 = j + (c + 1) + 1 by omega]

theorem TokenBucket.tickTimes_takeWhile (t0 D : Int) :
    ∀ (c j : Nat), ∃ k : Nat, k ≤ c ∧
      (TokenBucket.tickTimes t0 j c).takeWhile (fun t => decide (t < D)) =
        TokenBucket.tickTimes t0 j k ∧
      (∀ i : Nat, i < k → t0 + ((j : Int) + (i : Int) + 1) * maxSleep < D) ∧
      (k < c → D ≤ t0 + ((j : Int) + (k : Int) + 1) * maxSleep) := by
  intro c
  induction c with
  | zero =>
    intro j
    exact ⟨0, le_refl _, rfl, fun i hi => absurd hi (Nat.not_lt_zero i),
      fun h => absurd h (Nat.lt_irrefl 0)⟩
  | succ c ih =>
    intro j
    by_cases hlt : t0 + ((j : Int) + 1) * maxSleep < D
    · obtain ⟨k, hk, htw, hall, hstop⟩ := ih (j + 1)
      refine ⟨k + 1, by omega, ?_, ?_, ?_⟩
      · unfold TokenBucket.tickTimes
        rw [List.takeWhile_cons_of_pos (by simpa using hlt), htw]
      · intro i hi
        cases i with
        | zero => simpa using hlt
        | succ i =>
          have := hall i (by omega)
          have e : ((j : Int) + ((i + 1 : Nat) : Int) + 1) = (((j + 1 : Nat) : Int) + (i : Int) + 1) := by
            push_cast; ring
          rw [e]; exact this
      · intro hkc
        have := hstop (by omega)
        have e : ((j : Int) + ((k + 1 : Nat) : Int) + 1) = (((j + 1 : Nat) : Int) + (k : Int) + 1) := by
          push_cast; ring
        rw [e]; exact this
    · refine ⟨0, Nat.zero_le _, ?_, fun i hi => absurd hi (Nat.not_lt_zero i), ?_⟩
      · unfold TokenBucket.tickTimes
        rw [List.takeWhile_cons_of_neg (by simpa using hlt)]
      · intro _
        simpa using not_lt.mp hlt

/-- C33 (counterexample): `NewTokenBucket(10, 0, 2)` at `sampleNow`, waiting
for `n = 2` tokens with ticks every 100 ms. The tick at `t0 + 1 s`, which is
`t0 + n/R`, finds the level `1.9999999999999998` (ten `float64` additions of
`0.2`) and fails; the next tick, at `t0 + 1.1 s`, is the one that succeeds. -/
theorem TokenBucket.tick_at_refill_time_fails :
    sampleToken.tokens = F64.fin 0 ∧ sampleToken.lastTime = sampleNow ∧
    sampleNow + (10 : Int) * maxSleep = sampleNow + 1000000000 ∧
    sampleToken.tickLevel 10 = F64.fin (9007199254740991 / 4503599627370496) ∧
    sampleToken.WaitAllowContext 2 (TokenBucket.tickTimes sampleNow 0 10) =
      (sampleToken.afterTicks sampleNow 10, false) ∧
    (sampleToken.WaitAllow 2 3000000000 sampleNow (TokenBucket.tickTimes sampleNow 0 40)).2
      = true ∧
    (sampleToken.WaitAllow 2 3000000000 sampleNow
      (TokenBucket.tickTimes sampleNow 0 40)).1.lastTime = sampleNow + 1100000000 := by
  decide!

/-- C33 (amended): for a bucket whose level was last refilled at `t0`, a wait
for `n >= 1` tokens with ticks at `t0 + k * 100 ms`. Each tick adds
`0.1 s * fillRate` to the level in `float64` (clamped to the capacity). If
the level after `c + 1` ticks is the first one that reaches `n`, then the
ticks before it fail, that tick succeeds and takes `n` tokens, and `WaitAllow`
returns true exactly when that tick comes before the timeout. -/
theorem TokenBucket.wait_succeeds_at_first_full_tick (tb : TokenBucket)
    (t0 n timeout : Int) (c extra : Nat) (hl : tb.lastTime = t0) (hn : 0 < n)
    (hfail : ∀ k, k < c → F64.le (F64.ofInt n) (tb.tickLevel (k + 1)) = false)
    (hhit : F64.le (F64.ofInt n) (tb.tickLevel (c + 1)) = true) :
    (∀ k, k ≤ c →
      tb.WaitAllowContext n (TokenBucket.tickTimes t0 0 k) = (tb.afterTicks t0 k, false)) ∧
    tb.WaitAllowContext n (TokenBucket.tickTimes t0 0 (c + 1 + extra)) =
      (tb.afterHit t0 (c + 1) n, true) ∧
    ((tb.WaitAllow n timeout t0 (TokenBucket.tickTimes t0 0 (c + 1 + extra))).2 = true ↔
      ((c : Int) + 1) * maxSleep < timeout) := by
  have hn0 : ¬ n ≤ 0 := by omega
  have h0 : tb.afterTicks t0 0 = tb := TokenBucket.afterTicks_zero tb t0 hl
  have hfail2 : ∀ m, m ≤ c →
      TokenBucket.waitLoop n tb (TokenBucket.tickTimes t0 0 m) = (tb.afterTicks t0 m, false) := by
    intro m hm
    have := TokenBucket.waitLoop_all_fail tb t0 n m 0 (fun k hk => by
      rw [Nat.zero_add]; exact hfail k (by omega))
    rw [h0, Nat.zero_add] at this
    exact this
  have hhit2 : ∀ e, TokenBucket.waitLoop n tb (TokenBucket.tickTimes t0 0 (c + 1 + e)) =
      (tb.afterHit t0 (c + 1) n, true) := by
    intro e
    have := TokenBucket.waitLoop_first_hit tb t0 n c 0 e (fun k hk => by
      rw [Nat.zero_add]; exact hfail k hk) (by rw [Nat.zero_add]; exact hhit)
    rw [h0, Nat.zero_add] at this
    exact this
  refine ⟨?_, ?_, ?_⟩
  · intro k hk
    unfold TokenBucket.WaitAllowContext
    rw [if_neg hn0]; exact hfail2 k hk
  · unfold TokenBucket.WaitAllowContext
    rw [if_neg hn0]; exact hhit2 extra
  · unfold TokenBucket.WaitAllow TokenBucket.WaitAllowContext Time.Add
    rw [if_neg hn0]
    obtain ⟨k, hk, htw, hall, hstop⟩ :=
      TokenBucket.tickTimes_takeWhile t0 (t0 + timeout) (c + 1 + extra) 0
    rw [htw]
    have hpos : (0 : Int) < maxSleep := by decide
    by_cases hkc : k ≤ c
    · rw [hfail2 k hkc]
      have hD := hstop (by omega)
      simp only [Bool.false_eq_true, false_iff, not_lt]
      have hk2 : (k : Int) + 1 ≤ (c : Int) + 1 := by
        have : (k : Int) ≤ (c : Int) := by exact_mod_cast hkc
        linarith
      have hm := mul_le_mul_of_nonneg_right hk2 (le_of_lt hpos)
      push_cast at hD
      linarith
    · obtain ⟨e, rfl⟩ : ∃ e, k = c + 1 + e := ⟨k - (c + 1), by omega⟩
      rw [hhit2 e]
      simp only [true_iff]
      have := hall c (by omega)
      push_cast at this
      linarith

theorem TokenBucket.wait_succeeds_at_first_full_tick_witness :
    sampleToken.lastTime = sampleNow ∧ (0 : Int) < 2 ∧
    (∀ k, k < 10 → F64.le (F64.ofInt 2) (sampleToken.tickLevel (k + 1)) = false) ∧
    F64.le (F64.ofInt 2) (sampleToken.tickLevel (10 + 1)) = true ∧
    ((∀ k, k ≤ 10 →
      sampleToken.WaitAllowContext 2 (TokenBucket.tickTimes sampleNow 0 k) =
        (sampleToken.afterTicks sampleNow k, false)) ∧
    sampleToken.WaitAllowContext 2 (TokenBucket.tickTimes sampleNow 0 (10 + 1 + 29)) =
      (sampleToken.afterHit sampleNow (10 + 1) 2, true) ∧
    ((sampleToken.WaitAllow 2 3000000000 sampleNow
        (TokenBucket.tickTimes sampleNow 0 (10 + 1 + 29))).2 = true ↔
      (((10 : Nat) : Int) + 1) * maxSleep < 3000000000)) :=
  ⟨rfl, by decide, by decide!, by decide!,
    TokenBucket.wait_succeeds_at_first_full_tick sampleToken sampleNow 2 3000000000 10 29
      rfl (by decide) (by decide!) (by decide!)⟩

/-! ## Concurrent callers of FixedWindowCounter.Allow -/

theorem sumTo_congr (f g : Nat → Nat) :
    ∀ N : Nat, (∀ j, j < N → f j = g j) → sumTo f N = sumTo g N := by
  intro N
  induction N with
  | zero => intro _; rfl
  | succ k ih =>
    intro h
    unfold sumTo
    rw [ih (fun j hj => h j (by omega)), h k (by omega)]

theorem sumTo_eq_zero (f : Nat → Nat) :
    ∀ N : Nat, (∀ j, j < N → f j = 0) → sumTo f N = 0 := by
  intro N
  induction N with
  | zero => intro _; rfl
  | succ k ih =>
    intro h
    unfold sumTo
    rw [ih (fun j hj => h j (by omega)), h k (by omega)]

/-- Two functions that differ only at `i < N` have sums that differ by the
values at `i`. -/
theorem sumTo_update (f g : Nat → Nat) (i : Nat) (h : ∀ j, j ≠ i → g j = f j) :
    ∀ N : Nat, i < N → sumTo g N + f i = sumTo f N + g i := by
  intro N
  induction N with
  | zero => intro hi; omega
  | succ k ih =>
    intro hi
    unfold sumTo
    by_cases hik : i = k
    · subst hik
      rw [sumTo_congr g f i (fun j hj => h j (by omega))]
      omega
    · have := ih (by omega)
      rw [h k (fun e => hik e.symm)]
      omega

theorem FixedWindowCounter.Shared.load_update_pc (pcs : Nat → FixedWindowCounter.Pc)
    (todo : Nat → Nat) (N i : Nat) (p : FixedWindowCounter.Pc)
    (h1 : pcs i ≠ FixedWindowCounter.Pc.lock) (h2 : p ≠ FixedWindowCounter.Pc.lock) :
    FixedWindowCounter.Shared.load (Function.update pcs i p) todo N
      = FixedWindowCounter.Shared.load pcs todo N := by
  unfold FixedWindowCounter.Shared.load
  apply sumTo_congr
  intro j _
  by_cases hji : j = i
  · subst hji
    simp [h1, h2]
  · rw [Function.update_noteq hji]

theorem FixedWindowCounter.Shared.load_start (pcs : Nat → FixedWindowCounter.Pc)
    (todo : Nat → Nat) (N i : Nat) (hi : i < N)
    (h1 : pcs i ≠ FixedWindowCounter.Pc.lock) (h2 : todo i ≠ 0) :
    FixedWindowCounter.Shared.load (Function.update pcs i FixedWindowCounter.Pc.lock)
        (Function.update todo i (todo i - 1)) N
      = FixedWindowCounter.Shared.load pcs todo N := by
  unfold FixedWindowCounter.Shared.load
  have h := sumTo_update
    (fun j => todo j + if pcs j = FixedWindowCounter.Pc.lock then 1 else 0)
    (fun j => Function.update todo i (todo i - 1) j
      + if Function.update pcs i FixedWindowCounter.Pc.lock j = FixedWindowCounter.Pc.lock
        then 1 else 0) i
    (by
      intro j hji
      simp only [Function.update_noteq hji]) N hi
  simp only [Function.update_same, h1, if_false, if_true] at h
  omega

theorem FixedWindowCounter.Shared.load_acquire (pcs : Nat → FixedWindowCounter.Pc)
    (todo : Nat → Nat) (N i : Nat) (p : FixedWindowCounter.Pc) (hi : i < N)
    (h1 : pcs i = FixedWindowCounter.Pc.lock) (h2 : p ≠ FixedWindowCounter.Pc.lock) :
    FixedWindowCounter.Shared.load (Function.update pcs i p) todo N + 1
      = FixedWindowCounter.Shared.load pcs todo N := by
  unfold FixedWindowCounter.Shared.load
  have h := sumTo_update
    (fun j => todo j + if pcs j = FixedWindowCounter.Pc.lock then 1 else 0)
    (fun j => todo j + if Function.update pcs i p j = FixedWindowCounter.Pc.lock then 1 else 0) i
    (by
      intro j hji
      simp only [Function.update_noteq hji]) N hi
  simp only [Function.update_same, h1, h2, if_false, if_true] at h
  omega

theorem FixedWindowCounter.Shared.init_inv (fwc : FixedWindowCounter) (N : Nat)
    (calls : Nat → Nat)
    (hc : fwc.RequestCount ≤ fwc.MaxRequests) (hM : 0 ≤ fwc.MaxRequests)
    (hA : fwc.RequestsAllowed = 0) (hD : fwc.RequestsDenied = 0) :
    (FixedWindowCounter.Shared.init fwc N calls).Inv N (sumTo calls N) := by
  have hload : FixedWindowCounter.Shared.load (fun _ => FixedWindowCounter.Pc.idle)
      (fun i => if i < N then calls i else 0) N = sumTo calls N := by
    unfold FixedWindowCounter.Shared.load
    apply sumTo_congr
    intro j hj
    simp [hj]
  unfold FixedWindowCounter.Shared.Inv FixedWindowCounter.Shared.init
  refine ⟨hc, hM, by rw [hA], by rw [hD], fun j _ => Or.inl rfl, ?_, ?_, ?_⟩
  · intro j hj
    refine ⟨?_, rfl⟩
    show (if j < N then calls j else 0) = 0
    rw [if_neg (by omega)]
  · intro _
    show fwc.RequestsAllowed + fwc.RequestsDenied + _ = _
    rw [hA, hD, hload]
    omega
  · intro i hi
    exact absurd hi (by simp)

theorem FixedWindowCounter.rollover_count_le (fwc : FixedWindowCounter) (now : Int)
    (hc : fwc.RequestCount ≤ fwc.MaxRequests) (hM : 0 ≤ fwc.MaxRequests) :
    (fwc.rollover now).RequestCount ≤ (fwc.rollover now).MaxRequests ∧
    (fwc.rollover now).MaxRequests = fwc.MaxRequests ∧
    (fwc.rollover now).RequestsAllowed = fwc.RequestsAllowed ∧
    (fwc.rollover now).RequestsDenied = fwc.RequestsDenied := by
  unfold FixedWindowCounter.rollover
  dsimp only
  split_ifs <;> simp [hc, hM]

theorem add64_one_of_lt {a : Int} (h0 : 0 ≤ a) (h1 : a < maxInt64) : add64 a 1 = a + 1 := by
  unfold maxInt64 at h1
  unfold add64 wrap64
  omega

theorem FixedWindowCounter.Shared.holder_of_pc (s : FixedWindowCounter.Shared) (N total i : Nat)
    (h : s.Inv N total) (h1 : s.pcs i ≠ FixedWindowCounter.Pc.idle)
    (h2 : s.pcs i ≠ FixedWindowCounter.Pc.lock) : s.mu = some i := by
  by_contra hne
  rcases h.2.2.2.2.1 i hne with h3 | h3
  · exact h1 h3
  · exact h2 h3

theorem FixedWindowCounter.Shared.step_inv (s : FixedWindowCounter.Shared) (N total i : Nat)
    (now : Int) (h : s.Inv N total) (htot : (total : Int) ≤ maxInt64) :
    (s.step 1 i now).Inv N total := by
  have hmu := FixedWindowCounter.Shared.holder_of_pc s N total i h
  have hkeep := h
  obtain ⟨h1, h2, h3, h4, h6, h5, h7, h8⟩ := h
  have hn : ¬ ((1 : Int) ≤ 0) := by decide
  have hiN : s.pcs i ≠ FixedWindowCounter.Pc.idle → i < N := by
    intro hne
    by_contra hge
    exact hne (h5 i (by omega)).2
  have hload0 : (0 : Int) ≤ (FixedWindowCounter.Shared.load s.pcs s.todo N : Int) :=
    Int.ofNat_nonneg _
  cases hpc : s.pcs i with
  | idle =>
    have hi : s.mu ≠ some i := fun hm => (h8 i hm).1 hpc
    unfold FixedWindowCounter.Shared.step
    simp only [hpc]
    by_cases ht : s.todo i = 0
    · rw [if_pos ht]; exact hkeep
    · rw [if_neg ht, if_neg hn]
      have hlt : i < N := by
        by_contra hge
        exact ht (h5 i (by omega)).1
      have hl := FixedWindowCounter.Shared.load_start s.pcs s.todo N i hlt
        (by rw [hpc]; simp) ht
      unfold FixedWindowCounter.Shared.Inv
      try dsimp only
      rw [hl]
      refine ⟨h1, h2, h3, h4, ?_, ?_, h7, ?_⟩
      · intro j hj
        by_cases hji : j = i
        · subst hji; right; simp
        · rw [Function.update_noteq hji]; exact h6 j hj
      · intro j hj
        have hji : j ≠ i := by omega
        rw [Function.update_noteq hji, Function.update_noteq hji]
        exact h5 j hj
      · intro j hj
        have hji : j ≠ i := fun e => hi (e ▸ hj)
        rw [Function.update_noteq hji]; exact h8 j hj
  | lock =>
    unfold FixedWindowCounter.Shared.step
    simp only [hpc]
    cases hm : s.mu with
    | some j =>
      simp only
      exact hkeep
    | none =>
      simp only
      have hlt : i < N := hiN (by rw [hpc]; simp)
      have hl := FixedWindowCounter.Shared.load_acquire s.pcs s.todo N i
        FixedWindowCounter.Pc.window hlt hpc (by simp)
      have hret := h7 hm
      unfold FixedWindowCounter.Shared.Inv
      try dsimp only
      refine ⟨h1, h2, h3, h4, ?_, ?_, by simp, ?_⟩
      · intro j hj
        have hji : j ≠ i := fun e => hj (by simp [e])
        rw [Function.update_noteq hji]
        exact h6 j (by rw [hm]; simp)
      · intro j hj
        have hji : j ≠ i := by omega
        rw [Function.update_noteq hji]
        exact h5 j hj
      · intro j hj
        have hji : j = i := by simpa using hj.symm
        subst hji
        rw [Function.update_same]
        refine ⟨by simp, by simp, by simp, ?_, by simp⟩
        intro _
        have : ((FixedWindowCounter.Shared.load
            (Function.update s.pcs j FixedWindowCounter.Pc.window) s.todo N + 1 : Nat) : Int)
            = (FixedWindowCounter.Shared.load s.pcs s.todo N : Int) := by
          exact_mod_cast hl
        push_cast at this
        omega
  | window =>
    have hmi := hmu (by rw [hpc]; simp) (by rw [hpc]; simp)
    obtain ⟨_, _, _, h84, _⟩ := h8 i hmi
    have hret := h84 (by rw [hpc]; simp)
    obtain ⟨r1, r2, r3, r4⟩ := FixedWindowCounter.rollover_count_le s.fwc now h1 h2
    have hl := FixedWindowCounter.Shared.load_update_pc s.pcs s.todo N i
      FixedWindowCounter.Pc.check (by rw [hpc]; simp) (by simp)
    unfold FixedWindowCounter.Shared.step FixedWindowCounter.Shared.Inv
    simp only [hpc]
    try dsimp only
    rw [hl]
    refine ⟨r1, by rw [r2]; exact h2, by rw [r3]; exact h3, by rw [r4]; exact h4,
      ?_, ?_, by simp [hmi], ?_⟩
    · intro j hj
      have hji : j ≠ i := fun e => hj (by rw [e]; exact hmi)
      rw [Function.update_noteq hji]; exact h6 j hj
    · intro j hj
      have hji : j ≠ i := by have := hiN (by rw [hpc]; simp); omega
      rw [Function.update_noteq hji]
      exact h5 j hj
    · intro j hj
      have hji : j = i := by rw [hmi] at hj; simpa using hj.symm
      subst hji
      rw [Function.update_same, r3, r4]
      exact ⟨by simp, by simp, by simp, fun _ => hret, by simp⟩
  | check =>
    have hmi := hmu (by rw [hpc]; simp) (by rw [hpc]; simp)
    obtain ⟨_, _, _, h84, _⟩ := h8 i hmi
    have hret := h84 (by rw [hpc]; simp)
    unfold FixedWindowCounter.Shared.step
    simp only [hpc]
    by_cases hadm : add64 s.fwc.RequestCount 1 ≤ s.fwc.MaxRequests
    · rw [if_pos hadm]
      have hl := FixedWindowCounter.Shared.load_update_pc s.pcs s.todo N i
        FixedWindowCounter.Pc.count (by rw [hpc]; simp) (by simp)
      unfold FixedWindowCounter.Shared.Inv
      try dsimp only
      rw [hl]
      refine ⟨h1, h2, h3, h4, ?_, ?_, by simp [hmi], ?_⟩
      · intro j hj
        have hji : j ≠ i := fun e => hj (by rw [e]; exact hmi)
        rw [Function.update_noteq hji]; exact h6 j hj
      · intro j hj
        have hji : j ≠ i := by have := hiN (by rw [hpc]; simp); omega
        rw [Function.update_noteq hji]
        exact h5 j hj
      · intro j hj
        have hji : j = i := by rw [hmi] at hj; simpa using hj.symm
        subst hji
        rw [Function.update_same]
        exact ⟨by simp, by simp, fun _ => hadm, fun _ => hret, by simp⟩
    · rw [if_neg hadm]
      have hl := FixedWindowCounter.Shared.load_update_pc s.pcs s.todo N i
        FixedWindowCounter.Pc.denied (by rw [hpc]; simp) (by simp)
      unfold FixedWindowCounter.Shared.Inv
      try dsimp only
      rw [hl]
      refine ⟨h1, h2, h3, h4, ?_, ?_, by simp [hmi], ?_⟩
      · intro j hj
        have hji : j ≠ i := fun e => hj (by rw [e]; exact hmi)
        rw [Function.update_noteq hji]; exact h6 j hj
      · intro j hj
        have hji : j ≠ i := by have := hiN (by rw [hpc]; simp); omega
        rw [Function.update_noteq hji]
        exact h5 j hj
      · intro j hj
        have hji : j = i := by rw [hmi] at hj; simpa using hj.symm
        subst hji
        rw [Function.update_same]
        exact ⟨by simp, by simp, by simp, fun _ => hret, by simp⟩
  | count =>
    have hmi := hmu (by rw [hpc]; simp) (by rw [hpc]; simp)
    obtain ⟨_, _, h83, h84, _⟩ := h8 i hmi
    have hret := h84 (by rw [hpc]; simp)
    have hroom := h83 hpc
    have hl := FixedWindowCounter.Shared.load_update_pc s.pcs s.todo N i
      FixedWindowCounter.Pc.allowed (by rw [hpc]; simp) (by simp)
    unfold FixedWindowCounter.Shared.step FixedWindowCounter.Shared.Inv
    simp only [hpc]
    try dsimp only
    rw [hl]
    refine ⟨hroom, h2, h3, h4, ?_, ?_, by simp [hmi], ?_⟩
    · intro j hj
      have hji : j ≠ i := fun e => hj (by rw [e]; exact hmi)
      rw [Function.update_noteq hji]; exact h6 j hj
    · intro j hj
      have hji : j ≠ i := by have := hiN (by rw [hpc]; simp); omega
      rw [Function.update_noteq hji]
      exact h5 j hj
    · intro j hj
      have hji : j = i := by rw [hmi] at hj; simpa using hj.symm
      subst hji
      rw [Function.update_same]
      exact ⟨by simp, by simp, by simp, fun _ => hret, by simp⟩
  | allowed =>
    have hmi := hmu (by rw [hpc]; simp) (by rw [hpc]; simp)
    obtain ⟨_, _, _, h84, _⟩ := h8 i hmi
    have hret := h84 (by rw [hpc]; simp)
    have hadd : add64 s.fwc.RequestsAllowed 1 = s.fwc.RequestsAllowed + 1 :=
      add64_one_of_lt h3 (by omega)
    have hl := FixedWindowCounter.Shared.load_update_pc s.pcs s.todo N i
      (FixedWindowCounter.Pc.unlock true) (by rw [hpc]; simp) (by simp)
    unfold FixedWindowCounter.Shared.step FixedWindowCounter.Shared.Inv
    simp only [hpc, hadd]
    try dsimp only
    rw [hl]
    refine ⟨h1, h2, by omega, h4, ?_, ?_, by simp [hmi], ?_⟩
    · intro j hj
      have hji : j ≠ i := fun e => hj (by rw [e]; exact hmi)
      rw [Function.update_noteq hji]; exact h6 j hj
    · intro j hj
      have hji : j ≠ i := by have := hiN (by rw [hpc]; simp); omega
      rw [Function.update_noteq hji]
      exact h5 j hj
    · intro j hj
      have hji : j = i := by rw [hmi] at hj; simpa using hj.symm
      subst hji
      rw [Function.update_same]
      refine ⟨by simp, by simp, by simp, fun hne => absurd rfl (hne true), ?_⟩
      intro _ _
      omega
  | denied =>
    have hmi := hmu (by rw [hpc]; simp) (by rw [hpc]; simp)
    obtain ⟨_, _, _, h84, _⟩ := h8 i hmi
    have hret := h84 (by rw [hpc]; simp)
    have hadd : add64 s.fwc.RequestsDenied 1 = s.fwc.RequestsDenied + 1 :=
      add64_one_of_lt h4 (by omega)
    have hl := FixedWindowCounter.Shared.load_update_pc s.pcs s.todo N i
      (FixedWindowCounter.Pc.unlock false) (by rw [hpc]; simp) (by simp)
    unfold FixedWindowCounter.Shared.step FixedWindowCounter.Shared.Inv
    simp only [hpc, hadd]
    try dsimp only
    rw [hl]
    refine ⟨h1, h2, h3, by omega, ?_, ?_, by simp [hmi], ?_⟩
    · intro j hj
      have hji : j ≠ i := fun e => hj (by rw [e]; exact hmi)
      rw [Function.update_noteq hji]; exact h6 j hj
    · intro j hj
      have hji : j ≠ i := by have := hiN (by rw [hpc]; simp); omega
      rw [Function.update_noteq hji]
      exact h5 j hj
    · intro j hj
      have hji : j = i := by rw [hmi] at hj; simpa using hj.symm
      subst hji
      rw [Function.update_same]
      refine ⟨by simp, by simp, by simp, fun hne => absurd rfl (hne false), ?_⟩
      intro _ _
      omega
  | unlock r =>
    have hmi := hmu (by rw [hpc]; simp) (by rw [hpc]; simp)
    obtain ⟨_, _, _, _, h85⟩ := h8 i hmi
    have hret := h85 r hpc
    have hl := FixedWindowCounter.Shared.load_update_pc s.pcs s.todo N i
      FixedWindowCounter.Pc.idle (by rw [hpc]; simp) (by simp)
    unfold FixedWindowCounter.Shared.step FixedWindowCounter.Shared.Inv
    simp only [hpc]
    try dsimp only
    rw [hl]
    refine ⟨h1, h2, h3, h4, ?_, ?_, fun _ => hret, by simp⟩
    · intro j _
      by_cases hji : j = i
      · subst hji; left; simp
      · rw [Function.update_noteq hji]
        exact h6 j (by rw [hmi]; intro e; exact hji (by simpa using e.symm))
    · intro j hj
      by_cases hji : j = i
      · subst hji
        rw [Function.update_same]
        exact ⟨(h5 j hj).1, rfl⟩
      · rw [Function.update_noteq hji]
        exact h5 j hj

theorem FixedWindowCounter.Shared.run_inv (N total : Nat) (htot : (total : Int) ≤ maxInt64)
    (sched : List (Nat × Int)) :
    ∀ s : FixedWindowCounter.Shared, s.Inv N total →
      (FixedWindowCounter.Shared.run 1 s sched).Inv N total := by
  induction sched with
  | nil => intro s h; exact h
  | cons e es ih =>
    intro s h
    unfold FixedWindowCounter.Shared.run
    exact ih _ (FixedWindowCounter.Shared.step_inv s N total e.1 e.2 h htot)

theorem FixedWindowCounter.Shared.step_max (n : Int) (s : FixedWindowCounter.Shared) (i : Nat)
    (now : Int) : (s.step n i now).fwc.MaxRequests = s.fwc.MaxRequests := by
  unfold FixedWindowCounter.Shared.step
  cases hpc : s.pcs i <;> simp only
  · split_ifs <;> rfl
  · cases s.mu <;> rfl
  · unfold FixedWindowCounter.rollover
    dsimp only
    split_ifs <;> rfl
  · split_ifs <;> rfl

theorem FixedWindowCounter.Shared.run_max (n : Int) (sched : List (Nat × Int)) :
    ∀ s : FixedWindowCounter.Shared,
      (FixedWindowCounter.Shared.run n s sched).fwc.MaxRequests = s.fwc.MaxRequests := by
  induction sched with
  | nil => intro s; rfl
  | cons e es ih =>
    intro s
    unfold FixedWindowCounter.Shared.run
    rw [ih, FixedWindowCounter.Shared.step_max]

theorem FixedWindowCounter.Shared.run_append (n : Int) (a b : List (Nat × Int)) :
    ∀ s : FixedWindowCounter.Shared,
      FixedWindowCounter.Shared.run n s (a ++ b)
        = FixedWindowCounter.Shared.run n (FixedWindowCounter.Shared.run n s a) b := by
  induction a with
  | nil => intro s; rfl
  | cons e es ih =>
    intro s
    simp only [List.cons_append, FixedWindowCounter.Shared.run]
    exact ih _

/-- One whole call of goroutine `i`, alone, from a state with the mutex free:
seven statements on the admitting path, six on the denying path. It ends with
the mutex free and the goroutine outside a call, one call less to make; the
other goroutines are where they were. -/
theorem FixedWindowCounter.Shared.solo_call_returns (s : FixedWindowCounter.Shared) (i : Nat)
    (t : Int) (m : Nat) (ht : s.todo i = m + 1) (hmu : s.mu = none)
    (hpc : s.pcs i = FixedWindowCounter.Pc.idle) :
    ∃ k : Nat,
      (FixedWindowCounter.Shared.run 1 s (List.replicate k (i, t))).mu = none ∧
      (FixedWindowCounter.Shared.run 1 s (List.replicate k (i, t))).pcs i
        = FixedWindowCounter.Pc.idle ∧
      (FixedWindowCounter.Shared.run 1 s (List.replicate k (i, t))).todo i = m ∧
      (FixedWindowCounter.Shared.run 1 s (List.replicate k (i, t))).fwc = (s.fwc.Allow t 1).1 ∧
      (∀ j, j ≠ i →
        (FixedWindowCounter.Shared.run 1 s (List.replicate k (i, t))).pcs j = s.pcs j ∧
        (FixedWindowCounter.Shared.run 1 s (List.replicate k (i, t))).todo j = s.todo j) := by
  have hn0 : ¬ ((1 : Int) ≤ 0) := by decide
  have ht0 : ¬ (s.todo i = 0) := by omega
  by_cases hadm : add64 (s.fwc.rollover t).RequestCount 1 ≤ (s.fwc.rollover t).MaxRequests
  · refine ⟨7, ?_, ?_, ?_, ?_, ?_⟩
    · simp [List.replicate, FixedWindowCounter.Shared.run, FixedWindowCounter.Shared.step,
        hpc, hmu, hn0, hadm, ht0]
    · simp [List.replicate, FixedWindowCounter.Shared.run, FixedWindowCounter.Shared.step,
        hpc, hmu, hn0, hadm, ht0]
    · simp [List.replicate, FixedWindowCounter.Shared.run, FixedWindowCounter.Shared.step,
        hpc, hmu, hn0, hadm, ht0, ht]
    · unfold FixedWindowCounter.Allow
      simp [List.replicate, FixedWindowCounter.Shared.run, FixedWindowCounter.Shared.step,
        hpc, hmu, hn0, hadm, ht0]
    · intro j hj
      simp [List.replicate, FixedWindowCounter.Shared.run, FixedWindowCounter.Shared.step,
        hpc, hmu, hn0, hadm, ht0, Function.update_noteq hj]
  · refine ⟨6, ?_, ?_, ?_, ?_, ?_⟩
    · simp [List.replicate, FixedWindowCounter.Shared.run, FixedWindowCounter.Shared.step,
        hpc, hmu, hn0, hadm, ht0]
    · simp [List.replicate, FixedWindowCounter.Shared.run, FixedWindowCounter.Shared.step,
        hpc, hmu, hn0, hadm, ht0]
    · simp [List.replicate, FixedWindowCounter.Shared.run, FixedWindowCounter.Shared.step,
        hpc, hmu, hn0, hadm, ht0, ht]
    · unfold FixedWindowCounter.Allow
      simp [List.replicate, FixedWindowCounter.Shared.run, FixedWindowCounter.Shared.step,
        hpc, hmu, hn0, hadm, ht0]
    · intro j hj
      simp [List.replicate, FixedWindowCounter.Shared.run, FixedWindowCounter.Shared.step,
        hpc, hmu, hn0, hadm, ht0, Function.update_noteq hj]

/-- Goroutine `i`, scheduled alone from a state with the mutex free, makes
all its calls and returns from each of them. -/
theorem FixedWindowCounter.Shared.solo_finishes (i : Nat) (t : Int) :
    ∀ (m : Nat) (s : FixedWindowCounter.Shared), s.todo i = m → s.mu = none →
      s.pcs i = FixedWindowCounter.Pc.idle →
      ∃ k : Nat,
        (FixedWindowCounter.Shared.run 1 s (List.replicate k (i, t))).mu = none ∧
        (FixedWindowCounter.Shared.run 1 s (List.replicate k (i, t))).pcs i
          = FixedWindowCounter.Pc.idle ∧
        (FixedWindowCounter.Shared.run 1 s (List.replicate k (i, t))).todo i = 0 ∧
        (∀ j, j ≠ i →
          (FixedWindowCounter.Shared.run 1 s (List.replicate k (i, t))).pcs j = s.pcs j ∧
          (FixedWindowCounter.Shared.run 1 s (List.replicate k (i, t))).todo j = s.todo j) := by
  intro m
  induction m with
  | zero =>
    intro s ht hmu hpc
    exact ⟨0, hmu, hpc, ht, fun j _ => ⟨rfl, rfl⟩⟩
  | succ m ih =>
    intro s ht hmu hpc
    obtain ⟨k1, a1, a2, a3, _, a5⟩ :=
      FixedWindowCounter.Shared.solo_call_returns s i t m ht hmu hpc
    obtain ⟨k2, b1, b2, b3, b4⟩ := ih _ a3 a1 a2
    refine ⟨k1 + k2, ?_⟩
    rw [List.replicate_add, FixedWindowCounter.Shared.run_append]
    refine ⟨b1, b2, b3, ?_⟩
    intro j hj
    exact ⟨(b4 j hj).1.trans (a5 j hj).1, (b4 j hj).2.trans (a5 j hj).2⟩

/-- The goroutines can always finish: for every number of goroutines and of
calls there is a schedule after which every goroutine has returned from all
its calls. -/
theorem FixedWindowCounter.Shared.some_schedule_finishes (fwc : FixedWindowCounter) (N : Nat)
    (calls : Nat → Nat) (t : Int) :
    ∃ sched : List (Nat × Int),
      (FixedWindowCounter.Shared.run 1 (FixedWindowCounter.Shared.init fwc N calls)
        sched).finished N := by
  have hmain : ∀ m : Nat, ∃ sched : List (Nat × Int),
      (FixedWindowCounter.Shared.run 1 (FixedWindowCounter.Shared.init fwc N calls) sched).mu
        = none ∧
      (∀ j, (FixedWindowCounter.Shared.run 1 (FixedWindowCounter.Shared.init fwc N calls)
        sched).pcs j = FixedWindowCounter.Pc.idle) ∧
      (∀ j, j < m → (FixedWindowCounter.Shared.run 1
        (FixedWindowCounter.Shared.init fwc N calls) sched).todo j = 0) := by
    intro m
    induction m with
    | zero => exact ⟨[], rfl, fun _ => rfl, fun j hj => absurd hj (by omega)⟩
    | succ m ih =>
      obtain ⟨sched, c1, c2, c3⟩ := ih
      obtain ⟨k, d1, d2, d3, d4⟩ := FixedWindowCounter.Shared.solo_finishes m t _ _ rfl c1 (c2 m)
      refine ⟨sched ++ List.replicate k (m, t), ?_⟩
      rw [FixedWindowCounter.Shared.run_append]
      refine ⟨d1, ?_, ?_⟩
      · intro j
        by_cases hj : j = m
        · rw [hj]; exact d2
        · rw [(d4 j hj).1]; exact c2 j
      · intro j hj
        by_cases hjm : j = m
        · rw [hjm]; exact d3
        · rw [(d4 j hjm).2]; exact c3 j (by omega)
  obtain ⟨sched, _, e2, e3⟩ := hmain N
  exact ⟨sched, fun i hi => ⟨e2 i, e3 i hi⟩⟩

/-- Concurrent callers of `Allow(1)` on one `FixedWindowCounter` built by the
constructor, goroutine `i` making `calls i` calls one after the other: after
every schedule the count is within the limit, at most one goroutine is inside
the critical section, and `RequestsAllowed + RequestsDenied` is at most the
number of calls made; once every goroutine has returned from all its calls it
is exactly that number. -/
theorem FixedWindowCounter.Shared.callers_within_limit (t0 W M : Int)
    (fwc : FixedWindowCounter) (N : Nat) (calls : Nat → Nat) (sched : List (Nat × Int))
    (hnew : NewFixedWindowCounter t0 W M = Except.ok fwc)
    (htot : (sumTo calls N : Int) ≤ maxInt64) :
    (FixedWindowCounter.Shared.run 1
      (FixedWindowCounter.Shared.init fwc N calls) sched).fwc.RequestCount ≤ M ∧
    (FixedWindowCounter.Shared.run 1
      (FixedWindowCounter.Shared.init fwc N calls) sched).fwc.MaxRequests = M ∧
    (∀ i j,
      (FixedWindowCounter.Shared.run 1 (FixedWindowCounter.Shared.init fwc N calls) sched).pcs i
        ≠ FixedWindowCounter.Pc.idle →
      (FixedWindowCounter.Shared.run 1 (FixedWindowCounter.Shared.init fwc N calls) sched).pcs i
        ≠ FixedWindowCounter.Pc.lock →
      (FixedWindowCounter.Shared.run 1 (FixedWindowCounter.Shared.init fwc N calls) sched).pcs j
        ≠ FixedWindowCounter.Pc.idle →
      (FixedWindowCounter.Shared.run 1 (FixedWindowCounter.Shared.init fwc N calls) sched).pcs j
        ≠ FixedWindowCounter.Pc.lock → i = j) ∧
    0 ≤ (FixedWindowCounter.Shared.run 1
      (FixedWindowCounter.Shared.init fwc N calls) sched).fwc.RequestsAllowed ∧
    0 ≤ (FixedWindowCounter.Shared.run 1
      (FixedWindowCounter.Shared.init fwc N calls) sched).fwc.RequestsDenied ∧
    (FixedWindowCounter.Shared.run 1
        (FixedWindowCounter.Shared.init fwc N calls) sched).fwc.RequestsAllowed
      + (FixedWindowCounter.Shared.run 1
        (FixedWindowCounter.Shared.init fwc N calls) sched).fwc.RequestsDenied
      ≤ (sumTo calls N : Int) ∧
    ((FixedWindowCounter.Shared.run 1
        (FixedWindowCounter.Shared.init fwc N calls) sched).finished N →
      (FixedWindowCounter.Shared.run 1
          (FixedWindowCounter.Shared.init fwc N calls) sched).fwc.RequestsAllowed
        + (FixedWindowCounter.Shared.run 1
          (FixedWindowCounter.Shared.init fwc N calls) sched).fwc.RequestsDenied
        = (sumTo calls N : Int)) := by
  obtain ⟨_, hM, hfwc⟩ := NewFixedWindowCounter_ok hnew
  have hinit : (FixedWindowCounter.Shared.init fwc N calls).Inv N (sumTo calls N) := by
    apply FixedWindowCounter.Shared.init_inv
    · rw [hfwc]; exact le_of_lt hM
    · rw [hfwc]; exact le_of_lt hM
    · rw [hfwc]
    · rw [hfwc]
  have hinv := FixedWindowCounter.Shared.run_inv N (sumTo calls N) htot sched
    (FixedWindowCounter.Shared.init fwc N calls) hinit
  have hmax := FixedWindowCounter.Shared.run_max 1 sched
    (FixedWindowCounter.Shared.init fwc N calls)
  have hM0 : (FixedWindowCounter.Shared.init fwc N calls).fwc.MaxRequests = M := by
    unfold FixedWindowCounter.Shared.init; rw [hfwc]
  rw [hM0] at hmax
  generalize FixedWindowCounter.Shared.run 1 (FixedWindowCounter.Shared.init fwc N calls) sched
    = s at hinv hmax ⊢
  have hholder := fun i => FixedWindowCounter.Shared.holder_of_pc s N _ i hinv
  obtain ⟨h1, _, h3, h4, _, h5, h7, h8⟩ := hinv
  have hload0 : (0 : Int) ≤ (FixedWindowCounter.Shared.load s.pcs s.todo N : Int) :=
    Int.ofNat_nonneg _
  refine ⟨by rw [← hmax]; exact h1, hmax, ?_, h3, h4, ?_, ?_⟩
  · intro i j hi1 hi2 hj1 hj2
    have e1 := hholder i hi1 hi2
    have e2 := hholder j hj1 hj2
    rw [e1] at e2
    exact Option.some.inj e2
  · cases hm : s.mu with
    | none => have := h7 hm; omega
    | some i =>
      obtain ⟨_, _, _, g4, g5⟩ := h8 i hm
      by_cases hu : ∃ r, s.pcs i = FixedWindowCounter.Pc.unlock r
      · obtain ⟨r, hr⟩ := hu
        have := g5 r hr; omega
      · have := g4 (fun r hr => hu ⟨r, hr⟩); omega
  · intro hfin
    have hnone : s.mu = none := by
      cases hm : s.mu with
      | none => rfl
      | some i =>
        exfalso
        by_cases hi : i < N
        · exact (h8 i hm).1 (hfin i hi).1
        · exact (h8 i hm).1 (h5 i (by omega)).2
    have hzero : FixedWindowCounter.Shared.load s.pcs s.todo N = 0 := by
      unfold FixedWindowCounter.Shared.load
      apply sumTo_eq_zero
      intro j hj
      obtain ⟨p1, p2⟩ := hfin j hj
      simp [p1, p2]
    have := h7 hnone
    rw [hzero] at this
    simpa using this

/-! ## Concurrent callers of the other four limiters -/

theorem Guarded.seq_append {σ : Type} (m : Guarded σ) :
    ∀ (cs : List (Int × Int)) (x0 y : σ) (c : Int × Int) (r : σ × Bool),
      Guarded.seq m x0 cs = some y → Guarded.call m y c = some r →
      Guarded.seq m x0 (cs ++ [c]) = some r.1 := by
  intro cs
  induction cs with
  | nil =>
    intro x0 y c r h1 h2
    have hxy : x0 = y := by
      unfold Guarded.seq at h1
      exact Option.some.inj h1
    subst hxy
    show Guarded.seq m x0 [c] = some r.1
    unfold Guarded.seq
    rw [h2]
    rfl
  | cons d ds ih =>
    intro x0 y c r h1 h2
    rw [List.cons_append]
    unfold Guarded.seq at h1 ⊢
    cases hd : Guarded.call m x0 d with
    | none => rw [hd] at h1; cases h1
    | some q =>
      rw [hd] at h1
      exact ih q.1 y c r h1 h2

theorem Guarded.load_move (pcs : Nat → Guarded.Pc) (todo : Nat → Nat) (N i : Nat)
    (p : Guarded.Pc) (h1 : pcs i ≠ Guarded.Pc.lock) (h2 : p ≠ Guarded.Pc.lock) :
    Guarded.load (Function.update pcs i p) todo N = Guarded.load pcs todo N := by
  unfold Guarded.load
  apply sumTo_congr
  intro j _
  by_cases hji : j = i
  · subst hji
    simp [h1, h2]
  · rw [Function.update_noteq hji]

theorem Guarded.load_begin (pcs : Nat → Guarded.Pc) (todo : Nat → Nat) (N i : Nat) (hi : i < N)
    (h1 : pcs i ≠ Guarded.Pc.lock) (h2 : todo i ≠ 0) :
    Guarded.load (Function.update pcs i Guarded.Pc.lock) (Function.update todo i (todo i - 1)) N
      = Guarded.load pcs todo N := by
  unfold Guarded.load
  have h := sumTo_update
    (fun j => todo j + if pcs j = Guarded.Pc.lock then 1 else 0)
    (fun j => Function.update todo i (todo i - 1) j
      + if Function.update pcs i Guarded.Pc.lock j = Guarded.Pc.lock then 1 else 0) i
    (by
      intro j hji
      simp only [Function.update_noteq hji]) N hi
  simp only [Function.update_same, h1, if_false, if_true] at h
  omega

theorem Guarded.load_take (pcs : Nat → Guarded.Pc) (todo : Nat → Nat) (N i : Nat)
    (p : Guarded.Pc) (hi : i < N) (h1 : pcs i = Guarded.Pc.lock) (h2 : p ≠ Guarded.Pc.lock) :
    Guarded.load (Function.update pcs i p) todo N + 1 = Guarded.load pcs todo N := by
  unfold Guarded.load
  have h := sumTo_update
    (fun j => todo j + if pcs j = Guarded.Pc.lock then 1 else 0)
    (fun j => todo j + if Function.update pcs i p j = Guarded.Pc.lock then 1 else 0) i
    (by
      intro j hji
      simp only [Function.update_noteq hji]) N hi
  simp only [Function.update_same, h1, h2, if_false, if_true] at h
  omega

theorem Guarded.inv_at_start {σ : Type} (m : Guarded σ) (x0 : σ) (N : Nat) (calls : Nat → Nat) :
    Guarded.Inv m x0 (Guarded.Shared.init x0 N calls) N (sumTo calls N) [] := by
  have hload : Guarded.load (fun _ => Guarded.Pc.idle)
      (fun i => if i < N then calls i else 0) N = sumTo calls N := by
    unfold Guarded.load
    apply sumTo_congr
    intro j hj
    simp [hj]
  unfold Guarded.Inv Guarded.Shared.init
  refine ⟨fun j _ => Or.inl rfl, ?_, ?_, ?_⟩
  · intro j hj
    refine ⟨?_, rfl⟩
    show (if j < N then calls j else 0) = 0
    rw [if_neg (by omega)]
  · intro _
    refine ⟨[], List.Sublist.refl _, rfl, ?_⟩
    show 0 + Guarded.load _ _ N = _
    rw [hload]
    omega
  · intro i hi
    exact absurd hi (by simp)

/-- More clock readings seen do not harm. -/
theorem Guarded.inv_seen {σ : Type} (m : Guarded σ) (x0 : σ) (s : Guarded.Shared σ)
    (N total : Nat) (seen : List (Int × Int)) (e : Int × Int)
    (h : Guarded.Inv m x0 s N total seen) : Guarded.Inv m x0 s N total (seen ++ [e]) := by
  obtain ⟨h1, h2, h3, h4⟩ := h
  refine ⟨h1, h2, ?_, ?_⟩
  · intro hm
    obtain ⟨cs, hs, hq, hl⟩ := h3 hm
    exact ⟨cs, hs.trans (List.sublist_append_left seen [e]), hq, hl⟩
  · intro i hi
    obtain ⟨a1, a2, a3, a4, a5⟩ := h4 i hi
    refine ⟨a1, a2, ?_, ?_, ?_⟩
    · intro hp
      obtain ⟨cs, hs, hq, hl⟩ := a3 hp
      exact ⟨cs, hs.trans (List.sublist_append_left seen [e]), hq, hl⟩
    · intro t hp
      obtain ⟨cs, t2, y, hs, hq, hu, hl⟩ := a4 t hp
      exact ⟨cs, t2, y, hs.trans (List.sublist_append_left seen [e]), hq, hu, hl⟩
    · intro r hp
      obtain ⟨cs, hs, hq, hl⟩ := a5 r hp
      exact ⟨cs, hs.trans (List.sublist_append_left seen [e]), hq, hl⟩

theorem Guarded.holder_of_position {σ : Type} (m : Guarded σ) (x0 : σ) (s : Guarded.Shared σ)
    (N total i : Nat) (seen : List (Int × Int)) (h : Guarded.Inv m x0 s N total seen)
    (h1 : s.pcs i ≠ Guarded.Pc.idle) (h2 : s.pcs i ≠ Guarded.Pc.lock) : s.mu = some i := by
  by_contra hne
  rcases h.1 i hne with h3 | h3
  · exact h1 h3
  · exact h2 h3

/-- Every step of every goroutine keeps the invariant. -/
theorem Guarded.inv_after_step {σ : Type} (m : Guarded σ) (x0 : σ) (s : Guarded.Shared σ)
    (N total i : Nat) (seen : List (Int × Int)) (now now2 : Int)
    (h : Guarded.Inv m x0 s N total seen) :
    Guarded.Inv m x0 (Guarded.step m s i now now2) N total (seen ++ [(now, now2)]) := by
  have hmu := Guarded.holder_of_position m x0 s N total i seen h
  have hkeep := Guarded.inv_seen m x0 s N total seen (now, now2) h
  obtain ⟨h1, h2, h3, h4⟩ := h
  obtain ⟨_, _, k3, k4⟩ := hkeep
  have hiN : s.pcs i ≠ Guarded.Pc.idle → i < N := by
    intro hne
    by_contra hge
    exact hne (h2 i (by omega)).2
  cases hpc : s.pcs i with
  | idle =>
    have hi : s.mu ≠ some i := fun hm => (h4 i hm).1 hpc
    unfold Guarded.step
    simp only [hpc]
    by_cases ht : s.todo i = 0
    · rw [if_pos ht]; exact ⟨h1, h2, k3, k4⟩
    · rw [if_neg ht]
      have hlt : i < N := by
        by_contra hge
        exact ht (h2 i (by omega)).1
      have hl := Guarded.load_begin s.pcs s.todo N i hlt (by rw [hpc]; simp) ht
      unfold Guarded.Inv
      try dsimp only
      rw [hl]
      refine ⟨?_, ?_, k3, ?_⟩
      · intro j hj
        by_cases hji : j = i
        · subst hji; right; simp
        · rw [Function.update_noteq hji]; exact h1 j hj
      · intro j hj
        have hji : j ≠ i := by omega
        rw [Function.update_noteq hji, Function.update_noteq hji]
        exact h2 j hj
      · intro j hj
        have hji : j ≠ i := fun e => hi (e ▸ hj)
        rw [Function.update_noteq hji]; exact k4 j hj
  | lock =>
    unfold Guarded.step
    simp only [hpc]
    cases hm : s.mu with
    | some j =>
      simp only
      exact ⟨h1, h2, k3, k4⟩
    | none =>
      simp only
      have hlt : i < N := hiN (by rw [hpc]; simp)
      have hl := Guarded.load_take s.pcs s.todo N i Guarded.Pc.update hlt hpc (by simp)
      obtain ⟨cs, hs, hq, hlen⟩ := k3 hm
      unfold Guarded.Inv
      try dsimp only
      refine ⟨?_, ?_, by simp, ?_⟩
      · intro j hj
        have hji : j ≠ i := fun e => hj (by simp [e])
        rw [Function.update_noteq hji]
        exact h1 j (by rw [hm]; simp)
      · intro j hj
        have hji : j ≠ i := by omega
        rw [Function.update_noteq hji]
        exact h2 j hj
      · intro j hj
        have hji : j = i := by simpa using hj.symm
        subst hji
        rw [Function.update_same]
        refine ⟨by simp, by simp, ?_, by simp, by simp⟩
        intro _
        exact ⟨cs, hs, hq, by omega⟩
  | update =>
    have hmi := hmu (by rw [hpc]; simp) (by rw [hpc]; simp)
    obtain ⟨_, _, a3, _, _⟩ := h4 i hmi
    obtain ⟨cs, hs, hq, hlen⟩ := a3 hpc
    unfold Guarded.step
    simp only [hpc]
    cases hu : m.update s.state now now2 with
    | none =>
      simp only
      exact ⟨h1, h2, k3, k4⟩
    | some x =>
      simp only
      have hl := Guarded.load_move s.pcs s.todo N i (Guarded.Pc.test now)
        (by rw [hpc]; simp) (by simp)
      unfold Guarded.Inv
      try dsimp only
      rw [hl]
      refine ⟨?_, ?_, by simp [hmi], ?_⟩
      · intro j hj
        have hji : j ≠ i := fun e => hj (by rw [e]; exact hmi)
        rw [Function.update_noteq hji]; exact h1 j hj
      · intro j hj
        have hji : j ≠ i := by have := hiN (by rw [hpc]; simp); omega
        rw [Function.update_noteq hji]
        exact h2 j hj
      · intro j hj
        have hji : j = i := by rw [hmi] at hj; simpa using hj.symm
        subst hji
        rw [Function.update_same]
        refine ⟨by simp, by simp, by simp, ?_, by simp⟩
        intro t ht
        have htn : now = t := by simpa using ht
        subst htn
        exact ⟨cs, now2, s.state, List.Sublist.append hs (List.Sublist.refl _), hq, hu, hlen⟩
  | test t =>
    have hmi := hmu (by rw [hpc]; simp) (by rw [hpc]; simp)
    obtain ⟨_, _, _, a4, _⟩ := k4 i hmi
    obtain ⟨cs, t2, y, hs, hq, hu, hlen⟩ := a4 t hpc
    unfold Guarded.step
    simp only [hpc]
    cases ht : m.test s.state t with
    | none =>
      simp only
      exact ⟨h1, h2, k3, k4⟩
    | some r =>
      simp only
      have hl := Guarded.load_move s.pcs s.todo N i (Guarded.Pc.unlock r.2)
        (by rw [hpc]; simp) (by simp)
      have hcall : Guarded.call m y (t, t2) = some r := by
        unfold Guarded.call
        simp only [hu, ht]
      unfold Guarded.Inv
      try dsimp only
      rw [hl]
      refine ⟨?_, ?_, by simp [hmi], ?_⟩
      · intro j hj
        have hji : j ≠ i := fun e => hj (by rw [e]; exact hmi)
        rw [Function.update_noteq hji]; exact h1 j hj
      · intro j hj
        have hji : j ≠ i := by have := hiN (by rw [hpc]; simp); omega
        rw [Function.update_noteq hji]
        exact h2 j hj
      · intro j hj
        have hji : j = i := by rw [hmi] at hj; simpa using hj.symm
        subst hji
        rw [Function.update_same]
        refine ⟨by simp, by simp, by simp, by simp, ?_⟩
        intro _ _
        exact ⟨cs ++ [(t, t2)], hs, Guarded.seq_append m cs x0 y (t, t2) r hq hcall,
          by rw [List.length_append]; simp; omega⟩
  | unlock r =>
    have hmi := hmu (by rw [hpc]; simp) (by rw [hpc]; simp)
    obtain ⟨_, _, _, _, a5⟩ := k4 i hmi
    obtain ⟨cs, hs, hq, hlen⟩ := a5 r hpc
    have hl := Guarded.load_move s.pcs s.todo N i Guarded.Pc.idle
      (by rw [hpc]; simp) (by simp)
    unfold Guarded.step Guarded.Inv
    simp only [hpc]
    try dsimp only
    rw [hl]
    refine ⟨?_, ?_, fun _ => ⟨cs, hs, hq, hlen⟩, by simp⟩
    · intro j _
      by_cases hji : j = i
      · subst hji; left; simp
      · rw [Function.update_noteq hji]
        exact h1 j (by rw [hmi]; simpa using fun e => hji e.symm)
    · intro j hj
      have hji : j ≠ i := by have := hiN (by rw [hpc]; simp); omega
      rw [Function.update_noteq hji]
      exact h2 j hj

theorem Guarded.inv_after_run {σ : Type} (m : Guarded σ) (x0 : σ) (N total : Nat) :
    ∀ (sched : List (Nat × Int × Int)) (s : Guarded.Shared σ) (seen : List (Int × Int)),
      Guarded.Inv m x0 s N total seen →
      Guarded.Inv m x0 (Guarded.run m s sched) N total (seen ++ sched.map Prod.snd) := by
  intro sched
  induction sched with
  | nil =>
    intro s seen h
    simpa [Guarded.run] using h
  | cons e es ih =>
    intro s seen h
    have h1 := Guarded.inv_after_step m x0 s N total e.1 seen e.2.1 e.2.2 h
    have h2 := ih (Guarded.step m s e.1 e.2.1 e.2.2) (seen ++ [(e.2.1, e.2.2)]) h1
    have e1 : seen ++ [(e.2.1, e.2.2)] ++ es.map Prod.snd
        = seen ++ (e :: es).map Prod.snd := by
      simp
    rw [e1] at h2
    exact h2

/-- Every run of `N` goroutines is a run of whole calls one after the other:
at most one goroutine is past `mu.Lock()`; whenever the mutex is free the
state is that of whole calls made one after the other with clock readings
taken in their order from the schedule, and these calls together with the
calls that have not taken the mutex yet are all the calls; once every
goroutine has returned from its last call, the whole calls are as many as
the calls made. -/
theorem Guarded.run_is_serial {σ : Type} (m : Guarded σ) (x0 : σ) (N : Nat) (calls : Nat → Nat)
    (sched : List (Nat × Int × Int)) :
    (∀ j, (Guarded.run m (Guarded.Shared.init x0 N calls) sched).mu ≠ some j →
      (Guarded.run m (Guarded.Shared.init x0 N calls) sched).pcs j = Guarded.Pc.idle ∨
      (Guarded.run m (Guarded.Shared.init x0 N calls) sched).pcs j = Guarded.Pc.lock) ∧
    ((Guarded.run m (Guarded.Shared.init x0 N calls) sched).mu = none →
      ∃ cs : List (Int × Int), List.Sublist cs (sched.map Prod.snd) ∧
        Guarded.seq m x0 cs
          = some (Guarded.run m (Guarded.Shared.init x0 N calls) sched).state ∧
        cs.length + Guarded.load (Guarded.run m (Guarded.Shared.init x0 N calls) sched).pcs
          (Guarded.run m (Guarded.Shared.init x0 N calls) sched).todo N = sumTo calls N) ∧
    ((Guarded.run m (Guarded.Shared.init x0 N calls) sched).finished N →
      ∃ cs : List (Int × Int), List.Sublist cs (sched.map Prod.snd) ∧
        Guarded.seq m x0 cs
          = some (Guarded.run m (Guarded.Shared.init x0 N calls) sched).state ∧
        cs.length = sumTo calls N) := by
  have h := Guarded.inv_after_run m x0 N (sumTo calls N) sched (Guarded.Shared.init x0 N calls) []
    (Guarded.inv_at_start m x0 N calls)
  rw [List.nil_append] at h
  obtain ⟨h1, h2, h3, h4⟩ := h
  refine ⟨h1, h3, ?_⟩
  intro hfin
  have hfree : (Guarded.run m (Guarded.Shared.init x0 N calls) sched).mu = none := by
    cases hm : (Guarded.run m (Guarded.Shared.init x0 N calls) sched).mu with
    | none => rfl
    | some i =>
      exfalso
      have hne := (h4 i hm).1
      by_cases hi : i < N
      · exact hne (hfin i hi).1
      · exact hne (h2 i (by omega)).2
  obtain ⟨cs, hs, hq, hlen⟩ := h3 hfree
  have hzero : Guarded.load (Guarded.run m (Guarded.Shared.init x0 N calls) sched).pcs
      (Guarded.run m (Guarded.Shared.init x0 N calls) sched).todo N = 0 := by
    unfold Guarded.load
    apply sumTo_eq_zero
    intro j hj
    obtain ⟨p1, p2⟩ := hfin j hj
    rw [p1, p2]
    simp
  exact ⟨cs, hs, hq, by omega⟩

/-- At most one goroutine is past `mu.Lock()`. -/
theorem Guarded.one_inside {σ : Type} (m : Guarded σ) (x0 : σ) (N : Nat) (calls : Nat → Nat)
    (sched : List (Nat × Int × Int)) (i j : Nat)
    (hi1 : (Guarded.run m (Guarded.Shared.init x0 N calls) sched).pcs i ≠ Guarded.Pc.idle)
    (hi2 : (Guarded.run m (Guarded.Shared.init x0 N calls) sched).pcs i ≠ Guarded.Pc.lock)
    (hj1 : (Guarded.run m (Guarded.Shared.init x0 N calls) sched).pcs j ≠ Guarded.Pc.idle)
    (hj2 : (Guarded.run m (Guarded.Shared.init x0 N calls) sched).pcs j ≠ Guarded.Pc.lock) :
    i = j := by
  have h := (Guarded.run_is_serial m x0 N calls sched).1
  have e1 : (Guarded.run m (Guarded.Shared.init x0 N calls) sched).mu = some i := by
    by_contra hne
    rcases h i hne with h3 | h3
    · exact hi1 h3
    · exact hi2 h3
  have e2 : (Guarded.run m (Guarded.Shared.init x0 N calls) sched).mu = some j := by
    by_contra hne
    rcases h j hne with h3 | h3
    · exact hj1 h3
    · exact hj2 h3
  rw [e1] at e2
  exact Option.some.inj e2

theorem SlidingWindow.guarded_call_sliding (sw : SlidingWindow) (c : Int × Int) :
    Guarded.call SlidingWindow.guarded sw c = some (sw.Allow c.1 1) := by
  unfold Guarded.call SlidingWindow.guarded SlidingWindow.Allow
  simp only [show ¬ ((1 : Int) ≤ 0) by decide, if_false]
  split_ifs <;> rfl

theorem SlidingWindow.guarded_seq_sliding :
    ∀ (cs : List (Int × Int)) (sw : SlidingWindow),
      Guarded.seq SlidingWindow.guarded sw cs
        = some (sw.run (cs.map (fun c => (c.1, 1)))) := by
  intro cs
  induction cs with
  | nil => intro sw; rfl
  | cons c cs ih =>
    intro sw
    unfold Guarded.seq
    rw [SlidingWindow.guarded_call_sliding]
    simp only [List.map_cons]
    rw [ih]
    rfl

theorem LeakyBucket.guarded_call_leaky (lb : LeakyBucket) (c : Int × Int) :
    Guarded.call LeakyBucket.guarded lb c = some (lb.Allow c.1 c.2 1) := by
  unfold Guarded.call LeakyBucket.guarded LeakyBucket.Allow
  simp only [show ¬ ((1 : Int) ≤ 0) by decide, if_false]
  split_ifs <;> rfl

theorem LeakyBucket.guarded_seq_leaky :
    ∀ (cs : List (Int × Int)) (lb : LeakyBucket),
      Guarded.seq LeakyBucket.guarded lb cs
        = some (lb.run (cs.map (fun c => (c.1, c.2, 1)))) := by
  intro cs
  induction cs with
  | nil => intro lb; rfl
  | cons c cs ih =>
    intro lb
    unfold Guarded.seq
    rw [LeakyBucket.guarded_call_leaky]
    simp only [List.map_cons]
    rw [ih]
    rfl

theorem TokenBucket.guarded_call_token (tb : TokenBucket) (c : Int × Int) :
    Guarded.call TokenBucket.guarded tb c = some (tb.Allow c.1 1) := by
  unfold Guarded.call TokenBucket.guarded TokenBucket.Allow
  simp only [show ¬ ((1 : Int) ≤ 0) by decide, if_false]
  split_ifs <;> rfl

theorem TokenBucket.guarded_seq_token :
    ∀ (cs : List (Int × Int)) (tb : TokenBucket),
      Guarded.seq TokenBucket.guarded tb cs
        = some (tb.runOps (cs.map (fun c => TokenBucket.Op.allow c.1 1))) := by
  intro cs
  induction cs with
  | nil => intro tb; rfl
  | cons c cs ih =>
    intro tb
    unfold Guarded.seq
    rw [TokenBucket.guarded_call_token]
    simp only [List.map_cons]
    rw [ih]
    rfl

theorem SlidingWindowLog.guarded_call_log (sw : SlidingWindowLog) (c : Int × Int) :
    Guarded.call SlidingWindowLog.guarded sw c = sw.Allow c.1 1 := by
  unfold Guarded.call SlidingWindowLog.guarded SlidingWindowLog.Allow
  simp only [show ¬ ((1 : Int) ≤ 0) by decide, if_false]
  cases hp : SlidingWindowLog.purge (Time.Add c.1 (neg64 sw.windowSize))
      (sw.requestLog.size + 1) sw.requestLog with
  | none => rfl
  | some d =>
    simp only
    by_cases ha : add64 (d.Size : Int) 1 ≤ sw.maxRequests
    · rw [if_pos ha, if_pos ha]
      have e1 : (1 : Int).toNat = 1 := rfl
      rw [e1]
    · rw [if_neg ha, if_neg ha]

theorem SlidingWindowLog.guarded_seq_log :
    ∀ (cs : List (Int × Int)) (sw : SlidingWindowLog),
      Guarded.seq SlidingWindowLog.guarded sw cs = sw.run (cs.map (fun c => (c.1, 1))) := by
  intro cs
  induction cs with
  | nil => intro sw; rfl
  | cons c cs ih =>
    intro sw
    unfold Guarded.seq
    rw [SlidingWindowLog.guarded_call_log]
    simp only [List.map_cons]
    show _ = (match sw.Allow c.1 1 with
      | none => none
      | some r => SlidingWindowLog.run r.1 (cs.map (fun c => (c.1, 1))))
    cases sw.Allow c.1 1 with
    | none => rfl
    | some r => exact ih r.1

/-- The two counters of `SlidingWindow` after whole calls `Allow(1)`. -/
theorem SlidingWindow.guarded_totals_sliding :
    ∀ (cs : List (Int × Int)) (sw : SlidingWindow),
      0 ≤ sw.requestsAllowed → 0 ≤ sw.requestsDenied →
      sw.requestsAllowed + sw.requestsDenied + (cs.length : Int) ≤ maxInt64 →
      0 ≤ (sw.run (cs.map (fun c => (c.1, 1)))).requestsAllowed ∧
      0 ≤ (sw.run (cs.map (fun c => (c.1, 1)))).requestsDenied ∧
      (sw.run (cs.map (fun c => (c.1, 1)))).requestsAllowed
        + (sw.run (cs.map (fun c => (c.1, 1)))).requestsDenied
        = sw.requestsAllowed + sw.requestsDenied + (cs.length : Int) := by
  intro cs
  induction cs with
  | nil =>
    intro sw h1 h2 _
    simp only [List.map_nil, List.length_nil]
    exact ⟨h1, h2, by simp [SlidingWindow.run]⟩
  | cons c cs ih =>
    intro sw h1 h2 h3
    simp only [List.map_cons, List.length_cons] at h3 ⊢
    push_cast at h3 ⊢
    have hstep : 0 ≤ (sw.Allow c.1 1).1.requestsAllowed ∧ 0 ≤ (sw.Allow c.1 1).1.requestsDenied ∧
        (sw.Allow c.1 1).1.requestsAllowed + (sw.Allow c.1 1).1.requestsDenied
          = sw.requestsAllowed + sw.requestsDenied + 1 := by
      have hr : (sw.rollover c.1).requestsAllowed = sw.requestsAllowed ∧
          (sw.rollover c.1).requestsDenied = sw.requestsDenied := by
        unfold SlidingWindow.rollover
        dsimp only
        split_ifs <;> exact ⟨rfl, rfl⟩
      have hlen : (0 : Int) ≤ (cs.length : Int) := Int.ofNat_nonneg _
      have ea : add64 sw.requestsAllowed 1 = sw.requestsAllowed + 1 :=
        add64_one_of_lt h1 (by omega)
      have ed : add64 sw.requestsDenied 1 = sw.requestsDenied + 1 :=
        add64_one_of_lt h2 (by omega)
      unfold SlidingWindow.Allow
      simp only [show ¬ ((1 : Int) ≤ 0) by decide, if_false]
      split_ifs
      · simp only [hr.1, hr.2, ea]
        omega
      · simp only [hr.1, hr.2, ed]
        omega
    obtain ⟨s1, s2, s3⟩ := hstep
    have hrun : sw.run ((c.1, 1) :: cs.map (fun c => (c.1, 1)))
        = (sw.Allow c.1 1).1.run (cs.map (fun c => (c.1, 1))) := rfl
    rw [hrun]
    obtain ⟨r1, r2, r3⟩ := ih (sw.Allow c.1 1).1 s1 s2 (by omega)
    exact ⟨r1, r2, by omega⟩

/-- The two counters of `TokenBucket` after whole calls `Allow(1)`. -/
theorem TokenBucket.guarded_totals_token :
    ∀ (cs : List (Int × Int)) (tb : TokenBucket),
      0 ≤ tb.tokensProcessed → 0 ≤ tb.tokensRejected →
      tb.tokensProcessed + tb.tokensRejected + (cs.length : Int) ≤ maxInt64 →
      0 ≤ (tb.runOps (cs.map (fun c => TokenBucket.Op.allow c.1 1))).tokensProcessed ∧
      0 ≤ (tb.runOps (cs.map (fun c => TokenBucket.Op.allow c.1 1))).tokensRejected ∧
      (tb.runOps (cs.map (fun c => TokenBucket.Op.allow c.1 1))).tokensProcessed
        + (tb.runOps (cs.map (fun c => TokenBucket.Op.allow c.1 1))).tokensRejected
        = tb.tokensProcessed + tb.tokensRejected + (cs.length : Int) := by
  intro cs
  induction cs with
  | nil =>
    intro tb h1 h2 _
    simp only [List.map_nil, List.length_nil]
    exact ⟨h1, h2, by simp [TokenBucket.runOps]⟩
  | cons c cs ih =>
    intro tb h1 h2 h3
    simp only [List.map_cons, List.length_cons] at h3 ⊢
    push_cast at h3 ⊢
    have hstep : 0 ≤ (tb.Allow c.1 1).1.tokensProcessed ∧ 0 ≤ (tb.Allow c.1 1).1.tokensRejected ∧
        (tb.Allow c.1 1).1.tokensProcessed + (tb.Allow c.1 1).1.tokensRejected
          = tb.tokensProcessed + tb.tokensRejected + 1 := by
      have hr : (tb.refill c.1).tokensProcessed = tb.tokensProcessed ∧
          (tb.refill c.1).tokensRejected = tb.tokensRejected := ⟨rfl, rfl⟩
      have hlen : (0 : Int) ≤ (cs.length : Int) := Int.ofNat_nonneg _
      have ea : add64 tb.tokensProcessed 1 = tb.tokensProcessed + 1 :=
        add64_one_of_lt h1 (by omega)
      have ed : add64 tb.tokensRejected 1 = tb.tokensRejected + 1 :=
        add64_one_of_lt h2 (by omega)
      unfold TokenBucket.Allow
      simp only [show ¬ ((1 : Int) ≤ 0) by decide, if_false]
      split_ifs
      · simp only [hr.1, hr.2, ed]
        omega
      · simp only [hr.1, hr.2, ea]
        omega
    obtain ⟨s1, s2, s3⟩ := hstep
    have hrun : tb.runOps (TokenBucket.Op.allow c.1 1 :: cs.map (fun c => TokenBucket.Op.allow c.1 1))
        = (tb.Allow c.1 1).1.runOps (cs.map (fun c => TokenBucket.Op.allow c.1 1)) := rfl
    rw [hrun]
    obtain ⟨r1, r2, r3⟩ := ih (tb.Allow c.1 1).1 s1 s2 (by omega)
    exact ⟨r1, r2, by omega⟩

/-- The serial run behind a concurrent run, for a limiter whose whole calls
never panic. -/
theorem Guarded.serial_of_seq {σ : Type} (m : Guarded σ) (f : σ → List (Int × Int) → σ)
    (hseq : ∀ (cs : List (Int × Int)) (x : σ), Guarded.seq m x cs = some (f x cs))
    (x0 : σ) (N : Nat) (calls : Nat → Nat) (sched : List (Nat × Int × Int)) :
    ((Guarded.run m (Guarded.Shared.init x0 N calls) sched).mu = none →
      ∃ cs : List (Int × Int), List.Sublist cs (sched.map Prod.snd) ∧
        cs.length ≤ sumTo calls N ∧
        (Guarded.run m (Guarded.Shared.init x0 N calls) sched).state = f x0 cs) ∧
    ((Guarded.run m (Guarded.Shared.init x0 N calls) sched).finished N →
      ∃ cs : List (Int × Int), List.Sublist cs (sched.map Prod.snd) ∧
        cs.length = sumTo calls N ∧
        (Guarded.run m (Guarded.Shared.init x0 N calls) sched).state = f x0 cs) := by
  obtain ⟨_, h2, h3⟩ := Guarded.run_is_serial m x0 N calls sched
  constructor
  · intro hm
    obtain ⟨cs, hs, hq, hl⟩ := h2 hm
    rw [hseq] at hq
    exact ⟨cs, hs, by omega, (Option.some.inj hq).symm⟩
  · intro hf
    obtain ⟨cs, hs, hq, hl⟩ := h3 hf
    rw [hseq] at hq
    exact ⟨cs, hs, hl, (Option.some.inj hq).symm⟩

/-- Concurrent callers of `Allow(1)` on one `SlidingWindow`: at most one
goroutine is past `sw.mu.Lock()`; whenever the mutex is free the fields are
those after whole calls made one after the other, with clock readings taken
in their order from the schedule; once all calls have returned these are as
many as the calls made, and `requestsAllowed + requestsDenied` of a limiter
that started with both at 0 is the number of calls. -/
theorem SlidingWindow.callers_are_serial (sw : SlidingWindow) (K : Nat) (cl : Nat → Nat)
    (sc : List (Nat × Int × Int)) :
    (∀ i j,
      (Guarded.run SlidingWindow.guarded (Guarded.Shared.init sw K cl) sc).pcs i
        ≠ Guarded.Pc.idle →
      (Guarded.run SlidingWindow.guarded (Guarded.Shared.init sw K cl) sc).pcs i
        ≠ Guarded.Pc.lock →
      (Guarded.run SlidingWindow.guarded (Guarded.Shared.init sw K cl) sc).pcs j
        ≠ Guarded.Pc.idle →
      (Guarded.run SlidingWindow.guarded (Guarded.Shared.init sw K cl) sc).pcs j
        ≠ Guarded.Pc.lock → i = j) ∧
    ((Guarded.run SlidingWindow.guarded (Guarded.Shared.init sw K cl) sc).mu = none →
      ∃ cs : List (Int × Int), List.Sublist cs (sc.map Prod.snd) ∧ cs.length ≤ sumTo cl K ∧
        (Guarded.run SlidingWindow.guarded (Guarded.Shared.init sw K cl) sc).state
          = sw.run (cs.map (fun c => (c.1, 1)))) ∧
    ((Guarded.run SlidingWindow.guarded (Guarded.Shared.init sw K cl) sc).finished K →
      ∃ cs : List (Int × Int), List.Sublist cs (sc.map Prod.snd) ∧ cs.length = sumTo cl K ∧
        (Guarded.run SlidingWindow.guarded (Guarded.Shared.init sw K cl) sc).state
          = sw.run (cs.map (fun c => (c.1, 1))) ∧
        (sw.requestsAllowed = 0 → sw.requestsDenied = 0 → (sumTo cl K : Int) ≤ maxInt64 →
          (Guarded.run SlidingWindow.guarded (Guarded.Shared.init sw K cl) sc).state.requestsAllowed
            + (Guarded.run SlidingWindow.guarded
                (Guarded.Shared.init sw K cl) sc).state.requestsDenied
            = (sumTo cl K : Int))) := by
  obtain ⟨h1, h2⟩ := Guarded.serial_of_seq SlidingWindow.guarded
    (fun x cs => x.run (cs.map (fun c => (c.1, 1))))
    (fun cs x => SlidingWindow.guarded_seq_sliding cs x) sw K cl sc
  refine ⟨fun i j => Guarded.one_inside SlidingWindow.guarded sw K cl sc i j, h1, ?_⟩
  intro hf
  obtain ⟨cs, hs, hl, he⟩ := h2 hf
  refine ⟨cs, hs, hl, he, ?_⟩
  intro hA hD htot
  rw [he]
  obtain ⟨_, _, r3⟩ := SlidingWindow.guarded_totals_sliding cs sw (by rw [hA]) (by rw [hD])
    (by rw [hA, hD, hl]; omega)
  rw [r3, hA, hD, hl]
  omega

/-- Concurrent callers of `Allow(1)` on one `TokenBucket`: at most one
goroutine is past `tb.mu.Lock()`; whenever the mutex is free the fields are
those after whole calls made one after the other, with clock readings taken
in their order from the schedule; once all calls have returned these are as
many as the calls made, and `tokensProcessed + tokensRejected` of a bucket
that started with both at 0 is the number of calls. -/
theorem TokenBucket.callers_of_bucket_serial (tb : TokenBucket) (K : Nat) (cl : Nat → Nat)
    (sc : List (Nat × Int × Int)) :
    (∀ i j,
      (Guarded.run TokenBucket.guarded (Guarded.Shared.init tb K cl) sc).pcs i
        ≠ Guarded.Pc.idle →
      (Guarded.run TokenBucket.guarded (Guarded.Shared.init tb K cl) sc).pcs i
        ≠ Guarded.Pc.lock →
      (Guarded.run TokenBucket.guarded (Guarded.Shared.init tb K cl) sc).pcs j
        ≠ Guarded.Pc.idle →
      (Guarded.run TokenBucket.guarded (Guarded.Shared.init tb K cl) sc).pcs j
        ≠ Guarded.Pc.lock → i = j) ∧
    ((Guarded.run TokenBucket.guarded (Guarded.Shared.init tb K cl) sc).mu = none →
      ∃ cs : List (Int × Int), List.Sublist cs (sc.map Prod.snd) ∧ cs.length ≤ sumTo cl K ∧
        (Guarded.run TokenBucket.guarded (Guarded.Shared.init tb K cl) sc).state
          = tb.runOps (cs.map (fun c => TokenBucket.Op.allow c.1 1))) ∧
    ((Guarded.run TokenBucket.guarded (Guarded.Shared.init tb K cl) sc).finished K →
      ∃ cs : List (Int × Int), List.Sublist cs (sc.map Prod.snd) ∧ cs.length = sumTo cl K ∧
        (Guarded.run TokenBucket.guarded (Guarded.Shared.init tb K cl) sc).state
          = tb.runOps (cs.map (fun c => TokenBucket.Op.allow c.1 1)) ∧
        (tb.tokensProcessed = 0 → tb.tokensRejected = 0 → (sumTo cl K : Int) ≤ maxInt64 →
          (Guarded.run TokenBucket.guarded (Guarded.Shared.init tb K cl) sc).state.tokensProcessed
            + (Guarded.run TokenBucket.guarded
                (Guarded.Shared.init tb K cl) sc).state.tokensRejected
            = (sumTo cl K : Int))) := by
  obtain ⟨h1, h2⟩ := Guarded.serial_of_seq TokenBucket.guarded
    (fun x cs => x.runOps (cs.map (fun c => TokenBucket.Op.allow c.1 1)))
    (fun cs x => TokenBucket.guarded_seq_token cs x) tb K cl sc
  refine ⟨fun i j => Guarded.one_inside TokenBucket.guarded tb K cl sc i j, h1, ?_⟩
  intro hf
  obtain ⟨cs, hs, hl, he⟩ := h2 hf
  refine ⟨cs, hs, hl, he, ?_⟩
  intro hA hD htot
  rw [he]
  obtain ⟨_, _, r3⟩ := TokenBucket.guarded_totals_token cs tb (by rw [hA]) (by rw [hD])
    (by rw [hA, hD, hl]; omega)
  rw [r3, hA, hD, hl]
  omega

/-- Concurrent callers of `Allow(1)` on one `LeakyBucket`: at most one
goroutine is past `lb.mutex.Lock()`; whenever the mutex is free the fields
are those after whole calls made one after the other, with clock readings
taken in their order from the schedule; once all calls have returned these
are as many as the calls made. -/
theorem LeakyBucket.callers_of_leaky_serial (lb : LeakyBucket) (K : Nat) (cl : Nat → Nat)
    (sc : List (Nat × Int × Int)) :
    (∀ i j,
      (Guarded.run LeakyBucket.guarded (Guarded.Shared.init lb K cl) sc).pcs i
        ≠ Guarded.Pc.idle →
      (Guarded.run LeakyBucket.guarded (Guarded.Shared.init lb K cl) sc).pcs i
        ≠ Guarded.Pc.lock →
      (Guarded.run LeakyBucket.guarded (Guarded.Shared.init lb K cl) sc).pcs j
        ≠ Guarded.Pc.idle →
      (Guarded.run LeakyBucket.guarded (Guarded.Shared.init lb K cl) sc).pcs j
        ≠ Guarded.Pc.lock → i = j) ∧
    ((Guarded.run LeakyBucket.guarded (Guarded.Shared.init lb K cl) sc).mu = none →
      ∃ cs : List (Int × Int), List.Sublist cs (sc.map Prod.snd) ∧ cs.length ≤ sumTo cl K ∧
        (Guarded.run LeakyBucket.guarded (Guarded.Shared.init lb K cl) sc).state
          = lb.run (cs.map (fun c => (c.1, c.2, 1)))) ∧
    ((Guarded.run LeakyBucket.guarded (Guarded.Shared.init lb K cl) sc).finished K →
      ∃ cs : List (Int × Int), List.Sublist cs (sc.map Prod.snd) ∧ cs.length = sumTo cl K ∧
        (Guarded.run LeakyBucket.guarded (Guarded.Shared.init lb K cl) sc).state
          = lb.run (cs.map (fun c => (c.1, c.2, 1)))) := by
  obtain ⟨h1, h2⟩ := Guarded.serial_of_seq LeakyBucket.guarded
    (fun x cs => x.run (cs.map (fun c => (c.1, c.2, 1))))
    (fun cs x => LeakyBucket.guarded_seq_leaky cs x) lb K cl sc
  exact ⟨fun i j => Guarded.one_inside LeakyBucket.guarded lb K cl sc i j, h1, h2⟩

/-- Concurrent callers of `Allow(1)` on one `SlidingWindowLog`: at most one
goroutine is past `sw.mu.Lock()`; whenever the mutex is free the log is the
one after whole calls made one after the other, with clock readings taken in
their order from the schedule; once all calls have returned these are as
many as the calls made. -/
theorem SlidingWindowLog.callers_of_log_serial (sw : SlidingWindowLog) (K : Nat)
    (cl : Nat → Nat) (sc : List (Nat × Int × Int)) :
    (∀ i j,
      (Guarded.run SlidingWindowLog.guarded (Guarded.Shared.init sw K cl) sc).pcs i
        ≠ Guarded.Pc.idle →
      (Guarded.run SlidingWindowLog.guarded (Guarded.Shared.init sw K cl) sc).pcs i
        ≠ Guarded.Pc.lock →
      (Guarded.run SlidingWindowLog.guarded (Guarded.Shared.init sw K cl) sc).pcs j
        ≠ Guarded.Pc.idle →
      (Guarded.run SlidingWindowLog.guarded (Guarded.Shared.init sw K cl) sc).pcs j
        ≠ Guarded.Pc.lock → i = j) ∧
    ((Guarded.run SlidingWindowLog.guarded (Guarded.Shared.init sw K cl) sc).mu = none →
      ∃ cs : List (Int × Int), List.Sublist cs (sc.map Prod.snd) ∧ cs.length ≤ sumTo cl K ∧
        sw.run (cs.map (fun c => (c.1, 1)))
          = some (Guarded.run SlidingWindowLog.guarded (Guarded.Shared.init sw K cl) sc).state) ∧
    ((Guarded.run SlidingWindowLog.guarded (Guarded.Shared.init sw K cl) sc).finished K →
      ∃ cs : List (Int × Int), List.Sublist cs (sc.map Prod.snd) ∧ cs.length = sumTo cl K ∧
        sw.run (cs.map (fun c => (c.1, 1)))
          = some (Guarded.run SlidingWindowLog.guarded
              (Guarded.Shared.init sw K cl) sc).state) := by
  obtain ⟨_, h2, h3⟩ := Guarded.run_is_serial SlidingWindowLog.guarded sw K cl sc
  refine ⟨fun i j => Guarded.one_inside SlidingWindowLog.guarded sw K cl sc i j, ?_, ?_⟩
  · intro hm
    obtain ⟨cs, hs, hq, hl⟩ := h2 hm
    rw [SlidingWindowLog.guarded_seq_log] at hq
    exact ⟨cs, hs, by omega, hq⟩
  · intro hf
    obtain ⟨cs, hs, hq, hl⟩ := h3 hf
    rw [SlidingWindowLog.guarded_seq_log] at hq
    exact ⟨cs, hs, hl, hq⟩

/-- C34: `N` goroutines call `Allow(1)` concurrently on one limiter. For a
`FixedWindowCounter` built by the constructor, goroutine `i` making `calls i`
calls one after the other, with a schedule that says which goroutine runs its
next statement and what the clock reads: after every schedule the count is
within the limit, at most one goroutine is inside the critical section, and
`RequestsAllowed + RequestsDenied` is at most the number of calls made; once
every goroutine has returned from all its calls it is exactly that number,
the sum of `calls i` over the goroutines. For `SlidingWindow`,
`SlidingWindowLog`, `LeakyBucket` and `TokenBucket`, in any state, with a
schedule of the steps between `Lock` and `Unlock`: at most one goroutine is
past `Lock`; whenever the mutex is free the fields are those after whole
calls `Allow(1)` made one after the other, at most as many as the calls
made, with clock readings taken in their order from the schedule; once every
goroutine has returned these are exactly as many as the calls made, and the
counters that count calls (`requestsAllowed + requestsDenied`,
`tokensProcessed + tokensRejected`, started at 0) add up to that number. -/
theorem FixedWindowCounter.concurrent_allow_is_safe (t0 W M : Int)
    (fwc : FixedWindowCounter) (N : Nat) (calls : Nat → Nat) (sched : List (Nat × Int))
    (hnew : NewFixedWindowCounter t0 W M = Except.ok fwc)
    (htot : (sumTo calls N : Int) ≤ maxInt64) :
    (FixedWindowCounter.Shared.run 1
      (FixedWindowCounter.Shared.init fwc N calls) sched).fwc.RequestCount ≤ M ∧
    (FixedWindowCounter.Shared.run 1
      (FixedWindowCounter.Shared.init fwc N calls) sched).fwc.MaxRequests = M ∧
    (∀ i j,
      (FixedWindowCounter.Shared.run 1 (FixedWindowCounter.Shared.init fwc N calls) sched).pcs i
        ≠ FixedWindowCounter.Pc.idle →
      (FixedWindowCounter.Shared.run 1 (FixedWindowCounter.Shared.init fwc N calls) sched).pcs i
        ≠ FixedWindowCounter.Pc.lock →
      (FixedWindowCounter.Shared.run 1 (FixedWindowCounter.Shared.init fwc N calls) sched).pcs j
        ≠ FixedWindowCounter.Pc.idle →
      (FixedWindowCounter.Shared.run 1 (FixedWindowCounter.Shared.init fwc N calls) sched).pcs j
        ≠ FixedWindowCounter.Pc.lock → i = j) ∧
    0 ≤ (FixedWindowCounter.Shared.run 1
      (FixedWindowCounter.Shared.init fwc N calls) sched).fwc.RequestsAllowed ∧
    0 ≤ (FixedWindowCounter.Shared.run 1
      (FixedWindowCounter.Shared.init fwc N calls) sched).fwc.RequestsDenied ∧
    (FixedWindowCounter.Shared.run 1
        (FixedWindowCounter.Shared.init fwc N calls) sched).fwc.RequestsAllowed
      + (FixedWindowCounter.Shared.run 1
        (FixedWindowCounter.Shared.init fwc N calls) sched).fwc.RequestsDenied
      ≤ (sumTo calls N : Int) ∧
    ((FixedWindowCounter.Shared.run 1
        (FixedWindowCounter.Shared.init fwc N calls) sched).finished N →
      (FixedWindowCounter.Shared.run 1
          (FixedWindowCounter.Shared.init fwc N calls) sched).fwc.RequestsAllowed
        + (FixedWindowCounter.Shared.run 1
          (FixedWindowCounter.Shared.init fwc N calls) sched).fwc.RequestsDenied
        = (sumTo calls N : Int)) ∧
    (∀ (sw : SlidingWindow) (K : Nat) (cl : Nat → Nat) (sc : List (Nat × Int × Int)),
      (∀ i j,
        (Guarded.run SlidingWindow.guarded (Guarded.Shared.init sw K cl) sc).pcs i
          ≠ Guarded.Pc.idle →
        (Guarded.run SlidingWindow.guarded (Guarded.Shared.init sw K cl) sc).pcs i
          ≠ Guarded.Pc.lock →
        (Guarded.run SlidingWindow.guarded (Guarded.Shared.init sw K cl) sc).pcs j
          ≠ Guarded.Pc.idle →
        (Guarded.run SlidingWindow.guarded (Guarded.Shared.init sw K cl) sc).pcs j
          ≠ Guarded.Pc.lock → i = j) ∧
      ((Guarded.run SlidingWindow.guarded (Guarded.Shared.init sw K cl) sc).mu = none →
        ∃ cs : List (Int × Int), List.Sublist cs (sc.map Prod.snd) ∧ cs.length ≤ sumTo cl K ∧
          (Guarded.run SlidingWindow.guarded (Guarded.Shared.init sw K cl) sc).state
            = sw.run (cs.map (fun c => (c.1, 1)))) ∧
      ((Guarded.run SlidingWindow.guarded (Guarded.Shared.init sw K cl) sc).finished K →
        ∃ cs : List (Int × Int), List.Sublist cs (sc.map Prod.snd) ∧ cs.length = sumTo cl K ∧
          (Guarded.run SlidingWindow.guarded (Guarded.Shared.init sw K cl) sc).state
            = sw.run (cs.map (fun c => (c.1, 1))) ∧
          (sw.requestsAllowed = 0 → sw.requestsDenied = 0 → (sumTo cl K : Int) ≤ maxInt64 →
            (Guarded.run SlidingWindow.guarded (Guarded.Shared.init sw K cl) sc).state.requestsAllowed
              + (Guarded.run SlidingWindow.guarded
                  (Guarded.Shared.init sw K cl) sc).state.requestsDenied
              = (sumTo cl K : Int)))) ∧
    (∀ (sw : SlidingWindowLog) (K : Nat) (cl : Nat → Nat) (sc : List (Nat × Int × Int)),
      (∀ i j,
        (Guarded.run SlidingWindowLog.guarded (Guarded.Shared.init sw K cl) sc).pcs i
          ≠ Guarded.Pc.idle →
        (Guarded.run SlidingWindowLog.guarded (Guarded.Shared.init sw K cl) sc).pcs i
          ≠ Guarded.Pc.lock →
        (Guarded.run SlidingWindowLog.guarded (Guarded.Shared.init sw K cl) sc).pcs j
          ≠ Guarded.Pc.idle →
        (Guarded.run SlidingWindowLog.guarded (Guarded.Shared.init sw K cl) sc).pcs j
          ≠ Guarded.Pc.lock → i = j) ∧
      ((Guarded.run SlidingWindowLog.guarded (Guarded.Shared.init sw K cl) sc).mu = none →
        ∃ cs : List (Int × Int), List.Sublist cs (sc.map Prod.snd) ∧ cs.length ≤ sumTo cl K ∧
          sw.run (cs.map (fun c => (c.1, 1)))
            = some (Guarded.run SlidingWindowLog.guarded (Guarded.Shared.init sw K cl) sc).state) ∧
      ((Guarded.run SlidingWindowLog.guarded (Guarded.Shared.init sw K cl) sc).finished K →
        ∃ cs : List (Int × Int), List.Sublist cs (sc.map Prod.snd) ∧ cs.length = sumTo cl K ∧
          sw.run (cs.map (fun c => (c.1, 1)))
            = some (Guarded.run SlidingWindowLog.guarded
                (Guarded.Shared.init sw K cl) sc).state)) ∧
    (∀ (lb : LeakyBucket) (K : Nat) (cl : Nat → Nat) (sc : List (Nat × Int × Int)),
      (∀ i j,
        (Guarded.run LeakyBucket.guarded (Guarded.Shared.init lb K cl) sc).pcs i
          ≠ Guarded.Pc.idle →
        (Guarded.run LeakyBucket.guarded (Guarded.Shared.init lb K cl) sc).pcs i
          ≠ Guarded.Pc.lock →
        (Guarded.run LeakyBucket.guarded (Guarded.Shared.init lb K cl) sc).pcs j
          ≠ Guarded.Pc.idle →
        (Guarded.run LeakyBucket.guarded (Guarded.Shared.init lb K cl) sc).pcs j
          ≠ Guarded.Pc.lock → i = j) ∧
      ((Guarded.run LeakyBucket.guarded (Guarded.Shared.init lb K cl) sc).mu = none →
        ∃ cs : List (Int × Int), List.Sublist cs (sc.map Prod.snd) ∧ cs.length ≤ sumTo cl K ∧
          (Guarded.run LeakyBucket.guarded (Guarded.Shared.init lb K cl) sc).state
            = lb.run (cs.map (fun c => (c.1, c.2, 1)))) ∧
      ((Guarded.run LeakyBucket.guarded (Guarded.Shared.init lb K cl) sc).finished K →
        ∃ cs : List (Int × Int), List.Sublist cs (sc.map Prod.snd) ∧ cs.length = sumTo cl K ∧
          (Guarded.run LeakyBucket.guarded (Guarded.Shared.init lb K cl) sc).state
            = lb.run (cs.map (fun c => (c.1, c.2, 1))))) ∧
    (∀ (tb : TokenBucket) (K : Nat) (cl : Nat → Nat) (sc : List (Nat × Int × Int)),
      (∀ i j,
        (Guarded.run TokenBucket.guarded (Guarded.Shared.init tb K cl) sc).pcs i
          ≠ Guarded.Pc.idle →
        (Guarded.run TokenBucket.guarded (Guarded.Shared.init tb K cl) sc).pcs i
          ≠ Guarded.Pc.lock →
        (Guarded.run TokenBucket.guarded (Guarded.Shared.init tb K cl) sc).pcs j
          ≠ Guarded.Pc.idle →
        (Guarded.run TokenBucket.guarded (Guarded.Shared.init tb K cl) sc).pcs j
          ≠ Guarded.Pc.lock → i = j) ∧
      ((Guarded.run TokenBucket.guarded (Guarded.Shared.init tb K cl) sc).mu = none →
        ∃ cs : List (Int × Int), List.Sublist cs (sc.map Prod.snd) ∧ cs.length ≤ sumTo cl K ∧
          (Guarded.run TokenBucket.guarded (Guarded.Shared.init tb K cl) sc).state
            = tb.runOps (cs.map (fun c => TokenBucket.Op.allow c.1 1))) ∧
      ((Guarded.run TokenBucket.guarded (Guarded.Shared.init tb K cl) sc).finished K →
        ∃ cs : List (Int × Int), List.Sublist cs (sc.map Prod.snd) ∧ cs.length = sumTo cl K ∧
          (Guarded.run TokenBucket.guarded (Guarded.Shared.init tb K cl) sc).state
            = tb.runOps (cs.map (fun c => TokenBucket.Op.allow c.1 1)) ∧
          (tb.tokensProcessed = 0 → tb.tokensRejected = 0 → (sumTo cl K : Int) ≤ maxInt64 →
            (Guarded.run TokenBucket.guarded (Guarded.Shared.init tb K cl) sc).state.tokensProcessed
              + (Guarded.run TokenBucket.guarded
                  (Guarded.Shared.init tb K cl) sc).state.tokensRejected
              = (sumTo cl K : Int)))) := by
  obtain ⟨a1, a2, a3, a4, a5, a6, a7⟩ :=
    FixedWindowCounter.Shared.callers_within_limit t0 W M fwc N calls sched hnew htot
  exact ⟨a1, a2, a3, a4, a5, a6, a7,
    fun sw K cl sc => SlidingWindow.callers_are_serial sw K cl sc,
    fun sw K cl sc => SlidingWindowLog.callers_of_log_serial sw K cl sc,
    fun lb K cl sc => LeakyBucket.callers_of_leaky_serial lb K cl sc,
    fun tb K cl sc => TokenBucket.callers_of_bucket_serial tb K cl sc⟩

theorem FixedWindowCounter.concurrent_allow_is_safe_witness :
    (NewFixedWindowCounter sampleNow 5000000000 3 = Except.ok sampleFixed) ∧
    ((sumTo (fun _ => 1) 2 : Int) ≤ maxInt64) ∧
    sumTo (fun _ => 1) 2 = 2 ∧
    (FixedWindowCounter.Shared.run 1
      (FixedWindowCounter.Shared.init sampleFixed 2 (fun _ => 1)) sampleSchedule).finished 2 ∧
    (FixedWindowCounter.Shared.run 1
      (FixedWindowCounter.Shared.init sampleFixed 2 (fun _ => 1)) sampleSchedule).fwc
      = { sampleFixed with RequestCount := 2, RequestsAllowed := 2 } ∧
    (FixedWindowCounter.Shared.run 1
      (FixedWindowCounter.Shared.init sampleFixed 2 (fun _ => 1))
        (sampleSchedule.take 7)).pcs 0 = FixedWindowCounter.Pc.count ∧
    (FixedWindowCounter.Shared.run 1
      (FixedWindowCounter.Shared.init sampleFixed 2 (fun _ => 1))
        (sampleSchedule.take 7)).pcs 1 = FixedWindowCounter.Pc.lock ∧
    (FixedWindowCounter.Shared.run 1
      (FixedWindowCounter.Shared.init sampleFixed 2 (fun _ => 1))
        sampleSchedule).fwc.RequestCount ≤ (3 : Int) ∧
    (FixedWindowCounter.Shared.run 1
        (FixedWindowCounter.Shared.init sampleFixed 2 (fun _ => 1))
          sampleSchedule).fwc.RequestsAllowed
      + (FixedWindowCounter.Shared.run 1
        (FixedWindowCounter.Shared.init sampleFixed 2 (fun _ => 1))
          sampleSchedule).fwc.RequestsDenied
      = (sumTo (fun _ => 1) 2 : Int) ∧
    (Guarded.run SlidingWindow.guarded
      (Guarded.Shared.init sampleSliding 2 (fun _ => 1)) sampleGuardedSchedule).finished 2 ∧
    (Guarded.run SlidingWindow.guarded
      (Guarded.Shared.init sampleSliding 2 (fun _ => 1)) sampleGuardedSchedule).state
      = { sampleSliding with currentWindowRequests := 2, requestsAllowed := 2 } ∧
    (Guarded.run SlidingWindow.guarded
      (Guarded.Shared.init sampleSliding 2 (fun _ => 1)) (sampleGuardedSchedule.take 6)).pcs 0
      = Guarded.Pc.test sampleNow ∧
    (Guarded.run SlidingWindow.guarded
      (Guarded.Shared.init sampleSliding 2 (fun _ => 1)) (sampleGuardedSchedule.take 6)).pcs 1
      = Guarded.Pc.lock ∧
    (∃ cs : List (Int × Int), List.Sublist cs (sampleGuardedSchedule.map Prod.snd) ∧
      cs.length = sumTo (fun _ => 1) 2 ∧
      (Guarded.run SlidingWindow.guarded
        (Guarded.Shared.init sampleSliding 2 (fun _ => 1)) sampleGuardedSchedule).state
        = sampleSliding.run (cs.map (fun c => (c.1, 1))) ∧
      (sampleSliding.requestsAllowed = 0 → sampleSliding.requestsDenied = 0 →
        (sumTo (fun _ => 1) 2 : Int) ≤ maxInt64 →
        (Guarded.run SlidingWindow.guarded (Guarded.Shared.init sampleSliding 2 (fun _ => 1))
            sampleGuardedSchedule).state.requestsAllowed
          + (Guarded.run SlidingWindow.guarded (Guarded.Shared.init sampleSliding 2 (fun _ => 1))
            sampleGuardedSchedule).state.requestsDenied
          = (sumTo (fun _ => 1) 2 : Int))) ∧
    (Guarded.run SlidingWindowLog.guarded
      (Guarded.Shared.init sampleLog 2 (fun _ => 1)) sampleGuardedSchedule).finished 2 ∧
    (Guarded.run SlidingWindowLog.guarded
      (Guarded.Shared.init sampleLog 2 (fun _ => 1)) sampleGuardedSchedule).state.requestLog.toList
      = [sampleNow, sampleNow] ∧
    (Guarded.run LeakyBucket.guarded
      (Guarded.Shared.init sampleLeaky 2 (fun _ => 1)) sampleGuardedSchedule).finished 2 ∧
    (Guarded.run LeakyBucket.guarded
      (Guarded.Shared.init sampleLeaky 2 (fun _ => 1)) sampleGuardedSchedule).state
      = { sampleLeaky with queue := F64.fin 2 } ∧
    (Guarded.run TokenBucket.guarded
      (Guarded.Shared.init sampleToken 2 (fun _ => 1)) sampleGuardedSchedule).finished 2 ∧
    (Guarded.run TokenBucket.guarded
      (Guarded.Shared.init sampleToken 2 (fun _ => 1)) sampleGuardedSchedule).state
      = { sampleToken with tokensRejected := 2 } :=
  ⟨rfl, by decide, by decide, by unfold FixedWindowCounter.Shared.finished; decide, by decide,
    by decide, by decide,
    (FixedWindowCounter.concurrent_allow_is_safe sampleNow 5000000000 3 sampleFixed 2
      (fun _ => 1) sampleSchedule rfl (by decide)).1,
    (FixedWindowCounter.concurrent_allow_is_safe sampleNow 5000000000 3 sampleFixed 2
      (fun _ => 1) sampleSchedule rfl (by decide)).2.2.2.2.2.2.1
      (by unfold FixedWindowCounter.Shared.finished; decide),
    by unfold Guarded.Shared.finished; decide!, by decide!, by decide!, by decide!,
    ((FixedWindowCounter.concurrent_allow_is_safe sampleNow 5000000000 3 sampleFixed 2
      (fun _ => 1) sampleSchedule rfl (by decide)).2.2.2.2.2.2.2.1
      sampleSliding 2 (fun _ => 1) sampleGuardedSchedule).2.2
      (by unfold Guarded.Shared.finished; decide!),
    by unfold Guarded.Shared.finished; decide!, by decide!,
    by unfold Guarded.Shared.finished; decide!, by decide!,
    by unfold Guarded.Shared.finished; decide!, by decide!⟩

/-! ## FixedWindowCounter: bursts at a window boundary -/

theorem truncate_mono {W t1 t2 : Int} (hW : 0 < W) (h : t1 ≤ t2) :
    Time.Truncate t1 W ≤ Time.Truncate t2 W := by
  unfold Time.Truncate
  rw [if_neg (not_le.mpr hW)]
  have e1 := Int.emod_add_ediv t1 W
  have e2 := Int.emod_add_ediv t2 W
  have hd : t1 / W ≤ t2 / W := Int.ediv_le_ediv hW h
  have : W * (t1 / W) ≤ W * (t2 / W) := Int.mul_le_mul_of_nonneg_left hd (le_of_lt hW)
  omega

theorem truncate_le_self {W t : Int} (hW : 0 < W) : Time.Truncate t W ≤ t := by
  unfold Time.Truncate
  rw [if_neg (not_le.mpr hW)]
  have := Int.emod_nonneg t (ne_of_gt hW)
  omega

theorem truncate_of_multiple {W a : Int} (hW : 0 < W) (ha : a % W = 0) :
    Time.Truncate a W = a := by
  unfold Time.Truncate
  rw [if_neg (not_le.mpr hW), ha, sub_zero]

theorem FixedWindowCounter.admittedWhere_eq_zero (p : Int → Bool) :
    ∀ (cs : List (Int × Int)) (s : FixedWindowCounter), (∀ c ∈ cs, p c.1 = false) →
      s.admittedWhere p cs = 0 := by
  intro cs
  induction cs with
  | nil => intro s _; rfl
  | cons c cs ih =>
    intro s h
    unfold FixedWindowCounter.admittedWhere
    have hc := h c (List.mem_cons_self _ _)
    rw [ih _ (fun x hx => h x (List.mem_cons_of_mem _ hx))]
    simp [hc]

theorem FixedWindowCounter.allow_true_pos (s : FixedWindowCounter) (t n : Int)
    (h : (s.Allow t n).2 = true) : 0 < n := by
  by_contra hn
  unfold FixedWindowCounter.Allow at h
  rw [if_pos (not_lt.mp hn)] at h
  exact Bool.false_ne_true h

theorem FixedWindowCounter.admittedWhere_le_union (p q1 q2 : Int → Bool)
    (hp : ∀ t, p t = true → q1 t = true ∨ q2 t = true) :
    ∀ (cs : List (Int × Int)) (s : FixedWindowCounter),
      s.admittedWhere p cs ≤ s.admittedWhere q1 cs + s.admittedWhere q2 cs := by
  intro cs
  induction cs with
  | nil => intro s; simp [FixedWindowCounter.admittedWhere]
  | cons c cs ih =>
    intro s
    unfold FixedWindowCounter.admittedWhere
    have hih := ih (s.Allow c.1 c.2).1
    by_cases hadm : (s.Allow c.1 c.2).2 = true
    · have hn := FixedWindowCounter.allow_true_pos s c.1 c.2 hadm
      by_cases hpc : p c.1 = true
      · rcases hp c.1 hpc with h1 | h1
        · by_cases h2 : q2 c.1 = true
          · simp only [hadm, hpc, h1, h2, and_self, if_true]; omega
          · simp only [hadm, hpc, h1, h2, and_self, and_false, and_true, if_true, if_false]; omega
        · by_cases h2 : q1 c.1 = true
          · simp only [hadm, hpc, h1, h2, and_self, if_true]; omega
          · simp only [hadm, hpc, h1, h2, and_self, and_false, and_true, if_true, if_false]; omega
      · by_cases h1 : q1 c.1 = true <;> by_cases h2 : q2 c.1 = true <;>
          simp only [hadm, hpc, h1, h2, and_self, and_false, and_true, if_true, if_false] <;>
          omega
    · have hf : (s.Allow c.1 c.2).2 = false := by simpa using hadm
      simp only [hf, Bool.false_eq_true, false_and, if_false]
      omega

theorem FixedWindowCounter.allow_windowSize (s : FixedWindowCounter) (t n : Int) :
    (s.Allow t n).1.WindowSize = s.WindowSize := by
  unfold FixedWindowCounter.Allow FixedWindowCounter.rollover
  dsimp only
  split_ifs <;> rfl

theorem FixedWindowCounter.Within.allow_fixed {W M : Int} {s : FixedWindowCounter}
    (h : s.Within W M) (hM : 0 < M) (t n : Int) (hn : n ≤ maxInt64 - M) :
    (s.Allow t n).1.Within W M := by
  obtain ⟨hW, hMx, h0, h1⟩ := h
  obtain ⟨b1, b2, b3⟩ := FixedWindowCounter.allow_keeps_bounds s t n (by rw [hMx]; exact hM) h0
    (by rw [hMx]; exact h1) (by rw [hMx]; exact hn)
  exact ⟨by rw [FixedWindowCounter.allow_windowSize, hW], by rw [b1, hMx], b2,
    by rw [← hMx]; exact b3⟩

/-- One call made in the aligned window that starts at `a`: what it admits
comes out of the room left in that window. -/
theorem FixedWindowCounter.allow_in_window {W M a : Int} {s : FixedWindowCounter}
    (h : s.Within W M) (hM : 0 < M) (t n : Int) (hn : n ≤ maxInt64 - M)
    (ha : Time.Truncate t W = a) :
    (if (s.Allow t n).2 = true then n else 0) + (s.Allow t n).1.roomIn a ≤ s.roomIn a := by
  obtain ⟨hW, hMx, h0, h1⟩ := h
  by_cases hpos : 0 < n
  · obtain ⟨_, c2, c3, c4⟩ := FixedWindowCounter.rollover_config s t
    rw [hW, ha] at c3
    have hc : (s.rollover t).RequestCount =
        if s.CurrentWindow = Time.Unix a then s.RequestCount else 0 := by
      unfold FixedWindowCounter.rollover
      rw [hW, ha]
      by_cases hk : s.CurrentWindow = Time.Unix a
      · simp [hk]
      · have hk2 : Time.Unix a ≠ s.CurrentWindow := fun e => hk e.symm
        simp [hk, hk2]
    have hb0 : 0 ≤ (s.rollover t).RequestCount := by rw [hc]; split_ifs <;> omega
    have hb1 : (s.rollover t).RequestCount ≤ M := by rw [hc]; split_ifs <;> omega
    have hadd : add64 (s.rollover t).RequestCount n = (s.rollover t).RequestCount + n := by
      apply add64_eq_add
      unfold maxInt64 at hn
      unfold isInt64 minInt64 maxInt64
      constructor <;> omega
    have hroom : s.roomIn a = M - (s.rollover t).RequestCount := by
      unfold FixedWindowCounter.roomIn
      rw [hc, hMx]
      split_ifs <;> omega
    rw [FixedWindowCounter.Allow_pos_fixed s t n hpos, hroom]
    by_cases hadm : add64 (s.rollover t).RequestCount n ≤ (s.rollover t).MaxRequests
    · rw [if_pos hadm]
      unfold FixedWindowCounter.roomIn
      simp only [c3, if_true, c2, hMx, hadd]
      omega
    · rw [if_neg hadm]
      unfold FixedWindowCounter.roomIn
      simp only [c3, if_true, c2, hMx, Bool.false_eq_true, if_false]
      omega
  · have hle : n ≤ 0 := not_lt.mp hpos
    have e : s.Allow t n = (s, false) := by
      unfold FixedWindowCounter.Allow
      simp only [hle, if_true]
    rw [e]
    simp

theorem FixedWindowCounter.Within.roomIn_bounds {W M : Int} {s : FixedWindowCounter}
    (h : s.Within W M) (hM : 0 < M) (a : Int) : 0 ≤ s.roomIn a ∧ s.roomIn a ≤ M := by
  obtain ⟨_, hMx, h0, h1⟩ := h
  unfold FixedWindowCounter.roomIn
  rw [hMx]
  split_ifs <;> constructor <;> omega

/-- Calls made from the aligned window that starts at `a` on, in time order:
the calls made inside that window admit no more than the room left in it. -/
theorem FixedWindowCounter.admitted_from_window (W M a : Int) (hW : 0 < W) (hM : 0 < M)
    (ha : a % W = 0) :
    ∀ (cs : List (Int × Int)) (s : FixedWindowCounter) (T : Int), s.Within W M →
      (T :: cs.map Prod.fst).Pairwise (· ≤ ·) → a ≤ T →
      (∀ c ∈ cs, c.2 ≤ maxInt64 - M) →
      s.admittedWhere (fun t => decide (Time.Truncate t W = a)) cs ≤ s.roomIn a := by
  intro cs
  induction cs with
  | nil =>
    intro s T h _ _ _
    exact (h.roomIn_bounds hM a).1
  | cons c cs ih =>
    intro s T h hsorted haT hsmall
    have hn := hsmall c (List.mem_cons_self _ _)
    have hsmall2 : ∀ x ∈ cs, x.2 ≤ maxInt64 - M :=
      fun x hx => hsmall x (List.mem_cons_of_mem _ hx)
    simp only [List.map_cons, List.pairwise_cons] at hsorted
    obtain ⟨hT, hc, hrest⟩ := hsorted
    have hTc : T ≤ c.1 := hT c.1 (List.mem_cons_self _ _)
    by_cases hin : Time.Truncate c.1 W = a
    · have hstep := FixedWindowCounter.allow_in_window h hM c.1 c.2 hn hin
      have hih := ih (s.Allow c.1 c.2).1 c.1 (h.allow_fixed hM c.1 c.2 hn)
        (List.pairwise_cons.mpr ⟨hc, hrest⟩) (by omega) hsmall2
      unfold FixedWindowCounter.admittedWhere
      by_cases hadm : (s.Allow c.1 c.2).2 = true
      · simp only [hadm, hin, decide_True, and_self, if_true] at hstep ⊢
        omega
      · have hf : (s.Allow c.1 c.2).2 = false := by simpa using hadm
        simp only [hf, Bool.false_eq_true, false_and, if_false] at hstep ⊢
        omega
    · have hlate : ∀ x ∈ c :: cs,
          (fun t => decide (Time.Truncate t W = a)) x.1 = false := by
        intro x hx
        have hcx : c.1 ≤ x.1 := by
          rcases List.mem_cons.mp hx with e | e
          · rw [e]
          · exact hc x.1 (List.mem_map_of_mem _ e)
        have h1 : a ≤ Time.Truncate c.1 W := by
          have := truncate_mono hW (show a ≤ c.1 by omega)
          rw [truncate_of_multiple hW ha] at this
          exact this
        have h2 := truncate_mono hW hcx
        have h3 : a < Time.Truncate c.1 W := lt_of_le_of_ne h1 (fun e => hin e.symm)
        simp only [decide_eq_false_iff_not]
        omega
      rw [FixedWindowCounter.admittedWhere_eq_zero _ _ _ hlate]
      exact (h.roomIn_bounds hM a).1

/-- Calls in time order: the calls made inside one aligned window admit no
more than the limit. -/
theorem FixedWindowCounter.admitted_in_window_le (W M a : Int) (hW : 0 < W) (hM : 0 < M)
    (ha : a % W = 0) :
    ∀ (cs : List (Int × Int)) (s : FixedWindowCounter), s.Within W M →
      (cs.map Prod.fst).Pairwise (· ≤ ·) → (∀ c ∈ cs, c.2 ≤ maxInt64 - M) →
      s.admittedWhere (fun t => decide (Time.Truncate t W = a)) cs ≤ M := by
  intro cs
  induction cs with
  | nil => intro s _ _ _; exact le_of_lt hM
  | cons c cs ih =>
    intro s h hsorted hsmall
    by_cases hlt : c.1 < a
    · have hn := hsmall c (List.mem_cons_self _ _)
      have hout : ¬ Time.Truncate c.1 W = a := by
        have := truncate_le_self (t := c.1) hW
        omega
      simp only [List.map_cons, List.pairwise_cons] at hsorted
      unfold FixedWindowCounter.admittedWhere
      have := ih (s.Allow c.1 c.2).1 (h.allow_fixed hM c.1 c.2 hn) hsorted.2
        (fun x hx => hsmall x (List.mem_cons_of_mem _ hx))
      simp only [hout, decide_False, Bool.false_eq_true, and_false, if_false, zero_add]
      exact this
    · have := FixedWindowCounter.admitted_from_window W M a hW hM ha (c :: cs) s c.1 h
        (by
          simp only [List.map_cons, List.pairwise_cons] at hsorted ⊢
          refine ⟨?_, hsorted⟩
          intro x hx
          rcases List.mem_cons.mp hx with e | e
          · rw [e]
          · exact hsorted.1 x e)
        (not_lt.mp hlt) hsmall
      exact le_trans this (h.roomIn_bounds hM a).2

theorem lt_truncate_add {W t : Int} (hW : 0 < W) : t < Time.Truncate t W + W := by
  unfold Time.Truncate
  rw [if_neg (not_le.mpr hW)]
  have := Int.emod_lt_of_pos t hW
  omega

/-- A time in an interval shorter than `W` lies in the aligned window of the
start of the interval or in the next one. -/
theorem truncate_in_short_interval {W lo hi t : Int} (hW : 0 < W) (hshort : hi - lo < W)
    (h1 : lo ≤ t) (h2 : t ≤ hi) :
    Time.Truncate t W = Time.Truncate lo W ∨ Time.Truncate t W = Time.Truncate lo W + W := by
  have ha := truncate_emod lo W hW
  have hle := truncate_le_self (t := lo) hW
  have hlt := lt_truncate_add (t := lo) hW
  by_cases hc : t < Time.Truncate lo W + W
  · left
    exact truncate_eq_of_mem_window hW ha (by omega) hc
  · right
    have ha2 : (Time.Truncate lo W + W) % W = 0 := by
      rw [Int.add_emod, ha, Int.emod_self]; rfl
    exact truncate_eq_of_mem_window hW ha2 (by omega) (by omega)

/-- Scope of the failure of C35: on a counter built by
`NewFixedWindowCounter`, for calls in time order whose sizes are at most
`MaxInt64 - MaxRequests`, the calls made within an interval shorter than the
window admit at most `2 * MaxRequests` units. -/
theorem FixedWindowCounter.burst_bound_without_overflow (tc W M : Int)
    (fwc0 : FixedWindowCounter) (calls : List (Int × Int)) (lo hi : Int)
    (hnew : NewFixedWindowCounter tc W M = Except.ok fwc0)
    (htimes : (calls.map Prod.fst).Pairwise (· ≤ ·))
    (hsmall : ∀ c ∈ calls, c.2 ≤ maxInt64 - M) (hshort : hi - lo < W) :
    fwc0.admittedIn lo hi calls ≤ 2 * M := by
  obtain ⟨hW, hM, h0⟩ := NewFixedWindowCounter_ok hnew
  have hwithin : fwc0.Within W M := by
    rw [h0]; exact ⟨rfl, rfl, le_refl _, le_of_lt hM⟩
  have ha := truncate_emod lo W hW
  have ha2 : (Time.Truncate lo W + W) % W = 0 := by
    rw [Int.add_emod, ha, Int.emod_self]; rfl
  have hunion := FixedWindowCounter.admittedWhere_le_union
    (fun t => decide (lo ≤ t ∧ t ≤ hi))
    (fun t => decide (Time.Truncate t W = Time.Truncate lo W))
    (fun t => decide (Time.Truncate t W = Time.Truncate lo W + W))
    (fun t ht => by
      simp only [decide_eq_true_eq] at ht ⊢
      exact truncate_in_short_interval hW hshort ht.1 ht.2) calls fwc0
  have hb1 := FixedWindowCounter.admitted_in_window_le W M _ hW hM ha calls fwc0 hwithin
    htimes hsmall
  have hb2 := FixedWindowCounter.admitted_in_window_le W M _ hW hM ha2 calls fwc0 hwithin
    htimes hsmall
  unfold FixedWindowCounter.admittedIn
  omega

/-- C35 (failing input): `NewFixedWindowCounter(5*time.Second, 3)`, then
`Allow(2)` and `Allow(math.MaxInt64)` at the same instant. Both calls are
admitted, because `2 + MaxInt64` wraps to a negative `int64`, so the units
admitted within an interval of length 0 are `2 + MaxInt64`, more than
`2 * MaxRequests = 6`. -/
theorem FixedWindowCounter.burst_above_twice_limit :
    NewFixedWindowCounter sampleNow 5000000000 3 = Except.ok sampleFixed ∧
    sampleFixed.results [(sampleNow, 2), (sampleNow, maxInt64)] = [true, true] ∧
    sampleFixed.admittedIn sampleNow sampleNow [(sampleNow, 2), (sampleNow, maxInt64)]
      = 2 + maxInt64 ∧
    sampleNow - sampleNow < sampleFixed.WindowSize ∧
    ¬ (2 + maxInt64 ≤ 2 * sampleFixed.MaxRequests) := by
  refine ⟨rfl, by decide, by decide, by decide, by decide⟩

/-- The last nanosecond of an aligned window and the first one of the next
window have different window keys when the boundary is a whole second. -/
theorem unix_truncate_at_boundary (W : Int) (hW : 1 < W) :
    Time.Truncate (W * 1000000000 - 1) W = W * 1000000000 - W ∧
    Time.Truncate (W * 1000000000) W = W * 1000000000 ∧
    Time.Unix (W * 1000000000 - W) ≠ Time.Unix (W * 1000000000) := by
  have hW0 : 0 < W := by omega
  have hmul : (W * 1000000000 - W) % W = 0 := by
    have : W * 1000000000 - W = W * 999999999 := by ring
    rw [this]; exact Int.mul_emod_right _ _
  have hmul2 : (W * 1000000000) % W = 0 := Int.mul_emod_right _ _
  refine ⟨truncate_eq_of_mem_window hW0 hmul (by omega) (by omega),
    truncate_of_multiple hW0 hmul2, ?_⟩
  unfold Time.Unix
  have h1 : W * 1000000000 / 1000000000 = W := Int.mul_ediv_cancel _ (by norm_num)
  have h2 : (W * 1000000000 - W) / 1000000000 < W := by
    apply Int.ediv_lt_of_lt_mul (by norm_num)
    omega
  omega

/-- The burst that C35 names: `M` units in the last nanosecond of a window
and `M` units in the first nanosecond of the next one are all admitted, `2*M`
units within two consecutive nanoseconds; the window is longer than one
nanosecond. -/
theorem FixedWindowCounter.double_burst (W M : Int) (hW : 1 < W) (hM : 0 < M)
    (hM2 : M ≤ maxInt64) :
    ∃ fwc0 : FixedWindowCounter,
      NewFixedWindowCounter (W * 1000000000 - 1) W M = Except.ok fwc0 ∧
      fwc0.results [(W * 1000000000 - 1, M), (W * 1000000000, M)] = [true, true] ∧
      fwc0.admittedIn (W * 1000000000 - 1) (W * 1000000000)
        [(W * 1000000000 - 1, M), (W * 1000000000, M)] = 2 * M ∧
      W * 1000000000 - (W * 1000000000 - 1) < W := by
  obtain ⟨k1, k2, k3⟩ := unix_truncate_at_boundary W hW
  have hW0 : ¬ W ≤ 0 := by omega
  have hM0 : ¬ M ≤ 0 := by omega
  have hadd : add64 0 M = M := by
    unfold maxInt64 at hM2
    unfold add64 wrap64
    omega
  have k4 : ¬ Time.Unix (W * 1000000000) = Time.Unix (W * 1000000000 - W) :=
    fun e => k3 e.symm
  have hnew : NewFixedWindowCounter (W * 1000000000 - 1) W M = Except.ok
      { WindowSize := W, MaxRequests := M,
        CurrentWindow := Time.Unix (W * 1000000000 - W),
        RequestCount := 0, RequestsAllowed := 0, RequestsDenied := 0 } := by
    unfold NewFixedWindowCounter
    rw [if_neg hW0, if_neg hM0, k1]
  have hfirst : FixedWindowCounter.Allow
      { WindowSize := W, MaxRequests := M,
        CurrentWindow := Time.Unix (W * 1000000000 - W),
        RequestCount := 0, RequestsAllowed := 0, RequestsDenied := 0 }
      (W * 1000000000 - 1) M =
      ({ WindowSize := W, MaxRequests := M,
         CurrentWindow := Time.Unix (W * 1000000000 - W),
         RequestCount := M, RequestsAllowed := M, RequestsDenied := 0 }, true) := by
    unfold FixedWindowCounter.Allow FixedWindowCounter.rollover
    simp [hM0, k1, hadd]
  have hsecond : FixedWindowCounter.Allow
      { WindowSize := W, MaxRequests := M,
        CurrentWindow := Time.Unix (W * 1000000000 - W),
        RequestCount := M, RequestsAllowed := M, RequestsDenied := 0 }
      (W * 1000000000) M =
      ({ WindowSize := W, MaxRequests := M,
         CurrentWindow := Time.Unix (W * 1000000000),
         RequestCount := M, RequestsAllowed := add64 M M, RequestsDenied := 0 }, true) := by
    unfold FixedWindowCounter.Allow FixedWindowCounter.rollover
    simp [hM0, k2, hadd, k4]
  refine ⟨_, hnew, ?_, ?_, by omega⟩
  · simp only [FixedWindowCounter.results, hfirst, hsecond]
  · unfold FixedWindowCounter.admittedIn
    simp only [FixedWindowCounter.admittedWhere, hfirst, hsecond]
    simp
    omega

/-! ## Deque: reachable states -/

theorem Deque.pushBack_shape {α : Type} [Inhabited α] (d : Deque α) (x : α) (hwf : d.WF) :
    ∃ d1, d.PushBack x = some d1 ∧ d1.WF ∧ d1.size = d.size + 1 ∧
      (d.size = d.items.length → d1.items.length = d.items.length * 2 ∧ d1.front = 0) ∧
      (d.size ≠ d.items.length → d1.items.length = d.items.length ∧ d1.front = d.front) := by
  obtain ⟨h1, h2, h3⟩ := hwf
  by_cases hfull : d.size = d.items.length
  · obtain ⟨d', hres, hwf', _, hsz, hlen, hfront⟩ := Deque.resize_spec d ⟨h1, h2, h3⟩
    obtain ⟨g1, g2, g3⟩ := hwf'
    unfold Deque.PushBack
    simp only [hfull, if_true, hres]
    have hne : ¬ d'.items.length = 0 := by omega
    have hback : (d'.front + d'.size) % d'.items.length < d'.items.length :=
      Nat.mod_lt _ g1
    simp only [hne, if_false, hback, if_true]
    refine ⟨_, rfl, ⟨by simpa using g1, by simpa using g2, ?_⟩, ?_, ?_, ?_⟩
    · simp only [List.length_set]; omega
    · simp only; omega
    · intro _; simp only [List.length_set]; exact ⟨hlen, hfront⟩
    · intro h; exact absurd rfl h
  · unfold Deque.PushBack
    simp only [hfull, if_false]
    have hne : ¬ d.items.length = 0 := by omega
    have hback : (d.front + d.size) % d.items.length < d.items.length := Nat.mod_lt _ h1
    simp only [hne, if_false, hback, if_true]
    refine ⟨_, rfl, ⟨by simpa using h1, by simpa using h2, ?_⟩, rfl, ?_, ?_⟩
    · simp only [List.length_set]; omega
    · intro h; first | exact absurd h hfull | exact h.elim
    · intro _; simp only [List.length_set]; exact ⟨trivial, trivial⟩

theorem Deque.popFront_shape {α : Type} [Inhabited α] (d : Deque α) (hwf : d.WF) :
    ∃ r, d.PopFront = some r ∧ r.2.WF ∧ r.2.items.length = d.items.length ∧
      r.2.size ≤ d.size := by
  obtain ⟨h1, h2, h3⟩ := hwf
  unfold Deque.PopFront
  by_cases h0 : d.size = 0
  · rw [if_pos h0]
    exact ⟨_, rfl, ⟨h1, h2, h3⟩, rfl, le_refl _⟩
  · rw [if_neg h0]
    have hget : d.items[d.front]? = some (d.items[d.front]) := List.getElem?_eq_getElem h2
    have hne : ¬ d.items.length = 0 := by omega
    simp only [hget, hne, if_false]
    refine ⟨_, rfl, ⟨?_, ?_, ?_⟩, ?_, ?_⟩
    · simpa using h1
    · simp only [List.length_set]; exact Nat.mod_lt _ h1
    · simp only [List.length_set]; omega
    · simp only [List.length_set]
    · simp only; omega

theorem Deque.peekFront_shape {α : Type} [Inhabited α] (d : Deque α) (hwf : d.WF) :
    ∃ r, d.PeekFront = some r := by
  obtain ⟨_, h2, _⟩ := hwf
  unfold Deque.PeekFront
  by_cases h0 : d.size = 0
  · simp only [h0, if_true]; exact ⟨_, rfl⟩
  · simp only [h0, if_false]
    have hget : d.items[d.front]? = some (d.items[d.front]) := List.getElem?_eq_getElem h2
    simp only [hget]
    exact ⟨_, rfl⟩

theorem Deque.NewDeque_shaped (α : Type) [Inhabited α] : (NewDeque α).Shaped := by
  refine ⟨(Deque.NewDeque_spec α).1, 0, ?_⟩
  unfold NewDeque
  simp

theorem Deque.Shaped.applyOp_shaped {α : Type} [Inhabited α] {d : Deque α} (h : d.Shaped)
    (o : Deque.Op α) : ∃ d1, d.applyOp o = some d1 ∧ d1.Shaped := by
  obtain ⟨hwf, k, hk⟩ := h
  cases o with
  | pushBack x =>
    obtain ⟨d1, h1, hwf1, _, hfull, hroom⟩ := Deque.pushBack_shape d x hwf
    refine ⟨d1, h1, hwf1, ?_⟩
    by_cases hf : d.size = d.items.length
    · refine ⟨k + 1, ?_⟩
      rw [(hfull hf).1, hk, pow_succ]; ring
    · exact ⟨k, by rw [(hroom hf).1, hk]⟩
  | popFront =>
    obtain ⟨r, h1, hwf1, hlen, _⟩ := Deque.popFront_shape d hwf
    refine ⟨r.2, ?_, hwf1, k, by rw [hlen, hk]⟩
    unfold Deque.applyOp
    rw [h1]
  | peekFront =>
    obtain ⟨r, h1⟩ := Deque.peekFront_shape d hwf
    refine ⟨d, ?_, hwf, k, hk⟩
    unfold Deque.applyOp
    rw [h1]

theorem Deque.Shaped.runOps_shaped {α : Type} [Inhabited α] (ops : List (Deque.Op α)) :
    ∀ d : Deque α, d.Shaped → ∃ d1, d.runOps ops = some d1 ∧ d1.Shaped := by
  induction ops with
  | nil => intro d h; exact ⟨d, rfl, h⟩
  | cons o os ih =>
    intro d h
    obtain ⟨d1, h1, hs1⟩ := h.applyOp_shaped o
    obtain ⟨d2, h2, hs2⟩ := ih d1 hs1
    refine ⟨d2, ?_, hs2⟩
    unfold Deque.runOps
    rw [h1]
    exact h2

/-- C37: every sequence of `PushBack`, `PopFront` and `PeekFront` calls on
`NewDeque()` runs without a panic and leaves a deque with
`front < len(items)`, `size <= len(items)` and `len(items) = 16 * 2^k`; on
that deque no further operation panics, and a `PushBack` on a full buffer
doubles `len(items)` and sets `front` to 0. -/
theorem Deque.reachable_is_well_formed {α : Type} [Inhabited α] (ops : List (Deque.Op α)) :
    ∃ d : Deque α, (NewDeque α).runOps ops = some d ∧
      d.front < d.items.length ∧ d.size ≤ d.items.length ∧
      (∃ k : Nat, d.items.length = 16 * 2 ^ k) ∧
      (∀ o : Deque.Op α, ∃ d1, d.applyOp o = some d1) ∧
      (d.size = d.items.length → ∀ x : α, ∃ d1, d.PushBack x = some d1 ∧
        d1.items.length = 2 * d.items.length ∧ d1.front = 0 ∧ d1.size = d.size + 1) := by
  obtain ⟨d, hrun, hs⟩ := Deque.Shaped.runOps_shaped ops (NewDeque α) (Deque.NewDeque_shaped α)
  refine ⟨d, hrun, hs.1.2.1, hs.1.2.2, hs.2, ?_, ?_⟩
  · intro o
    obtain ⟨d1, h1, _⟩ := hs.applyOp_shaped o
    exact ⟨d1, h1⟩
  · intro hfull x
    obtain ⟨d1, h1, _, hsz, hf, _⟩ := Deque.pushBack_shape d x hs.1
    exact ⟨d1, h1, by rw [(hf hfull).1]; ring, (hf hfull).2, hsz⟩

/-- A run on the sample: sixteen pushes fill the first buffer, the
seventeenth doubles it, and pops and peeks keep the 32 cells. -/
theorem Deque.sample_growth :
    (((NewDeque Int).runOps ((List.range 16).map (fun i => Deque.Op.pushBack (i : Int)))).map
      (fun d => (d.items.length, d.front, d.size))) = some (16, 0, 16) ∧
    (((NewDeque Int).runOps ((List.range 17).map (fun i => Deque.Op.pushBack (i : Int)) ++
        [Deque.Op.popFront, Deque.Op.peekFront, Deque.Op.popFront])).map
      (fun d => (d.items.length, d.front, d.size))) = some (32, 2, 15) := by
  decide

/-! ## LeakyBucket: is the waiting hint long enough? -/

/-- C38 (counterexample): `NewLeakyBucket(5, 3, PerSecond)` filled by
`Allow(5)` at `sampleNow`. `TimeUntilAllowed(1)` is a third of a second
truncated to 333333333 ns, and `Allow(1)` issued exactly that much later
still finds `4.000000001 + 1 > 5` and returns false. With three units per
nanosecond the hint for one unit truncates to 0 although `Allow(1)` at the
same instant returns false. One nanosecond more is not enough either:
`NewLeakyBucket(1000, 0.011574074074074073, PerSecond)` (a thousand units per
day), filled by `Allow(1000)`, gives 720 s later the hint 68054399999999 ns
for 796 units, and `Allow(796)` fails one nanosecond after the hint has run
out and succeeds two nanoseconds after it. At slower rates the roundings of
the two projections outweigh several nanoseconds of leak:
`NewLeakyBucket(1000000000, 7, PerSecond)`, filled, gives the hint
134218452714285696 ns for 939529169 units, and `Allow(939529169)` still
fails two nanoseconds after the hint has run out. -/
theorem LeakyBucket.hint_too_short :
    NewLeakyBucket sampleNow 5 (F64.fin 3) PerSecond = Except.ok sampleLeakyThree ∧
    sampleLeakyThree.Allow sampleNow sampleNow 5
      = ({ sampleLeakyThree with queue := F64.fin 5 }, true) ∧
    (sampleLeakyThree.Allow sampleNow sampleNow 5).1.TimeUntilAllowed sampleNow 1
      = 333333333 ∧
    ((sampleLeakyThree.Allow sampleNow sampleNow 5).1.Allow (sampleNow + 333333333)
      (sampleNow + 333333333) 1).2 = false ∧
    NewLeakyBucket sampleNow 5 (F64.fin 3000000000) PerSecond = Except.ok sampleLeakyFast ∧
    (sampleLeakyFast.Allow sampleNow sampleNow 5).1.TimeUntilAllowed sampleNow 1 = 0 ∧
    ((sampleLeakyFast.Allow sampleNow sampleNow 5).1.Allow sampleNow sampleNow 1).2 = false ∧
    NewLeakyBucket sampleNow 1000 (F64.fin (3335999723978145 / 288230376151711744)) PerSecond
      = Except.ok sampleLeakyDay ∧
    (sampleLeakyDay.Allow sampleNow sampleNow 1000).1.TimeUntilAllowed
      (sampleNow + 720000000000) 796 = 68054399999999 ∧
    ((sampleLeakyDay.Allow sampleNow sampleNow 1000).1.Allow
      (sampleNow + 720000000000 + 68054399999999 + 1)
      (sampleNow + 720000000000 + 68054399999999 + 1) 796).2 = false ∧
    ((sampleLeakyDay.Allow sampleNow sampleNow 1000).1.Allow
      (sampleNow + 720000000000 + 68054399999999 + 2)
      (sampleNow + 720000000000 + 68054399999999 + 2) 796).2 = true ∧
    NewLeakyBucket sampleNow 1000000000 (F64.fin 7) PerSecond = Except.ok sampleLeakyGiga ∧
    (sampleLeakyGiga.Allow sampleNow sampleNow 1000000000).1.TimeUntilAllowed sampleNow 939529169
      = 134218452714285696 ∧
    ((sampleLeakyGiga.Allow sampleNow sampleNow 1000000000).1.Allow
      (sampleNow + 134218452714285696 + 2) (sampleNow + 134218452714285696 + 2) 939529169).2
      = false := by
  refine ⟨NewLeakyBucket_perSecond sampleNow 5 3 (by decide) (by norm_num), by decide!,
    by decide!, by decide!,
    NewLeakyBucket_perSecond sampleNow 5 3000000000 (by decide) (by norm_num), by decide!,
    by decide!, NewLeakyBucket_perSecond sampleNow 1000 _ (by decide) (by norm_num), by decide!,
    by decide!, by decide!,
    NewLeakyBucket_perSecond sampleNow 1000000000 7 (by decide) (by norm_num), by decide!,
    by decide!⟩

theorem LeakyBucket.specQueue_cases (lb : LeakyBucket) (q r : ℚ) (now : Int)
    (hq : lb.queue = F64.fin q) (hr : lb.leakRate = F64.fin r) (hl : lb.lastLeakTime ≤ now) :
    lb.specQueue now = F64.pinf ∨ ∃ v : ℚ, lb.specQueue now = F64.fin v := by
  obtain ⟨hs0, hs1⟩ := Time.Sub_nonneg hl
  obtain ⟨e, he, _, _⟩ := Duration.Seconds_nonneg hs0 hs1
  have hmul : F64.mul (F64.fin e) (F64.fin r) = F64.round (e * r) := rfl
  unfold LeakyBucket.specQueue
  simp only [he, hr, hq, hmul]
  cases hL : F64.round (e * r) with
  | nan => exact absurd hL (F64.round_ne_nan _)
  | pinf =>
    right
    have hx : F64.sub (F64.fin q) F64.pinf = F64.ninf := rfl
    have hlt : F64.lt F64.ninf (F64.fin 0) = true := rfl
    exact ⟨0, by simp only [hx, hlt, if_true]⟩
  | ninf =>
    left
    have hx : F64.sub (F64.fin q) F64.ninf = F64.pinf := rfl
    have hlt : F64.lt F64.pinf (F64.fin 0) = false := rfl
    simp only [hx, hlt, Bool.false_eq_true, if_false]
  | fin l =>
    have hsub : F64.sub (F64.fin q) (F64.fin l) = F64.round (q + -l) := rfl
    rw [hsub]
    split_ifs
    · right; exact ⟨0, rfl⟩
    · cases hv : F64.round (q + -l) with
      | nan => exact absurd hv (F64.round_ne_nan _)
      | pinf => left; rfl
      | ninf =>
        rename_i hn
        rw [hv] at hn
        exact absurd rfl hn
      | fin v => right; exact ⟨v, rfl⟩

theorem F64.ofInt_pos_cases_int {n : Int} (hn : 0 < n) :
    F64.ofInt n = F64.pinf ∨ ∃ v : ℚ, F64.ofInt n = F64.fin v := by
  rcases F64.round_nonneg (q := (n : ℚ)) (by exact_mod_cast le_of_lt hn) with h | ⟨v, h, _⟩
  · left; exact h
  · right; exact ⟨v, h⟩

/-- The hint and `Allow` at the same instant: for a bucket with a finite
non-negative queue level and a finite leak rate, a time `now >= lastLeakTime`
and `n >= 1`, `Allow(n)` issued at `now` returns true exactly when the
projected queue level plus `n` does not exceed the capacity, which is the
case in which `TimeUntilAllowed(n)` returns its first 0; so a hint other than
0 means that `Allow(n)` fails at `now`. -/
theorem LeakyBucket.allow_now_iff_room (lb : LeakyBucket) (q r : ℚ) (now now2 n : Int)
    (hq : lb.queue = F64.fin q) (hq0 : 0 ≤ q) (hqr : F64.Representable q)
    (hr : lb.leakRate = F64.fin r) (hl : lb.lastLeakTime ≤ now) (hn : 0 < n) :
    ((lb.Allow now now2 n).2 = true ↔
      F64.le (F64.add (lb.getCurrentQueue now) (F64.ofInt n)) (F64.ofInt lb.capacity)
        = true) ∧
    ((lb.Allow now now2 n).2 = true → lb.TimeUntilAllowed now n = 0) ∧
    (lb.TimeUntilAllowed now n ≠ 0 → (lb.Allow now now2 n).2 = false) := by
  have hqueue : lb.getCurrentQueue now = (lb.leak now now2).queue :=
    LeakyBucket.specQueue_eq_leak lb q r now now2 hq hq0 hqr hr hl
  have hsum : F64.add (lb.getCurrentQueue now) (F64.ofInt n) ≠ F64.nan := by
    have hc : lb.getCurrentQueue now = lb.specQueue now := rfl
    rcases LeakyBucket.specQueue_cases lb q r now hq hr hl with h1 | ⟨v, h1⟩ <;>
      rcases F64.ofInt_pos_cases_int hn with h2 | ⟨w, h2⟩ <;>
      rw [hc, h1, h2]
    · simp [F64.add]
    · simp [F64.add]
    · simp [F64.add]
    · exact F64.round_ne_nan _
  have hiff : (lb.Allow now now2 n).2 = true ↔
      F64.le (F64.add (lb.getCurrentQueue now) (F64.ofInt n)) (F64.ofInt lb.capacity)
        = true := by
    rw [LeakyBucket.allow_result_leaky lb now now2 n hn, ← hqueue,
      F64.gt_eq_not_le hsum (F64.ofInt_ne_nan _)]
    simp
  have hzero : (lb.Allow now now2 n).2 = true → lb.TimeUntilAllowed now n = 0 := by
    intro h
    have hle := hiff.mp h
    unfold LeakyBucket.TimeUntilAllowed LeakyBucket.TimeUntilSpace
    simp only [not_le.mpr hn, if_false, hle, if_true]
  refine ⟨hiff, hzero, ?_⟩
  intro hne
  by_contra hc
  exact hne (hzero (by simpa using hc))

theorem LeakyBucket.allow_now_iff_room_witness :
    (sampleLeakyFull.queue = F64.fin 5) ∧
    ((0 : ℚ) ≤ 5) ∧
    (F64.Representable 5) ∧
    (sampleLeakyFull.leakRate = F64.fin 1) ∧
    (sampleLeakyFull.lastLeakTime ≤ sampleNow + 2000000000) ∧
    ((0 : Int) < 2) ∧
    (((sampleLeakyFull.Allow (sampleNow + 2000000000) (sampleNow + 2000000001) (2 : Int)).2 = true ↔
      F64.le (F64.add (sampleLeakyFull.getCurrentQueue (sampleNow + 2000000000)) (F64.ofInt (2 : Int))) (F64.ofInt sampleLeakyFull.capacity)
        = true) ∧
    ((sampleLeakyFull.Allow (sampleNow + 2000000000) (sampleNow + 2000000001) (2 : Int)).2 = true → sampleLeakyFull.TimeUntilAllowed (sampleNow + 2000000000) (2 : Int) = 0) ∧
    (sampleLeakyFull.TimeUntilAllowed (sampleNow + 2000000000) (2 : Int) ≠ 0 → (sampleLeakyFull.Allow (sampleNow + 2000000000) (sampleNow + 2000000001) (2 : Int)).2 = false)) :=
  ⟨rfl, by norm_num, F64.representable_five, rfl, by decide, by decide,
    LeakyBucket.allow_now_iff_room sampleLeakyFull 5 1 (sampleNow + 2000000000) (sampleNow + 2000000001) 2 rfl (by norm_num) F64.representable_five rfl (by decide) (by decide)⟩


/-! ## SlidingWindow: bounds of the counts and of the estimate -/

/-- C36 (counterexample): with the limit 9007199254740995 the call
`Allow(9007199254740996)` is admitted, because `float64` of the limit is
9007199254740996, and the current count exceeds the limit. With a window of
one week and the limit 32: three units in the first week, then `Allow(16)`
twice in the last nanosecond of the second week are admitted, and `Stats`
returns the estimate `32.00000000000001`, above the limit. -/
theorem SlidingWindow.estimate_above_limit :
    NewSlidingWindow sampleNow 100000000 9007199254740995 = Except.ok sampleSlidingBig ∧
    (sampleSlidingBig.Allow sampleNow 9007199254740996).2 = true ∧
    (sampleSlidingBig.Allow sampleNow 9007199254740996).1.currentWindowRequests
      = 9007199254740996 ∧
    NewSlidingWindow sampleNow 604800000000000 32 = Except.ok sampleSlidingWeek ∧
    sampleSlidingWeek.results
      [(sampleNow, 3), (sampleNow + 1043199949999999, 16), (sampleNow + 1043199949999999, 16)]
      = [true, true, true] ∧
    (sampleSlidingWeek.run
      [(sampleNow, 3), (sampleNow + 1043199949999999, 16),
        (sampleNow + 1043199949999999, 16)]).currentWindowRequests = 32 ∧
    ((sampleSlidingWeek.run
      [(sampleNow, 3), (sampleNow + 1043199949999999, 16),
        (sampleNow + 1043199949999999, 16)]).Stats (sampleNow + 1043199949999999)).1
      = F64.fin (4503599627370497 / 140737488355328) ∧
    ((sampleSlidingWeek.run
      [(sampleNow, 3), (sampleNow + 1043199949999999, 16),
        (sampleNow + 1043199949999999, 16)]).DetailedStats
          (sampleNow + 1043199949999999)).2.2
      = F64.fin (4503599627370497 / 140737488355328) ∧
    (32 : ℚ) < 4503599627370497 / 140737488355328 := by
  refine ⟨by rfl, by decide!, by decide!, by rfl, by decide!, by decide!, by decide!,
    by decide!, by norm_num⟩

theorem F64.round_one : F64.round 1 = F64.fin 1 := by
  have := F64.round_intCast_small (c := 1) (by norm_num) (by norm_num)
  simpa using this

/-- The steps of `carryAt` on exact values: the conversions of the elapsed
time and of the window, their quotient, its complement to one after the cap,
and the product with the carried-over count. -/
theorem SlidingWindow.carryAt_chain (W L el : Int) (hW : 0 < W) (hW2 : W ≤ maxInt64)
    (hL0 : 0 ≤ L) (hL : L ≤ 2 ^ 53) (he0 : 0 ≤ el) (he : el ≤ maxInt64) :
    ∃ α ω δ σ x : ℚ,
      F64.round (el : ℚ) = F64.fin α ∧ F64.round (W : ℚ) = F64.fin ω ∧ 1 ≤ ω ∧ 0 ≤ α ∧
      F64.round (α / ω) = F64.fin δ ∧ 0 ≤ δ ∧
      F64.round (1 - min δ 1) = F64.fin σ ∧ 0 ≤ σ ∧ σ ≤ 1 ∧
      F64.round (σ * (L : ℚ)) = F64.fin x ∧ 0 ≤ x ∧ x ≤ (L : ℚ) ∧
      SlidingWindow.carryAt W L el = F64.fin x := by
  obtain ⟨α, hα, hα0, hα1, _⟩ := F64.ofInt_nonneg_small he0 he
  obtain ⟨ω, hω, _, _, hω1⟩ := F64.ofInt_nonneg_small (le_of_lt hW) hW2
  have hω1 := hω1 (by omega)
  have hωpos : 0 < ω := by linarith
  have hq0 : 0 ≤ α / ω := div_nonneg hα0 (le_of_lt hωpos)
  have hq1 : α / ω ≤ 9223372036854775808 := by
    rw [div_le_iff₀ hωpos]
    nlinarith
  obtain ⟨δ, hδ, hδ0, _, _⟩ := F64.round_nonneg_small hq0 hq1
  have hm0 : 0 ≤ 1 - min δ 1 := by
    have := min_le_right δ 1
    linarith
  have hm1 : 1 - min δ 1 ≤ 1 := by
    have := le_min hδ0 (by norm_num : (0 : ℚ) ≤ 1)
    linarith
  obtain ⟨σ, hσ, hσ0, hσ1⟩ := F64.round_le_of_le hm0 hm1 F64.round_one
  have hLq : (0 : ℚ) ≤ (L : ℚ) := by exact_mod_cast hL0
  have hLr : F64.round (L : ℚ) = F64.fin (L : ℚ) := F64.round_intCast_small hL0 hL
  have hp0 : 0 ≤ σ * (L : ℚ) := mul_nonneg hσ0 hLq
  have hp1 : σ * (L : ℚ) ≤ (L : ℚ) := by nlinarith
  obtain ⟨x, hx, hx0, hx1⟩ := F64.round_le_of_le hp0 hp1 hLr
  refine ⟨α, ω, δ, σ, x, hα, hω, hω1, hα0, hδ, hδ0, hσ, hσ0, hσ1, hx, hx0, hx1, ?_⟩
  have hα2 : F64.ofInt el = F64.fin α := hα
  have hω2 : F64.ofInt W = F64.fin ω := hω
  have hL2 : F64.ofInt L = F64.fin (L : ℚ) := hLr
  have hdiv : F64.div (F64.fin α) (F64.fin ω) = F64.fin δ := by
    show (if ω = 0 then _ else F64.round (α / ω)) = _
    rw [if_neg (ne_of_gt hωpos), hδ]
  unfold SlidingWindow.carryAt
  simp only [hα2, hω2, hL2, hdiv]
  have hclamp : (if F64.gt (F64.fin δ) (F64.fin 1) = true then F64.fin 1 else F64.fin δ)
      = F64.fin (min δ 1) := by
    by_cases h1 : 1 < δ
    · have : F64.gt (F64.fin δ) (F64.fin 1) = true := decide_eq_true h1
      rw [if_pos this, min_eq_right (le_of_lt h1)]
    · have : ¬ F64.gt (F64.fin δ) (F64.fin 1) = true := by
        intro h
        exact h1 (of_decide_eq_true h)
      rw [if_neg this, min_eq_left (not_lt.mp h1)]
  rw [hclamp]
  have hsub : F64.sub (F64.fin 1) (F64.fin (min δ 1)) = F64.fin σ := by
    show F64.round (1 + -(min δ 1)) = _
    rw [← sub_eq_add_neg, hσ]
  rw [hsub]
  show F64.round (σ * (L : ℚ)) = _
  exact hx

theorem SlidingWindow.carryAt_spec (W L el : Int) (hW : 0 < W) (hW2 : W ≤ maxInt64)
    (hL0 : 0 ≤ L) (hL : L ≤ 2 ^ 53) (he0 : 0 ≤ el) (he : el ≤ maxInt64) :
    ∃ x : ℚ, SlidingWindow.carryAt W L el = F64.fin x ∧ 0 ≤ x ∧ x ≤ (L : ℚ) := by
  obtain ⟨_, _, _, _, x, _, _, _, _, _, _, _, _, _, _, hx0, hx1, hx⟩ :=
    SlidingWindow.carryAt_chain W L el hW hW2 hL0 hL he0 he
  exact ⟨x, hx, hx0, hx1⟩

/-- The share of the previous window does not grow while time passes. -/
theorem SlidingWindow.carryAt_mono (W L el1 el2 : Int) (hW : 0 < W) (hW2 : W ≤ maxInt64)
    (hL0 : 0 ≤ L) (hL : L ≤ 2 ^ 53) (he0 : 0 ≤ el1) (h12 : el1 ≤ el2) (he : el2 ≤ maxInt64)
    {x1 x2 : ℚ} (h1 : SlidingWindow.carryAt W L el1 = F64.fin x1)
    (h2 : SlidingWindow.carryAt W L el2 = F64.fin x2) : x2 ≤ x1 := by
  obtain ⟨α1, ω1, δ1, σ1, y1, a1, w1, hω1, hα1, d1, hδ1, s1, hσ1, _, p1, _, _, c1⟩ :=
    SlidingWindow.carryAt_chain W L el1 hW hW2 hL0 hL he0 (by omega)
  obtain ⟨α2, ω2, δ2, σ2, y2, a2, w2, _, hα2, d2, hδ2, s2, hσ2, _, p2, _, _, c2⟩ :=
    SlidingWindow.carryAt_chain W L el2 hW hW2 hL0 hL (by omega) he
  have hω : ω1 = ω2 := by
    rw [w1] at w2
    exact F64.fin.inj w2
  subst hω
  have hy1 : y1 = x1 := by rw [c1] at h1; exact F64.fin.inj h1
  have hy2 : y2 = x2 := by rw [c2] at h2; exact F64.fin.inj h2
  subst hy1; subst hy2
  have hωpos : 0 < ω1 := by linarith
  have hLq : (0 : ℚ) ≤ (L : ℚ) := by exact_mod_cast hL0
  have hα : α1 ≤ α2 :=
    F64.round_mono_fin (by exact_mod_cast he0) (by exact_mod_cast h12) a1 a2
  have hδ : δ1 ≤ δ2 :=
    F64.round_mono_fin (div_nonneg hα1 (le_of_lt hωpos))
      (div_le_div_of_nonneg_right hα (le_of_lt hωpos)) d1 d2
  have hmin : min δ1 1 ≤ min δ2 1 := min_le_min hδ (le_refl _)
  have hσ : σ2 ≤ σ1 :=
    F64.round_mono_fin (by have := min_le_right δ2 1; linarith) (by linarith) s2 s1
  exact F64.round_mono_fin (mul_nonneg hσ2 hLq) (mul_le_mul_of_nonneg_right hσ hLq) p2 p1

theorem F64.round_half_integer {k : Int} (h0 : 0 ≤ k) (h1 : k < 2 ^ 52) :
    F64.round ((k : ℚ) + 1 / 2) = F64.fin ((k : ℚ) + 1 / 2) := by
  apply F64.round_exact
  have hp : pow2 (-1) = 1 / 2 := by
    unfold pow2
    norm_num
  have hk : (k : ℚ) < 4503599627370496 := by exact_mod_cast h1
  have hk0 : (0 : ℚ) ≤ (k : ℚ) := by exact_mod_cast h0
  refine ⟨2 * k + 1, -1, ?_, by norm_num, ?_, ?_⟩
  · rw [abs_of_nonneg (by omega)]; omega
  · rw [hp]; push_cast; ring
  · rw [abs_of_nonneg (by linarith)]
    have h53 : pow2 53 < pow2 1024 := pow2_lt_pow2.mpr (by norm_num)
    rw [pow2_lit_53] at h53
    linarith

/-- What an admitted call tells about the exact sum: with a current count
`c`, a share `x` of the previous window and a limit `M < 2^52`, the check
`float64(c) + x + float64(n) <= float64(M)` can pass only if `c + n <= M` and
the exact sum `c + n + x` is at most `M + 1/2`. -/
theorem SlidingWindow.admit_bound (c n M : Int) (x : ℚ) (hc0 : 0 ≤ c) (hcM : c ≤ M)
    (hM : M < 2 ^ 52) (hn : 0 < n) (hx0 : 0 ≤ x) (hxM : (c : ℚ) + x ≤ (M : ℚ) + 1 / 2)
    (hadm : F64.le (F64.add (F64.add (F64.ofInt c) (F64.fin x)) (F64.ofInt n)) (F64.ofInt M)
      = true) :
    (c : ℚ) + (n : ℚ) + x ≤ (M : ℚ) + 1 / 2 ∧ c + n ≤ M := by
  have hM0 : 0 ≤ M := by omega
  have hcq : (0 : ℚ) ≤ (c : ℚ) := by exact_mod_cast hc0
  have hcMq : (c : ℚ) ≤ (M : ℚ) := by exact_mod_cast hcM
  have hMq : (M : ℚ) < 4503599627370496 := by exact_mod_cast hM
  have hnq : (1 : ℚ) ≤ (n : ℚ) := by exact_mod_cast hn
  have hofc : F64.ofInt c = F64.fin (c : ℚ) := F64.round_intCast_small hc0 (by omega)
  have hofM : F64.ofInt M = F64.fin (M : ℚ) := F64.round_intCast_small hM0 (by omega)
  obtain ⟨σ, hσ, hσ0, _, _⟩ := F64.round_nonneg_small (q := (c : ℚ) + x) (by linarith)
    (by linarith)
  have hsl : F64.add (F64.ofInt c) (F64.fin x) = F64.fin σ := by
    rw [hofc]; exact hσ
  rw [hsl, hofM] at hadm
  -- the request size is a finite float64
  rcases F64.ofInt_pos_cases hn with hinf | ⟨ν, hν, hν0⟩
  · rw [hinf] at hadm
    have hf : F64.le (F64.add (F64.fin σ) F64.pinf) (F64.fin (M : ℚ)) = false := rfl
    rw [hf] at hadm
    exact absurd hadm (by simp)
  rw [hν] at hadm
  have hsum : F64.add (F64.fin σ) (F64.fin ν) = F64.round (σ + ν) := rfl
  rw [hsum] at hadm
  rcases F64.round_nonneg (q := σ + ν) (by linarith) with hp | ⟨ρ, hρ, hρ0⟩
  · rw [hp] at hadm
    have hf : F64.le F64.pinf (F64.fin (M : ℚ)) = false := rfl
    rw [hf] at hadm
    exact absurd hadm (by simp)
  rw [hρ] at hadm
  have hρM : ρ ≤ (M : ℚ) := of_decide_eq_true hadm
  -- the request is not larger than the limit
  have hnM : n ≤ M := by
    by_contra hgt
    have hlt : M + 1 ≤ n := by omega
    have hrep : F64.round (((M + 1 : Int) : ℚ)) = F64.fin (((M + 1 : Int) : ℚ)) :=
      F64.round_intCast_small (by omega) (by omega)
    have hle : (((M + 1 : Int) : ℚ)) ≤ (n : ℚ) := by exact_mod_cast hlt
    have hνr : F64.round (n : ℚ) = F64.fin ν := hν
    rcases F64.le_round_of_le (by exact_mod_cast (by omega : (0 : Int) ≤ M + 1)) hle hrep
      with h | ⟨r, h, hr⟩
    · rw [hνr] at h; exact absurd h (by simp)
    · rw [hνr] at h
      have hrν : ν = r := F64.fin.inj h
      have h2 : (((M + 1 : Int) : ℚ)) ≤ σ + ν := by rw [hrν]; linarith
      rcases F64.le_round_of_le (by exact_mod_cast (by omega : (0 : Int) ≤ M + 1)) h2 hrep
        with h3 | ⟨r2, h3, hr2⟩
      · rw [hρ] at h3; exact absurd h3 (by simp)
      · rw [hρ] at h3
        have : ρ = r2 := F64.fin.inj h3
        push_cast at hr2
        linarith
  have hνn : ν = (n : ℚ) := by
    have := F64.round_intCast_small (c := n) (by omega) (by omega)
    have hνr : F64.round (n : ℚ) = F64.fin ν := hν
    rw [this] at hνr
    exact (F64.fin.inj hνr).symm
  have hnMq : (n : ℚ) ≤ (M : ℚ) := by exact_mod_cast hnM
  have hmain : (c : ℚ) + (n : ℚ) + x ≤ (M : ℚ) + 1 / 2 := by
    by_contra hgt
    have hgt2 : (M : ℚ) + 1 / 2 < (c : ℚ) + (n : ℚ) + x := not_le.mp hgt
    have hκ : F64.round ((((M - n : Int)) : ℚ) + 1 / 2) = F64.fin ((((M - n : Int)) : ℚ) + 1 / 2) :=
      F64.round_half_integer (by omega) (by omega)
    have hκ0 : (0 : ℚ) ≤ (((M - n : Int)) : ℚ) + 1 / 2 := by
      have : (0 : ℚ) ≤ ((M - n : Int) : ℚ) := by exact_mod_cast (by omega : (0 : Int) ≤ M - n)
      linarith
    have hκle : (((M - n : Int)) : ℚ) + 1 / 2 ≤ (c : ℚ) + x := by
      push_cast; linarith
    rcases F64.le_round_of_le hκ0 hκle hκ with h | ⟨r, h, hr⟩
    · rw [hσ] at h; exact absurd h (by simp)
    · rw [hσ] at h
      have hσr : σ = r := F64.fin.inj h
      have hM2 : F64.round ((M : ℚ) + 1 / 2) = F64.fin ((M : ℚ) + 1 / 2) :=
        F64.round_half_integer hM0 hM
      have h2 : (M : ℚ) + 1 / 2 ≤ σ + ν := by
        rw [hσr, hνn]; push_cast at hr; linarith
      rcases F64.le_round_of_le (by linarith) h2 hM2 with h3 | ⟨r2, h3, hr2⟩
      · rw [hρ] at h3; exact absurd h3 (by simp)
      · rw [hρ] at h3
        have : ρ = r2 := F64.fin.inj h3
        linarith
  refine ⟨hmain, ?_⟩
  by_contra hgt
  have hlt : M + 1 ≤ c + n := by omega
  have : ((M : ℚ) + 1) ≤ (c : ℚ) + (n : ℚ) := by exact_mod_cast hlt
  linarith

theorem SlidingWindow.sliding_eq_carry (s : SlidingWindow) (now : Int)
    (hW : 0 < s.windowSize) (hW2 : s.windowSize ≤ maxInt64)
    (hr : isInt64 (Time.Truncate now s.windowSize - unixEpoch)) :
    s.sliding now = F64.add (F64.ofInt s.currentWindowRequests)
      (SlidingWindow.carryAt s.windowSize s.lastWindowRequests
        (now - Time.Truncate now s.windowSize)) := by
  unfold SlidingWindow.sliding SlidingWindow.carryAt
  rw [SlidingWindow.doneFraction_eq s now hW hW2 hr]

theorem SlidingWindow.stats_eq_carry (s : SlidingWindow) (t ws : Int)
    (hcw : s.currentWindow = ws - unixEpoch) :
    (s.Stats t).1 = F64.add (F64.ofInt s.currentWindowRequests)
      (SlidingWindow.carryAt s.windowSize s.lastWindowRequests (Time.Sub t ws)) ∧
    (s.DetailedStats t).2.2 = (s.Stats t).1 := by
  have hws : timeUnixNano s.currentWindow = ws := by
    rw [hcw]; unfold timeUnixNano; ring
  refine ⟨?_, ?_⟩
  · unfold SlidingWindow.Stats SlidingWindow.carryAt
    simp only [hws]
  · unfold SlidingWindow.Stats SlidingWindow.DetailedStats
    rfl

theorem Time.Sub_mono (a t1 t2 : Int) (h1 : a ≤ t1) (h2 : t1 ≤ t2) :
    0 ≤ Time.Sub t1 a ∧ Time.Sub t1 a ≤ Time.Sub t2 a ∧ Time.Sub t2 a ≤ maxInt64 := by
  unfold Time.Sub minInt64 maxInt64
  split_ifs <;> omega

theorem Time.Sub_of_small {a t : Int} (h1 : a ≤ t) (h2 : t - a ≤ maxInt64) :
    Time.Sub t a = t - a := by
  unfold Time.Sub
  unfold maxInt64 at h2
  unfold minInt64 maxInt64
  split_ifs <;> omega

/-- The rollover step of a call at `t2 >= T` keeps the bounds, and leaves the
window of `t2` as the stored window. -/
theorem SlidingWindow.Within.rollover_sliding {W M T : Int} {s : SlidingWindow}
    (h : s.Within W M T) (hW : 0 < W) (hW2 : W ≤ maxInt64) (hM : M < 2 ^ 52) (t2 : Int)
    (hT : T ≤ t2) (hr : isInt64 (Time.Truncate t2 W - unixEpoch)) :
    (s.rollover t2).windowSize = W ∧ (s.rollover t2).maxRequests = M ∧
    0 ≤ (s.rollover t2).currentWindowRequests ∧ (s.rollover t2).currentWindowRequests ≤ M ∧
    0 ≤ (s.rollover t2).lastWindowRequests ∧ (s.rollover t2).lastWindowRequests ≤ M ∧
    (s.rollover t2).currentWindow = Time.Truncate t2 W - unixEpoch ∧
    ∀ t : Int, t2 ≤ t → ∃ x : ℚ,
      SlidingWindow.carryAt W (s.rollover t2).lastWindowRequests
        (Time.Sub t (Time.Truncate t2 W)) = F64.fin x ∧ 0 ≤ x ∧
      ((s.rollover t2).currentWindowRequests : ℚ) + x ≤ (M : ℚ) + 1 / 2 := by
  obtain ⟨hWs, hMs, hc0, hcM, hL0, hLM, ws, hcw, hwsT, hest⟩ := h
  subst hWs
  subst hMs
  have hnano : Time.UnixNano (Time.Truncate t2 s.windowSize)
      = Time.Truncate t2 s.windowSize - unixEpoch := by
    unfold Time.UnixNano
    exact wrap64_of_isInt64 hr
  have hle : Time.Truncate t2 s.windowSize ≤ t2 := truncate_le_self hW
  by_cases hsame : Time.UnixNano (Time.Truncate t2 s.windowSize) = s.currentWindow
  · rw [SlidingWindow.rollover_same_window s t2 hsame]
    rw [hnano, hcw] at hsame
    have hws : ws = Time.Truncate t2 s.windowSize := by omega
    refine ⟨rfl, rfl, hc0, hcM, hL0, hLM, by rw [hcw, hws], ?_⟩
    intro t ht
    rw [← hws]
    exact hest t (by omega)
  · have hroll : s.rollover t2 =
        { s with
            lastWindowRequests := s.currentWindowRequests
            currentWindowRequests := 0
            currentWindow := Time.UnixNano (Time.Truncate t2 s.windowSize) } := by
      unfold SlidingWindow.rollover
      simp only [ne_eq, hsame, not_false_eq_true, if_true]
    rw [hroll]
    refine ⟨rfl, rfl, le_refl _, by show (0 : Int) ≤ s.maxRequests; omega, hc0, hcM,
      hnano, ?_⟩
    intro t ht
    obtain ⟨e0, _, e1⟩ := Time.Sub_mono (Time.Truncate t2 s.windowSize) t2 t hle ht
    have e2 : 0 ≤ Time.Sub t (Time.Truncate t2 s.windowSize) := by omega
    obtain ⟨x, hx, hx0, hx1⟩ := SlidingWindow.carryAt_spec s.windowSize s.currentWindowRequests
      (Time.Sub t (Time.Truncate t2 s.windowSize)) hW hW2 hc0 (by omega) e2 e1
    refine ⟨x, hx, hx0, ?_⟩
    have : (s.currentWindowRequests : ℚ) ≤ (s.maxRequests : ℚ) := by exact_mod_cast hcM
    show ((0 : Int) : ℚ) + x ≤ _
    simp only [Int.cast_zero, zero_add]
    linarith

/-- One call at a time `t2 >= T` keeps the bounds of the sliding-window
counter. -/
theorem SlidingWindow.Within.allow_sliding {W M T : Int} {s : SlidingWindow}
    (h : s.Within W M T) (hW : 0 < W) (hW2 : W ≤ maxInt64) (hM : M < 2 ^ 52) (t2 n : Int)
    (hT : T ≤ t2) (hr : isInt64 (Time.Truncate t2 W - unixEpoch)) :
    (s.Allow t2 n).1.Within W M t2 := by
  by_cases hn : 0 < n
  · obtain ⟨r1, r2, r3, r4, r5, r6, r7, r8⟩ := h.rollover_sliding hW hW2 hM t2 hT hr
    have hle : Time.Truncate t2 W ≤ t2 := truncate_le_self hW
    have hlt : t2 < Time.Truncate t2 W + W := lt_truncate_add hW
    have hsub : Time.Sub t2 (Time.Truncate t2 W) = t2 - Time.Truncate t2 W :=
      Time.Sub_of_small hle (by omega)
    obtain ⟨x0, hx0, hx00, hx01⟩ := r8 t2 (le_refl _)
    rw [hsub] at hx0
    have hslide := SlidingWindow.sliding_eq_carry (s.rollover t2) t2 (by rw [r1]; exact hW)
      (by rw [r1]; exact hW2) (by rw [r1]; exact hr)
    rw [r1, hx0] at hslide
    by_cases hadm : F64.le (F64.add ((s.rollover t2).sliding t2) (F64.ofInt n))
        (F64.ofInt (s.rollover t2).maxRequests) = true
    · have hstate : (s.Allow t2 n).1 =
          { s.rollover t2 with
              currentWindowRequests := add64 (s.rollover t2).currentWindowRequests n
              requestsAllowed := add64 (s.rollover t2).requestsAllowed n } := by
        rw [SlidingWindow.Allow_pos s t2 n hn, if_pos hadm]
      rw [hslide, r2] at hadm
      obtain ⟨b1, b2⟩ := SlidingWindow.admit_bound (s.rollover t2).currentWindowRequests n M x0
        r3 r4 hM hn hx00 hx01 hadm
      have hadd : add64 (s.rollover t2).currentWindowRequests n
          = (s.rollover t2).currentWindowRequests + n := by
        apply add64_eq_add
        unfold isInt64 minInt64 maxInt64
        constructor <;> omega
      rw [hstate]
      refine ⟨r1, r2, ?_, ?_, r5, r6, Time.Truncate t2 W, r7, hle, ?_⟩
      · show 0 ≤ add64 (s.rollover t2).currentWindowRequests n
        rw [hadd]; omega
      · show add64 (s.rollover t2).currentWindowRequests n ≤ M
        rw [hadd]; exact b2
      · intro t ht
        obtain ⟨x, hx, hxn, _⟩ := r8 t ht
        refine ⟨x, hx, hxn, ?_⟩
        obtain ⟨e0, e1, e2⟩ := Time.Sub_mono (Time.Truncate t2 W) t2 t hle ht
        rw [hsub] at e0 e1
        have hmono := SlidingWindow.carryAt_mono W (s.rollover t2).lastWindowRequests
          (t2 - Time.Truncate t2 W) (Time.Sub t (Time.Truncate t2 W)) hW hW2 r5 (by omega)
          e0 e1 e2 hx0 hx
        show ((add64 (s.rollover t2).currentWindowRequests n : Int) : ℚ) + x ≤ _
        rw [hadd]
        push_cast
        linarith
    · have hstate : (s.Allow t2 n).1 =
          { s.rollover t2 with
              requestsDenied := add64 (s.rollover t2).requestsDenied n } := by
        rw [SlidingWindow.Allow_pos s t2 n hn, if_neg hadm]
      rw [hstate]
      exact ⟨r1, r2, r3, r4, r5, r6, Time.Truncate t2 W, r7, hle, r8⟩
  · have hle : n ≤ 0 := not_lt.mp hn
    have e : s.Allow t2 n = (s, false) := by
      unfold SlidingWindow.Allow
      simp only [hle, if_true]
    rw [e]
    obtain ⟨h1, h2, h3, h4, h5, h6, ws, h7, h8, h9⟩ := h
    exact ⟨h1, h2, h3, h4, h5, h6, ws, h7, by omega, fun t ht => h9 t (by omega)⟩

theorem SlidingWindow.Within.run_sliding {W M : Int} (hW : 0 < W) (hW2 : W ≤ maxInt64)
    (hM : M < 2 ^ 52) (calls : List (Int × Int)) :
    ∀ (s : SlidingWindow) (T t : Int), s.Within W M T →
      (T :: calls.map Prod.fst).Pairwise (· ≤ ·) →
      (∀ u ∈ calls.map Prod.fst, isInt64 (Time.Truncate u W - unixEpoch)) →
      (∀ u ∈ T :: calls.map Prod.fst, u ≤ t) →
      ∃ T2 : Int, T2 ≤ t ∧ (s.run calls).Within W M T2 := by
  induction calls with
  | nil =>
    intro s T t h _ _ ht
    exact ⟨T, ht T (List.mem_cons_self _ _), h⟩
  | cons c cs ih =>
    intro s T t h hsorted hrange ht
    simp only [List.map_cons, List.pairwise_cons] at hsorted
    obtain ⟨hT, hrest⟩ := hsorted
    have hTc : T ≤ c.1 := hT c.1 (List.mem_cons_self _ _)
    have hstep := h.allow_sliding hW hW2 hM c.1 c.2 hTc
      (hrange c.1 (by simp only [List.map_cons]; exact List.mem_cons_self _ _))
    unfold SlidingWindow.run
    exact ih (s.Allow c.1 c.2).1 c.1 t hstep (List.pairwise_cons.mpr hrest)
      (fun u hu => hrange u (by simp only [List.map_cons]; exact List.mem_cons_of_mem _ hu))
      (fun u hu => ht u (by simp only [List.map_cons]; exact List.mem_cons_of_mem _ hu))

theorem SlidingWindow.Within.of_new {tc W M : Int} {sw0 : SlidingWindow}
    (hnew : NewSlidingWindow tc W M = Except.ok sw0) (hW2 : W ≤ maxInt64)
    (hr : isInt64 (Time.Truncate tc W - unixEpoch)) : sw0.Within W M tc := by
  obtain ⟨hW, hM0, h0⟩ := NewSlidingWindow_ok hnew
  have hnano : Time.UnixNano (Time.Truncate tc W) = Time.Truncate tc W - unixEpoch := by
    unfold Time.UnixNano
    exact wrap64_of_isInt64 hr
  have hle : Time.Truncate tc W ≤ tc := truncate_le_self hW
  rw [h0]
  refine ⟨rfl, rfl, le_refl _, le_of_lt hM0, le_refl _, le_of_lt hM0, Time.Truncate tc W,
    hnano, hle, ?_⟩
  intro t ht
  obtain ⟨e0, _, e1⟩ := Time.Sub_mono (Time.Truncate tc W) tc t hle ht
  obtain ⟨x, hx, hx0, hx1⟩ := SlidingWindow.carryAt_spec W 0
    (Time.Sub t (Time.Truncate tc W)) hW hW2 (le_refl _) (by norm_num) (by omega) e1
  refine ⟨x, hx, hx0, ?_⟩
  have hMq : (0 : ℚ) ≤ (M : ℚ) := by exact_mod_cast le_of_lt hM0
  simp only [Int.cast_zero] at hx1 ⊢
  linarith

/-- C36 (amended): for a limiter built by `NewSlidingWindow` with a limit
below `2^52`, and calls at non-decreasing times not before the construction,
all in the range where `UnixNano` is exact: after the calls both counts are
within `0..maxRequests`, and the estimate that `Stats` and `DetailedStats`
return at a time not before the last call is a finite number between 0 and
`maxRequests + 1/2`; when `lastWindowRequests = 0` it is exactly
`currentWindowRequests`. -/
theorem SlidingWindow.counts_and_estimate_bounds (tc W M t : Int) (sw0 : SlidingWindow)
    (calls : List (Int × Int))
    (hnew : NewSlidingWindow tc W M = Except.ok sw0) (hW2 : W ≤ maxInt64) (hM : M < 2 ^ 52)
    (htimes : (tc :: calls.map Prod.fst).Pairwise (· ≤ ·))
    (hrange : ∀ u ∈ tc :: calls.map Prod.fst, isInt64 (Time.Truncate u W - unixEpoch))
    (ht : ∀ u ∈ tc :: calls.map Prod.fst, u ≤ t) :
    (sw0.run calls).maxRequests = M ∧
    0 ≤ (sw0.run calls).currentWindowRequests ∧ (sw0.run calls).currentWindowRequests ≤ M ∧
    0 ≤ (sw0.run calls).lastWindowRequests ∧ (sw0.run calls).lastWindowRequests ≤ M ∧
    (∃ e : ℚ, ((sw0.run calls).Stats t).1 = F64.fin e ∧ 0 ≤ e ∧ e ≤ (M : ℚ) + 1 / 2) ∧
    ((sw0.run calls).DetailedStats t).2.2 = ((sw0.run calls).Stats t).1 ∧
    ((sw0.run calls).lastWindowRequests = 0 →
      ((sw0.run calls).Stats t).1 = F64.fin ((sw0.run calls).currentWindowRequests : ℚ)) := by
  obtain ⟨hW, hM0, _⟩ := NewSlidingWindow_ok hnew
  have hinit := SlidingWindow.Within.of_new hnew hW2 (hrange tc (List.mem_cons_self _ _))
  obtain ⟨T2, hT2, hfin⟩ := SlidingWindow.Within.run_sliding hW hW2 hM calls sw0 tc t hinit htimes
    (fun u hu => hrange u (List.mem_cons_of_mem _ hu)) ht
  generalize sw0.run calls = s at hfin ⊢
  obtain ⟨h1, h2, h3, h4, h5, h6, ws, h7, h8, h9⟩ := hfin
  obtain ⟨x, hx, hx0, hx1⟩ := h9 t hT2
  obtain ⟨hstats, hdet⟩ := SlidingWindow.stats_eq_carry s t ws h7
  rw [h1, hx] at hstats
  have hofc : F64.ofInt s.currentWindowRequests = F64.fin (s.currentWindowRequests : ℚ) :=
    F64.round_intCast_small h3 (by omega)
  rw [hofc] at hstats
  have hsum : F64.add (F64.fin (s.currentWindowRequests : ℚ)) (F64.fin x)
      = F64.round ((s.currentWindowRequests : ℚ) + x) := rfl
  rw [hsum] at hstats
  have hcq : (0 : ℚ) ≤ (s.currentWindowRequests : ℚ) := by exact_mod_cast h3
  refine ⟨h2, h3, h4, h5, h6, ?_, hdet, ?_⟩
  · obtain ⟨e, he, he0, he1⟩ := F64.round_le_of_le (by linarith) hx1
      (F64.round_half_integer (le_of_lt hM0) hM)
    exact ⟨e, by rw [hstats, he], he0, he1⟩
  · intro hL
    rw [hL] at hx
    obtain ⟨e0, _, e1⟩ := Time.Sub_mono ws T2 t h8 hT2
    obtain ⟨y, hy, hy0, hy1⟩ := SlidingWindow.carryAt_spec W 0 (Time.Sub t ws) hW hW2
      (le_refl _) (by norm_num) (by omega) e1
    rw [hx] at hy
    have hxy : x = y := F64.fin.inj hy
    have hxz : x = 0 := by
      simp only [Int.cast_zero] at hy1
      linarith
    rw [hstats, hxz, add_zero]
    exact F64.round_intCast_small h3 (by omega)

theorem SlidingWindow.counts_and_estimate_bounds_witness :
    (NewSlidingWindow sampleNow 100000000 5 = Except.ok sampleSliding) ∧
    ((100000000 : Int) ≤ maxInt64) ∧
    ((5 : Int) < 2 ^ 52) ∧
    ((sampleNow :: [(sampleNow, (3 : Int)), (sampleNow + 50000000, 2)].map Prod.fst).Pairwise (· ≤ ·)) ∧
    (∀ u ∈ sampleNow :: [(sampleNow, (3 : Int)), (sampleNow + 50000000, 2)].map Prod.fst, isInt64 (Time.Truncate u 100000000 - unixEpoch)) ∧
    (∀ u ∈ sampleNow :: [(sampleNow, (3 : Int)), (sampleNow + 50000000, 2)].map Prod.fst, u ≤ sampleNow + 60000000) ∧
    ((sampleSliding.run [(sampleNow, (3 : Int)), (sampleNow + 50000000, 2)]).maxRequests = (5 : Int) ∧
    0 ≤ (sampleSliding.run [(sampleNow, (3 : Int)), (sampleNow + 50000000, 2)]).currentWindowRequests ∧ (sampleSliding.run [(sampleNow, (3 : Int)), (sampleNow + 50000000, 2)]).currentWindowRequests ≤ (5 : Int) ∧
    0 ≤ (sampleSliding.run [(sampleNow, (3 : Int)), (sampleNow + 50000000, 2)]).lastWindowRequests ∧ (sampleSliding.run [(sampleNow, (3 : Int)), (sampleNow + 50000000, 2)]).lastWindowRequests ≤ (5 : Int) ∧
    (∃ e : ℚ, ((sampleSliding.run [(sampleNow, (3 : Int)), (sampleNow + 50000000, 2)]).Stats (sampleNow + 60000000)).1 = F64.fin e ∧ 0 ≤ e ∧ e ≤ ((5 : Int) : ℚ) + 1 / 2) ∧
    ((sampleSliding.run [(sampleNow, (3 : Int)), (sampleNow + 50000000, 2)]).DetailedStats (sampleNow + 60000000)).2.2 = ((sampleSliding.run [(sampleNow, (3 : Int)), (sampleNow + 50000000, 2)]).Stats (sampleNow + 60000000)).1 ∧
    ((sampleSliding.run [(sampleNow, (3 : Int)), (sampleNow + 50000000, 2)]).lastWindowRequests = 0 →
      ((sampleSliding.run [(sampleNow, (3 : Int)), (sampleNow + 50000000, 2)]).Stats (sampleNow + 60000000)).1 = F64.fin ((sampleSliding.run [(sampleNow, (3 : Int)), (sampleNow + 50000000, 2)]).currentWindowRequests : ℚ))) :=
  ⟨rfl, by decide, by decide, by decide, by decide, by decide,
    SlidingWindow.counts_and_estimate_bounds sampleNow 100000000 5 (sampleNow + 60000000) sampleSliding [(sampleNow, (3 : Int)), (sampleNow + 50000000, 2)] rfl (by decide) (by decide) (by decide) (by decide) (by decide)⟩


/-! ## SlidingWindowLog with bounded memory -/

theorem Deque.pushBackWithin_some {α : Type} [Inhabited α] (cells : Nat) (d d1 : Deque α)
    (x : α) (hwf : d.WF) (hlen : d.items.length ≤ cells)
    (h : d.PushBackWithin cells x = some d1) :
    d.PushBack x = some d1 ∧ d1.WF ∧ d1.size = d.size + 1 ∧ d1.items.length ≤ cells := by
  unfold Deque.PushBackWithin at h
  by_cases hc : d.size = d.items.length ∧ cells < d.items.length * 2
  · rw [if_pos hc] at h
    exact absurd h (by simp)
  · rw [if_neg hc] at h
    obtain ⟨d2, h2, hwf2, hsz, hfull, hnot⟩ := Deque.pushBack_shape d x hwf
    rw [h] at h2
    have e : d1 = d2 := Option.some.inj h2
    subst e
    refine ⟨h, hwf2, hsz, ?_⟩
    by_cases hf : d.size = d.items.length
    · rw [(hfull hf).1]
      have : ¬ cells < d.items.length * 2 := fun hh => hc ⟨hf, hh⟩
      omega
    · rw [(hnot hf).1]; exact hlen

theorem SlidingWindowLog.pushNWithin_some (cells : Nat) (now : Int) :
    ∀ (k : Nat) (d d1 : Deque Int), d.WF → d.items.length ≤ cells →
      SlidingWindowLog.pushNWithin cells now k d = some d1 →
      SlidingWindowLog.pushN now k d = some d1 ∧ d1.WF ∧ d1.size = d.size + k ∧
        d1.items.length ≤ cells := by
  intro k
  induction k with
  | zero =>
    intro d d1 hwf hlen h
    simp only [SlidingWindowLog.pushNWithin, Option.some.injEq] at h
    subst h
    exact ⟨rfl, hwf, rfl, hlen⟩
  | succ k ih =>
    intro d d1 hwf hlen h
    unfold SlidingWindowLog.pushNWithin at h
    cases hp : d.PushBackWithin cells now with
    | none => rw [hp] at h; exact absurd h (by simp)
    | some d2 =>
      rw [hp] at h
      simp only at h
      obtain ⟨p1, p2, p3, p4⟩ := Deque.pushBackWithin_some cells d d2 now hwf hlen hp
      obtain ⟨q1, q2, q3, q4⟩ := ih d2 d1 p2 p4 h
      refine ⟨?_, q2, by omega, q4⟩
      unfold SlidingWindowLog.pushN
      rw [p1]
      exact q1

/-- The append loop cannot finish when the entries do not fit in the largest
buffer. -/
theorem SlidingWindowLog.pushNWithin_none (cells : Nat) (now : Int) (k : Nat) (d : Deque Int)
    (hwf : d.WF) (hlen : d.items.length ≤ cells) (hbig : cells < d.size + k) :
    SlidingWindowLog.pushNWithin cells now k d = none := by
  cases h : SlidingWindowLog.pushNWithin cells now k d with
  | none => rfl
  | some d1 =>
    obtain ⟨_, ⟨_, _, h3⟩, hs, hl⟩ := SlidingWindowLog.pushNWithin_some cells now k d d1 hwf hlen h
    omega

theorem SlidingWindowLog.purge_length (ws : Int) :
    ∀ (fuel : Nat) (d d1 : Deque Int), d.WF → SlidingWindowLog.purge ws fuel d = some d1 →
      d1.items.length = d.items.length := by
  intro fuel
  induction fuel with
  | zero =>
    intro d d1 _ h
    simp [SlidingWindowLog.purge] at h
  | succ fuel ih =>
    intro d d1 hwf h
    unfold SlidingWindowLog.purge at h
    by_cases he : d.IsEmpty = true
    · rw [if_pos he] at h
      rw [← Option.some.inj h]
    · rw [if_neg he] at h
      cases hp : d.PeekFront with
      | none => rw [hp] at h; exact absurd h (by simp)
      | some pr =>
        obtain ⟨frontTime, found⟩ := pr
        rw [hp] at h
        simp only at h
        by_cases hf : (!found) = true
        · rw [if_pos hf] at h
          rw [← Option.some.inj h]
        · rw [if_neg hf] at h
          by_cases ha : Time.After frontTime ws = true
          · rw [if_pos ha] at h
            rw [← Option.some.inj h]
          · rw [if_neg ha] at h
            obtain ⟨r, hr, hrwf, hrlen, _⟩ := Deque.popFront_shape d hwf
            rw [hr] at h
            simp only at h
            rw [ih r.2 d1 hrwf h, hrlen]

/-- A call that returns on a machine with bounded memory returns what the
model with unbounded memory returns, and its buffer is one the machine has
delivered. -/
theorem SlidingWindowLog.allowWithin_some (cells : Nat) (s : SlidingWindowLog) (now n : Int)
    (r : SlidingWindowLog × Bool) (hwf : s.requestLog.WF)
    (hlen : s.requestLog.items.length ≤ cells)
    (h : s.AllowWithin cells now n = some r) :
    s.Allow now n = some r ∧ r.1.requestLog.items.length ≤ cells := by
  unfold SlidingWindowLog.AllowWithin at h
  unfold SlidingWindowLog.Allow
  by_cases hn : n ≤ 0
  · rw [if_pos hn] at h
    rw [if_pos hn]
    refine ⟨h, ?_⟩
    rw [← Option.some.inj h]
    exact hlen
  · rw [if_neg hn] at h
    rw [if_neg hn]
    simp only at h ⊢
    cases hp : SlidingWindowLog.purge (Time.Add now (neg64 s.windowSize))
        (s.requestLog.size + 1) s.requestLog with
    | none => rw [hp] at h; exact absurd h (by simp)
    | some d =>
      rw [hp] at h
      simp only at h ⊢
      obtain ⟨d', hd', hwfd, _⟩ := SlidingWindowLog.purge_spec
        (Time.Add now (neg64 s.windowSize)) (s.requestLog.size + 1) s.requestLog hwf (le_refl _)
      rw [hp] at hd'
      have ed : d = d' := Option.some.inj hd'
      subst ed
      have hdl : d.items.length ≤ cells := by
        rw [SlidingWindowLog.purge_length _ _ _ _ hwf hp]; exact hlen
      by_cases hc : add64 (d.Size : Int) n ≤ s.maxRequests
      · rw [if_pos hc] at h
        rw [if_pos hc]
        cases hq : SlidingWindowLog.pushNWithin cells now n.toNat d with
        | none => rw [hq] at h; exact absurd h (by simp)
        | some d1 =>
          rw [hq] at h
          simp only at h
          obtain ⟨q1, _, _, q4⟩ := SlidingWindowLog.pushNWithin_some cells now n.toNat d d1
            hwfd hdl hq
          rw [q1]
          refine ⟨h, ?_⟩
          rw [← Option.some.inj h]
          exact q4
      · rw [if_neg hc] at h
        rw [if_neg hc]
        refine ⟨h, ?_⟩
        rw [← Option.some.inj h]
        exact hdl

theorem admittedBetween_of_late (lo hi : Int) :
    ∀ (cs : List (Int × Int)) (bs : List Bool), (∀ c ∈ cs, hi < c.1) →
      admittedBetween lo hi cs bs = 0 := by
  intro cs
  induction cs with
  | nil => intro bs _; cases bs <;> rfl
  | cons c cs ih =>
    intro bs h
    cases bs with
    | nil => rfl
    | cons b bs =>
      have hc := h c (List.mem_cons_self _ _)
      have hno : ¬ (b = true ∧ lo < c.1 ∧ c.1 ≤ hi) := fun hh => absurd hh.2.2 (not_le.mpr hc)
      unfold admittedBetween
      rw [if_neg hno, zero_add]
      exact ih bs (fun c1 h1 => h c1 (List.mem_cons_of_mem _ h1))

/-- One call at a time `now <= t` moves the units it admits inside
`(t - W, t]` into the log: the entries of the log inside that interval grow at
least by them. -/
theorem SlidingWindowLog.allow_count_step (s : SlidingWindowLog) (W t now n : Int)
    (r : SlidingWindowLog × Bool) (hsW : s.windowSize = W) (hW : 0 < W) (hW2 : W ≤ maxInt64)
    (hwf : s.requestLog.WF) (hsorted : s.requestLog.toList.Pairwise (· ≤ ·)) (hnt : now ≤ t)
    (hr : s.Allow now n = some r) :
    ((s.requestLog.toList.filter (fun x => decide (t - W < x ∧ x ≤ t))).length : Int)
        + (if r.2 = true ∧ t - W < now ∧ now ≤ t then n else 0)
      ≤ ((r.1.requestLog.toList.filter (fun x => decide (t - W < x ∧ x ≤ t))).length : Int) := by
  by_cases hn : n ≤ 0
  · have hA : s.Allow now n = some (s, false) := by
      unfold SlidingWindowLog.Allow
      simp only [hn, if_true]
    rw [hA] at hr
    have hr' : r = (s, false) := (Option.some.inj hr).symm
    rw [hr']
    simp
  · have hn0 : 0 < n := not_le.mp hn
    have hW1 : minInt64 < s.windowSize := by rw [hsW]; unfold minInt64; omega
    obtain ⟨d1, _, hyes, hno⟩ := SlidingWindowLog.allow_spec s now n hn0 hwf hsorted hW1
      (by rw [hsW]; exact hW2)
    have hkeep : (s.requestLog.toList.filter (fun x => decide (now - s.windowSize < x))).filter
        (fun x => decide (t - W < x ∧ x ≤ t))
        = s.requestLog.toList.filter (fun x => decide (t - W < x ∧ x ≤ t)) := by
      rw [List.filter_filter]
      apply List.filter_congr
      intro x _
      rw [hsW]
      by_cases h1 : t - W < x ∧ x ≤ t
      · have h2 : now - W < x := by omega
        simp [h1, h2]
      · simp [h1]
    by_cases hc : add64 ((s.requestLog.toList.filter
        (fun t => decide (now - s.windowSize < t))).length : Int) n ≤ s.maxRequests
    · obtain ⟨hA, hL⟩ := hyes hc
      rw [hA] at hr
      have hr' : r = ({ s with requestLog := d1 }, true) := (Option.some.inj hr).symm
      rw [hr']
      show _ ≤ ((d1.toList.filter (fun x => decide (t - W < x ∧ x ≤ t))).length : Int)
      rw [hL, List.filter_append, hkeep, List.length_append, List.filter_replicate]
      by_cases hin : t - W < now
      · simp [hin, hnt, Int.toNat_of_nonneg (le_of_lt hn0)]
      · simp [hin]
    · obtain ⟨hA, hL⟩ := hno hc
      rw [hA] at hr
      have hr' : r = ({ s with requestLog := d1 }, false) := (Option.some.inj hr).symm
      rw [hr']
      show _ ≤ ((d1.toList.filter (fun x => decide (t - W < x ∧ x ≤ t))).length : Int)
      rw [hL, hkeep]
      simp

/-- A call that returns with every buffer within `cells <= MaxInt64` elements
keeps the log within `maxRequests`: its sum `size + n` did not overflow. -/
theorem SlidingWindowLog.allow_length_within (cells : Nat) (s : SlidingWindowLog)
    (now n : Int) (r : SlidingWindowLog × Bool) (hcells : (cells : Int) ≤ maxInt64)
    (hW : 0 < s.windowSize) (hW2 : s.windowSize ≤ maxInt64)
    (hwf : s.requestLog.WF) (hsorted : s.requestLog.toList.Pairwise (· ≤ ·))
    (hlen : (s.requestLog.toList.length : Int) ≤ s.maxRequests)
    (hr : s.Allow now n = some r) (hrwf : r.1.requestLog.WF)
    (hrl : r.1.requestLog.items.length ≤ cells) :
    (r.1.requestLog.toList.length : Int) ≤ s.maxRequests := by
  by_cases hn : n ≤ 0
  · have hA : s.Allow now n = some (s, false) := by
      unfold SlidingWindowLog.Allow
      simp only [hn, if_true]
    rw [hA] at hr
    rw [← Option.some.inj hr]
    exact hlen
  · have hn0 : 0 < n := not_le.mp hn
    have hW1 : minInt64 < s.windowSize := by unfold minInt64; omega
    obtain ⟨d1, _, hyes, hno⟩ := SlidingWindowLog.allow_spec s now n hn0 hwf hsorted hW1 hW2
    have hkeptL : (s.requestLog.toList.filter
        (fun t => decide (now - s.windowSize < t))).length ≤ s.requestLog.toList.length :=
      List.length_filter_le _ _
    by_cases hc : add64 ((s.requestLog.toList.filter
        (fun t => decide (now - s.windowSize < t))).length : Int) n ≤ s.maxRequests
    · obtain ⟨hA, hL⟩ := hyes hc
      rw [hA] at hr
      have hr' : r = ({ s with requestLog := d1 }, true) := (Option.some.inj hr).symm
      rw [hr'] at hrwf hrl ⊢
      change d1.WF at hrwf
      change d1.items.length ≤ cells at hrl
      show (d1.toList.length : Int) ≤ s.maxRequests
      have hsz : d1.toList.length = d1.size := Deque.toList_length d1
      have hfit : d1.toList.length ≤ cells := by
        rw [hsz]; exact le_trans hrwf.2.2 hrl
      rw [hL, List.length_append, List.length_replicate] at hfit ⊢
      have hfit2 : (((s.requestLog.toList.filter
          (fun t => decide (now - s.windowSize < t))).length + n.toNat : Nat) : Int)
            ≤ (cells : Int) := by exact_mod_cast hfit
      push_cast at hfit2 ⊢
      rw [Int.toNat_of_nonneg (le_of_lt hn0)] at hfit2 ⊢
      have hrange : isInt64 (((s.requestLog.toList.filter
          (fun t => decide (now - s.windowSize < t))).length : Int) + n) := by
        unfold maxInt64 at hcells
        unfold isInt64 minInt64 maxInt64
        constructor <;> omega
      rw [add64_eq_add hrange] at hc
      exact hc
    · obtain ⟨hA, hL⟩ := hno hc
      rw [hA] at hr
      have hr' : r = ({ s with requestLog := d1 }, false) := (Option.some.inj hr).symm
      rw [hr']
      show (d1.toList.length : Int) ≤ s.maxRequests
      rw [hL]
      have : ((s.requestLog.toList.filter
          (fun t => decide (now - s.windowSize < t))).length : Int)
            ≤ (s.requestLog.toList.length : Int) := by exact_mod_cast hkeptL
      omega

/-- The trailing-window bound as an invariant of a run that returns from
every call: the logged entries inside `(t - W, t]` plus the units admitted
later at times inside it stay within `maxRequests`. -/
theorem SlidingWindowLog.admittedBetween_bound (cells : Nat) (W M t : Int)
    (hcells : (cells : Int) ≤ maxInt64) (hW : 0 < W) (hW2 : W ≤ maxInt64) :
    ∀ (cs : List (Int × Int)) (s : SlidingWindowLog) (T : Int) (bs : List Bool),
      s.windowSize = W → s.maxRequests = M → s.requestLog.WF →
      s.requestLog.items.length ≤ cells →
      s.requestLog.toList.Pairwise (· ≤ ·) → (∀ x ∈ s.requestLog.toList, x ≤ T) →
      (s.requestLog.toList.length : Int) ≤ M →
      (T :: cs.map Prod.fst).Pairwise (· ≤ ·) →
      s.resultsWithin cells cs = some bs →
      ((s.requestLog.toList.filter (fun x => decide (t - W < x ∧ x ≤ t))).length : Int)
        + admittedBetween (t - W) t cs bs ≤ M := by
  intro cs
  induction cs with
  | nil =>
    intro s T bs _ _ _ _ _ _ hlen _ _
    have : (s.requestLog.toList.filter (fun x => decide (t - W < x ∧ x ≤ t))).length
        ≤ s.requestLog.toList.length := List.length_filter_le _ _
    have h0 : admittedBetween (t - W) t [] bs = 0 := by cases bs <;> rfl
    rw [h0]
    omega
  | cons c cs ih =>
    intro s T bs hsW hsM hwf hcl hsorted hT hlen htimes hres
    obtain ⟨now, n⟩ := c
    simp only [List.map_cons, List.pairwise_cons] at htimes
    obtain ⟨hTall, hnowall, hrest⟩ := htimes
    have hTnow : T ≤ now := hTall now (List.mem_cons_self _ _)
    have hcount : ((s.requestLog.toList.filter
        (fun x => decide (t - W < x ∧ x ≤ t))).length : Int) ≤ M := by
      have : (s.requestLog.toList.filter (fun x => decide (t - W < x ∧ x ≤ t))).length
          ≤ s.requestLog.toList.length := List.length_filter_le _ _
      omega
    by_cases hlate : t < now
    · rw [admittedBetween_of_late (t - W) t ((now, n) :: cs) bs]
      · simpa using hcount
      · intro c hc
        rcases List.mem_cons.mp hc with h | h
        · rw [h]; exact hlate
        · exact lt_of_lt_of_le hlate (hnowall c.1 (List.mem_map_of_mem _ h))
    · have hnt : now ≤ t := not_lt.mp hlate
      unfold SlidingWindowLog.resultsWithin at hres
      cases hA : s.AllowWithin cells now n with
      | none => rw [hA] at hres; exact absurd hres (by simp)
      | some r =>
        rw [hA] at hres
        simp only at hres
        cases hB : SlidingWindowLog.resultsWithin cells r.1 cs with
        | none => rw [hB] at hres; exact absurd hres (by simp)
        | some bs1 =>
          rw [hB] at hres
          simp only [Option.some.injEq] at hres
          subst hres
          obtain ⟨hr, hrl⟩ := SlidingWindowLog.allowWithin_some cells s now n r hwf hcl hA
          obtain ⟨r', hr', rW, rM, rwf, rsorted, rle, _, _⟩ :=
            SlidingWindowLog.allow_step s now n T
              (by rw [hsW]; exact hW) (by rw [hsW]; exact hW2) hwf hsorted hT hTnow
          rw [hr] at hr'
          have er : r = r' := Option.some.inj hr'
          subst er
          have rlen := SlidingWindowLog.allow_length_within cells s now n r hcells
            (by rw [hsW]; exact hW) (by rw [hsW]; exact hW2) hwf hsorted
            (by rw [hsM]; exact hlen) hr rwf hrl
          have hih := ih r.1 now bs1 (by rw [rW, hsW]) (by rw [rM, hsM]) rwf hrl rsorted rle
            (by rw [← hsM]; exact rlen)
            (List.pairwise_cons.mpr ⟨hnowall, hrest⟩) hB
          have hstep := SlidingWindowLog.allow_count_step s W t now n r hsW hW hW2 hwf hsorted
            hnt hr
          have hunf : admittedBetween (t - W) t ((now, n) :: cs) (r.2 :: bs1)
              = (if r.2 = true ∧ t - W < now ∧ now ≤ t then n else 0)
                + admittedBetween (t - W) t cs bs1 := rfl
          rw [hunf]
          linarith

/-- C11: on a limiter built by `NewSlidingWindowLog(W, M)`, on a machine
whose `make` delivers at most `cells` elements (`16 <= cells <= MaxInt64`, the
length of a slice being an `int`), for every sequence of `Allow` calls at
non-decreasing times that all return (`bs` lists their results) and every
instant `t`, the units admitted by the calls made in the trailing window
`(t - W, t]` add up to at most `M`. -/
theorem SlidingWindowLog.trailing_window_bound (cells : Nat) (W M : Int)
    (sw0 : SlidingWindowLog) (calls : List (Int × Int)) (bs : List Bool) (t : Int)
    (h16 : 16 ≤ cells) (hcells : (cells : Int) ≤ maxInt64)
    (hnew : NewSlidingWindowLog W M = Except.ok sw0) (hW2 : W ≤ maxInt64)
    (htimes : (calls.map Prod.fst).Pairwise (· ≤ ·))
    (hdone : sw0.resultsWithin cells calls = some bs) :
    admittedBetween (t - W) t calls bs ≤ M := by
  unfold NewSlidingWindowLog at hnew
  split_ifs at hnew with h1 h2
  simp only [Except.ok.injEq] at hnew
  have hW : 0 < W := not_le.mp h1
  have hM : 0 < M := not_le.mp h2
  obtain ⟨hwf0, hl0⟩ := Deque.NewDeque_spec Int
  have hsW : sw0.windowSize = W := by rw [← hnew]
  have hsM : sw0.maxRequests = M := by rw [← hnew]
  have hlog : sw0.requestLog = NewDeque Int := by rw [← hnew]
  have hlen16 : (NewDeque Int).items.length = 16 := rfl
  have hT : ∃ T, (T :: calls.map Prod.fst).Pairwise (· ≤ ·) := by
    cases calls with
    | nil => exact ⟨0, by simp⟩
    | cons c cs =>
      refine ⟨c.1, ?_⟩
      simp only [List.map_cons, List.pairwise_cons] at htimes ⊢
      refine ⟨?_, htimes⟩
      intro a ha
      rcases List.mem_cons.mp ha with h | h
      · rw [h]
      · exact htimes.1 a h
  obtain ⟨T, hTp⟩ := hT
  have h := SlidingWindowLog.admittedBetween_bound cells W M t hcells hW hW2 calls sw0 T bs
    hsW hsM (by rw [hlog]; exact hwf0) (by rw [hlog, hlen16]; exact h16)
    (by rw [hlog, hl0]; exact List.Pairwise.nil)
    (by rw [hlog, hl0]; intro x hx; simp at hx)
    (by rw [hlog, hl0]; simp only [List.length_nil, Nat.cast_zero]; omega) hTp hdone
  rw [hlog, hl0] at h
  simpa using h

theorem SlidingWindowLog.trailing_window_bound_witness :
    (16 ≤ 64) ∧ (((64 : Nat) : Int) ≤ maxInt64) ∧
    (NewSlidingWindowLog 100000000 3 = Except.ok sampleLog) ∧
    ((100000000 : Int) ≤ maxInt64) ∧
    (([(sampleNow, (1 : Int)), (sampleNow, 2), (sampleNow + 50000000, 1),
        (sampleNow + 120000000, 2)].map Prod.fst).Pairwise (· ≤ ·)) ∧
    (sampleLog.resultsWithin 64
      [(sampleNow, 1), (sampleNow, 2), (sampleNow + 50000000, 1), (sampleNow + 120000000, 2)]
        = some [true, true, false, true]) ∧
    admittedBetween (sampleNow + 60000000 - 100000000) (sampleNow + 60000000)
      [(sampleNow, 1), (sampleNow, 2), (sampleNow + 50000000, 1), (sampleNow + 120000000, 2)]
      [true, true, false, true] ≤ 3 :=
  ⟨by decide, by decide, rfl, by decide, by decide, by decide,
    SlidingWindowLog.trailing_window_bound 64 100000000 3 sampleLog
      [(sampleNow, 1), (sampleNow, 2), (sampleNow + 50000000, 1), (sampleNow + 120000000, 2)]
      [true, true, false, true] (sampleNow + 60000000) (by decide) (by decide) rfl (by decide)
      (by decide) (by decide)⟩

theorem SlidingWindowLog.sample_window_total :
    admittedBetween (sampleNow + 60000000 - 100000000) (sampleNow + 60000000)
      [(sampleNow, 1), (sampleNow, 2), (sampleNow + 50000000, 1), (sampleNow + 120000000, 2)]
      [true, true, false, true] = 3 := by
  decide

/-- The append loop finishes, with the result of the model with unbounded
memory, when twice the final number of entries fits in the largest buffer. -/
theorem SlidingWindowLog.pushNWithin_of_room (cells : Nat) (now : Int) :
    ∀ (k : Nat) (d : Deque Int), d.WF → 2 * (d.size + k) ≤ cells →
      SlidingWindowLog.pushNWithin cells now k d = SlidingWindowLog.pushN now k d := by
  intro k
  induction k with
  | zero => intro d _ _; rfl
  | succ k ih =>
    intro d hwf hroom
    obtain ⟨d1, h1, hwf1, hsz, _, _⟩ := Deque.pushBack_shape d now hwf
    have hp : d.PushBackWithin cells now = some d1 := by
      unfold Deque.PushBackWithin
      rw [if_neg, h1]
      intro hc
      omega
    unfold SlidingWindowLog.pushNWithin SlidingWindowLog.pushN
    rw [hp, h1]
    exact ih d1 hwf1 (by omega)

/-- A call whose admitted batch leaves twice the new number of entries within
the largest buffer returns, with the result of the model with unbounded
memory. -/
theorem SlidingWindowLog.allowWithin_of_room (cells : Nat) (s : SlidingWindowLog) (now n : Int)
    (hwf : s.requestLog.WF)
    (hroom : ∀ d, SlidingWindowLog.purge (Time.Add now (neg64 s.windowSize))
        (s.requestLog.size + 1) s.requestLog = some d →
      add64 (d.Size : Int) n ≤ s.maxRequests → 2 * (d.size + n.toNat) ≤ cells) :
    s.AllowWithin cells now n = s.Allow now n := by
  unfold SlidingWindowLog.AllowWithin SlidingWindowLog.Allow
  by_cases hn : n ≤ 0
  · rw [if_pos hn, if_pos hn]
  · rw [if_neg hn, if_neg hn]
    simp only
    obtain ⟨d, hd, hwfd, _⟩ := SlidingWindowLog.purge_spec
      (Time.Add now (neg64 s.windowSize)) (s.requestLog.size + 1) s.requestLog hwf (le_refl _)
    rw [hd]
    simp only
    by_cases hc : add64 (d.Size : Int) n ≤ s.maxRequests
    · rw [if_pos hc, if_pos hc,
        SlidingWindowLog.pushNWithin_of_room cells now n.toNat d hwfd (hroom d hd hc)]
    · rw [if_neg hc, if_neg hc]

/-- Every run returns when the memory holds `2 * M` entries and the batch
sizes cannot overflow `size + n`: on a limiter built by
`NewSlidingWindowLog(W, M)`, with `16 <= cells` and `2 * M <= cells`, a
sequence of calls at non-decreasing times with sizes at most
`MaxInt64 - M` gives a result for every call, the same as with unbounded
memory. -/
theorem SlidingWindowLog.resultsWithin_total (cells : Nat) (W M : Int)
    (hW : 0 < W) (hW2 : W ≤ maxInt64) (hroom : 2 * M ≤ (cells : Int)) :
    ∀ (cs : List (Int × Int)) (s : SlidingWindowLog) (T : Int),
      s.windowSize = W → s.maxRequests = M → s.requestLog.WF →
      s.requestLog.toList.Pairwise (· ≤ ·) → (∀ x ∈ s.requestLog.toList, x ≤ T) →
      (s.requestLog.toList.length : Int) ≤ M →
      (T :: cs.map Prod.fst).Pairwise (· ≤ ·) → (∀ c ∈ cs, c.2 ≤ maxInt64 - M) →
      ∃ bs, s.resultsWithin cells cs = some bs ∧ s.results cs = some bs ∧
        bs.length = cs.length := by
  intro cs
  induction cs with
  | nil =>
    intro s T _ _ _ _ _ _ _ _
    exact ⟨[], rfl, rfl, rfl⟩
  | cons c cs ih =>
    intro s T hsW hsM hwf hsorted hT hlen htimes hsmall
    obtain ⟨now, n⟩ := c
    simp only [List.map_cons, List.pairwise_cons] at htimes
    obtain ⟨hTall, hnowall, hrest⟩ := htimes
    have hTnow : T ≤ now := hTall now (List.mem_cons_self _ _)
    have hn_small : n ≤ maxInt64 - s.maxRequests := by
      rw [hsM]; exact hsmall (now, n) (List.mem_cons_self _ _)
    obtain ⟨r, hr, rW, rM, rwf, rsorted, rle, _, rlen⟩ := SlidingWindowLog.allow_step s now n T
      (by rw [hsW]; exact hW) (by rw [hsW]; exact hW2) hwf hsorted hT hTnow
    have hin : s.AllowWithin cells now n = s.Allow now n := by
      apply SlidingWindowLog.allowWithin_of_room cells s now n hwf
      intro d hd hc
      obtain ⟨d', hd', _, hl'⟩ := SlidingWindowLog.purge_spec
        (Time.Add now (neg64 s.windowSize)) (s.requestLog.size + 1) s.requestLog hwf (le_refl _)
      rw [hd] at hd'
      have ed : d = d' := Option.some.inj hd'
      subst ed
      have hk : d.size ≤ s.requestLog.toList.length := by
        rw [← Deque.toList_length d, hl']
        exact (List.dropWhile_sublist _).length_le
      by_cases hn : n ≤ 0
      · have : n.toNat = 0 := Int.toNat_eq_zero.mpr hn
        rw [this]
        have hk2 : (d.size : Int) ≤ M := by
          have : (d.size : Int) ≤ (s.requestLog.toList.length : Int) := by exact_mod_cast hk
          omega
        have : ((2 * (d.size + 0) : Nat) : Int) ≤ (cells : Int) := by
          push_cast; omega
        exact_mod_cast this
      · have hn0 : 0 < n := not_le.mp hn
        have hrange : isInt64 ((d.Size : Int) + n) := by
          have hk2 : (d.size : Int) ≤ M := by
            have : (d.size : Int) ≤ (s.requestLog.toList.length : Int) := by exact_mod_cast hk
            omega
          have e : (d.Size : Int) = (d.size : Int) := rfl
          rw [hsM] at hn_small
          unfold maxInt64 at hn_small
          unfold isInt64 minInt64 maxInt64
          rw [e]
          constructor <;> omega
        rw [add64_eq_add hrange, hsM] at hc
        have e : (d.Size : Int) = (d.size : Int) := rfl
        rw [e] at hc
        have : ((2 * (d.size + n.toNat) : Nat) : Int) ≤ (cells : Int) := by
          push_cast
          rw [Int.toNat_of_nonneg (le_of_lt hn0)]
          omega
        exact_mod_cast this
    obtain ⟨bs, b1, b2, b3⟩ := ih r.1 now (by rw [rW, hsW]) (by rw [rM, hsM]) rwf rsorted rle
      (by rw [← hsM]; exact rlen hn_small (by rw [hsM]; exact hlen))
      (List.pairwise_cons.mpr ⟨hnowall, hrest⟩)
      (fun c1 h1 => hsmall c1 (List.mem_cons_of_mem _ h1))
    refine ⟨r.2 :: bs, ?_, ?_, by simp [b3]⟩
    · unfold SlidingWindowLog.resultsWithin
      simp only [hin, hr, b1]
    · unfold SlidingWindowLog.results
      simp only [hr, b2]

theorem SlidingWindowLog.allowWithin_sample (cells : Nat) (h16 : 16 ≤ cells) :
    sampleLog.AllowWithin cells sampleNow 1 = some (sampleLogOne, true) := by
  have hwf : sampleLog.requestLog.WF := by unfold Deque.WF; decide
  rw [SlidingWindowLog.allowWithin_of_room cells sampleLog sampleNow 1 hwf]
  · decide
  · intro d hd _
    have hp : SlidingWindowLog.purge (Time.Add sampleNow (neg64 sampleLog.windowSize))
        (sampleLog.requestLog.size + 1) sampleLog.requestLog = some (NewDeque Int) := by decide
    rw [hp] at hd
    rw [← Option.some.inj hd]
    have : (NewDeque Int).size = 0 := rfl
    rw [this]
    have : (1 : Int).toNat = 1 := rfl
    rw [this]
    omega

/-- C9 (failing input): on `NewSlidingWindowLog(100*time.Millisecond, 3)`,
whatever the largest buffer `make` delivers (`16 <= cells <= MaxInt64`),
`Allow(1)` at `sampleNow` is admitted and leaves one entry. For a second call
`Allow(9223372036854775807)` at the same instant the purge keeps that entry,
`k = 1`, and `k + n <= maxRequests` is false, so the call should return false
and leave the kept entry; but the `int64` sum wraps to a negative number, the
test passes, and the call enters the append loop, which cannot finish: the
call returns neither false nor true. -/
theorem SlidingWindowLog.oversized_batch_does_not_return (cells : Nat) (h16 : 16 ≤ cells)
    (hcells : (cells : Int) ≤ maxInt64) :
    NewSlidingWindowLog 100000000 3 = Except.ok sampleLog ∧
    sampleLog.AllowWithin cells sampleNow 1 = some (sampleLogOne, true) ∧
    sampleLogOne.requestLog.toList = [sampleNow] ∧
    ((sampleLogOne.requestLog.toList.filter
      (fun x => decide (sampleNow - sampleLogOne.windowSize < x))).length : Int) = 1 ∧
    ¬ ((1 : Int) + 9223372036854775807 ≤ sampleLogOne.maxRequests) ∧
    add64 1 9223372036854775807 = -9223372036854775808 ∧
    add64 1 9223372036854775807 ≤ sampleLogOne.maxRequests ∧
    sampleLogOne.AllowWithin cells sampleNow 9223372036854775807 = none ∧
    sampleLogOne.AllowWithin cells sampleNow 9223372036854775807
      ≠ some (sampleLogOne, false) := by
  have hnone : sampleLogOne.AllowWithin cells sampleNow 9223372036854775807 = none := by
    have hp : SlidingWindowLog.purge (Time.Add sampleNow (neg64 sampleLogOne.windowSize))
        (sampleLogOne.requestLog.size + 1) sampleLogOne.requestLog
          = some sampleLogOne.requestLog := by decide
    have hc : add64 ((sampleLogOne.requestLog.Size : Nat) : Int) 9223372036854775807
        ≤ sampleLogOne.maxRequests := by decide
    have hwf : sampleLogOne.requestLog.WF := by unfold Deque.WF; decide
    have hlen : sampleLogOne.requestLog.items.length ≤ cells := by
      have : sampleLogOne.requestLog.items.length = 16 := rfl
      omega
    have hpush := SlidingWindowLog.pushNWithin_none cells sampleNow
      (9223372036854775807 : Int).toNat sampleLogOne.requestLog hwf hlen
      (by
        have h1 : sampleLogOne.requestLog.size = 1 := rfl
        have h2 : (9223372036854775807 : Int).toNat = 9223372036854775807 := rfl
        rw [h1, h2]
        unfold maxInt64 at hcells
        omega)
    unfold SlidingWindowLog.AllowWithin
    rw [if_neg (by decide)]
    simp only
    rw [hp]
    simp only
    rw [if_pos hc, hpush]
  refine ⟨rfl, SlidingWindowLog.allowWithin_sample cells h16, by decide, by decide, by decide,
    by decide, by decide, hnone, ?_⟩
  rw [hnone]
  simp

theorem SlidingWindowLog.oversized_batch_does_not_return_witness :
    (16 ≤ 64) ∧ (((64 : Nat) : Int) ≤ maxInt64) ∧
    (NewSlidingWindowLog 100000000 3 = Except.ok sampleLog ∧
    sampleLog.AllowWithin 64 sampleNow 1 = some (sampleLogOne, true) ∧
    sampleLogOne.requestLog.toList = [sampleNow] ∧
    ((sampleLogOne.requestLog.toList.filter
      (fun x => decide (sampleNow - sampleLogOne.windowSize < x))).length : Int) = 1 ∧
    ¬ ((1 : Int) + 9223372036854775807 ≤ sampleLogOne.maxRequests) ∧
    add64 1 9223372036854775807 = -9223372036854775808 ∧
    add64 1 9223372036854775807 ≤ sampleLogOne.maxRequests ∧
    sampleLogOne.AllowWithin 64 sampleNow 9223372036854775807 = none ∧
    sampleLogOne.AllowWithin 64 sampleNow 9223372036854775807
      ≠ some (sampleLogOne, false)) :=
  ⟨by decide, by decide,
    SlidingWindowLog.oversized_batch_does_not_return 64 (by decide) (by decide)⟩

/-! ## LeakyBucket: how long after the hint `Allow` succeeds -/

theorem pow2_neg_53 : pow2 (-53) = 1 / 9007199254740992 := by
  rw [pow2_eq_zpow]
  norm_num

theorem pow2_neg_1075_le : pow2 (-1075) ≤ 1 / 10 ^ 300 := by
  rw [pow2_eq_zpow]
  rw [show (-1075 : Int) = -((1075 : Nat) : Int) by norm_num, zpow_neg, zpow_natCast]
  rw [inv_eq_one_div]
  apply one_div_le_one_div_of_le (by positivity)
  norm_num

theorem pow2_neg_1022_le : pow2 (-1022) ≤ 1 / 10 ^ 300 := by
  rw [pow2_eq_zpow]
  rw [show (-1022 : Int) = -((1022 : Nat) : Int) by norm_num, zpow_neg, zpow_natCast]
  rw [inv_eq_one_div]
  apply one_div_le_one_div_of_le (by positivity)
  norm_num

/-- The error of one rounding: at most `2^-53` of the exact value, plus
`2^-1075` where the result is subnormal. -/
theorem F64.round_err {x : ℚ} (h0 : 0 ≤ x) (h1 : x < pow2 1023) :
    ∃ r : ℚ, F64.round x = F64.fin r ∧ 0 ≤ r ∧
      r ≤ x + x / 9007199254740992 + pow2 (-1075) ∧
      x - x / 9007199254740992 - pow2 (-1075) ≤ r := by
  have hη := pow2_pos (-1075)
  by_cases hx : x = 0
  · subst hx
    exact ⟨0, F64.round_zero, le_refl _, by simp only [zero_div, add_zero, zero_add]; linarith,
      by simp only [zero_div, sub_zero, zero_sub]; linarith⟩
  · have hpos : 0 < x := lt_of_le_of_ne h0 (Ne.symm hx)
    obtain ⟨r, hr, hr0, _, herr, _, _⟩ := F64.round_pos_spec hpos h1
    have hb : pow2 (max (ilog2 x) (-1022) - 53) ≤ x / 9007199254740992 + pow2 (-1075) := by
      by_cases hn : -1022 ≤ ilog2 x
      · rw [max_eq_left hn]
        have hlo := (ilog2_spec hx).1
        rw [abs_of_pos hpos] at hlo
        rw [show ilog2 x - 53 = ilog2 x + (-53) by ring, pow2_add, pow2_neg_53]
        have : pow2 (ilog2 x) * (1 / 9007199254740992) ≤ x * (1 / 9007199254740992) :=
          mul_le_mul_of_nonneg_right hlo (by norm_num)
        rw [div_eq_mul_one_div]
        linarith
      · rw [max_eq_right (by omega)]
        have : 0 ≤ x / 9007199254740992 := div_nonneg h0 (by norm_num)
        have e : (-1022 : Int) - 53 = -1075 := by norm_num
        rw [e]
        linarith
    rw [abs_le] at herr
    exact ⟨r, hr, hr0, by linarith, by linarith⟩

/-- The error of one rounding of a value in the normal range: at most
`2^-53` of the exact value. -/
theorem F64.round_rel_err {x : ℚ} (h0 : pow2 (-1022) ≤ x) (h1 : x < pow2 1023) :
    ∃ r : ℚ, F64.round x = F64.fin r ∧ 0 ≤ r ∧
      r ≤ x + x / 9007199254740992 ∧ x - x / 9007199254740992 ≤ r := by
  have hpos : 0 < x := lt_of_lt_of_le (pow2_pos _) h0
  have hx : x ≠ 0 := ne_of_gt hpos
  obtain ⟨r, hr, hr0, _, herr, _, _⟩ := F64.round_pos_spec hpos h1
  have hn : -1022 ≤ ilog2 x := by
    by_contra hlt
    have h2 := (ilog2_spec hx).2
    rw [abs_of_pos hpos] at h2
    have : pow2 (ilog2 x + 1) ≤ pow2 (-1022) := pow2_le_pow2.mpr (by omega)
    linarith
  have hb : pow2 (max (ilog2 x) (-1022) - 53) ≤ x / 9007199254740992 := by
    rw [max_eq_left hn]
    have hlo := (ilog2_spec hx).1
    rw [abs_of_pos hpos] at hlo
    rw [show ilog2 x - 53 = ilog2 x + (-53) by ring, pow2_add, pow2_neg_53]
    have : pow2 (ilog2 x) * (1 / 9007199254740992) ≤ x * (1 / 9007199254740992) :=
      mul_le_mul_of_nonneg_right hlo (by norm_num)
    rw [div_eq_mul_one_div]
    linarith
  rw [abs_le] at herr
  exact ⟨r, hr, hr0, by linarith, by linarith⟩

theorem pow2_1023_large : (100000000000000000000 : ℚ) < pow2 1023 := by
  rw [pow2_eq_zpow]
  rw [show (1023 : Int) = ((1023 : Nat) : Int) by norm_num, zpow_natCast]
  norm_num

/-- `d.Seconds()` of a non-negative duration is `d / 1e9` up to two
roundings. -/
theorem Duration.Seconds_bounds {d : Int} (h0 : 0 ≤ d) (h1 : d ≤ maxInt64) :
    ∃ e : ℚ, Duration.Seconds d = F64.fin e ∧ 0 ≤ e ∧
      (d : ℚ) / 1000000000 - 2 * ((d : ℚ) / 1000000000) / 9007199254740992 ≤ e ∧
      e ≤ (d : ℚ) / 1000000000 + 3 * ((d : ℚ) / 1000000000) / 9007199254740992 := by
  unfold maxInt64 at h1
  have hbig := pow2_1023_large
  have hsmall := pow2_neg_1022_le
  have hs0 : 0 ≤ Int.tdiv d Second := Int.tdiv_nonneg h0 (by decide)
  have hs1 : Int.tdiv d Second ≤ 9223372036 := by
    rw [Int.tdiv_eq_ediv h0 (by decide)]
    unfold Second
    omega
  have hn0 : 0 ≤ Int.tmod d Second := Int.tmod_nonneg _ h0
  have hn1 : Int.tmod d Second < 1000000000 := by
    rw [Int.tmod_eq_emod h0 (by decide)]
    unfold Second
    omega
  have hsum : (d : ℚ) = ((Int.tdiv d Second : Int) : ℚ) * 1000000000
      + ((Int.tmod d Second : Int) : ℚ) := by
    have := Int.tdiv_add_tmod d Second
    have h2 : ((Second * Int.tdiv d Second + Int.tmod d Second : Int) : ℚ) = (d : ℚ) := by
      rw [this]
    unfold Second at h2 ⊢
    push_cast at h2 ⊢
    linarith
  have e1 : F64.ofInt (Int.tdiv d Second) = F64.fin ((Int.tdiv d Second : Int) : ℚ) :=
    F64.ofInt_exact (by rw [abs_of_nonneg hs0]; omega)
  have e2 : F64.ofInt (Int.tmod d Second) = F64.fin ((Int.tmod d Second : Int) : ℚ) :=
    F64.ofInt_exact (by rw [abs_of_nonneg hn0]; omega)
  have hsq0 : (0 : ℚ) ≤ ((Int.tdiv d Second : Int) : ℚ) := by exact_mod_cast hs0
  have hsq1 : ((Int.tdiv d Second : Int) : ℚ) ≤ 9223372036 := by exact_mod_cast hs1
  have hnq0 : (0 : ℚ) ≤ ((Int.tmod d Second : Int) : ℚ) := by exact_mod_cast hn0
  have hnq1 : ((Int.tmod d Second : Int) : ℚ) < 1000000000 := by exact_mod_cast hn1
  set a : ℚ := ((Int.tdiv d Second : Int) : ℚ) with ha
  set m : ℚ := ((Int.tmod d Second : Int) : ℚ) with hm
  have hdq : (d : ℚ) / 1000000000 = a + m / 1000000000 := by
    rw [hsum]; field_simp
  -- the fraction
  have hfrac : ∃ f : ℚ, F64.round (m / 1000000000) = F64.fin f ∧ 0 ≤ f ∧
      f ≤ m / 1000000000 + m / 1000000000 / 9007199254740992 ∧
      m / 1000000000 - m / 1000000000 / 9007199254740992 ≤ f := by
    by_cases hz : Int.tmod d Second = 0
    · have hm0 : m = 0 := by rw [hm, hz]; norm_num
      rw [hm0]
      exact ⟨0, by simp [F64.round_zero], le_refl _, by norm_num, by norm_num⟩
    · have hm1 : (1 : ℚ) ≤ m := by
        have : 1 ≤ Int.tmod d Second := by omega
        rw [hm]; exact_mod_cast this
      have hlo : pow2 (-1022) ≤ m / 1000000000 := by
        have : (1 : ℚ) / 1000000000 ≤ m / 1000000000 :=
          div_le_div_of_nonneg_right hm1 (by norm_num)
        have h3 : (1 : ℚ) / 10 ^ 300 ≤ 1 / 1000000000 := by norm_num
        linarith
      have hhi : m / 1000000000 < pow2 1023 := by
        have : m / 1000000000 ≤ 1 := by
          rw [div_le_iff₀ (by norm_num)]; linarith
        linarith
      exact F64.round_rel_err hlo hhi
  obtain ⟨f, hf, hf0, hfu, hfl⟩ := hfrac
  have hmd0 : 0 ≤ m / 1000000000 := div_nonneg hnq0 (by norm_num)
  have hmd1 : m / 1000000000 ≤ 1 := by
    rw [div_le_iff₀ (by norm_num)]; linarith
  have hwhole : ∃ e : ℚ, F64.round (a + f) = F64.fin e ∧ 0 ≤ e ∧
      e ≤ (a + f) + (a + f) / 9007199254740992 ∧
      (a + f) - (a + f) / 9007199254740992 ≤ e := by
    by_cases hz : a + f = 0
    · rw [hz]
      exact ⟨0, F64.round_zero, le_refl _, by norm_num, by norm_num⟩
    · have hpos : 0 < a + f := lt_of_le_of_ne (by linarith) (Ne.symm hz)
      have hlo : pow2 (-1022) ≤ a + f := by
        by_cases ha0 : Int.tdiv d Second = 0
        · have hfpos : 0 < f := by
            have : a = 0 := by rw [ha, ha0]; norm_num
            rw [this, zero_add] at hpos; exact hpos
          have hmpos : 0 < m := by
            by_contra hle
            have hm0 : m = 0 := le_antisymm (not_lt.mp hle) hnq0
            rw [hm0] at hfu
            norm_num at hfu
            linarith
          have hm1 : (1 : ℚ) ≤ m := by
            have hmi : 0 < Int.tmod d Second := by
              rw [hm] at hmpos; exact_mod_cast hmpos
            have : 1 ≤ Int.tmod d Second := by omega
            rw [hm]; exact_mod_cast this
          have h5 : (1 : ℚ) / 1000000000 ≤ m / 1000000000 :=
            div_le_div_of_nonneg_right hm1 (by norm_num)
          have h3 : (1 : ℚ) / 10 ^ 300 ≤ 1 / 2000000000 := by norm_num
          have h6 : m / 1000000000 / 9007199254740992 ≤ m / 1000000000 / 2 := by
            apply div_le_div_of_nonneg_left hmd0 (by norm_num) (by norm_num)
          linarith
        · have : (1 : ℚ) ≤ a := by
            have : 1 ≤ Int.tdiv d Second := by omega
            rw [ha]; exact_mod_cast this
          have h3 : (1 : ℚ) / 10 ^ 300 ≤ 1 := by norm_num
          linarith
      have hhi : a + f < pow2 1023 := by
        have : f ≤ 2 := by
          have : m / 1000000000 / 9007199254740992 ≤ 1 := by
            rw [div_le_iff₀ (by norm_num)]; linarith
          linarith
        linarith
      exact F64.round_rel_err hlo hhi
  obtain ⟨e, he, he0, heu, hel⟩ := hwhole
  refine ⟨e, ?_, he0, ?_, ?_⟩
  · unfold Duration.Seconds
    rw [e1, e2]
    have hdiv : F64.div (F64.fin m) (F64.fin 1000000000) = F64.fin f := by
      unfold F64.div
      simp only [show ¬ ((1000000000 : ℚ) = 0) by norm_num, if_false]
      exact hf
    rw [hdiv]
    exact he
  · rw [hdq]
    have k1 : (a + f) / 9007199254740992 = a / 9007199254740992 + f / 9007199254740992 := by
      ring
    have k2 : f / 9007199254740992
        ≤ (m / 1000000000 + m / 1000000000 / 9007199254740992) / 9007199254740992 :=
      div_le_div_of_nonneg_right hfu (by norm_num)
    have k3 : 0 ≤ a / 9007199254740992 := div_nonneg hsq0 (by norm_num)
    have k4 : m / 1000000000 / 9007199254740992 / 9007199254740992
        ≤ m / 1000000000 / 9007199254740992 := by
      apply div_le_self (div_nonneg hmd0 (by norm_num)) (by norm_num)
    have k5 : 0 ≤ m / 1000000000 / 9007199254740992 := div_nonneg hmd0 (by norm_num)
    have k6 : (m / 1000000000 + m / 1000000000 / 9007199254740992) / 9007199254740992
        = m / 1000000000 / 9007199254740992
          + m / 1000000000 / 9007199254740992 / 9007199254740992 := by ring
    have k7 : 2 * (a + m / 1000000000) / 9007199254740992
        = 2 * (a / 9007199254740992) + 2 * (m / 1000000000 / 9007199254740992) := by ring
    rw [k7]
    rw [k1] at hel
    rw [k6] at k2
    have k8 : 0 ≤ m / 1000000000 / 9007199254740992 / 9007199254740992 :=
      div_nonneg k5 (by norm_num)
    linarith
  · rw [hdq]
    have k1 : (a + f) / 9007199254740992 = a / 9007199254740992 + f / 9007199254740992 := by
      ring
    have k2 : f / 9007199254740992
        ≤ (m / 1000000000 + m / 1000000000 / 9007199254740992) / 9007199254740992 :=
      div_le_div_of_nonneg_right hfu (by norm_num)
    have k3 : 0 ≤ a / 9007199254740992 := div_nonneg hsq0 (by norm_num)
    have k5 : 0 ≤ m / 1000000000 / 9007199254740992 := div_nonneg hmd0 (by norm_num)
    have k4 : m / 1000000000 / 9007199254740992 / 9007199254740992
        ≤ m / 1000000000 / 9007199254740992 := by
      apply div_le_self k5 (by norm_num)
    have k6 : (m / 1000000000 + m / 1000000000 / 9007199254740992) / 9007199254740992
        = m / 1000000000 / 9007199254740992
          + m / 1000000000 / 9007199254740992 / 9007199254740992 := by ring
    have k7 : 3 * (a + m / 1000000000) / 9007199254740992
        = 3 * (a / 9007199254740992) + 3 * (m / 1000000000 / 9007199254740992) := by ring
    rw [k7]
    rw [k1] at heu
    rw [k6] at k2
    linarith

/-- The level projected to `now`, for a queue `0 <= q < 2^53` and a rate
`r >= 0`: it lies in `[0, q]`; it is 0 when the leak reaches the queue; and
otherwise it is `q - l` up to one rounding, never above a `float64` value that
bounds `q - l`. Here `l` is the `float64` product of the elapsed seconds and
the rate. -/
theorem LeakyBucket.specQueue_bounds (lb : LeakyBucket) (q r : ℚ) (now : Int)
    (hq : lb.queue = F64.fin q) (hq0 : 0 ≤ q) (hq1 : q ≤ 9007199254740992)
    (hqr' : F64.Representable q)
    (hr : lb.leakRate = F64.fin r) (hr0 : 0 ≤ r) (hl : lb.lastLeakTime ≤ now) :
    ∃ ε c : ℚ, Duration.Seconds (Time.Sub now lb.lastLeakTime) = F64.fin ε ∧ 0 ≤ ε ∧
      lb.specQueue now = F64.fin c ∧ 0 ≤ c ∧
      (F64.round (ε * r) = F64.pinf → c = 0) ∧
      (∀ l : ℚ, F64.round (ε * r) = F64.fin l →
        0 ≤ l ∧ (q ≤ l → c = 0) ∧
        (q - l - (q - l) / 9007199254740992 - pow2 (-1075) ≤ c) ∧
        (c ≤ q) ∧
        (∀ B : ℚ, 0 ≤ B → F64.round B = F64.fin B → q - l ≤ B → c ≤ B)) := by
  have hη := pow2_pos (-1075)
  obtain ⟨hs0, hs1⟩ := Time.Sub_nonneg hl
  obtain ⟨ε, he, he0, _⟩ := Duration.Seconds_nonneg hs0 hs1
  have hmul : F64.mul (F64.fin ε) (F64.fin r) = F64.round (ε * r) := rfl
  have hprod : 0 ≤ ε * r := mul_nonneg he0 hr0
  unfold LeakyBucket.specQueue
  simp only [he, hr, hq, hmul]
  cases hL : F64.round (ε * r) with
  | nan => exact absurd hL (F64.round_ne_nan _)
  | ninf =>
    rcases F64.round_nonneg hprod with hp | ⟨v, hv, _⟩
    · rw [hp] at hL; cases hL
    · rw [hv] at hL; cases hL
  | pinf =>
    have hx : F64.sub (F64.fin q) F64.pinf = F64.ninf := rfl
    have hlt : F64.lt F64.ninf (F64.fin 0) = true := rfl
    refine ⟨ε, 0, rfl, he0, by simp only [hx, hlt, if_true], le_refl _, fun _ => rfl, ?_⟩
    intro l hl'
    rw [hL] at hl'
    cases hl'
  | fin l =>
    have hl0 : 0 ≤ l := by
      rcases F64.round_nonneg hprod with hp | ⟨v, hv, hv0⟩
      · rw [hp] at hL; cases hL
      · rw [hv] at hL
        have hL := F64.fin.inj hL
        rw [← hL]; exact hv0
    have hsub : F64.sub (F64.fin q) (F64.fin l) = F64.round (q + -l) := rfl
    rw [hsub]
    by_cases hql : q ≤ l
    · -- the leak reaches the queue: the projected level is 0
      have hc0 : (if F64.lt (F64.round (q + -l)) (F64.fin 0) = true then F64.fin 0
          else F64.round (q + -l)) = F64.fin 0 := by
        rcases F64.round_nonpos (by linarith : q + -l ≤ 0) with hp | ⟨v, hv, hv0⟩
        · rw [hp]
          have hlt : F64.lt F64.ninf (F64.fin 0) = true := rfl
          simp only [hlt, if_true]
        · rw [hv]
          by_cases hvneg : v < 0
          · have hlt : F64.lt (F64.fin v) (F64.fin 0) = true := decide_eq_true hvneg
            simp only [hlt, if_true]
          · have hlt : F64.lt (F64.fin v) (F64.fin 0) = false := decide_eq_false hvneg
            have hv0' : v = 0 := le_antisymm hv0 (not_lt.mp hvneg)
            rw [hlt, hv0']
            simp only [Bool.false_eq_true, if_false]
      refine ⟨ε, 0, rfl, he0, hc0, le_refl _, (fun h => F64.noConfusion (hL.symm.trans h)), ?_⟩
      intro l' hl'
      rw [hL] at hl'
      have hl' := F64.fin.inj hl'
      subst hl'
      refine ⟨hl0, fun _ => rfl, ?_, hq0, fun B hB _ _ => hB⟩
      have h1 : q - l ≤ 0 := by linarith
      have h2 : (q - l) / 9007199254740992 ≥ (q - l) := by
        rw [ge_iff_le, le_div_iff₀ (by norm_num)]
        nlinarith
      linarith
    · have hpos : 0 < q + -l := by linarith [not_le.mp hql]
      obtain ⟨v, hv, hv0, hvu, hvl⟩ := F64.round_err (le_of_lt hpos)
        (lt_of_le_of_lt (by linarith : q + -l ≤ 100000000000000000000) pow2_1023_large)
      have hlt : F64.lt (F64.fin v) (F64.fin 0) = false := decide_eq_false (not_lt.mpr hv0)
      refine ⟨ε, v, rfl, he0, by rw [hv]; simp only [hlt, Bool.false_eq_true, if_false], hv0,
        (fun h => F64.noConfusion (hL.symm.trans h)), ?_⟩
      intro l' hl'
      rw [hL] at hl'
      have hl' := F64.fin.inj hl'
      subst hl'
      refine ⟨hl0, fun h => absurd h hql, ?_, ?_, ?_⟩
      · have e : q - l = q + -l := by ring
        rw [e]; exact hvl
      · obtain ⟨w, hw, _, hwq⟩ := F64.round_le_of_le (le_of_lt hpos)
          (by linarith : q + -l ≤ q) (F64.round_exact hqr')
        rw [hv] at hw
        have hw := F64.fin.inj hw
        rw [hw]; exact hwq
      · intro B hB0 hB hle
        obtain ⟨w, hw, _, hwB⟩ := F64.round_le_of_le (le_of_lt hpos)
          (by linarith : q + -l ≤ B) hB
        rw [hv] at hw
        have hw := F64.fin.inj hw
        rw [hw]; exact hwB

theorem pow2_neg_1075_small : pow2 (-1075) ≤ 1 / 1000000000000000000000000000000 := by
  have h := pow2_neg_1075_le
  have h2 : (1 : ℚ) / 10 ^ 300 ≤ 1 / 1000000000000000000000000000000 := by norm_num
  linarith

/-- The hint covers the deficit: for a projected level `c` in
`[0, capacity]`, a capacity of at most `2^53`, a rate `r > 0` with
`capacity <= 9e9 * r` and `1 <= n <= capacity`, the hint `d` is not negative
and `c + n - capacity` units leak within `d + 1` ns, up to six rounding errors
of the size of the capacity. -/
theorem LeakyBucket.hint_covers_deficit (lb : LeakyBucket) (c r : ℚ) (now n : Int)
    (hc : lb.specQueue now = F64.fin c) (hc0 : 0 ≤ c) (hcC : c ≤ (lb.capacity : ℚ))
    (hr : lb.leakRate = F64.fin r) (hr0 : 0 < r)
    (hC1 : lb.capacity ≤ 2 ^ 53) (hday : (lb.capacity : ℚ) ≤ 9000000000 * r)
    (hn : 1 ≤ n) (hnC : n ≤ lb.capacity) :
    0 ≤ lb.TimeUntilAllowed now n ∧
    c + (n : ℚ) - (lb.capacity : ℚ) ≤
      r * ((lb.TimeUntilAllowed now n : Int) + 1 : ℚ) / 1000000000
        + 6 * (lb.capacity : ℚ) / 9007199254740992 + r / 100000000000 := by
  have hη0 := pow2_pos (-1075)
  have hη1 := pow2_neg_1075_small
  have hbig := pow2_1023_large
  have hCpos : (1 : ℚ) ≤ (lb.capacity : ℚ) := by exact_mod_cast (le_trans hn hnC)
  have hnq1 : (1 : ℚ) ≤ (n : ℚ) := by exact_mod_cast hn
  have hnqC : (n : ℚ) ≤ (lb.capacity : ℚ) := by exact_mod_cast hnC
  have hCU : (lb.capacity : ℚ) ≤ 9007199254740992 := by exact_mod_cast hC1
  have hofn : F64.ofInt n = F64.fin (n : ℚ) :=
    F64.ofInt_exact (by rw [abs_of_nonneg (by omega)]; omega)
  have hofC : F64.ofInt lb.capacity = F64.fin (lb.capacity : ℚ) :=
    F64.ofInt_exact (by rw [abs_of_nonneg (by omega)]; omega)
  generalize hCq : (lb.capacity : ℚ) = C at *
  generalize hnq : (n : ℚ) = m at *
  generalize hηq : pow2 (-1075) = η at *
  obtain ⟨A, hA, hA0, hAu, hAl⟩ := F64.round_err (x := c + m) (by linarith)
    (lt_of_le_of_lt (by linarith : c + m ≤ 100000000000000000000) hbig)
  rw [hηq] at hAu hAl
  have hadd : F64.add (lb.getCurrentQueue now) (F64.ofInt n) = F64.fin A := by
    have hg : lb.getCurrentQueue now = lb.specQueue now := rfl
    rw [hg, hc, hofn]; exact hA
  unfold LeakyBucket.TimeUntilAllowed LeakyBucket.TimeUntilSpace
  simp only [not_le.mpr (by omega : 0 < n), if_false, hadd, hofC]
  by_cases hroom : A ≤ C
  · have hle : F64.le (F64.fin A) (F64.fin C) = true := decide_eq_true hroom
    simp only [hle, if_true]
    refine ⟨le_refl _, ?_⟩
    push_cast
    linarith
  · have hle : F64.le (F64.fin A) (F64.fin C) = false := decide_eq_false hroom
    simp only [hle, Bool.false_eq_true, if_false]
    have hAC : 0 < A + -C := by linarith [not_le.mp hroom]
    have hsub : F64.sub (F64.fin A) (F64.fin C) = F64.round (A + -C) := rfl
    obtain ⟨S, hS, hS0, hSu, hSl⟩ := F64.round_err (le_of_lt hAC)
      (lt_of_le_of_lt (by linarith : A + -C ≤ 100000000000000000000) hbig)
    rw [hηq] at hSu hSl
    have hS1 : S ≤ 1002 / 1000 * C := by linarith
    have hdiv : F64.div (F64.fin S) (F64.fin r) = F64.round (S / r) := by
      show (if r = 0 then _ else F64.round (S / r)) = _
      rw [if_neg (ne_of_gt hr0)]
    have hσ0 : 0 ≤ S / r := div_nonneg hS0 (le_of_lt hr0)
    have hσ1 : S / r ≤ 9018000000 := by
      rw [div_le_iff₀ hr0]
      linarith
    have hσr : r * (S / r) = S := by field_simp
    obtain ⟨s, hs, hs0, hsu, hsl⟩ := F64.round_err hσ0
      (lt_of_le_of_lt (by linarith : S / r ≤ 100000000000000000000) hbig)
    rw [hηq] at hsu hsl
    have hmul : F64.mul (F64.fin s) (F64.ofInt Second) = F64.round (s * 1000000000) := by
      rw [F64.ofInt_second]; rfl
    have hs1 : s ≤ 9018000002 := by linarith
    obtain ⟨x, hx, hx0, hxu, hxl⟩ := F64.round_err (x := s * 1000000000) (by linarith)
      (lt_of_le_of_lt (by linarith : s * 1000000000 ≤ 100000000000000000000) hbig)
    rw [hηq] at hxu hxl
    have hx1 : x < 9223372036854775808 := by linarith
    rw [hsub, hS, hr, hdiv, hs, hmul, hx, F64.toInt64_of_range hx0 hx1]
    refine ⟨Int.floor_nonneg.mpr hx0, ?_⟩
    have hfl : x < ((⌊x⌋ : Int) : ℚ) + 1 := Int.lt_floor_add_one x
    have h1 := mul_le_mul_of_nonneg_left hsl (le_of_lt hr0)
    have h2 := mul_le_mul_of_nonneg_left hsu (le_of_lt hr0)
    have h3 := mul_le_mul_of_nonneg_left hxl (le_of_lt hr0)
    have h4 := mul_lt_mul_of_pos_left hfl hr0
    have h5 := mul_le_mul_of_nonneg_left hη1 (le_of_lt hr0)
    have h6 : 0 ≤ r * η := mul_nonneg (le_of_lt hr0) (by linarith)
    have e1 : r * (S / r - S / r / 9007199254740992 - η)
        = S - S / 9007199254740992 - r * η := by
      generalize S / r = σ at hσr
      rw [← hσr]; ring
    have e2 : r * (S / r + S / r / 9007199254740992 + η)
        = S + S / 9007199254740992 + r * η := by
      generalize S / r = σ at hσr
      rw [← hσr]; ring
    rw [e1] at h1
    rw [e2] at h2
    linarith

/-- The request is admitted when the projected level leaves room for it. -/
theorem LeakyBucket.allow_of_level_le (lb : LeakyBucket) (q r c : ℚ) (t t2 n : Int)
    (hq : lb.queue = F64.fin q) (hq0 : 0 ≤ q) (hqr : F64.Representable q)
    (hr : lb.leakRate = F64.fin r) (hl : lb.lastLeakTime ≤ t)
    (hC1 : lb.capacity ≤ 2 ^ 53) (hn : 1 ≤ n) (hnC : n ≤ lb.capacity)
    (hc : lb.specQueue t = F64.fin c) (hc0 : 0 ≤ c)
    (hle : c ≤ ((lb.capacity - n : Int) : ℚ)) :
    (lb.Allow t t2 n).2 = true := by
  have hofn : F64.ofInt n = F64.fin (n : ℚ) :=
    F64.ofInt_exact (by rw [abs_of_nonneg (by omega)]; omega)
  have hofC : F64.ofInt lb.capacity = F64.fin (lb.capacity : ℚ) :=
    F64.ofInt_exact (by rw [abs_of_nonneg (by omega)]; omega)
  have hCr : F64.round (lb.capacity : ℚ) = F64.fin (lb.capacity : ℚ) := hofC
  have hnq1 : (1 : ℚ) ≤ (n : ℚ) := by exact_mod_cast hn
  have hsum : c + (n : ℚ) ≤ (lb.capacity : ℚ) := by
    push_cast at hle
    linarith
  obtain ⟨w, hw, _, hwC⟩ := F64.round_le_of_le (by linarith : 0 ≤ c + (n : ℚ)) hsum hCr
  have hqueue : lb.specQueue t = (lb.leak t t2).queue :=
    LeakyBucket.specQueue_eq_leak lb q r t t2 hq hq0 hqr hr hl
  have hadd : F64.add (F64.fin c) (F64.fin (n : ℚ)) = F64.round (c + (n : ℚ)) := rfl
  rw [LeakyBucket.allow_result_leaky lb t t2 n (by omega), ← hqueue, hc, hofn, hofC, hadd, hw]
  have hgt : F64.gt (F64.fin w) (F64.fin (lb.capacity : ℚ)) = false :=
    decide_eq_false (not_lt.mpr hwC)
  rw [hgt]
  rfl

/-- A bucket that drains within a day leaks `capacity * 2^-49` units in one
nanosecond. -/
theorem LeakyBucket.slack_of_day (lb : LeakyBucket) (r : ℚ)
    (h0 : 0 ≤ (lb.capacity : ℚ)) (h : (lb.capacity : ℚ) ≤ 86400 * r) :
    (lb.capacity : ℚ) / 562949953421312 ≤ ((1 : Int) : ℚ) * r / 1000000000 := by
  push_cast
  linarith

/-- C38 (amended): for a bucket with a `float64` queue level in
`[0, capacity]`, `capacity <= 2^53`, a finite leak rate `r > 0` per second
with `capacity <= 9e9 * r`, a time `now >= lastLeakTime` and
`1 <= n <= capacity`: the hint `d = TimeUntilAllowed(n)` evaluated at `now`
is not negative, and with no call in between `Allow(n)` issued at any time
`t >= now + d + 1 ns + k ns` returns true, where `k >= 1` is a whole number
of nanoseconds in which `capacity * 2^-49` units leak (`k = 1` when
`capacity <= 86400 * r`). And when `Allow(n)` at `now` returns true, the hint
at `now` is 0. -/
theorem LeakyBucket.allow_after_hint (lb : LeakyBucket) (q r : ℚ) (now now2 t t2 n k : Int)
    (hq : lb.queue = F64.fin q) (hq0 : 0 ≤ q) (hqC : q ≤ (lb.capacity : ℚ))
    (hqr : F64.Representable q)
    (hr : lb.leakRate = F64.fin r) (hr0 : 0 < r)
    (hC1 : lb.capacity ≤ 2 ^ 53) (hday : (lb.capacity : ℚ) ≤ 9000000000 * r)
    (hl : lb.lastLeakTime ≤ now) (hn : 1 ≤ n) (hnC : n ≤ lb.capacity)
    (hk : 1 ≤ k)
    (hslack : (lb.capacity : ℚ) / 562949953421312 ≤ (k : ℚ) * r / 1000000000)
    (ht : now + lb.TimeUntilAllowed now n + 1 + k ≤ t) :
    0 ≤ lb.TimeUntilAllowed now n ∧
    (lb.Allow t t2 n).2 = true ∧
    ((lb.Allow now now2 n).2 = true → lb.TimeUntilAllowed now n = 0) := by
  have hη0 := pow2_pos (-1075)
  have hη1 := pow2_neg_1075_small
  have hbig := pow2_1023_large
  have hCpos : (1 : ℚ) ≤ (lb.capacity : ℚ) := by exact_mod_cast (le_trans hn hnC)
  have hnq1 : (1 : ℚ) ≤ (n : ℚ) := by exact_mod_cast hn
  have hnqC : (n : ℚ) ≤ (lb.capacity : ℚ) := by exact_mod_cast hnC
  have hCU : (lb.capacity : ℚ) ≤ 9007199254740992 := by exact_mod_cast hC1
  have hkq : (1 : ℚ) ≤ (k : ℚ) := by exact_mod_cast hk
  have hr0' : 0 ≤ r := le_of_lt hr0
  -- the level projected to `now` and the hint
  obtain ⟨ε0, c0, hε0, hε00, hc0, hc00, hc0inf, hc0fin⟩ :=
    LeakyBucket.specQueue_bounds lb q r now hq hq0 (by linarith) hqr hr hr0' hl
  have hc0q : c0 ≤ q := by
    rcases F64.round_nonneg (mul_nonneg hε00 hr0') with hp | ⟨v, hv, _⟩
    · rw [hc0inf hp]; exact hq0
    · exact (hc0fin v hv).2.2.2.1
  obtain ⟨hd0, hdef⟩ := LeakyBucket.hint_covers_deficit lb c0 r now n hc0 hc00
    (by linarith) hr hr0 hC1 hday hn hnC
  have hzero :=
    (LeakyBucket.allow_now_iff_room lb q r now now2 n hq hq0 hqr hr hl (by omega)).2.1
  refine ⟨hd0, ?_, hzero⟩
  generalize hdq : lb.TimeUntilAllowed now n = d at *
  have hnt : now ≤ t := by omega
  have hl1 : lb.lastLeakTime ≤ t := le_trans hl hnt
  -- the level projected to `t`
  obtain ⟨ε1, c1, hε1, hε10, hc1, hc10, hc1inf, hc1fin⟩ :=
    LeakyBucket.specQueue_bounds lb q r t hq hq0 (by linarith) hqr hr hr0' hl1
  have hBr : F64.round ((lb.capacity - n : Int) : ℚ) = F64.fin ((lb.capacity - n : Int) : ℚ) :=
    F64.round_intCast_small (by omega) (by omega)
  have hB0 : (0 : ℚ) ≤ ((lb.capacity - n : Int) : ℚ) := by
    exact_mod_cast (by omega : 0 ≤ lb.capacity - n)
  apply LeakyBucket.allow_of_level_le lb q r c1 t t2 n hq hq0 hqr hr hl1 hC1 hn hnC hc1 hc10
  rcases F64.round_nonneg (mul_nonneg hε10 hr0') with hp | ⟨l1, hl1r, hl10⟩
  · rw [hc1inf hp]; exact hB0
  · obtain ⟨_, hdrain, _, _, hB⟩ := hc1fin l1 hl1r
    by_cases hI : (lb.capacity : ℚ) ≤ ε1 * r
    · -- the bucket has drained by `t`
      have hCr : F64.round (lb.capacity : ℚ) = F64.fin (lb.capacity : ℚ) :=
        F64.round_intCast_small (by omega) hC1
      rcases F64.le_round_of_le (by linarith) hI hCr with hp | ⟨w, hw, hCw⟩
      · exact F64.noConfusion (hl1r.symm.trans hp)
      · have hwl : l1 = w := F64.fin.inj (hl1r.symm.trans hw)
        rw [hdrain (by linarith)]; exact hB0
    · -- the elapsed times are short and every rounding error is small
      have hI' : ε1 * r < (lb.capacity : ℚ) := not_le.mp hI
      obtain ⟨hs10, hs11⟩ := Time.Sub_nonneg hl1
      obtain ⟨hs00, hs01⟩ := Time.Sub_nonneg hl
      obtain ⟨e1, he1, _, he1lo, _⟩ := Duration.Seconds_bounds hs10 hs11
      have hee1 : ε1 = e1 := F64.fin.inj (hε1.symm.trans he1)
      subst hee1
      obtain ⟨e0, he0, _, _, he0hi⟩ := Duration.Seconds_bounds hs00 hs01
      have hee0 : ε0 = e0 := F64.fin.inj (hε0.symm.trans he0)
      subst hee0
      have ha := mul_le_mul_of_nonneg_left he1lo hr0'
      have hel1 : ((Time.Sub t lb.lastLeakTime : Int) : ℚ) ≤ 9100000000000000000 := by
        by_contra hcon
        have := mul_le_mul_of_nonneg_left (le_of_lt (not_le.mp hcon)) hr0'
        linarith
      have hel1i : Time.Sub t lb.lastLeakTime ≤ 9100000000000000000 := by exact_mod_cast hel1
      have hsub1 : Time.Sub t lb.lastLeakTime = t - lb.lastLeakTime := by
        unfold Time.Sub at hel1i ⊢
        unfold minInt64 maxInt64 at *
        split_ifs at hel1i ⊢ <;> omega
      have hsub0 : Time.Sub now lb.lastLeakTime = now - lb.lastLeakTime :=
        Time.Sub_of_small hl (by unfold maxInt64; omega)
      have hstep : ((Time.Sub now lb.lastLeakTime : Int) : ℚ) + (d : ℚ) + 1 + (k : ℚ)
          ≤ ((Time.Sub t lb.lastLeakTime : Int) : ℚ) := by
        have : Time.Sub now lb.lastLeakTime + d + 1 + k ≤ Time.Sub t lb.lastLeakTime := by
          rw [hsub0, hsub1]; omega
        exact_mod_cast this
      have hel0 : (0 : ℚ) ≤ ((Time.Sub now lb.lastLeakTime : Int) : ℚ) := by exact_mod_cast hs00
      have hdq0 : (0 : ℚ) ≤ (d : ℚ) := by exact_mod_cast hd0
      generalize ((Time.Sub t lb.lastLeakTime : Int) : ℚ) = E1 at *
      generalize ((Time.Sub now lb.lastLeakTime : Int) : ℚ) = E0 at *
      generalize hCq : (lb.capacity : ℚ) = C at *
      generalize hηq : pow2 (-1075) = η at *
      have hb := mul_le_mul_of_nonneg_left he0hi hr0'
      have hc := mul_le_mul_of_nonneg_left hstep hr0'
      have hd := mul_nonneg hr0' hel0
      have hf := mul_nonneg hr0' hdq0
      have he := mul_le_mul_of_nonneg_right hkq hr0'
      have hY0 : ε0 * r ≤ 2 * C := by linarith
      obtain ⟨l0, hl0r, hl00, hl0u, _⟩ := F64.round_err (mul_nonneg hε00 hr0')
        (lt_of_le_of_lt (by linarith : ε0 * r ≤ 100000000000000000000) hbig)
      obtain ⟨l1', hl1r', _, _, hl1lo⟩ := F64.round_err (mul_nonneg hε10 hr0')
        (lt_of_le_of_lt (by linarith : ε1 * r ≤ 100000000000000000000) hbig)
      have hll : l1 = l1' := F64.fin.inj (hl1r.symm.trans hl1r')
      subst hll
      rw [hηq] at hl0u hl1lo
      obtain ⟨hl0n, _, hc0lo, _, _⟩ := hc0fin l0 hl0r
      apply hB _ hB0 hBr
      push_cast
      rw [hCq]
      linarith

theorem LeakyBucket.allow_after_hint_witness :
    ((sampleLeakyThree.Allow sampleNow sampleNow 5).1.queue = F64.fin 5) ∧
    ((0 : ℚ) ≤ 5) ∧
    ((5 : ℚ) ≤ ((sampleLeakyThree.Allow sampleNow sampleNow 5).1.capacity : ℚ)) ∧
    (F64.Representable 5) ∧
    ((sampleLeakyThree.Allow sampleNow sampleNow 5).1.leakRate = F64.fin 3) ∧
    ((0 : ℚ) < 3) ∧
    ((sampleLeakyThree.Allow sampleNow sampleNow 5).1.capacity ≤ 2 ^ 53) ∧
    (((sampleLeakyThree.Allow sampleNow sampleNow 5).1.capacity : ℚ) ≤ 9000000000 * 3) ∧
    ((sampleLeakyThree.Allow sampleNow sampleNow 5).1.lastLeakTime ≤ sampleNow) ∧
    ((1 : Int) ≤ 1) ∧
    ((1 : Int) ≤ (sampleLeakyThree.Allow sampleNow sampleNow 5).1.capacity) ∧
    (((sampleLeakyThree.Allow sampleNow sampleNow 5).1.capacity : ℚ) / 562949953421312
      ≤ ((1 : Int) : ℚ) * 3 / 1000000000) ∧
    ((sampleLeakyThree.Allow sampleNow sampleNow 5).1.TimeUntilAllowed sampleNow 1
      = 333333333) ∧
    (sampleNow + (sampleLeakyThree.Allow sampleNow sampleNow 5).1.TimeUntilAllowed sampleNow 1
      + 1 + 1 ≤ sampleNow + 333333335) ∧
    (0 ≤ (sampleLeakyThree.Allow sampleNow sampleNow 5).1.TimeUntilAllowed sampleNow 1 ∧
      ((sampleLeakyThree.Allow sampleNow sampleNow 5).1.Allow (sampleNow + 333333335)
        (sampleNow + 333333335) 1).2 = true ∧
      (((sampleLeakyThree.Allow sampleNow sampleNow 5).1.Allow sampleNow sampleNow 1).2 = true →
        (sampleLeakyThree.Allow sampleNow sampleNow 5).1.TimeUntilAllowed sampleNow 1 = 0)) :=
  ⟨by decide!, by norm_num, by decide!, F64.representable_five, by decide!, by norm_num,
    by decide!, by decide!, by decide!, by decide, by decide!, by decide!, by decide!, by decide!,
    LeakyBucket.allow_after_hint (sampleLeakyThree.Allow sampleNow sampleNow 5).1 5 3 sampleNow
      sampleNow (sampleNow + 333333335) (sampleNow + 333333335) 1 1 (by decide!) (by norm_num)
      (by decide!) F64.representable_five (by decide!) (by norm_num) (by decide!) (by decide!)
      (by decide!) (by decide) (by decide!) (by decide) (by decide!) (by decide!)⟩
end RateLimit
